import Mathlib

/-!
Verification of the Foundry PF1 data-cleaner scripts.

The repository consists of three Python scripts that repair JSON-lines
database files:

* `repair_pf1_character_resistances_packages.py` (namespace `CRP` below):
  the "Shape Normalizer" for the resistance traits `eres`/`dr`/`dv`,
  plus a global `"+N"`-string-to-integer pass.
* `repair_pf1_packages.py` (namespace `PKG` below): the Shape Normalizer
  for `custom`/`customTotal` trait fields, plus the same global pass.
* `repair_pf_eidolon_forms_identifiers.py` (namespace `EID` below):
  the "Identifier Deduplicator" for item/action tags and resource keys.

JSON documents are embedded as the mutual inductive family
`JVal`/`JArr`/`JObj` (mappings are association lists in insertion order,
mirroring Python dicts, whose assignment updates an existing key in place
and otherwise appends).  JSON numbers are modelled as integers: every pass
of the scripts treats non-integer numbers exactly like booleans (they are
never inspected or produced), so fractional values are represented by the
same scalar constructor without loss for any property proved here.
Python string primitives (`str.strip`, `str.isdigit`, `int()`) are
modelled on the ASCII character ranges the scripts are designed for; the
one point where the full Unicode behaviour of CPython differs
(`"²".isdigit()` is true but `int("²")` raises) is modelled separately
and explicitly for the no-raise claim.
-/

namespace PF1

mutual

/-- A JSON value as produced by `json.loads`: null, booleans, numbers
(modelled as integers, see the header comment), strings, arrays and
objects. -/
inductive JVal : Type where
  | null : JVal
  | bool : Bool → JVal
  | num : Int → JVal
  | str : String → JVal
  | arr : JArr → JVal
  | obj : JObj → JVal
  deriving DecidableEq

/-- A JSON array (its own list type, so that all recursion over documents
is structural). -/
inductive JArr : Type where
  | nil : JArr
  | cons : JVal → JArr → JArr
  deriving DecidableEq

/-- A JSON object: key/value pairs in insertion order, like a Python dict. -/
inductive JObj : Type where
  | nil : JObj
  | cons : String → JVal → JObj → JObj
  deriving DecidableEq

end

/-- Python `d.get(k)` / `d[k]`: the value at the first occurrence of key
`q` (parsed JSON objects have unique keys). -/
def JObj.get : JObj → String → Option JVal
  | .nil, _ => none
  | .cons k v t, q => if k = q then some v else JObj.get t q

/-- Python `d[k] = v`: replace the value at an existing key, keeping its
position, otherwise append the new binding at the end. -/
def JObj.set : JObj → String → JVal → JObj
  | .nil, q, nv => .cons q nv .nil
  | .cons k v t, q, nv => if k = q then .cons k nv t else .cons k v (JObj.set t q nv)

/-- The keys of an object, in order. -/
def JObj.keys : JObj → List String
  | .nil => []
  | .cons k _ t => k :: JObj.keys t

/-- Python `k in d`. -/
def JObj.hasKey (o : JObj) (k : String) : Bool :=
  (o.get k).isSome

/-- Keep exactly the bindings whose key satisfies `p` (used for the
resource-key deletions of the Identifier Deduplicator). -/
def JObj.filterKeys : JObj → (String → Bool) → JObj
  | .nil, _ => .nil
  | .cons k v t, p => if p k then .cons k v (JObj.filterKeys t p) else JObj.filterKeys t p

/-- The elements of an array as a `List`. -/
def JArr.toList : JArr → List JVal
  | .nil => []
  | .cons v t => v :: JArr.toList t

/-- Build an array from a `List`. -/
def JArr.ofList : List JVal → JArr
  | [] => .nil
  | v :: t => .cons v (JArr.ofList t)

/-- Length of an array. -/
def JArr.length : JArr → Nat
  | .nil => 0
  | .cons _ t => JArr.length t + 1

/-- The bindings of an object as a `List`. -/
def JObj.toList : JObj → List (String × JVal)
  | .nil => []
  | .cons k v t => (k, v) :: JObj.toList t

theorem JArr.toList_ofList (l : List JVal) : (JArr.ofList l).toList = l := by
  induction l with
  | nil => rfl
  | cons v t ih => simp [JArr.ofList, JArr.toList, ih]

/-- Build an object from a list of bindings (used to write concrete
documents). -/
def JObj.ofList : List (String × JVal) → JObj
  | [] => .nil
  | (k, v) :: t => .cons k v (JObj.ofList t)

/-- Python `get(d, path)` from the scripts: follow the dotted path (given
here already split on the dots) through nested dicts; any missing key or
non-dict intermediate yields the default `None`. -/
def JVal.getPath : JVal → List String → Option JVal
  | v, [] => some v
  | .obj kvs, p :: ps =>
    match kvs.get p with
    | some v => JVal.getPath v ps
    | none => none
  | _, _ :: _ => none

/-- `get(d, path)` on an object root. -/
def JObj.getPath (o : JObj) (p : List String) : Option JVal :=
  JVal.getPath (.obj o) p

/-- Write-back of a mutation performed through a chain of dict accesses
(`d["a"]["b"] = v` in the Python, where every prefix of the path resolves
to a dict at the call sites in the scripts; on a path that does not
resolve, which the scripts never produce, the object is returned
unchanged). -/
def JObj.setPath : JObj → List String → JVal → JObj
  | o, [], _ => o
  | o, [p], nv => o.set p nv
  | o, p :: ps, nv =>
    match o.get p with
    | some (.obj sub) => o.set p (.obj (JObj.setPath sub ps nv))
    | _ => o

/-- `ensure_dict_path(d, path)`: walk the dotted path, replacing every
missing or non-dict entry with a fresh empty dict (the Python mutates `d`
in place and returns the innermost dict; the embedding returns the
updated root object). -/
def JObj.ensureDictPath : JObj → List String → JObj
  | o, [] => o
  | o, p :: ps =>
    let sub : JObj := match o.get p with | some (.obj s) => s | _ => .nil
    o.set p (.obj (JObj.ensureDictPath sub ps))

/-! ### Python string primitives (modelled) -/

/-- The whitespace characters stripped by Python `str.strip()` (ASCII
range; the scripts' data is ASCII game text). -/
def pyIsSpace (c : Char) : Bool :=
  c = ' ' || c = '\t' || c = '\n' || c = '\r' || c = '\x0b' || c = '\x0c'

/-- `str.strip()` on a character list: drop whitespace from both ends. -/
def pyStripList (l : List Char) : List Char :=
  ((l.dropWhile pyIsSpace).reverse.dropWhile pyIsSpace).reverse

/-- Python `s.strip()`. -/
def pyStrip (s : String) : String :=
  ⟨pyStripList s.data⟩

/-- Decimal digit rendering: the reference recursion of Python's decimal
formatting of a nonnegative integer. -/
def natDigits (n : Nat) : List Char :=
  if h : n < 10 then [Nat.digitChar n]
  else natDigits (n / 10) ++ [Nat.digitChar (n % 10)]
  termination_by n
  decreasing_by
    exact Nat.div_lt_self (Nat.lt_of_lt_of_le (by norm_num) (Nat.le_of_not_lt h)) (by norm_num)

/-- Fuel-driven (hence kernel-reducible) version of `natDigits`. -/
def natStrGo : Nat → Nat → List Char → List Char
  | 0, _, acc => acc
  | fuel + 1, n, acc =>
    if n < 10 then Nat.digitChar n :: acc
    else natStrGo fuel (n / 10) (Nat.digitChar (n % 10) :: acc)

/-- Python `str(n)` / `f"{n}"` for a natural number. -/
def natStr (n : Nat) : String :=
  ⟨natStrGo (n + 1) n []⟩

/-- Python `str(n)` for an integer (used by the JSON serializer). -/
def intStr (n : Int) : String :=
  if n < 0 then "-" ++ natStr n.natAbs else natStr n.natAbs

/-- Numeric value of a decimal digit character. -/
def digitVal (c : Char) : Nat := c.toNat - 48

/-- Python `int(s)` on a string of decimal digits (leading zeros allowed,
matching `int`): fold the digits in base 10. -/
def decToNat (l : List Char) : Nat :=
  l.foldl (fun a c => 10 * a + digitVal c) 0

/-- The test `s.startswith("+") and s[1:].isdigit()` applied to
`s = v.strip()`, returning the digits of `s[1:]` when it succeeds.
`str.isdigit` is modelled on decimal digits; see `CRP.convertChecked`
for the Unicode corner where CPython's `isdigit` and `int` disagree. -/
def plusDigits (v : String) : Option (List Char) :=
  match pyStripList v.data with
  | '+' :: rest => if !rest.isEmpty && rest.all Char.isDigit then some rest else none
  | _ => none

/-- Does `v` match the plus-number pattern? -/
def isPlusNum (v : String) : Bool :=
  (plusDigits v).isSome

/-- `int(s[1:])` for a matching plus-number string: the digit value. -/
def plusNumVal (v : String) : Int :=
  match plusDigits v with
  | some ds => Int.ofNat (decToNat ds)
  | none => 0

/-- Separator characters of the trait tokenizer (`re.split(r"[;,]+", s)`). -/
def isSepChar (c : Char) : Bool := c = ';' || c = ','

/-- Split on single separator characters.  The regex splits on *runs* of
separators; the two differ only in extra empty tokens, all of which the
strip-and-filter of `str_to_list` removes, so the composite tokenizer is
the same function. -/
def splitSepGo : List Char → List Char → List (List Char)
  | [], cur => [cur.reverse]
  | c :: rest, cur =>
    if isSepChar c then cur.reverse :: splitSepGo rest []
    else splitSepGo rest (c :: cur)

/-- `str_to_list`: split on separators, strip each token, drop empties
(identical in both normalizer scripts; the second script's extra
`isinstance` guard is vacuous on typed input). -/
def str_to_list (s : String) : List String :=
  ((splitSepGo s.data []).map (fun t => pyStrip ⟨t⟩)).filter (fun t => decide (t ≠ ""))

/-- Tokens of `str_to_list` wrapped as JSON strings. -/
def strToListArr (s : String) : JArr :=
  JArr.ofList ((str_to_list s).map JVal.str)

/-- The list-cleaning comprehension
`[x for x in v if isinstance(x, str) and x.strip()]` shared by both
normalizer scripts. -/
def cleanList : JArr → JArr
  | .nil => .nil
  | .cons (.str s) t =>
    if pyStrip s ≠ "" then .cons (.str s) (cleanList t) else cleanList t
  | .cons _ t => cleanList t

/-- Number of `None` entries of a list (`sum(1 for x in lang_val if x is None)`). -/
def countNulls : JArr → Nat
  | .nil => 0
  | .cons .null t => countNulls t + 1
  | .cons _ t => countNulls t

/-- `[x for x in lang_val if x is not None]`. -/
def dropNulls : JArr → JArr
  | .nil => .nil
  | .cons .null t => dropNulls t
  | .cons v t => .cons v (dropNulls t)

/-! ### json.dumps (ensure_ascii=False, default separators) -/

/-- Escape one character for a JSON string literal as `json.dumps` does:
quote, backslash and the named control escapes, `\u00XX` for the other
control characters, everything else raw (`ensure_ascii=False`). -/
def escChar (c : Char) : List Char :=
  if c = '"' then ['\\', '"']
  else if c = '\\' then ['\\', '\\']
  else if c = '\n' then ['\\', 'n']
  else if c = '\r' then ['\\', 'r']
  else if c = '\t' then ['\\', 't']
  else if c = '\x08' then ['\\', 'b']
  else if c = '\x0c' then ['\\', 'f']
  else if c.toNat < 32 then
    ['\\', 'u', '0', '0', Nat.digitChar (c.toNat / 16), Nat.digitChar (c.toNat % 16)]
  else [c]

/-- A JSON string literal. -/
def escString (s : String) : String :=
  ⟨'"' :: ((s.data.map escChar).join ++ ['"'])⟩

mutual

/-- `json.dumps(v, ensure_ascii=False)` with the default `", "` / `": "`
separators (numbers are the integers of the model). -/
def serialize : JVal → String
  | .null => "null"
  | .bool true => "true"
  | .bool false => "false"
  | .num n => intStr n
  | .str s => escString s
  | .arr xs => "[" ++ serializeArr xs ++ "]"
  | .obj kvs => "\x7b" ++ serializeObj kvs ++ "\x7d"

/-- Comma-separated array elements. -/
def serializeArr : JArr → String
  | .nil => ""
  | .cons v .nil => serialize v
  | .cons v (.cons w t) => serialize v ++ ", " ++ serializeArr (.cons w t)

/-- Comma-separated object members. -/
def serializeObj : JObj → String
  | .nil => ""
  | .cons k v .nil => escString k ++ ": " ++ serialize v
  | .cons k v (.cons k2 w t) =>
    escString k ++ ": " ++ serialize v ++ ", " ++ serializeObj (.cons k2 w t)

end

/-! ### json.loads (on the integer number model) -/

/-- JSON insignificant whitespace. -/
def jsonWs (c : Char) : Bool := c = ' ' || c = '\t' || c = '\n' || c = '\r'

/-- Value of a hexadecimal digit. -/
def hexVal (c : Char) : Option Nat :=
  if '0' ≤ c ∧ c ≤ '9' then some (c.toNat - 48)
  else if 'a' ≤ c ∧ c ≤ 'f' then some (c.toNat - 87)
  else if 'A' ≤ c ∧ c ≤ 'F' then some (c.toNat - 55)
  else none

/-- Parse a JSON string body after the opening quote (strict mode:
raw control characters are rejected; `\uXXXX` escapes are taken at
scalar values, surrogate halves rejected — ASCII game data never
reaches them). -/
def parseStrBody : List Char → List Char → Option (String × List Char)
  | [], _ => none
  | '"' :: rest, acc => some (⟨acc.reverse⟩, rest)
  | '\\' :: rest, acc =>
    match rest with
    | '"' :: r => parseStrBody r ('"' :: acc)
    | '\\' :: r => parseStrBody r ('\\' :: acc)
    | '/' :: r => parseStrBody r ('/' :: acc)
    | 'b' :: r => parseStrBody r ('\x08' :: acc)
    | 'f' :: r => parseStrBody r ('\x0c' :: acc)
    | 'n' :: r => parseStrBody r ('\n' :: acc)
    | 'r' :: r => parseStrBody r ('\r' :: acc)
    | 't' :: r => parseStrBody r ('\t' :: acc)
    | 'u' :: a :: b :: c :: d :: r =>
      match hexVal a, hexVal b, hexVal c, hexVal d with
      | some x1, some x2, some x3, some x4 =>
        let n := ((x1 * 16 + x2) * 16 + x3) * 16 + x4
        if n < 55296 then parseStrBody r (Char.ofNat n :: acc) else none
      | _, _, _, _ => none
    | _ => none
  | c :: rest, acc =>
    if c.toNat < 32 then none else parseStrBody rest (c :: acc)

/-- Take a maximal run of decimal digits. -/
def spanDigits : List Char → List Char × List Char
  | [] => ([], [])
  | c :: rest =>
    if c.isDigit then
      let r := spanDigits rest
      (c :: r.1, r.2)
    else ([], c :: rest)

/-- Parse the digits of a JSON number after an optional minus sign.
Fractional and exponent forms are outside the integer model and
parse as failures. -/
def parseNumTail (neg : Bool) (cs : List Char) : Option (JVal × List Char) :=
  match spanDigits cs with
  | ([], _) => none
  | (d :: ds, rest) =>
    if d = '0' ∧ ds ≠ [] then none
    else
      match rest with
      | '.' :: _ => none
      | 'e' :: _ => none
      | 'E' :: _ => none
      | _ =>
        let v : Int := Int.ofNat (decToNat (d :: ds))
        some (.num (if neg then -v else v), rest)

/-- Accumulate parsed members with dict semantics (a duplicate key
overwrites the earlier value in place, as in a Python dict literal). -/
def mkObjDict (l : List (String × JVal)) : JObj :=
  l.foldl (fun o kv => o.set kv.1 kv.2) .nil

mutual

/-- Recursive-descent JSON value (fuel-driven; `parseJson` supplies
enough fuel for its input). -/
def parseVal : Nat → List Char → Option (JVal × List Char)
  | 0, _ => none
  | fuel + 1, cs =>
    match cs.dropWhile jsonWs with
    | '"' :: rest =>
      match parseStrBody rest [] with
      | some (s, r) => some (.str s, r)
      | none => none
    | 'n' :: 'u' :: 'l' :: 'l' :: rest => some (.null, rest)
    | 't' :: 'r' :: 'u' :: 'e' :: rest => some (.bool true, rest)
    | 'f' :: 'a' :: 'l' :: 's' :: 'e' :: rest => some (.bool false, rest)
    | '[' :: rest =>
      (match rest.dropWhile jsonWs with
       | ']' :: r2 => some (.arr .nil, r2)
       | _ =>
         match parseElems fuel rest with
         | some (xs, r2) => some (.arr xs, r2)
         | none => none)
    | '\x7b' :: rest =>
      (match rest.dropWhile jsonWs with
       | '\x7d' :: r2 => some (.obj .nil, r2)
       | _ =>
         match parseMembers fuel rest with
         | some (ms, r2) => some (.obj (mkObjDict ms), r2)
         | none => none)
    | '-' :: rest => parseNumTail true rest
    | c :: rest => if c.isDigit then parseNumTail false (c :: rest) else none
    | [] => none

/-- One-or-more comma-separated array elements, then `]`. -/
def parseElems : Nat → List Char → Option (JArr × List Char)
  | 0, _ => none
  | fuel + 1, cs =>
    match parseVal fuel cs with
    | some (v, r) =>
      (match r.dropWhile jsonWs with
       | ',' :: r2 =>
         match parseElems fuel r2 with
         | some (xs, r3) => some (.cons v xs, r3)
         | none => none
       | ']' :: r2 => some (.cons v .nil, r2)
       | _ => none)
    | none => none

/-- One-or-more `"key": value` members, then the closing brace. -/
def parseMembers : Nat → List Char → Option (List (String × JVal) × List Char)
  | 0, _ => none
  | fuel + 1, cs =>
    match cs.dropWhile jsonWs with
    | '"' :: rest =>
      (match parseStrBody rest [] with
       | some (k, r) =>
         (match r.dropWhile jsonWs with
          | ':' :: r2 =>
            (match parseVal fuel r2 with
             | some (v, r3) =>
               (match r3.dropWhile jsonWs with
                | ',' :: r4 =>
                  (match parseMembers fuel r4 with
                   | some (ms, r5) => some ((k, v) :: ms, r5)
                   | none => none)
                | '\x7d' :: r4 => some ([(k, v)], r4)
                | _ => none)
             | none => none)
          | _ => none)
       | none => none)
    | _ => none

end

/-- `json.loads(raw)`: parse one complete document; trailing whitespace
allowed, anything else after the value is an error. -/
def parseJson (raw : String) : Option JVal :=
  match parseVal (raw.length + 1) raw.data with
  | some (v, rest) => if rest.dropWhile jsonWs = [] then some v else none
  | none => none

/-- `line.rstrip("\n")` (the universal-newline reader yields at most one
trailing newline). -/
def rstripNl (l : List Char) : List Char :=
  (l.reverse.dropWhile (fun c => decide (c = '\n'))).reverse

end PF1

namespace PF1.CRP

/-! ### repair_pf1_character_resistances_packages.py -/

mutual

/-- `convert_plus_number_strings`: walk dicts and lists, converting every
string value matching the plus-number pattern to its integer; returns the
updated value and the `changed` flag.  A non-dict non-list argument is
returned unchanged with `False`. -/
def convert_plus_number_strings : JVal → JVal × Bool
  | .obj kvs => let r := convertObj kvs; (.obj r.1, r.2)
  | .arr xs => let r := convertArr xs; (.arr r.1, r.2)
  | v => (v, false)

/-- The dict loop of `convert_plus_number_strings`. -/
def convertObj : JObj → JObj × Bool
  | .nil => (.nil, false)
  | .cons k v t =>
    let r : JVal × Bool :=
      match v with
      | .str s => if isPlusNum s then (.num (plusNumVal s), true) else (.str s, false)
      | w => convert_plus_number_strings w
    let rt := convertObj t
    (.cons k r.1 rt.1, r.2 || rt.2)

/-- The list loop of `convert_plus_number_strings`. -/
def convertArr : JArr → JArr × Bool
  | .nil => (.nil, false)
  | .cons v t =>
    let r : JVal × Bool :=
      match v with
      | .str s => if isPlusNum s then (.num (plusNumVal s), true) else (.str s, false)
      | w => convert_plus_number_strings w
    let rt := convertArr t
    (.cons r.1 rt.1, r.2 || rt.2)

end

/-- The `value` branch ladder of `ensure_trait_arrays`. -/
def valueStep (tr : JObj) (key : String) : JObj × Bool × List String :=
  match tr.get "value" with
  | none =>
    (tr.set "value" (.arr .nil), true, ["traits." ++ key ++ ".value: None/missing -> []"])
  | some .null =>
    (tr.set "value" (.arr .nil), true, ["traits." ++ key ++ ".value: None/missing -> []"])
  | some (.str s) =>
    (tr.set "value" (.arr (strToListArr s)), true, ["traits." ++ key ++ ".value: str -> list"])
  | some (.arr xs) =>
    let cleaned := cleanList xs
    if cleaned = xs then (tr, false, [])
    else (tr.set "value" (.arr cleaned), true, ["traits." ++ key ++ ".value: cleaned list"])
  | some _ =>
    (tr.set "value" (.arr .nil), true, ["traits." ++ key ++ ".value: invalid type -> []"])

/-- The `custom`/`customTotal` branch of `ensure_trait_arrays`. -/
def customStep (tr : JObj) (key field : String) : JObj × Bool × List String :=
  match tr.get field with
  | some (.str s) =>
    (tr.set field (.arr (strToListArr s)), true,
     ["traits." ++ key ++ "." ++ field ++ ": str -> list"])
  | some (.arr xs) =>
    let cleaned := cleanList xs
    if cleaned = xs then (tr, false, [])
    else (tr.set field (.arr cleaned), true,
          ["traits." ++ key ++ "." ++ field ++ ": cleaned list"])
  | _ => (tr, false, [])

/-- `ensure_trait_arrays(traits, key, changes)`: make sure
`traits[key]` is a dict whose `value` is a list, and that `custom` and
`customTotal`, when present as strings or lists, are clean lists.
Returns the updated traits dict, the `changed` flag and the appended
change-log entries. -/
def ensure_trait_arrays (traits : JObj) (key : String) : JObj × Bool × List String :=
  let s1 : JObj × Bool × List String :=
    match traits.get key with
    | some (.obj _) => (traits, false, [])
    | _ => (traits.set key (.obj .nil), true, ["traits." ++ key ++ ": created dict"])
  let tr0 : JObj := match s1.1.get key with | some (.obj o) => o | _ => .nil
  let sv := valueStep tr0 key
  let sc := customStep sv.1 key "custom"
  let sct := customStep sc.1 key "customTotal"
  (s1.1.set key (.obj sct.1),
   s1.2.1 || sv.2.1 || sc.2.1 || sct.2.1,
   s1.2.2 ++ sv.2.2 ++ sc.2.2 ++ sct.2.2)

/-- The null-purge of `system.traits.languages.value` inside
`repair_actor_doc` (the `ensure_dict_path` call of the Python precedes
the write-back; in this branch the whole path already resolves to
dicts). -/
def langStep (doc : JObj) : JObj × Bool × List String :=
  match doc.getPath ["system", "traits", "languages", "value"] with
  | some (.arr xs) =>
    let nulls := countNulls xs
    if nulls ≠ 0 then
      ((doc.ensureDictPath ["system", "traits", "languages"]).setPath
         ["system", "traits", "languages", "value"] (.arr (dropNulls xs)), true,
       ["languages.value: removed " ++ natStr nulls ++ " null(s)"])
    else (doc, false, [])
  | _ => (doc, false, [])

/-- `repair_actor_doc(doc)`: trait-shape repair for `eres`/`dr`/`dv`,
the languages null-purge, then the global plus-number pass; on documents
without a dict at `system.traits` only the global pass runs. -/
def repair_actor_doc (doc : JObj) : JObj × Bool × List String :=
  match doc.getPath ["system", "traits"] with
  | some (.obj traits) =>
    let e1 := ensure_trait_arrays traits "eres"
    let e2 := ensure_trait_arrays e1.1 "dr"
    let e3 := ensure_trait_arrays e2.1 "dv"
    let doc1 := doc.setPath ["system", "traits"] (.obj e3.1)
    let s4 := langStep doc1
    let s5 := convertObj s4.1
    (s5.1,
     (e1.2.1 || e2.2.1 || e3.2.1 || s4.2.1) || s5.2,
     (e1.2.2 ++ e2.2.2 ++ e3.2.2 ++ s4.2.2) ++
       (if s5.2 then ["global: converted +N strings"] else []))
  | _ =>
    let r := convertObj doc
    (r.1, r.2, if r.2 then ["global: converted +N strings"] else [])

/-- `should_patch_doc(doc)`: type is `character` or `npc`. -/
def should_patch_doc (doc : JObj) : Bool :=
  decide (doc.get "type" = some (JVal.str "character") ∨
          doc.get "type" = some (JVal.str "npc"))

/-- The per-parsed-document action of `process_db_file`: the whole of
`repair_actor_doc` — the numeric-string pass included — runs only on
documents passing `should_patch_doc`; every other parsed document is
written back as parsed. -/
def processDoc (doc : JObj) : JObj :=
  if should_patch_doc doc then (repair_actor_doc doc).1 else doc

/-- One loop iteration of `process_db_file`, from the raw line (with its
newline when the universal-newline reader supplied one) to the string
written for it: blank lines, lines that fail to parse and lines parsing
to a non-dict pass through unchanged; dict lines are re-serialized
(repaired first when `should_patch_doc` holds), with a single `"\n"`
appended. -/
def processLine (line : String) : String :=
  let raw : String := ⟨rstripNl line.data⟩
  if pyStrip raw = "" then line
  else
    match parseJson raw with
    | some (.obj doc) => serialize (.obj (processDoc doc)) ++ "\n"
    | some _ => line
    | none => line

/-- The output lines of `process_db_file` for the given input lines. -/
def processFile (lines : List String) : List String :=
  lines.map processLine

/-- CPython `str.isdigit` on the characters of this model: the decimal
digits plus the superscript digit characters `¹ ² ³`, which carry the
Unicode property Numeric_Type=Digit and are therefore accepted by
`isdigit` but rejected by `int()`. -/
def pyIsDigitChar (c : Char) : Bool :=
  c.isDigit || c = '¹' || c = '²' || c = '³'

/-- CPython `int(s)`: defined exactly on strings of decimal digits,
raising `ValueError` (here: `none`) on every other `isdigit` character. -/
def pyIntOfDigits (l : List Char) : Option Nat :=
  if l.all Char.isDigit then some (decToNat l) else none

/-- The plus-number test with CPython's `isdigit` (rather than the
decimal-digit restriction used in the total model). -/
def plusDigitsPy (v : String) : Option (List Char) :=
  match pyStripList v.data with
  | '+' :: rest => if !rest.isEmpty && rest.all pyIsDigitChar then some rest else none
  | _ => none

/-- The string branch of `convert_plus_number_strings` with the
`isdigit`/`int()` pair modelled separately, exposing the `ValueError`
that CPython raises when `s[1:].isdigit()` holds but `int(s[1:])` is
not a decimal numeral. -/
def convCheckStr (s : String) : Except String (JVal × Bool) :=
  match plusDigitsPy s with
  | some ds =>
    match pyIntOfDigits ds with
    | some n => .ok (.num (Int.ofNat n), true)
    | none => .error ("ValueError: invalid literal for int() with base 10: " ++ ⟨ds⟩)
  | none => .ok (.str s, false)

mutual

/-- `convert_plus_number_strings` with the exception behaviour of the
`isdigit`-guarded `int()` call made explicit. -/
def convertChecked : JVal → Except String (JVal × Bool)
  | .obj kvs => do
    let r ← convertCheckedObj kvs
    pure (.obj r.1, r.2)
  | .arr xs => do
    let r ← convertCheckedArr xs
    pure (.arr r.1, r.2)
  | v => pure (v, false)

/-- Dict loop of `convertChecked`. -/
def convertCheckedObj : JObj → Except String (JObj × Bool)
  | .nil => pure (.nil, false)
  | .cons k v t => do
    let r ← match v with
      | .str s => convCheckStr s
      | w => convertChecked w
    let rt ← convertCheckedObj t
    pure (.cons k r.1 rt.1, r.2 || rt.2)

/-- List loop of `convertChecked`. -/
def convertCheckedArr : JArr → Except String (JArr × Bool)
  | .nil => pure (.nil, false)
  | .cons v t => do
    let r ← match v with
      | .str s => convCheckStr s
      | w => convertChecked w
    let rt ← convertCheckedArr t
    pure (.cons r.1 rt.1, r.2 || rt.2)

end

end PF1.CRP

namespace PF1.PKG

/-! ### repair_pf1_packages.py -/

/-- The configured trait keys of the second normalizer. -/
def TRAIT_KEYS : List String := ["di", "dv", "ci", "languages", "armorProf", "weaponProf"]

mutual

/-- `convert_plus_number_strings(obj, changes)`: as in the first script,
but also appending one change-log line per converted value. -/
def convert_plus_number_strings : JVal → JVal × Bool × List String
  | .obj kvs => let r := convertObj kvs; (.obj r.1, r.2)
  | .arr xs => let r := convertArr 0 xs; (.arr r.1, r.2)
  | v => (v, false, [])

/-- Dict loop (logs the key of each converted value). -/
def convertObj : JObj → JObj × Bool × List String
  | .nil => (.nil, false, [])
  | .cons k v t =>
    let r : JVal × Bool × List String :=
      match v with
      | .str s =>
        if isPlusNum s then
          (.num (plusNumVal s), true,
           ["plus-number: " ++ k ++ " \"" ++ s ++ "\" -> " ++ intStr (plusNumVal s)])
        else (.str s, false, [])
      | w => convert_plus_number_strings w
    let rt := convertObj t
    (.cons k r.1 rt.1, r.2.1 || rt.2.1, r.2.2 ++ rt.2.2)

/-- List loop (logs the index of each converted element). -/
def convertArr : Nat → JArr → JArr × Bool × List String
  | _, .nil => (.nil, false, [])
  | i, .cons v t =>
    let r : JVal × Bool × List String :=
      match v with
      | .str s =>
        if isPlusNum s then
          (.num (plusNumVal s), true,
           ["plus-number: [" ++ natStr i ++ "] \"" ++ s ++ "\" -> " ++ intStr (plusNumVal s)])
        else (.str s, false, [])
      | w => convert_plus_number_strings w
    let rt := convertArr (i + 1) t
    (.cons r.1 rt.1, r.2.1 || rt.2.1, r.2.2 ++ rt.2.2)

end

/-- Step 1 of `repair_doc`: the languages null-purge (same code as in the
first script). -/
def langStep (doc : JObj) : JObj × Bool × List String :=
  match doc.getPath ["system", "traits", "languages", "value"] with
  | some (.arr xs) =>
    let nulls := countNulls xs
    if nulls ≠ 0 then
      ((doc.ensureDictPath ["system", "traits", "languages"]).setPath
         ["system", "traits", "languages", "value"] (.arr (dropNulls xs)), true,
       ["languages.value: removed " ++ natStr nulls ++ " null(s)"])
    else (doc, false, [])
  | _ => (doc, false, [])

/-- The `custom`/`customTotal` branch of step 2 of `repair_doc`
(string → tokenized list; list → cleaned list; `None` and any other
type left alone). -/
def customStep (tr : JObj) (k field : String) : JObj × Bool × List String :=
  match tr.get field with
  | some (.str s) =>
    let newList := str_to_list s
    (tr.set field (.arr (JArr.ofList (newList.map JVal.str))), true,
     [k ++ "." ++ field ++ ": str -> list (" ++ natStr newList.length ++ " item(s))"])
  | some (.arr xs) =>
    let cleaned := cleanList xs
    if cleaned = xs then (tr, false, [])
    else (tr.set field (.arr cleaned), true, [k ++ "." ++ field ++ ": cleaned list"])
  | _ => (tr, false, [])

/-- Step 2 of `repair_doc` for one trait key: skip non-dict entries, fix
`custom` then `customTotal`. -/
def customKey (traits : JObj) (k : String) : JObj × Bool × List String :=
  match traits.get k with
  | some (.obj tr) =>
    let c1 := customStep tr k "custom"
    let c2 := customStep c1.1 k "customTotal"
    (traits.set k (.obj c2.1), c1.2.1 || c2.2.1, c1.2.2 ++ c2.2.2)
  | _ => (traits, false, [])

/-- Step 2 of `repair_doc` over the configured keys. -/
def customFold : JObj → List String → JObj × Bool × List String
  | traits, [] => (traits, false, [])
  | traits, k :: ks =>
    let r := customKey traits k
    let rest := customFold r.1 ks
    (rest.1, r.2.1 || rest.2.1, r.2.2 ++ rest.2.2)

/-- Python `";" in v or "," in v`. -/
def hasSep (s : String) : Bool := s.data.any isSepChar

/-- Step 3 of `repair_doc` for one of `di`/`dv`/`ci`: split a
separator-carrying string `value` into a token list. -/
def splitKey (traits : JObj) (k : String) : JObj × Bool × List String :=
  match traits.get k with
  | some (.obj tr) =>
    match tr.get "value" with
    | some (.str v) =>
      if hasSep v then
        let newV := str_to_list v
        (traits.set k (.obj (tr.set "value" (.arr (JArr.ofList (newV.map JVal.str))))), true,
         [k ++ ".value: split str -> list (" ++ natStr newV.length ++ " item(s))"])
      else (traits, false, [])
    | _ => (traits, false, [])
  | _ => (traits, false, [])

/-- Step 3 of `repair_doc` over `di`, `dv`, `ci`. -/
def splitFold : JObj → List String → JObj × Bool × List String
  | traits, [] => (traits, false, [])
  | traits, k :: ks =>
    let r := splitKey traits k
    let rest := splitFold r.1 ks
    (rest.1, r.2.1 || rest.2.1, r.2.2 ++ rest.2.2)

/-- `repair_doc(doc)`: languages null-purge, custom/customTotal fixes,
conditional `value` splits, then the global plus-number pass.  On
documents without a dict at `system.traits` only the global pass runs.
(The Python mutates the `traits` alias in place; the embedding re-reads
the traits object after step 1 and writes it back before step 4.) -/
def repair_doc (doc : JObj) : JObj × Bool × List String :=
  match doc.getPath ["system", "traits"] with
  | some (.obj _) =>
    let s1 := langStep doc
    let traits1 : JObj :=
      match s1.1.getPath ["system", "traits"] with | some (.obj o) => o | _ => .nil
    let s2 := customFold traits1 TRAIT_KEYS
    let s3 := splitFold s2.1 ["di", "dv", "ci"]
    let doc2 := s1.1.setPath ["system", "traits"] (.obj s3.1)
    let s4 := convertObj doc2
    (s4.1, s1.2.1 || s2.2.1 || s3.2.1 || s4.2.1, s1.2.2 ++ s2.2.2 ++ s3.2.2 ++ s4.2.2)
  | _ =>
    let r := convertObj doc
    (r.1, r.2.1, r.2.2)

/-- The per-parsed-document action of this script's `process_db_file`
with the `only_npc` switch: when it is set, documents whose `type` is
not `npc` are written back as parsed, `repair_doc` — numeric pass
included — never runs on them. -/
def processDoc (onlyNpc : Bool) (doc : JObj) : JObj :=
  if onlyNpc && !(decide (doc.get "type" = some (JVal.str "npc"))) then doc
  else (repair_doc doc).1

/-- One loop iteration of this script's `process_db_file` (same line
skeleton as the first script; skipped non-npc documents are also
re-serialized). -/
def processLine (onlyNpc : Bool) (line : String) : String :=
  let raw : String := ⟨rstripNl line.data⟩
  if pyStrip raw = "" then line
  else
    match parseJson raw with
    | some (.obj doc) => serialize (.obj (processDoc onlyNpc doc)) ++ "\n"
    | some _ => line
    | none => line

/-- The output lines of this script's `process_db_file`. -/
def processFile (onlyNpc : Bool) (lines : List String) : List String :=
  lines.map (processLine onlyNpc)

end PF1.PKG

namespace PF1.EID

/-! ### repair_pf_eidolon_forms_identifiers.py -/

/-- `is_actor_doc(doc)`: type `character` or `npc`, and a list at
`items`. -/
def is_actor_doc (doc : JObj) : Bool :=
  (decide (doc.get "type" = some (JVal.str "character") ∨
           doc.get "type" = some (JVal.str "npc"))) &&
  (match doc.get "items" with | some (.arr _) => true | _ => false)

/-- `get_item_tag(item)`: the stripped `system.tag` when it is a
non-blank string. -/
def get_item_tag (item : JObj) : Option String :=
  match item.get "system" with
  | some (.obj sysd) =>
    match sysd.get "tag" with
    | some (.str t) => if pyStrip t ≠ "" then some (pyStrip t) else none
    | _ => none
  | _ => none

/-- `set_item_tag(item, new_tag)`: write the tag and set
`useCustomTag = True` (replacing a non-dict `system` with a fresh dict,
which the call sites never exercise because the tag was read from a
dict). -/
def set_item_tag (item : JObj) (newTag : String) : JObj :=
  match item.get "system" with
  | some (.obj sysd) =>
    item.set "system" (.obj ((sysd.set "tag" (.str newTag)).set "useCustomTag" (.bool true)))
  | _ =>
    item.set "system" (.obj ((JObj.nil.set "tag" (.str newTag)).set "useCustomTag" (.bool true)))

/-- `get_action_tag(action)`: the stripped `tag` when it is a non-blank
string. -/
def get_action_tag (action : JObj) : Option String :=
  match action.get "tag" with
  | some (.str t) => if pyStrip t ≠ "" then some (pyStrip t) else none
  | _ => none

/-- The while-loop of `unique_tag`, driven by fuel: the first candidate
`cand_i`, `i` counting up from the start index, that is not yet claimed.
`seen.length + 1` fuel always suffices (`uniqueTagLoop_not_mem`). -/
def uniqueTagLoop (cand : String) (seen : List String) : Nat → Nat → String
  | 0, i => cand ++ "_" ++ natStr i
  | fuel + 1, i =>
    if (cand ++ "_" ++ natStr i) ∈ seen then uniqueTagLoop cand seen fuel (i + 1)
    else cand ++ "_" ++ natStr i

/-- `unique_tag(base, suffix, seen)`: `base + suffix` if unclaimed, else
the first `base + suffix + "_i"` (i = 2, 3, …) that is unclaimed. -/
def unique_tag (base suffix : String) (seen : List String) : String :=
  let cand := base ++ suffix
  if cand ∈ seen then uniqueTagLoop cand seen (seen.length + 1) 2 else cand

/-- The `_id` fallback: the item's `_id` when it is a non-empty string,
else the given literal. -/
def idOr (o : JObj) (fallback : String) : String :=
  match o.get "_id" with
  | some (.str s) => if s ≠ "" then s else fallback
  | _ => fallback

/-- Python `str()` of an optional value for report text (missing keys
print as `None`; containers are abbreviated here — the report lines'
exact text matters to no claim, only whether any line was emitted). -/
def pyShow : Option JVal → String
  | none => "None"
  | some .null => "None"
  | some (.bool true) => "True"
  | some (.bool false) => "False"
  | some (.num n) => intStr n
  | some (.str s) => s
  | some (.arr _) => "[...]"
  | some (.obj _) => "\x7b...\x7d"

/-- State of pass 1. -/
structure P1 where
  items : JArr
  seen : List String
  tags : List String
  changed : Bool
  msgs : List String
  deriving DecidableEq

/-- Pass 1 of `fix_actor_identifiers_and_resources`: walk the items in
order; claim each fresh non-empty tag; rename each duplicate with
`unique_tag(tag, "_" + item id, seen)`; collect every final tag. -/
def pass1 : JArr → List String → List String → P1
  | .nil, seen, tags => ⟨.nil, seen, tags, false, []⟩
  | .cons v tl, seen, tags =>
    match v with
    | .obj it =>
      match get_item_tag it with
      | none =>
        let r := pass1 tl seen tags
        ⟨.cons v r.items, r.seen, r.tags, r.changed, r.msgs⟩
      | some tag =>
        if tag ∈ seen then
          let itemId := idOr it "noid"
          let newTag := unique_tag tag ("_" ++ itemId) seen
          let it2 := set_item_tag it newTag
          let r := pass1 tl (seen ++ [newTag]) (tags ++ [newTag])
          ⟨.cons (.obj it2) r.items, r.seen, r.tags, true,
           ("Item \"" ++ pyShow (it.get "name") ++ "\" (" ++ itemId ++ "): tag \"" ++
             tag ++ "\" -> \"" ++ newTag ++ "\"") :: r.msgs⟩
        else
          let r := pass1 tl (seen ++ [tag]) (tags ++ [tag])
          ⟨.cons v r.items, r.seen, r.tags, r.changed, r.msgs⟩
    | _ =>
      let r := pass1 tl seen tags
      ⟨.cons v r.items, r.seen, r.tags, r.changed, r.msgs⟩

/-- Result of the action loop over one item. -/
structure ALoop where
  acts : JArr
  seen : List String
  changed : Bool
  msgs : List String
  deriving DecidableEq

/-- The inner loop of pass 2 over one item's actions: keep non-dict
elements and untagged actions; claim fresh tags; rename tags colliding
with any claimed identifier using
`unique_tag(tag, "_act_" + action id, seen)`. -/
def actLoop (itName : String) : JArr → List String → ALoop
  | .nil, seen => ⟨.nil, seen, false, []⟩
  | .cons v tl, seen =>
    match v with
    | .obj act =>
      match get_action_tag act with
      | none =>
        let r := actLoop itName tl seen
        ⟨.cons v r.acts, r.seen, r.changed, r.msgs⟩
      | some t =>
        if t ∈ seen then
          let actId := idOr act "noactid"
          let newT := unique_tag t ("_act_" ++ actId) seen
          let act2 := act.set "tag" (.str newT)
          let r := actLoop itName tl (seen ++ [newT])
          ⟨.cons (.obj act2) r.acts, r.seen, true,
           ("Action tag on \"" ++ itName ++ "\": \"" ++ t ++ "\" -> \"" ++ newT ++ "\"") :: r.msgs⟩
        else
          let r := actLoop itName tl (seen ++ [t])
          ⟨.cons v r.acts, r.seen, r.changed, r.msgs⟩
    | _ =>
      let r := actLoop itName tl seen
      ⟨.cons v r.acts, r.seen, r.changed, r.msgs⟩

/-- Result of pass 2 on one item. -/
structure ItemRes where
  item : JObj
  seen : List String
  changed : Bool
  msgs : List String
  deriving DecidableEq

/-- Pass 2 on one item: run the action loop over `system.actions` when it
is a list (`iter_actions` yields nothing otherwise) and write the
updated actions back (the Python mutates them in place). -/
def pass2Item (it : JObj) (seen : List String) : ItemRes :=
  let itName := pyShow (it.get "name")
  match it.get "system" with
  | some (.obj sysd) =>
    match sysd.get "actions" with
    | some (.arr acts) =>
      let r := actLoop itName acts seen
      ⟨it.set "system" (.obj (sysd.set "actions" (.arr r.acts))), r.seen, r.changed, r.msgs⟩
    | _ => ⟨it, seen, false, []⟩
  | _ => ⟨it, seen, false, []⟩

/-- State of pass 2. -/
structure P2 where
  items : JArr
  seen : List String
  changed : Bool
  msgs : List String
  deriving DecidableEq

/-- Pass 2 of `fix_actor_identifiers_and_resources` over all items
(non-dict elements skipped, kept in place). -/
def pass2 : JArr → List String → P2
  | .nil, seen => ⟨.nil, seen, false, []⟩
  | .cons v tl, seen =>
    match v with
    | .obj it =>
      let r1 := pass2Item it seen
      let r := pass2 tl r1.seen
      ⟨.cons (.obj r1.item) r.items, r.seen, r1.changed || r.changed, r1.msgs ++ r.msgs⟩
    | _ =>
      let r := pass2 tl seen
      ⟨.cons v r.items, r.seen, r.changed, r.msgs⟩

/-- `get_resources_dict(actor)`: `system.resources` when it is a dict. -/
def get_resources_dict (actor : JObj) : Option JObj :=
  match actor.get "system" with
  | some (.obj sysd) =>
    match sysd.get "resources" with
    | some (.obj res) => some res
    | _ => none
  | _ => none

/-- `fix_actor_identifiers_and_resources(actor)`: pass 1 (unique item
tags), pass 2 (non-colliding action tags), pass 3 (delete resource keys
that exactly equal a final item tag collected in pass 1). -/
def fix_actor_identifiers_and_resources (actor : JObj) : JObj × Bool × List String :=
  match actor.get "items" with
  | some (.arr items) =>
    let p1 := pass1 items [] []
    let p2 := pass2 p1.items p1.seen
    let actor2 := actor.set "items" (.arr p2.items)
    let p3 : JObj × Bool × List String :=
      match get_resources_dict actor2 with
      | some res =>
        let toDelete := res.keys.filter (fun k => decide (k ∈ p1.tags))
        if toDelete ≠ [] then
          (actor2.setPath ["system", "resources"]
             (.obj (res.filterKeys (fun k => decide (k ∉ p1.tags)))), true,
           toDelete.map (fun k =>
             "resources: removed duplicate key \x27" ++ k ++
               "\x27 (will be rebuilt from item tag)"))
        else (actor2, false, [])
      | none => (actor2, false, [])
    (p3.1, (p1.changed || p2.changed) || p3.2.1, (p1.msgs ++ p2.msgs) ++ p3.2.2)
  | _ => (actor, false, [])

/-- The final item tags of pass 1 on a document (the list
`item_tags_in_actor` of the Python), `[]` on non-actor shapes. -/
def pass1Tags (actor : JObj) : List String :=
  match actor.get "items" with
  | some (.arr items) => (pass1 items [] []).tags
  | _ => []

/-- Tags of the dict elements of an item array, in order. -/
def itemTagsOf : JArr → List String
  | .nil => []
  | .cons (.obj it) tl =>
    match get_item_tag it with
    | some t => t :: itemTagsOf tl
    | none => itemTagsOf tl
  | .cons _ tl => itemTagsOf tl

/-- The stripped non-empty tags of the (dict) items of a document, in
order. -/
def itemTagList (actor : JObj) : List String :=
  match actor.get "items" with
  | some (.arr items) => itemTagsOf items
  | _ => []

/-- Tags of the dict elements of an action array, in order. -/
def actionTagsOfActs : JArr → List String
  | .nil => []
  | .cons (.obj a) tl =>
    match get_action_tag a with
    | some t => t :: actionTagsOfActs tl
    | none => actionTagsOfActs tl
  | .cons _ tl => actionTagsOfActs tl

/-- Action tags of one item (`iter_actions` plus `get_action_tag`). -/
def actionTagsOfItem (it : JObj) : List String :=
  match it.get "system" with
  | some (.obj sysd) =>
    match sysd.get "actions" with
    | some (.arr acts) => actionTagsOfActs acts
    | _ => []
  | _ => []

/-- Action tags of the dict elements of an item array, in pass-2
iteration order. -/
def actionTagsOf : JArr → List String
  | .nil => []
  | .cons (.obj it) tl => actionTagsOfItem it ++ actionTagsOf tl
  | .cons _ tl => actionTagsOf tl

/-- The stripped non-empty action tags across the (dict) items of a
document, in iteration order of pass 2. -/
def actionTagList (actor : JObj) : List String :=
  match actor.get "items" with
  | some (.arr items) => actionTagsOf items
  | _ => []

end PF1.EID

namespace PF1.Ex

/-! ### Concrete documents used as counterexamples and witnesses -/

/-- A targeted actor whose `eres.value` list holds the plus-number
string `"+2"`. -/
def exTrait : JObj := JObj.ofList
  [("type", .str "character"),
   ("system", .obj (JObj.ofList
     [("traits", .obj (JObj.ofList
       [("eres", .obj (JObj.ofList
         [("value", .arr (.cons (.str "+2") .nil))]))]))]))]

/-- A document of a non-targeted type holding a plus-number string. -/
def exWeapon : JObj := JObj.ofList
  [("type", .str "weapon"), ("a", .str "+2")]

/-- A document holding the string `"+²"`: the superscript two satisfies
`isdigit` but is not a valid `int()` literal. -/
def exSuper : JObj := JObj.ofList [("a", .str "+²")]

/-- An item with the given stored tag and optional `_id`. -/
def mkItem (tag : String) (idv : Option String) : JVal :=
  .obj (JObj.ofList
    ([("system", JVal.obj (JObj.ofList [("tag", JVal.str tag)]))] ++
     (match idv with | some i => [("_id", JVal.str i)] | none => [])))

/-- An actor whose stored tags and `_id` carry trailing whitespace:
items tagged `"bite"`, `"bite_x "` and `"bite"` again, the duplicate
carrying `_id = "x "`.  The duplicate is renamed to the stored tag
`"bite_x "`, whose *stripped* tag collides with item 1's. -/
def exWs : JObj := JObj.ofList
  [("type", .str "npc"),
   ("items", .arr (.cons (mkItem "bite" none) (.cons (mkItem "bite_x " none)
      (.cons (mkItem "bite" (some "x ")) .nil))))]

/-- The raw line of the C9 counterexample (no space after the colon). -/
def lineA : String := "\x7b\"a\":1\x7d\n"

/-- What `lineA` parses to. -/
def docA : JObj := JObj.ofList [("a", .num 1)]

/-- A targeted npc document for the targeting-scope witness. -/
def exNpcPlus : JObj := JObj.ofList
  [("type", .str "npc"), ("x", .str "+7")]

/-- A whitespace-stable actor on which the deduplicator really renames:
two items both tagged `"bite"`, the second carrying `_id = "x"`, so the
duplicate is renamed to `"bite_x"`. -/
def exDup : JObj := JObj.ofList
  [("type", .str "npc"),
   ("items", .arr (.cons (mkItem "bite" none)
      (.cons (mkItem "bite" (some "x")) .nil)))]

/-- An npc whose resource map holds a key equal to its single item tag
(`"mA"`) next to an unrelated key (`"keep"`). -/
def exRes : JObj := JObj.ofList
  [("type", .str "npc"),
   ("items", .arr (.cons (mkItem "mA" none) .nil)),
   ("system", .obj (JObj.ofList
     [("resources", .obj (JObj.ofList [("mA", .num 1), ("keep", .num 2)]))]))]

end PF1.Ex

namespace PF1

/-! ### Claim-side predicates written from the spec's words -/

/-- Entries of a sequence are all non-empty strings (never null, empty
or non-string). -/
def allNonemptyStr : JArr → Bool
  | .nil => true
  | .cons (.str s) t => decide (s ≠ "") && allNonemptyStr t
  | .cons _ t => false

/-- The spec's trait-value invariant for one field: a sequence of
non-empty strings. -/
def isNonemptyStrSeq : JVal → Bool
  | .arr xs => allNonemptyStr xs
  | _ => false

/-! ### Shape predicates used by the theorems -/

/-- An entry kept by the list cleaner: a string whose strip is
non-empty. -/
def goodEntry : JVal → Bool
  | .str s => decide (pyStrip s ≠ "")
  | _ => false

/-- All entries good. -/
def allGood : JArr → Bool
  | .nil => true
  | .cons v t => goodEntry v && allGood t

/-- A good entry or an integer (what the numeric pass can turn a good
entry into). -/
def goodOrNum : JVal → Bool
  | .str s => decide (pyStrip s ≠ "")
  | .num _ => true
  | _ => false

/-- All entries good-or-integer. -/
def allGoodOrNum : JArr → Bool
  | .nil => true
  | .cons v t => goodOrNum v && allGoodOrNum t

mutual

/-- No plus-number string at this value position or below (a bare
string node is itself a position here; documents are objects, whose
`noPlusObj` quantifies exactly over mapping values and sequence
elements). -/
def noPlusVal : JVal → Bool
  | .str s => !(isPlusNum s)
  | .arr xs => noPlusArr xs
  | .obj o => noPlusObj o
  | _ => true

/-- No plus-number string among the elements (or below). -/
def noPlusArr : JArr → Bool
  | .nil => true
  | .cons v t => noPlusVal v && noPlusArr t

/-- No plus-number string among the mapping values (or below). -/
def noPlusObj : JObj → Bool
  | .nil => true
  | .cons _ v t => noPlusVal v && noPlusObj t

end

/-- The transform `convert_plus_number_strings` applies at one
mapping-value or sequence-element position (the string branch inline,
recursion otherwise). -/
def convVal : JVal → JVal
  | .str s => if isPlusNum s then .num (plusNumVal s) else .str s
  | v => (CRP.convert_plus_number_strings v).1

/-- The changed flag `convert_plus_number_strings` computes at one value
position. -/
def convFlag : JVal → Bool
  | .str s => isPlusNum s
  | v => (CRP.convert_plus_number_strings v).2

mutual

/-- Spec-side walk over sequence elements (for the refinement claim C8). -/
def plusNormSpecArr : JArr → JArr
  | .nil => .nil
  | .cons v t => .cons (plusNormSpecEntry v) (plusNormSpecArr t)

/-- Spec-side walk over mapping values. -/
def plusNormSpecObj : JObj → JObj
  | .nil => .nil
  | .cons k v t => .cons k (plusNormSpecEntry v) (plusNormSpecObj t)

/-- Spec-side action at one value position: replace a string matching
"a leading `+` then one or more digits and nothing else, after
trimming" by its base-10 integer value, recurse into containers, keep
everything else. -/
def plusNormSpecEntry : JVal → JVal
  | .str s => if isPlusNum s then .num (plusNumVal s) else .str s
  | .arr xs => .arr (plusNormSpecArr xs)
  | .obj o => .obj (plusNormSpecObj o)
  | v => v

end

/-- Spec-side definition (from the spec's words): recursively walk the
entire document — all nested mappings and sequences — replacing each
matching string value by its integer, and nothing else. -/
def plusNormSpec : JVal → JVal
  | .arr xs => .arr (plusNormSpecArr xs)
  | .obj o => .obj (plusNormSpecObj o)
  | v => v

/-- The shape of an optional value: what the trait-repair branches
switch on, and what the numeric pass preserves everywhere except at
strings. -/
inductive VKind : Type where
  | missing : VKind
  | knull : VKind
  | kbool : VKind
  | knum : VKind
  | kstr : VKind
  | karr : Nat → VKind
  | kobj : VKind
  deriving DecidableEq

/-- Shape of an optional value. -/
def vkind : Option JVal → VKind
  | none => .missing
  | some .null => .knull
  | some (.bool _) => .kbool
  | some (.num _) => .knum
  | some (.str _) => .kstr
  | some (.arr xs) => .karr xs.length
  | some (.obj _) => .kobj

/-- The `custom`/`customTotal` fields in normal form: absent, or a clean
list, or some non-string non-list value the repair leaves alone. -/
def customNF : Option JVal → Bool
  | some (.str _) => false
  | some (.arr xs) => allGood xs
  | _ => true

/-- One trait entry of the first normalizer in normal form. -/
def traitEntryNF (t : JObj) (k : String) : Bool :=
  match t.get k with
  | some (.obj e) =>
    (match e.get "value" with | some (.arr vs) => allGood vs | _ => false) &&
      (customNF (e.get "custom") && customNF (e.get "customTotal"))
  | _ => false

/-- `languages.value` in normal form: not a null-carrying list. -/
def langNF : Option JVal → Bool
  | some (.arr xs) => decide (countNulls xs = 0)
  | _ => true

/-- Documents on which `repair_actor_doc` is the identity (proved as
`CRP_nf_fixed`): no plus-number strings anywhere, and — when
`system.traits` is a dict — clean `eres`/`dr`/`dv` entries and a
null-free languages list. -/
def nfCRP (d : JObj) : Bool :=
  noPlusObj d &&
    (match d.getPath ["system", "traits"] with
     | some (.obj t) =>
       traitEntryNF t "eres" && traitEntryNF t "dr" && traitEntryNF t "dv" &&
         langNF ((JVal.obj t).getPath ["languages", "value"])
     | _ => true)

/-- One trait key of the second normalizer with clean custom fields. -/
def customKeyNF (t : JObj) (k : String) : Bool :=
  match t.get k with
  | some (.obj e) => customNF (e.get "custom") && customNF (e.get "customTotal")
  | _ => true

/-- One of `di`/`dv`/`ci` whose `value` is not a separator-carrying
string. -/
def splitNF (t : JObj) (k : String) : Bool :=
  match t.get k with
  | some (.obj e) =>
    (match e.get "value" with
     | some (.str s) => !PKG.hasSep s
     | _ => true)
  | _ => true

/-- Documents on which `repair_doc` is the identity (proved as
`PKG_nf_fixed`). -/
def nfPKG (d : JObj) : Bool :=
  noPlusObj d &&
    (match d.getPath ["system", "traits"] with
     | some (.obj t) =>
       langNF ((JVal.obj t).getPath ["languages", "value"]) &&
         (PKG.TRAIT_KEYS.all fun k => customKeyNF t k) &&
         (["di", "dv", "ci"].all fun k => splitNF t k)
     | _ => true)

/-- A whitespace-stable string (no leading or trailing whitespace):
`s.strip() == s`. -/
def stableStr (s : String) : Bool :=
  decide (pyStrip s = s)

/-- A tag-bearing field is whitespace-stable when it is a string. -/
def tagFieldOK (o : JObj) (f : String) : Bool :=
  match o.get f with
  | some (.str s) => stableStr s
  | _ => true

/-- All elements satisfy `p`. -/
def allArr (p : JVal → Bool) : JArr → Bool
  | .nil => true
  | .cons v t => p v && allArr p t

/-- One action element with whitespace-stable `tag` and `_id`. -/
def actionOK (v : JVal) : Bool :=
  match v with
  | .obj a => tagFieldOK a "tag" && tagFieldOK a "_id"
  | _ => true

/-- One item element with whitespace-stable `system.tag`, `_id`, and
action fields. -/
def itemOK (v : JVal) : Bool :=
  match v with
  | .obj it =>
    (match it.get "system" with
     | some (.obj sysd) =>
       tagFieldOK sysd "tag" &&
         (match sysd.get "actions" with
          | some (.arr acts) => allArr actionOK acts
          | _ => true)
     | _ => true) && tagFieldOK it "_id"
  | _ => true

/-- The whitespace-stability hypothesis of the amended deduplicator
claims: every stored item/action tag and `_id` string carries no
leading or trailing whitespace. -/
def wsOK (d : JObj) : Bool :=
  match d.get "items" with
  | some (.arr items) => allArr itemOK items
  | _ => true

end PF1

namespace PF1

/-! ### Counterexample theorems -/

/-- C1: the Shape Normalizer is *not* idempotent: on a trait list
holding the string `"+2"`, the first run's numeric pass turns it into
the integer `2`, which the second run's list-cleaning removes — the
second run's output differs from the first run's. -/
theorem C1_counterexample :
    (CRP.repair_actor_doc (CRP.repair_actor_doc Ex.exTrait).1).1 ≠
      (CRP.repair_actor_doc Ex.exTrait).1 := by decide

/-- C2: after repair, `eres.value` of the counterexample holds the
integer `2` — not a sequence of non-empty strings. -/
theorem C2_counterexample :
    (CRP.repair_actor_doc Ex.exTrait).1.getPath ["system", "traits", "eres", "value"] =
        some (.arr (.cons (.num 2) .nil)) ∧
      isNonemptyStrSeq (.arr (.cons (.num 2) .nil)) = false := by decide

/-- C3: a document of a non-targeted type passes through
`process_db_file` untouched even though the numeric-string pass would
change it: the pass is gated by the type filter, not applied to every
document. -/
theorem C3_counterexample :
    CRP.processDoc Ex.exWeapon = Ex.exWeapon ∧
      (CRP.convert_plus_number_strings (.obj Ex.exWeapon)).1 ≠ .obj Ex.exWeapon := by decide

/-- C4: on the document `\x7b"a": "+²"\x7d` the conversion pass raises
`ValueError`: the superscript `²` passes the `isdigit` guard but is not
a valid `int()` literal, so the per-document repair functions do *not*
return normally on every document. -/
theorem C4_value_error :
    CRP.convertChecked (.obj Ex.exSuper) =
      .error "ValueError: invalid literal for int() with base 10: ²" := by rfl

/-- C5: on the whitespace-carrying actor `exWs` the repaired document
has two items whose (stripped, non-empty) tags are both `"bite_x"`:
the generated replacement tag `"bite_x "` collides, after stripping,
with an existing tag. -/
theorem C5_counterexample :
    EID.itemTagList (EID.fix_actor_identifiers_and_resources Ex.exWs).1 =
        ["bite", "bite_x", "bite_x"] ∧
      ¬ List.Nodup (EID.itemTagList (EID.fix_actor_identifiers_and_resources Ex.exWs).1) := by
  decide

/-- C6: the Identifier Deduplicator is not idempotent on `exWs`: the
second run renames the third item again. -/
theorem C6_counterexample :
    (EID.fix_actor_identifiers_and_resources
        (EID.fix_actor_identifiers_and_resources Ex.exWs).1).1 ≠
      (EID.fix_actor_identifiers_and_resources Ex.exWs).1 := by decide

/-- C9: the line `\x7b"a":1\x7d` parses, is not mutated (its type is not
even targeted), yet the written line differs beyond line-terminator
normalization: `json.dumps` re-serializes with its own separators. -/
theorem C9_counterexample :
    parseJson "\x7b\"a\":1\x7d" = some (.obj Ex.docA) ∧
      CRP.should_patch_doc Ex.docA = false ∧
      CRP.processLine Ex.lineA = "\x7b\"a\": 1\x7d\n" ∧
      "\x7b\"a\": 1\x7d\n" ≠ Ex.lineA := by decide

/-! ### Object and path lemmas -/

theorem get_set_eq : ∀ (o : JObj) (k : String) (v : JVal), (o.set k v).get k = some v
  | .nil, k, v => by simp [JObj.set, JObj.get]
  | .cons k' v' t, k, v => by
    by_cases h : k' = k
    · subst h; simp [JObj.set, JObj.get]
    · simp [JObj.set, JObj.get, h, get_set_eq t k v]

theorem get_set_ne : ∀ (o : JObj) {k q : String} (v : JVal), k ≠ q →
    (o.set k v).get q = o.get q
  | .nil, k, q, v, h => by simp [JObj.set, JObj.get, h]
  | .cons k' v' t, k, q, v, h => by
    by_cases h1 : k' = k
    · subst h1; simp [JObj.set, JObj.get, h]
    · by_cases h2 : k' = q
      · subst h2; simp [JObj.set, JObj.get, h1]
      · simp [JObj.set, JObj.get, h1, h2, get_set_ne t v h]

theorem set_get_self : ∀ (o : JObj) {k : String} {v : JVal}, o.get k = some v →
    o.set k v = o
  | .nil, k, v, h => by simp [JObj.get] at h
  | .cons k' v' t, k, v, h => by
    by_cases h1 : k' = k
    · subst h1
      simp [JObj.get] at h
      simp [JObj.set, h]
    · simp [JObj.get, h1] at h
      simp [JObj.set, h1, set_get_self t h]

/-- A difference at one key separates two objects. -/
theorem ne_of_get_ne {o o' : JObj} (k : String) (h : o.get k ≠ o'.get k) : o ≠ o' :=
  fun he => h (he ▸ rfl)

theorem getPath_append : ∀ (p : List String) (v : JVal) (q : List String),
    JVal.getPath v (p ++ q) = (JVal.getPath v p).bind (fun w => JVal.getPath w q)
  | [], v, q => by simp [JVal.getPath]
  | a :: ps, v, q => by
    match v with
    | .null | .bool _ | .num _ | .str _ | .arr _ => simp [JVal.getPath]
    | .obj o =>
      simp only [List.cons_append, JVal.getPath]
      match h : o.get a with
      | some w => simp [getPath_append ps w q]
      | none => simp

/-- A nonempty path resolves only through an object. -/
theorem getPath_cons_obj {v : JVal} {a : String} {ps : List String} {w : JVal}
    (h : JVal.getPath v (a :: ps) = some w) : ∃ o, v = JVal.obj o := by
  match v with
  | .null | .bool _ | .num _ | .str _ | .arr _ => simp [JVal.getPath] at h
  | .obj o => exact ⟨o, rfl⟩

theorem setPath_self : ∀ (p : List String) (o : JObj) (v : JVal),
    o.getPath p = some v → o.setPath p v = o
  | [], o, v, h => by simp [JObj.setPath]
  | [a], o, v, h => by
    simp only [JObj.getPath, JVal.getPath] at h
    match h2 : o.get a with
    | some w =>
      rw [h2] at h
      simp [JVal.getPath] at h
      subst h
      simp [JObj.setPath, set_get_self o h2]
    | none => rw [h2] at h; simp at h
  | a :: b :: ps, o, v, h => by
    simp only [JObj.getPath, JVal.getPath] at h
    match h2 : o.get a with
    | some w =>
      simp only [h2] at h
      obtain ⟨sub, rfl⟩ := getPath_cons_obj h
      show JObj.setPath o (a :: b :: ps) v = o
      simp only [JObj.setPath, h2]
      rw [setPath_self (b :: ps) sub v h, set_get_self o h2]
    | none => rw [h2] at h; simp at h

/-- Reading an extension of a freshly written (nonempty) path reads
inside the written value. -/
theorem getPath_setPath_append : ∀ (a : String) (ps : List String) (o : JObj) {w : JVal}
    (v : JVal) (q : List String),
    o.getPath (a :: ps) = some w →
    (o.setPath (a :: ps) v).getPath (a :: (ps ++ q)) = JVal.getPath v q
  | a, [], o, w, v, q, h => by
    simp only [JObj.setPath, JObj.getPath, JVal.getPath, List.nil_append]
    rw [get_set_eq]
  | a, b :: ps, o, w, v, q, h => by
    simp only [JObj.getPath, JVal.getPath] at h
    match h2 : o.get a with
    | some w1 =>
      simp only [h2] at h
      obtain ⟨sub, rfl⟩ := getPath_cons_obj h
      show ((o.setPath (a :: b :: ps) v)).getPath (a :: ((b :: ps) ++ q)) = JVal.getPath v q
      simp only [JObj.setPath, h2, JObj.getPath, JVal.getPath]
      rw [get_set_eq]
      exact getPath_setPath_append b ps sub v q h
    | none => rw [h2] at h; simp at h

/-- `set` at one key does not change reads along paths starting at a
different key. -/
theorem getPath_set_ne {o : JObj} {k q : String} (v : JVal) (h : k ≠ q) (rest : List String) :
    (o.set k v).getPath (q :: rest) = o.getPath (q :: rest) := by
  simp only [JObj.getPath, JVal.getPath, get_set_ne o v h]

/-- `setPath` along a nonempty path only touches the head key. -/
theorem setPath_get_ne : ∀ (ps : List String) (o : JObj) {a q : String} (v : JVal), a ≠ q →
    (o.setPath (a :: ps) v).get q = o.get q
  | [], o, a, q, v, h => by simp only [JObj.setPath]; exact get_set_ne o v h
  | b :: ps, o, a, q, v, h => by
    simp only [JObj.setPath]
    match o.get a with
    | some (.obj sub) => exact get_set_ne o _ h
    | some .null | some (.bool _) | some (.num _) | some (.str _) | some (.arr _) => rfl
    | none => rfl

/-- `ensureDictPath` along a nonempty path only touches the head key. -/
theorem ensureDictPath_get_ne (ps : List String) (o : JObj) {a q : String} (h : a ≠ q) :
    (o.ensureDictPath (a :: ps)).get q = o.get q := by
  simp only [JObj.ensureDictPath]
  exact get_set_ne o _ h

/-! ### Python string lemmas -/

theorem pyStripList_eq (l : List Char) :
    pyStripList l = List.rdropWhile pyIsSpace (List.dropWhile pyIsSpace l) := rfl

theorem dropWhile_rdropWhile_dropWhile (p : Char → Bool) (l : List Char) :
    List.dropWhile p (List.rdropWhile p (List.dropWhile p l)) =
      List.rdropWhile p (List.dropWhile p l) := by
  obtain ⟨t, ht⟩ := List.rdropWhile_prefix p (List.dropWhile p l)
  cases hr : List.rdropWhile p (List.dropWhile p l) with
  | nil => simp
  | cons c cs =>
    have hd : List.dropWhile p l = c :: (cs ++ t) := by
      rw [← ht, hr]; simp
    have hc : ¬ p c = true := by
      intro hpc
      have hidem := List.dropWhile_idempotent (p := p) (l := l)
      rw [hd] at hidem
      rw [List.dropWhile_cons, if_pos hpc] at hidem
      have hsuf := (List.dropWhile_suffix (l := cs ++ t) p).length_le
      rw [hidem] at hsuf
      simp at hsuf
    rw [List.dropWhile_cons, if_neg hc]

theorem pyStripList_idem (l : List Char) : pyStripList (pyStripList l) = pyStripList l := by
  rw [pyStripList_eq, pyStripList_eq, dropWhile_rdropWhile_dropWhile,
    List.rdropWhile_idempotent]

theorem data_mk (l : List Char) : (String.mk l).data = l := rfl

theorem pyStrip_idem (s : String) : pyStrip (pyStrip s) = pyStrip s := by
  simp only [pyStrip, data_mk, pyStripList_idem]

theorem str_to_list_stable {s t : String} (h : t ∈ str_to_list s) :
    pyStrip t = t ∧ t ≠ "" := by
  unfold str_to_list at h
  rw [List.mem_filter] at h
  obtain ⟨h1, h2⟩ := h
  rw [List.mem_map] at h1
  obtain ⟨t0, _, rfl⟩ := h1
  exact ⟨pyStrip_idem _, by simpa using h2⟩

theorem allGood_ofList_str (l : List String) (h : ∀ t ∈ l, pyStrip t = t ∧ t ≠ "") :
    allGood (JArr.ofList (l.map JVal.str)) = true := by
  induction l with
  | nil => rfl
  | cons t ts ih =>
    simp only [List.map_cons, JArr.ofList, allGood, goodEntry, Bool.and_eq_true,
      decide_eq_true_eq]
    refine ⟨?_, ih fun x hx => h x (by simp [hx])⟩
    have := h t (by simp)
    rw [this.1]
    exact this.2

theorem allGood_strToListArr (s : String) : allGood (strToListArr s) = true :=
  allGood_ofList_str _ (fun _ ht => str_to_list_stable ht)

/-! ### cleanList lemmas -/

theorem allGood_cleanList : ∀ xs : JArr, allGood (cleanList xs) = true
  | .nil => rfl
  | .cons v t => by
    match v with
    | .str s =>
      by_cases h : pyStrip s ≠ ""
      · simp [cleanList, h, allGood, goodEntry, allGood_cleanList t]
      · simp [cleanList, h, allGood_cleanList t]
    | .null | .bool _ | .num _ | .arr _ | .obj _ => simp [cleanList, allGood_cleanList t]

theorem cleanList_eq_self : ∀ xs : JArr, allGood xs = true → cleanList xs = xs
  | .nil, _ => rfl
  | .cons v t, h => by
    match v with
    | .str s =>
      simp only [allGood, goodEntry, Bool.and_eq_true, decide_eq_true_eq] at h
      simp [cleanList, h.1, cleanList_eq_self t h.2]
    | .null | .bool _ | .num _ | .arr _ | .obj _ =>
      simp [allGood, goodEntry] at h

theorem cleanList_length_le : ∀ xs : JArr, (cleanList xs).length ≤ xs.length
  | .nil => Nat.le_refl _
  | .cons v t => by
    have ih := cleanList_length_le t
    match v with
    | .str s =>
      by_cases h : pyStrip s ≠ ""
      · simp only [cleanList, if_pos h, JArr.length]; omega
      · simp only [cleanList, if_neg h, JArr.length]; omega
    | .null | .bool _ | .num _ | .arr _ | .obj _ =>
      simp only [cleanList, JArr.length]; omega

theorem cleanList_length_lt : ∀ xs : JArr, cleanList xs ≠ xs → (cleanList xs).length < xs.length
  | .nil, h => absurd rfl h
  | .cons v t, h => by
    have ihle := cleanList_length_le t
    match v with
    | .str s =>
      by_cases hs : pyStrip s ≠ ""
      · simp only [cleanList, if_pos hs] at h ⊢
        have ht : cleanList t ≠ t := by
          intro he; apply h; rw [he]
        have := cleanList_length_lt t ht
        simp only [JArr.length]; omega
      · simp only [cleanList, if_neg hs, JArr.length]; omega
    | .null | .bool _ | .num _ | .arr _ | .obj _ =>
      simp only [cleanList, JArr.length]; omega

theorem allGood_of_cleanList_eq : ∀ xs : JArr, cleanList xs = xs → allGood xs = true := by
  intro xs h
  by_contra hb
  have : cleanList xs ≠ xs := by
    intro he
    exact hb (he ▸ allGood_cleanList xs)
  exact this h

/-! ### Decimal rendering lemmas -/

theorem natDigits_lt {n : Nat} (h : n < 10) : natDigits n = [Nat.digitChar n] := by
  rw [natDigits]; simp [h]

theorem natDigits_ge {n : Nat} (h : ¬ n < 10) :
    natDigits n = natDigits (n / 10) ++ [Nat.digitChar (n % 10)] := by
  rw [natDigits]; simp [h]

theorem natStrGo_eq : ∀ (fuel n : Nat) (acc : List Char), n < fuel →
    natStrGo fuel n acc = natDigits n ++ acc := by
  intro fuel
  induction fuel with
  | zero => intro n acc h; omega
  | succ f ih =>
    intro n acc h
    by_cases h10 : n < 10
    · simp [natStrGo, h10, natDigits_lt h10]
    · have hrec : n / 10 < f := by
        have h1 : n / 10 < n := Nat.div_lt_self (by omega) (by norm_num)
        omega
      simp only [natStrGo, if_neg h10]
      rw [ih (n / 10) _ hrec, natDigits_ge h10, List.append_assoc, List.singleton_append]

theorem natStr_eq (n : Nat) : natStr n = ⟨natDigits n⟩ := by
  unfold natStr
  rw [natStrGo_eq (n + 1) n [] (by omega), List.append_nil]

theorem decToNat_append_singleton (l : List Char) (c : Char) :
    decToNat (l ++ [c]) = 10 * decToNat l + digitVal c := by
  unfold decToNat
  rw [List.foldl_append]
  rfl

theorem digitVal_digitChar {m : Nat} (h : m < 10) : digitVal (Nat.digitChar m) = m := by
  interval_cases m <;> rfl

theorem decToNat_natDigits (n : Nat) : decToNat (natDigits n) = n := by
  induction n using Nat.strong_induction_on with
  | _ n ih =>
    by_cases h : n < 10
    · rw [natDigits_lt h]
      have hd := digitVal_digitChar h
      show decToNat [Nat.digitChar n] = n
      unfold decToNat
      simp only [List.foldl, Nat.mul_zero, Nat.zero_add]
      exact hd
    · rw [natDigits_ge h, decToNat_append_singleton,
        ih (n / 10) (Nat.div_lt_self (by omega) (by norm_num)),
        digitVal_digitChar (Nat.mod_lt _ (by norm_num))]
      omega

theorem natStr_injective {m n : Nat} (h : natStr m = natStr n) : m = n := by
  rw [natStr_eq, natStr_eq] at h
  have hd : natDigits m = natDigits n := congrArg String.data h
  calc m = decToNat (natDigits m) := (decToNat_natDigits m).symm
    _ = decToNat (natDigits n) := by rw [hd]
    _ = n := decToNat_natDigits n

theorem digitChar_isDigit {m : Nat} (h : m < 10) : (Nat.digitChar m).isDigit = true := by
  interval_cases m <;> decide

theorem natDigits_isDigit (n : Nat) : ∀ c ∈ natDigits n, c.isDigit = true := by
  induction n using Nat.strong_induction_on with
  | _ n ih =>
    intro c hc
    by_cases h : n < 10
    · rw [natDigits_lt h] at hc
      simp at hc
      exact hc ▸ digitChar_isDigit h
    · rw [natDigits_ge h] at hc
      rw [List.mem_append] at hc
      rcases hc with hc | hc
      · exact ih (n / 10) (Nat.div_lt_self (by omega) (by norm_num)) c hc
      · simp at hc
        exact hc ▸ digitChar_isDigit (Nat.mod_lt _ (by norm_num))

theorem isDigit_not_space {c : Char} (h : c.isDigit = true) : pyIsSpace c = false := by
  cases hc : pyIsSpace c
  · rfl
  · exfalso
    simp only [pyIsSpace, Bool.or_eq_true, decide_eq_true_eq] at hc
    rcases hc with ((((h1 | h1) | h1) | h1) | h1) | h1 <;> subst h1 <;>
      exact absurd h (by decide)

/-! ### convert_plus_number_strings lemmas -/

theorem convert_obj_def (o : JObj) :
    CRP.convert_plus_number_strings (.obj o) =
      (.obj (CRP.convertObj o).1, (CRP.convertObj o).2) := rfl

theorem convert_arr_def (xs : JArr) :
    CRP.convert_plus_number_strings (.arr xs) =
      (.arr (CRP.convertArr xs).1, (CRP.convertArr xs).2) := rfl

theorem convertObj_cons (k : String) (v : JVal) (t : JObj) :
    CRP.convertObj (.cons k v t) =
      (.cons k (convVal v) (CRP.convertObj t).1, convFlag v || (CRP.convertObj t).2) := by
  cases v with
  | str s =>
    by_cases h : isPlusNum s = true <;>
      simp [CRP.convertObj, convVal, convFlag, h]
  | null => rfl
  | bool b => rfl
  | num n => rfl
  | arr xs => rfl
  | obj o => rfl

theorem convertArr_cons (v : JVal) (t : JArr) :
    CRP.convertArr (.cons v t) =
      (.cons (convVal v) (CRP.convertArr t).1, convFlag v || (CRP.convertArr t).2) := by
  cases v with
  | str s =>
    by_cases h : isPlusNum s = true <;>
      simp [CRP.convertArr, convVal, convFlag, h]
  | null => rfl
  | bool b => rfl
  | num n => rfl
  | arr xs => rfl
  | obj o => rfl

mutual

theorem noPlusVal_convVal : ∀ v : JVal, noPlusVal (convVal v) = true
  | .null => rfl
  | .bool _ => rfl
  | .num _ => rfl
  | .str s => by
    by_cases h : isPlusNum s = true
    · simp [convVal, h, noPlusVal]
    · simp only [convVal, if_neg h, noPlusVal]
      simp [Bool.eq_false_iff.mpr h]
  | .arr xs => by
    have := noPlusArr_convertArr xs
    simp [convVal, convert_arr_def, noPlusVal, this]
  | .obj o => by
    have := noPlusObj_convertObj o
    simp [convVal, convert_obj_def, noPlusVal, this]

theorem noPlusArr_convertArr : ∀ xs : JArr, noPlusArr (CRP.convertArr xs).1 = true
  | .nil => rfl
  | .cons v t => by
    rw [convertArr_cons]
    simp [noPlusArr, noPlusVal_convVal v, noPlusArr_convertArr t]

theorem noPlusObj_convertObj : ∀ o : JObj, noPlusObj (CRP.convertObj o).1 = true
  | .nil => rfl
  | .cons k v t => by
    rw [convertObj_cons]
    simp [noPlusObj, noPlusVal_convVal v, noPlusObj_convertObj t]

end

mutual

theorem convVal_self : ∀ v : JVal, noPlusVal v = true → convVal v = v ∧ convFlag v = false
  | .null, _ => ⟨rfl, rfl⟩
  | .bool _, _ => ⟨rfl, rfl⟩
  | .num _, _ => ⟨rfl, rfl⟩
  | .str s, h => by
    simp only [noPlusVal, Bool.not_eq_true'] at h
    simp [convVal, convFlag, h]
  | .arr xs, h => by
    have := convertArr_self xs h
    simp [convVal, convFlag, convert_arr_def, this]
  | .obj o, h => by
    have := convertObj_self o h
    simp [convVal, convFlag, convert_obj_def, this]

theorem convertArr_self : ∀ xs : JArr, noPlusArr xs = true → CRP.convertArr xs = (xs, false)
  | .nil, _ => rfl
  | .cons v t, h => by
    simp only [noPlusArr, Bool.and_eq_true] at h
    have h1 := convVal_self v h.1
    have h2 := convertArr_self t h.2
    rw [convertArr_cons, h1.1, h1.2, h2]
    rfl

theorem convertObj_self : ∀ o : JObj, noPlusObj o = true → CRP.convertObj o = (o, false)
  | .nil, _ => rfl
  | .cons k v t, h => by
    simp only [noPlusObj, Bool.and_eq_true] at h
    have h1 := convVal_self v h.1
    have h2 := convertObj_self t h.2
    rw [convertObj_cons, h1.1, h1.2, h2]
    rfl

end

mutual

theorem noPlusVal_of_flag_false : ∀ v : JVal, convFlag v = false → noPlusVal v = true
  | .null, _ => rfl
  | .bool _, _ => rfl
  | .num _, _ => rfl
  | .str s, h => by
    simp only [convFlag] at h
    simp [noPlusVal, h]
  | .arr xs, h => by
    have := noPlusArr_of_flag_false xs (by simpa [convFlag, convert_arr_def] using h)
    simpa [noPlusVal] using this
  | .obj o, h => by
    have := noPlusObj_of_flag_false o (by simpa [convFlag, convert_obj_def] using h)
    simpa [noPlusVal] using this

theorem noPlusArr_of_flag_false : ∀ xs : JArr, (CRP.convertArr xs).2 = false → noPlusArr xs = true
  | .nil, _ => rfl
  | .cons v t, h => by
    rw [convertArr_cons] at h
    simp only [Bool.or_eq_false_iff] at h
    simp [noPlusArr, noPlusVal_of_flag_false v h.1, noPlusArr_of_flag_false t h.2]

theorem noPlusObj_of_flag_false : ∀ o : JObj, (CRP.convertObj o).2 = false → noPlusObj o = true
  | .nil, _ => rfl
  | .cons k v t, h => by
    rw [convertObj_cons] at h
    simp only [Bool.or_eq_false_iff] at h
    simp [noPlusObj, noPlusVal_of_flag_false v h.1, noPlusObj_of_flag_false t h.2]

end

mutual

theorem convVal_ne_of_flag : ∀ v : JVal, convFlag v = true → convVal v ≠ v
  | .str s, h => by
    simp only [convFlag] at h
    simp [convVal, h]
  | .arr xs, h => by
    have := convertArr_ne_of_flag xs (by simpa [convFlag, convert_arr_def] using h)
    simp only [convVal, convert_arr_def]
    intro he
    injection he with he1
    exact this he1
  | .obj o, h => by
    have := convertObj_ne_of_flag o (by simpa [convFlag, convert_obj_def] using h)
    simp only [convVal, convert_obj_def]
    intro he
    injection he with he1
    exact this he1

theorem convertArr_ne_of_flag : ∀ xs : JArr, (CRP.convertArr xs).2 = true →
    (CRP.convertArr xs).1 ≠ xs
  | .cons v t, h => by
    rw [convertArr_cons] at h ⊢
    simp only [Bool.or_eq_true] at h
    intro he
    injection he with he1 he2
    rcases h with h | h
    · exact convVal_ne_of_flag v h he1
    · exact convertArr_ne_of_flag t h he2

theorem convertObj_ne_of_flag : ∀ o : JObj, (CRP.convertObj o).2 = true →
    (CRP.convertObj o).1 ≠ o
  | .cons k v t, h => by
    rw [convertObj_cons] at h ⊢
    simp only [Bool.or_eq_true] at h
    intro he
    injection he with _ he1 he2
    rcases h with h | h
    · exact convVal_ne_of_flag v h he1
    · exact convertObj_ne_of_flag t h he2

end

theorem convertArr_length : ∀ xs : JArr, (CRP.convertArr xs).1.length = xs.length
  | .nil => rfl
  | .cons v t => by
    rw [convertArr_cons]
    simp [JArr.length, convertArr_length t]

theorem get_convertObj : ∀ (o : JObj) (k : String),
    (CRP.convertObj o).1.get k = (o.get k).map convVal
  | .nil, k => rfl
  | .cons k' v t, k => by
    rw [convertObj_cons]
    by_cases h : k' = k
    · subst h; simp [JObj.get]
    · simp [JObj.get, h, get_convertObj t k]

theorem getPath_convVal : ∀ (p : List String) (v : JVal),
    JVal.getPath (convVal v) p = (JVal.getPath v p).map convVal
  | [], v => by simp [JVal.getPath]
  | a :: ps, v => by
    match v with
    | .obj o =>
      rw [show convVal (.obj o) = .obj (CRP.convertObj o).1 from by
        simp [convVal, convert_obj_def]]
      simp only [JVal.getPath, get_convertObj]
      match h : o.get a with
      | some w => simp [getPath_convVal ps w]
      | none => simp
    | .null | .bool _ | .num _ => simp [convVal, JVal.getPath]
    | .arr xs =>
      rw [show convVal (.arr xs) = .arr (CRP.convertArr xs).1 from by
        simp [convVal, convert_arr_def]]
      simp [JVal.getPath]
    | .str s => by_cases h : isPlusNum s = true <;> simp [convVal, h, JVal.getPath]

theorem vkind_map_convVal : ∀ x : Option JVal, vkind x ≠ .kstr →
    vkind (x.map convVal) = vkind x := by
  intro x h
  match x with
  | none => rfl
  | some .null | some (.bool _) | some (.num _) => rfl
  | some (.str _) => exact absurd rfl h
  | some (.arr xs) =>
    simp [vkind, convVal, convert_arr_def, convertArr_length]
  | some (.obj o) =>
    simp [vkind, convVal, convert_obj_def]

theorem goodOrNum_convVal (v : JVal) (h : goodEntry v = true) : goodOrNum (convVal v) = true := by
  match v with
  | .str s =>
    by_cases hp : isPlusNum s = true
    · simp [convVal, hp, goodOrNum]
    · simp only [convVal, if_neg hp]
      simpa [goodEntry, goodOrNum] using h
  | .null | .bool _ | .num _ | .arr _ | .obj _ => simp [goodEntry] at h

theorem allGoodOrNum_convertArr : ∀ xs : JArr, allGood xs = true →
    allGoodOrNum (CRP.convertArr xs).1 = true
  | .nil, _ => rfl
  | .cons v t, h => by
    simp only [allGood, Bool.and_eq_true] at h
    rw [convertArr_cons]
    simp [allGoodOrNum, goodOrNum_convVal v h.1, allGoodOrNum_convertArr t h.2]

/-! ### The second script's convert agrees with the first's -/

mutual

theorem pkg_conv_eq : ∀ v : JVal,
    (PKG.convert_plus_number_strings v).1 = (CRP.convert_plus_number_strings v).1 ∧
      (PKG.convert_plus_number_strings v).2.1 = (CRP.convert_plus_number_strings v).2
  | .null => ⟨rfl, rfl⟩
  | .bool _ => ⟨rfl, rfl⟩
  | .num _ => ⟨rfl, rfl⟩
  | .str _ => ⟨rfl, rfl⟩
  | .arr xs => by
    have h := pkg_convArr_eq 0 xs
    exact ⟨by simp [PKG.convert_plus_number_strings, CRP.convert_plus_number_strings, h.1],
           by simp [PKG.convert_plus_number_strings, CRP.convert_plus_number_strings, h.2]⟩
  | .obj o => by
    have h := pkg_convObj_eq o
    exact ⟨by simp [PKG.convert_plus_number_strings, CRP.convert_plus_number_strings, h.1],
           by simp [PKG.convert_plus_number_strings, CRP.convert_plus_number_strings, h.2]⟩

theorem pkg_convObj_eq : ∀ o : JObj,
    (PKG.convertObj o).1 = (CRP.convertObj o).1 ∧
      (PKG.convertObj o).2.1 = (CRP.convertObj o).2
  | .nil => ⟨rfl, rfl⟩
  | .cons k v t => by
    have ht := pkg_convObj_eq t
    match v with
    | .str s =>
      by_cases h : isPlusNum s = true <;>
        simp [PKG.convertObj, CRP.convertObj, h, ht.1, ht.2]
    | .null | .bool _ | .num _ =>
      simp [PKG.convertObj, CRP.convertObj, PKG.convert_plus_number_strings,
        CRP.convert_plus_number_strings, ht.1, ht.2]
    | .arr xs =>
      have hv := pkg_conv_eq (.arr xs)
      simp [PKG.convertObj, CRP.convertObj, hv.1, hv.2, ht.1, ht.2]
    | .obj o2 =>
      have hv := pkg_conv_eq (.obj o2)
      simp [PKG.convertObj, CRP.convertObj, hv.1, hv.2, ht.1, ht.2]

theorem pkg_convArr_eq : ∀ (i : Nat) (xs : JArr),
    (PKG.convertArr i xs).1 = (CRP.convertArr xs).1 ∧
      (PKG.convertArr i xs).2.1 = (CRP.convertArr xs).2
  | _, .nil => ⟨rfl, rfl⟩
  | i, .cons v t => by
    have ht := pkg_convArr_eq (i + 1) t
    match v with
    | .str s =>
      by_cases h : isPlusNum s = true <;>
        simp [PKG.convertArr, CRP.convertArr, h, ht.1, ht.2]
    | .null | .bool _ | .num _ =>
      simp [PKG.convertArr, CRP.convertArr, PKG.convert_plus_number_strings,
        CRP.convert_plus_number_strings, ht.1, ht.2]
    | .arr xs2 =>
      have hv := pkg_conv_eq (.arr xs2)
      simp [PKG.convertArr, CRP.convertArr, hv.1, hv.2, ht.1, ht.2]
    | .obj o2 =>
      have hv := pkg_conv_eq (.obj o2)
      simp [PKG.convertArr, CRP.convertArr, hv.1, hv.2, ht.1, ht.2]

end

mutual

theorem pkg_conv_msgs : ∀ v : JVal,
    ((PKG.convert_plus_number_strings v).2.2 = []) ↔
      (PKG.convert_plus_number_strings v).2.1 = false
  | .null => by simp [PKG.convert_plus_number_strings]
  | .bool _ => by simp [PKG.convert_plus_number_strings]
  | .num _ => by simp [PKG.convert_plus_number_strings]
  | .str _ => by simp [PKG.convert_plus_number_strings]
  | .arr xs => by
    have h := pkg_convArr_msgs 0 xs
    simpa [PKG.convert_plus_number_strings] using h
  | .obj o => by
    have h := pkg_convObj_msgs o
    simpa [PKG.convert_plus_number_strings] using h

theorem pkg_convObj_msgs : ∀ o : JObj,
    ((PKG.convertObj o).2.2 = []) ↔ (PKG.convertObj o).2.1 = false
  | .nil => by simp [PKG.convertObj]
  | .cons k v t => by
    have ht := pkg_convObj_msgs t
    match v with
    | .str s =>
      by_cases h : isPlusNum s = true <;>
        simp [PKG.convertObj, h, ht]
    | .null | .bool _ | .num _ =>
      simp [PKG.convertObj, PKG.convert_plus_number_strings, ht]
    | .arr xs =>
      have hv := pkg_conv_msgs (.arr xs)
      simp [PKG.convertObj, hv, ht, Bool.or_eq_false_iff]
    | .obj o2 =>
      have hv := pkg_conv_msgs (.obj o2)
      simp [PKG.convertObj, hv, ht, Bool.or_eq_false_iff]

theorem pkg_convArr_msgs : ∀ (i : Nat) (xs : JArr),
    ((PKG.convertArr i xs).2.2 = []) ↔ (PKG.convertArr i xs).2.1 = false
  | _, .nil => by simp [PKG.convertArr]
  | i, .cons v t => by
    have ht := pkg_convArr_msgs (i + 1) t
    match v with
    | .str s =>
      by_cases h : isPlusNum s = true <;>
        simp [PKG.convertArr, h, ht]
    | .null | .bool _ | .num _ =>
      simp [PKG.convertArr, PKG.convert_plus_number_strings, ht]
    | .arr xs2 =>
      have hv := pkg_conv_msgs (.arr xs2)
      simp [PKG.convertArr, hv, ht, Bool.or_eq_false_iff]
    | .obj o2 =>
      have hv := pkg_conv_msgs (.obj o2)
      simp [PKG.convertArr, hv, ht, Bool.or_eq_false_iff]

end

/-! ### The convert pass equals the spec-side normalization -/

mutual

theorem specEntry_eq_convVal : ∀ v : JVal, plusNormSpecEntry v = convVal v
  | .str s => rfl
  | .null => rfl
  | .bool _ => rfl
  | .num _ => rfl
  | .arr xs => by
    have h := specArr_eq_convArr xs
    simp [plusNormSpecEntry, convVal, convert_arr_def, h]
  | .obj o => by
    have h := specObj_eq_convObj o
    simp [plusNormSpecEntry, convVal, convert_obj_def, h]

theorem specArr_eq_convArr : ∀ xs : JArr, plusNormSpecArr xs = (CRP.convertArr xs).1
  | .nil => rfl
  | .cons v t => by
    rw [convertArr_cons]
    simp [plusNormSpecArr, specEntry_eq_convVal v, specArr_eq_convArr t]

theorem specObj_eq_convObj : ∀ o : JObj, plusNormSpecObj o = (CRP.convertObj o).1
  | .nil => rfl
  | .cons k v t => by
    rw [convertObj_cons]
    simp [plusNormSpecObj, specEntry_eq_convVal v, specObj_eq_convObj t]

end

theorem spec_eq_convert (v : JVal) :
    (CRP.convert_plus_number_strings v).1 = plusNormSpec v := by
  match v with
  | .null | .bool _ | .num _ | .str _ => rfl
  | .arr xs => simp [convert_arr_def, plusNormSpec, specArr_eq_convArr xs]
  | .obj o => simp [convert_obj_def, plusNormSpec, specObj_eq_convObj o]

/-! ### Plus-number strings render the advertised integer -/

theorem pyStripList_no_space (l : List Char) (h : ∀ c ∈ l, pyIsSpace c = false) :
    pyStripList l = l := by
  rw [pyStripList_eq]
  have h1 : List.dropWhile pyIsSpace l = l := by
    rw [List.dropWhile_eq_self_iff]
    intro hl
    rw [h _ (List.get_mem l _ _)]
    simp
  rw [h1, List.rdropWhile_eq_self_iff]
  intro hl
  rw [h _ (List.getLast_mem hl)]
  simp

theorem natDigits_ne_nil (n : Nat) : natDigits n ≠ [] := by
  by_cases h : n < 10
  · rw [natDigits_lt h]; simp
  · rw [natDigits_ge h]; simp

theorem plusNumVal_natStr (n : Nat) : plusNumVal ("+" ++ natStr n) = Int.ofNat n := by
  have hdata : ("+" ++ natStr n).data = '+' :: natDigits n := by
    show ("+" ++ natStr n).data = '+' :: natDigits n
    rw [natStr_eq]
    rfl
  have hns : ∀ c ∈ '+' :: natDigits n, pyIsSpace c = false := by
    intro c hc
    rcases List.mem_cons.mp hc with rfl | hc
    · decide
    · exact isDigit_not_space (natDigits_isDigit n c hc)
  have hstrip : pyStripList ("+" ++ natStr n).data = '+' :: natDigits n := by
    rw [hdata]
    exact pyStripList_no_space _ hns
  unfold plusNumVal plusDigits
  rw [hstrip]
  have hne : (natDigits n).isEmpty = false := by
    cases hd : natDigits n with
    | nil => exact absurd hd (natDigits_ne_nil n)
    | cons c cs => rfl
  have hall : (natDigits n).all Char.isDigit = true := by
    rw [List.all_eq_true]
    exact natDigits_isDigit n
  simp [hne, hall, decToNat_natDigits]

theorem pkg_convObj_fst (o : JObj) : (PKG.convertObj o).1 = (CRP.convertObj o).1 :=
  (pkg_convObj_eq o).1

theorem pkg_convObj_flag (o : JObj) : (PKG.convertObj o).2.1 = (CRP.convertObj o).2 :=
  (pkg_convObj_eq o).2

/-- Both repair pipelines end with the numeric pass, so their outputs
carry no plus-number strings. -/
theorem noPlus_repair_actor (d : JObj) : noPlusObj (CRP.repair_actor_doc d).1 = true := by
  unfold CRP.repair_actor_doc
  split
  · exact noPlusObj_convertObj _
  · exact noPlusObj_convertObj _

theorem noPlus_repair_doc (d : JObj) : noPlusObj (PKG.repair_doc d).1 = true := by
  unfold PKG.repair_doc
  split
  · simp only [pkg_convObj_fst]
    exact noPlusObj_convertObj _
  · simp only [pkg_convObj_fst]
    exact noPlusObj_convertObj _

/-- C8: after either script's repair, no string value anywhere in the
document (mapping values and sequence elements, at any depth) matches
the trimmed plus-number pattern; both scripts' conversion passes equal
the spec-side normalization (each matching string replaced in place by
its integer, nothing else altered); the integer is the digits' base-10
value with the sign dropped. -/
theorem C8_numeric_normalization :
    (∀ d : JObj, noPlusObj (CRP.repair_actor_doc d).1 = true) ∧
      (∀ d : JObj, noPlusObj (PKG.repair_doc d).1 = true) ∧
      (∀ v : JVal, (CRP.convert_plus_number_strings v).1 = plusNormSpec v) ∧
      (∀ v : JVal, (PKG.convert_plus_number_strings v).1 = plusNormSpec v) ∧
      (∀ n : Nat, plusNumVal ("+" ++ natStr n) = Int.ofNat n) :=
  ⟨noPlus_repair_actor, noPlus_repair_doc, spec_eq_convert,
   fun v => by rw [(pkg_conv_eq v).1, spec_eq_convert v], plusNumVal_natStr⟩

/-- C3 amended: the numeric-string pass is applied to exactly the
documents that pass the type filter (regardless of whether they carry
the targeted trait container); documents failing the filter receive no
repair at all, the numeric pass included. -/
theorem C3_amended :
    (∀ d : JObj, CRP.should_patch_doc d = false → CRP.processDoc d = d) ∧
      (∀ d : JObj, CRP.should_patch_doc d = true →
        CRP.processDoc d = (CRP.repair_actor_doc d).1 ∧
          noPlusObj (CRP.processDoc d) = true) ∧
      (∀ d : JObj, d.get "type" ≠ some (JVal.str "npc") → PKG.processDoc true d = d) ∧
      (∀ (b : Bool) (d : JObj), d.get "type" = some (JVal.str "npc") ∨ b = false →
        PKG.processDoc b d = (PKG.repair_doc d).1 ∧
          noPlusObj (PKG.processDoc b d) = true) := by
  refine ⟨fun d h => ?_, fun d h => ?_, fun d h => ?_, fun b d h => ?_⟩
  · simp [CRP.processDoc, h]
  · constructor
    · simp [CRP.processDoc, h]
    · simp only [CRP.processDoc, h, if_pos]
      exact noPlus_repair_actor d
  · simp [PKG.processDoc, h]
  · have hc : (b && !(decide (d.get "type" = some (JVal.str "npc")))) = false := by
      rcases h with h | h
      · simp [h]
      · simp [h]
    exact ⟨by simp [PKG.processDoc, hc], by
      simp only [PKG.processDoc, hc, Bool.false_eq_true, if_false]
      exact noPlus_repair_doc d⟩

/-- Witness for C3 amended at concrete documents. -/
theorem C3_amended_witness :
    CRP.processDoc Ex.exWeapon = Ex.exWeapon ∧
      CRP.processDoc Ex.exNpcPlus = (CRP.repair_actor_doc Ex.exNpcPlus).1 ∧
      PKG.processDoc true Ex.exWeapon = Ex.exWeapon ∧
      PKG.processDoc false Ex.exWeapon = (PKG.repair_doc Ex.exWeapon).1 :=
  ⟨C3_amended.1 Ex.exWeapon (by decide),
   (C3_amended.2.1 Ex.exNpcPlus (by decide)).1,
   C3_amended.2.2.1 Ex.exWeapon (by decide),
   (C3_amended.2.2.2 false Ex.exWeapon (Or.inr rfl)).1⟩

/-! ### Path decomposition lemmas -/

theorem getPath_one {o : JObj} {a : String} {w : JVal} (h : o.getPath [a] = some w) :
    o.get a = some w := by
  unfold JObj.getPath JVal.getPath at h
  cases h2 : o.get a with
  | some v =>
    rw [h2] at h
    simp only [JVal.getPath] at h
    exact h
  | none => rw [h2] at h; simp at h

theorem getPath_cons_decomp {o : JObj} {a b : String} {ps : List String} {w : JVal}
    (h : o.getPath (a :: b :: ps) = some w) :
    ∃ sub : JObj, o.get a = some (.obj sub) ∧ sub.getPath (b :: ps) = some w := by
  unfold JObj.getPath JVal.getPath at h
  cases h2 : o.get a with
  | some v =>
    rw [h2] at h
    have h3 : JVal.getPath v (b :: ps) = some w := h
    obtain ⟨sub, rfl⟩ := getPath_cons_obj h3
    exact ⟨sub, rfl, h3⟩
  | none => rw [h2] at h; simp at h

theorem getPath_cons_build {o : JObj} {a : String} {ps : List String} {sub : JObj}
    (h1 : o.get a = some (.obj sub)) :
    o.getPath (a :: ps) = sub.getPath ps := by
  unfold JObj.getPath JVal.getPath
  rw [h1]
  cases ps <;> rfl

theorem ensureDictPath_cons {o : JObj} {k : String} {sub : JObj}
    (h : o.get k = some (.obj sub)) (ps : List String) :
    o.ensureDictPath (k :: ps) = o.set k (.obj (sub.ensureDictPath ps)) := by
  simp only [JObj.ensureDictPath, h]

theorem setPath_cons {o : JObj} {a : String} {sub : JObj}
    (h : o.get a = some (.obj sub)) (b : String) (ps : List String) (nv : JVal) :
    o.setPath (a :: b :: ps) nv = o.set a (.obj (sub.setPath (b :: ps) nv)) := by
  simp only [JObj.setPath, h]

theorem setPath_single (o : JObj) (a : String) (nv : JVal) :
    o.setPath [a] nv = o.set a nv := rfl

/-- `ensure_dict_path` is the identity when the whole path already
resolves to dicts. -/
theorem ensureDictPath_resolved {doc sys tr lang : JObj}
    (hs : doc.get "system" = some (.obj sys))
    (ht : sys.get "traits" = some (.obj tr))
    (hl : tr.get "languages" = some (.obj lang)) :
    doc.ensureDictPath ["system", "traits", "languages"] = doc := by
  rw [ensureDictPath_cons hs, ensureDictPath_cons ht, ensureDictPath_cons hl]
  rw [show JObj.ensureDictPath lang [] = lang from rfl]
  rw [set_get_self tr hl, set_get_self sys ht, set_get_self doc hs]

/-- Writing `languages.value` does not change reads along
`system.traits.<key>` for another key. -/
theorem setPath4_getPath_trait {doc sys tr lang : JObj} (nv : JVal) {key : String}
    (hs : doc.get "system" = some (.obj sys))
    (ht : sys.get "traits" = some (.obj tr))
    (hl : tr.get "languages" = some (.obj lang))
    (hk : key ≠ "languages") (rest : List String) :
    (doc.setPath ["system", "traits", "languages", "value"] nv).getPath
        ("system" :: "traits" :: key :: rest) =
      doc.getPath ("system" :: "traits" :: key :: rest) := by
  rw [setPath_cons hs, setPath_cons ht, setPath_cons hl, setPath_single]
  rw [getPath_cons_build (get_set_eq doc "system" _), getPath_cons_build hs,
    getPath_cons_build (get_set_eq sys "traits" _), getPath_cons_build ht]
  unfold JObj.getPath JVal.getPath
  rw [get_set_ne tr _ (Ne.symm hk)]

/-- The languages step does not change reads along `system.traits.<key>`
for another key. -/
theorem langStep_getPath_trait (doc : JObj) {key : String} (hk : key ≠ "languages")
    (rest : List String) :
    (CRP.langStep doc).1.getPath ("system" :: "traits" :: key :: rest) =
      doc.getPath ("system" :: "traits" :: key :: rest) := by
  unfold CRP.langStep
  match h : doc.getPath ["system", "traits", "languages", "value"] with
  | some (.arr xs) =>
    simp only [h]
    by_cases hn : countNulls xs ≠ 0
    · simp only [if_pos hn]
      obtain ⟨sys, hs, h2⟩ := getPath_cons_decomp h
      obtain ⟨tr, ht, h3⟩ := getPath_cons_decomp h2
      obtain ⟨lang, hl, _⟩ := getPath_cons_decomp h3
      rw [ensureDictPath_resolved hs ht hl]
      exact setPath4_getPath_trait _ hs ht hl hk rest
    · simp only [if_neg hn]
  | some .null => simp only [h]
  | some (.bool _) => simp only [h]
  | some (.num _) => simp only [h]
  | some (.str _) => simp only [h]
  | some (.obj _) => simp only [h]
  | none => simp only [h]

/-! ### ensure_trait_arrays postconditions -/

theorem valueStep_value (tr : JObj) (key : String) :
    ∃ vs, (CRP.valueStep tr key).1.get "value" = some (.arr vs) ∧ allGood vs = true := by
  unfold CRP.valueStep
  split
  · exact ⟨.nil, by rw [get_set_eq], rfl⟩
  · exact ⟨.nil, by rw [get_set_eq], rfl⟩
  · exact ⟨strToListArr _, by rw [get_set_eq], allGood_strToListArr _⟩
  · next xs h =>
    dsimp only
    by_cases hcl : cleanList xs = xs
    · rw [if_pos hcl]
      exact ⟨xs, h, allGood_of_cleanList_eq xs hcl⟩
    · rw [if_neg hcl]
      exact ⟨cleanList xs, by rw [get_set_eq], allGood_cleanList xs⟩
  · exact ⟨.nil, by rw [get_set_eq], rfl⟩

theorem valueStep_get_ne (tr : JObj) (key f : String) (hf : f ≠ "value") :
    (CRP.valueStep tr key).1.get f = tr.get f := by
  unfold CRP.valueStep
  split
  · exact get_set_ne tr _ (Ne.symm hf)
  · exact get_set_ne tr _ (Ne.symm hf)
  · exact get_set_ne tr _ (Ne.symm hf)
  · next xs h =>
    dsimp only
    by_cases hcl : cleanList xs = xs
    · rw [if_pos hcl]
    · rw [if_neg hcl]
      exact get_set_ne tr _ (Ne.symm hf)
  · exact get_set_ne tr _ (Ne.symm hf)

theorem customStep_field (tr : JObj) (key field : String) :
    (∀ s, (CRP.customStep tr key field).1.get field ≠ some (.str s)) ∧
      (∀ xs, (CRP.customStep tr key field).1.get field = some (.arr xs) →
        allGood xs = true) := by
  unfold CRP.customStep
  split
  · next s hget =>
    constructor
    · intro s' he
      rw [get_set_eq] at he
      simp at he
    · intro xs he
      rw [get_set_eq] at he
      have h1 : strToListArr s = xs := by
        injection he with h2
        injection h2
      exact h1 ▸ allGood_strToListArr s
  · next xs h =>
    dsimp only
    by_cases hcl : cleanList xs = xs
    · rw [if_pos hcl]
      constructor
      · intro s' he
        rw [h] at he
        simp at he
      · intro xs' he
        rw [h] at he
        have h1 : xs = xs' := by
          injection he with h2
          injection h2
        exact h1 ▸ allGood_of_cleanList_eq xs hcl
    · rw [if_neg hcl]
      constructor
      · intro s' he
        rw [get_set_eq] at he
        simp at he
      · intro xs' he
        rw [get_set_eq] at he
        have h1 : cleanList xs = xs' := by
          injection he with h2
          injection h2
        exact h1 ▸ allGood_cleanList xs
  · next hns hna =>
    constructor
    · intro s' he
      exact hns s' he
    · intro xs' he
      exact absurd he (hna xs')

theorem customStep_get_ne (tr : JObj) (key field f : String) (hf : f ≠ field) :
    (CRP.customStep tr key field).1.get f = tr.get f := by
  unfold CRP.customStep
  split
  · exact get_set_ne tr _ (Ne.symm hf)
  · next xs h =>
    dsimp only
    by_cases hcl : cleanList xs = xs
    · rw [if_pos hcl]
    · rw [if_neg hcl]
      exact get_set_ne tr _ (Ne.symm hf)
  · rfl

/-- The entry `ensure_trait_arrays` leaves at its key: a dict whose
`value` is a clean list and whose `custom`/`customTotal` are never
strings, and clean when lists. -/
theorem ensure_entry (traits : JObj) (key : String) :
    ∃ e : JObj, (CRP.ensure_trait_arrays traits key).1.get key = some (.obj e) ∧
      (∃ vs, e.get "value" = some (.arr vs) ∧ allGood vs = true) ∧
      (∀ f, f = "custom" ∨ f = "customTotal" →
        (∀ s, e.get f ≠ some (.str s)) ∧
        (∀ xs, e.get f = some (.arr xs) → allGood xs = true)) := by
  unfold CRP.ensure_trait_arrays
  refine ⟨_, by rw [get_set_eq], ?_, ?_⟩
  · -- value: customTotal and custom steps preserve it
    rw [customStep_get_ne _ key "customTotal" "value" (by decide),
      customStep_get_ne _ key "custom" "value" (by decide)]
    exact valueStep_value _ key
  · intro f hf
    rcases hf with rfl | rfl
    · -- custom: preserved by the customTotal step
      rw [customStep_get_ne _ key "customTotal" "custom" (by decide)]
      exact customStep_field _ key "custom"
    · exact customStep_field _ key "customTotal"

/-- `ensure_trait_arrays` does not touch other keys of the traits
dict. -/
theorem ensure_get_ne (traits : JObj) (key q : String) (hq : q ≠ key) :
    (CRP.ensure_trait_arrays traits key).1.get q = traits.get q := by
  unfold CRP.ensure_trait_arrays
  rw [get_set_ne _ _ (Ne.symm hq)]
  split
  · rfl
  · exact get_set_ne traits _ (Ne.symm hq)

theorem getPath_single (o : JObj) (a : String) : o.getPath [a] = o.get a := by
  unfold JObj.getPath JVal.getPath
  cases o.get a with
  | some v => simp [JVal.getPath]
  | none => rfl

theorem convVal_arr (xs : JArr) : convVal (.arr xs) = .arr (CRP.convertArr xs).1 := by
  simp [convVal, convert_arr_def]

theorem convVal_obj (o : JObj) : convVal (.obj o) = .obj (CRP.convertObj o).1 := by
  simp [convVal, convert_obj_def]

theorem getPath_convertObj_doc (o : JObj) (p : List String) :
    JObj.getPath (CRP.convertObj o).1 p = (o.getPath p).map convVal := by
  have h := getPath_convVal p (.obj o)
  rw [convVal_obj] at h
  exact h

theorem convVal_eq_str {x : JVal} {s : String} (h : convVal x = .str s) : x = .str s := by
  match x with
  | .str s0 =>
    by_cases hp : isPlusNum s0 = true
    · simp only [convVal, if_pos hp] at h
      exact absurd h (by simp)
    · simp only [convVal, if_neg hp] at h
      exact h
  | .null | .bool _ | .num _ => simp [convVal, CRP.convert_plus_number_strings] at h
  | .arr xs => simp [convVal_arr] at h
  | .obj o => simp [convVal_obj] at h

theorem convVal_eq_arr {x : JVal} {ys : JArr} (h : convVal x = .arr ys) :
    ∃ xs0, x = .arr xs0 ∧ (CRP.convertArr xs0).1 = ys := by
  match x with
  | .arr xs0 =>
    refine ⟨xs0, rfl, ?_⟩
    rw [convVal_arr] at h
    injection h
  | .str s0 =>
    by_cases hp : isPlusNum s0 = true <;> simp [convVal, hp] at h
  | .null | .bool _ | .num _ => simp [convVal, CRP.convert_plus_number_strings] at h
  | .obj o => simp [convVal_obj] at h

/-- The combined eres/dr/dv pass leaves a clean entry at each key. -/
theorem ensure3_entry (t0 : JObj) (key : String)
    (hk : key = "eres" ∨ key = "dr" ∨ key = "dv") :
    ∃ ek : JObj,
      (CRP.ensure_trait_arrays (CRP.ensure_trait_arrays
          (CRP.ensure_trait_arrays t0 "eres").1 "dr").1 "dv").1.get key =
          some (.obj ek) ∧
        (∃ vs, ek.get "value" = some (.arr vs) ∧ allGood vs = true) ∧
        (∀ f, f = "custom" ∨ f = "customTotal" →
          (∀ s, ek.get f ≠ some (.str s)) ∧
          (∀ xs, ek.get f = some (.arr xs) → allGood xs = true)) := by
  rcases hk with rfl | rfl | rfl
  · obtain ⟨e, he, hprops⟩ := ensure_entry t0 "eres"
    refine ⟨e, ?_, hprops⟩
    rw [ensure_get_ne _ "dv" "eres" (by decide), ensure_get_ne _ "dr" "eres" (by decide), he]
  · obtain ⟨e, he, hprops⟩ := ensure_entry (CRP.ensure_trait_arrays t0 "eres").1 "dr"
    refine ⟨e, ?_, hprops⟩
    rw [ensure_get_ne _ "dv" "dr" (by decide), he]
  · exact ensure_entry _ "dv"

/-- Shape of the entry the first normalizer leaves at each configured
trait key (shared by the C1 and C2 theorems). -/
theorem repair_entry_shape (d : JObj) (t0 : JObj)
    (h : d.getPath ["system", "traits"] = some (.obj t0))
    (key : String) (hk : key = "eres" ∨ key = "dr" ∨ key = "dv") :
    ∃ e : JObj,
      JObj.getPath (CRP.repair_actor_doc d).1 ["system", "traits", key] =
          some (.obj e) ∧
        (∃ vs, e.get "value" = some (.arr vs) ∧ allGoodOrNum vs = true) ∧
        (∀ f, f = "custom" ∨ f = "customTotal" →
          (∀ s, e.get f ≠ some (.str s)) ∧
          (∀ xs, e.get f = some (.arr xs) → allGoodOrNum xs = true)) := by
  obtain ⟨ek, hek, ⟨vs, hvs, hgood⟩, hcust⟩ := ensure3_entry t0 key hk
  have hklang : key ≠ "languages" := by
    rcases hk with rfl | rfl | rfl <;> decide
  unfold CRP.repair_actor_doc
  simp only [h]
  refine ⟨(CRP.convertObj ek).1, ?_, ?_, ?_⟩
  · rw [getPath_convertObj_doc]
    rw [langStep_getPath_trait _ hklang]
    rw [show ("system" :: "traits" :: key :: ([] : List String)) =
      "system" :: (["traits"] ++ [key]) from rfl]
    rw [getPath_setPath_append "system" ["traits"] d _ [key] h]
    have : JVal.getPath (.obj (CRP.ensure_trait_arrays (CRP.ensure_trait_arrays
        (CRP.ensure_trait_arrays t0 "eres").1 "dr").1 "dv").1) [key] =
        some (.obj ek) := by
      rw [show JVal.getPath (JVal.obj (CRP.ensure_trait_arrays (CRP.ensure_trait_arrays
        (CRP.ensure_trait_arrays t0 "eres").1 "dr").1 "dv").1) [key] =
        JObj.getPath (CRP.ensure_trait_arrays (CRP.ensure_trait_arrays
        (CRP.ensure_trait_arrays t0 "eres").1 "dr").1 "dv").1 [key] from rfl]
      rw [getPath_single]
      exact hek
    rw [this]
    rw [Option.map_some', convVal_obj]
  · refine ⟨(CRP.convertArr vs).1, ?_, allGoodOrNum_convertArr vs hgood⟩
    rw [get_convertObj, hvs, Option.map_some', convVal_arr]
  · intro f hf
    obtain ⟨hns, hna⟩ := hcust f hf
    constructor
    · intro s' he
      rw [get_convertObj] at he
      match hx : ek.get f with
      | some x =>
        rw [hx, Option.map_some'] at he
        injection he with he1
        exact hns s' (by rw [hx, convVal_eq_str he1])
      | none => rw [hx] at he; simp at he
    · intro xs' he
      rw [get_convertObj] at he
      match hx : ek.get f with
      | some x =>
        rw [hx, Option.map_some'] at he
        injection he with he1
        obtain ⟨xs0, rfl, hconv⟩ := convVal_eq_arr he1
        rw [← hconv]
        exact allGoodOrNum_convertArr xs0 (hna xs0 hx)
      | none => rw [hx] at he; simp at he

/-- C2 amended: after the first normalizer, each configured trait entry
(`eres`/`dr`/`dv`) is a mapping whose `value` is a sequence of entries
that are each a non-blank string or an integer produced by the numeric
pass, and whose `custom`/`customTotal` are never strings and carry the
same entry property when they are sequences.  (The unamended claim —
entries are always non-empty strings — fails because the numeric pass
runs after the trait repair; and the second normalizer gives no such
guarantee for `value` at all.) -/
theorem C2_amended (d : JObj) (t0 : JObj)
    (h : d.getPath ["system", "traits"] = some (.obj t0))
    (key : String) (hk : key = "eres" ∨ key = "dr" ∨ key = "dv") :
    ∃ e : JObj,
      JObj.getPath (CRP.repair_actor_doc d).1 ["system", "traits", key] =
          some (.obj e) ∧
        (∃ vs, e.get "value" = some (.arr vs) ∧ allGoodOrNum vs = true) ∧
        (∀ f, f = "custom" ∨ f = "customTotal" →
          (∀ s, e.get f ≠ some (.str s)) ∧
          (∀ xs, e.get f = some (.arr xs) → allGoodOrNum xs = true)) :=
  repair_entry_shape d t0 h key hk

/-! ### noPlus preservation -/

theorem noPlusObj_get : ∀ (o : JObj) {k : String} {w : JVal},
    noPlusObj o = true → o.get k = some w → noPlusVal w = true
  | .nil, k, w, _, hg => by simp [JObj.get] at hg
  | .cons k' v t, k, w, hnp, hg => by
    simp only [noPlusObj, Bool.and_eq_true] at hnp
    by_cases h : k' = k
    · subst h
      simp only [JObj.get, if_pos rfl] at hg
      injection hg with hg
      exact hg ▸ hnp.1
    · simp only [JObj.get, if_neg h] at hg
      exact noPlusObj_get t hnp.2 hg

theorem noPlusObj_set : ∀ (o : JObj) (k : String) (v : JVal),
    noPlusObj o = true → noPlusVal v = true → noPlusObj (o.set k v) = true
  | .nil, k, v, _, hv => by simp [JObj.set, noPlusObj, hv]
  | .cons k' v' t, k, v, hnp, hv => by
    simp only [noPlusObj, Bool.and_eq_true] at hnp
    by_cases h : k' = k
    · subst h
      simp [JObj.set, noPlusObj, hv, hnp.2]
    · simp [JObj.set, h, noPlusObj, hnp.1, noPlusObj_set t k v hnp.2 hv]

theorem noPlusObj_setPath : ∀ (p : List String) (o : JObj) (v : JVal),
    noPlusObj o = true → noPlusVal v = true → noPlusObj (o.setPath p v) = true
  | [], o, v, hnp, _ => hnp
  | [a], o, v, hnp, hv => noPlusObj_set o a v hnp hv
  | a :: b :: ps, o, v, hnp, hv => by
    unfold JObj.setPath
    match h : o.get a with
    | some (.obj sub) =>
      have hsub : noPlusObj sub = true := by
        have := noPlusObj_get o hnp h
        simpa [noPlusVal] using this
      exact noPlusObj_set o a _ hnp (by
        simpa [noPlusVal] using noPlusObj_setPath (b :: ps) sub v hsub hv)
    | some .null => exact hnp
    | some (.bool _) => exact hnp
    | some (.num _) => exact hnp
    | some (.str _) => exact hnp
    | some (.arr _) => exact hnp
    | none => exact hnp

theorem noPlusArr_cleanList : ∀ xs : JArr, noPlusArr xs = true →
    noPlusArr (cleanList xs) = true
  | .nil, _ => rfl
  | .cons v t, h => by
    simp only [noPlusArr, Bool.and_eq_true] at h
    match v with
    | .str s =>
      by_cases hs : pyStrip s ≠ ""
      · simp only [cleanList, if_pos hs, noPlusArr]
        simp [h.1, noPlusArr_cleanList t h.2]
      · simp only [cleanList, if_neg hs]
        exact noPlusArr_cleanList t h.2
    | .null | .bool _ | .num _ | .arr _ | .obj _ =>
      simp only [cleanList]
      exact noPlusArr_cleanList t h.2

theorem noPlusArr_dropNulls : ∀ xs : JArr, noPlusArr xs = true →
    noPlusArr (dropNulls xs) = true
  | .nil, _ => rfl
  | .cons v t, h => by
    simp only [noPlusArr, Bool.and_eq_true] at h
    match v with
    | .null =>
      simp only [dropNulls]
      exact noPlusArr_dropNulls t h.2
    | .bool b => simp only [dropNulls, noPlusArr]; simp [h.1, noPlusArr_dropNulls t h.2]
    | .num n => simp only [dropNulls, noPlusArr]; simp [h.1, noPlusArr_dropNulls t h.2]
    | .str s => simp only [dropNulls, noPlusArr]; simp [h.1, noPlusArr_dropNulls t h.2]
    | .arr a => simp only [dropNulls, noPlusArr]; simp [h.1, noPlusArr_dropNulls t h.2]
    | .obj o => simp only [dropNulls, noPlusArr]; simp [h.1, noPlusArr_dropNulls t h.2]

theorem countNulls_dropNulls : ∀ xs : JArr, countNulls (dropNulls xs) = 0
  | .nil => rfl
  | .cons v t => by
    match v with
    | .null => simp only [dropNulls]; exact countNulls_dropNulls t
    | .bool b => simp only [dropNulls, countNulls]; exact countNulls_dropNulls t
    | .num n => simp only [dropNulls, countNulls]; exact countNulls_dropNulls t
    | .str s => simp only [dropNulls, countNulls]; exact countNulls_dropNulls t
    | .arr a => simp only [dropNulls, countNulls]; exact countNulls_dropNulls t
    | .obj o => simp only [dropNulls, countNulls]; exact countNulls_dropNulls t

theorem noPlusObj_getPath : ∀ (p : List String) (o : JObj) {w : JVal},
    noPlusObj o = true → o.getPath p = some w → noPlusVal w = true
  | [], o, w, hnp, hg => by
    unfold JObj.getPath JVal.getPath at hg
    injection hg with hg
    exact hg ▸ (by simpa [noPlusVal] using hnp)
  | [a], o, w, hnp, hg => noPlusObj_get o hnp (getPath_one hg)
  | a :: b :: ps, o, w, hnp, hg => by
    obtain ⟨sub, hsub, hrest⟩ := getPath_cons_decomp hg
    have hs : noPlusObj sub = true := by
      simpa [noPlusVal] using noPlusObj_get o hnp hsub
    exact noPlusObj_getPath (b :: ps) sub hs hrest

theorem customStep_noPlus (tr : JObj) (key field : String)
    (hnp : noPlusObj tr = true)
    (hns : ∀ s, tr.get field ≠ some (.str s)) :
    noPlusObj (CRP.customStep tr key field).1 = true := by
  unfold CRP.customStep
  split
  · next s hget => exact absurd hget (hns s)
  · next xs hget =>
    dsimp only
    by_cases hcl : cleanList xs = xs
    · rw [if_pos hcl]; exact hnp
    · rw [if_neg hcl]
      have hxs : noPlusArr xs = true := by
        simpa [noPlusVal] using noPlusObj_get tr hnp hget
      exact noPlusObj_set tr field _ hnp
        (by simpa [noPlusVal] using noPlusArr_cleanList xs hxs)
  · exact hnp

theorem valueStep_noPlus (tr : JObj) (key : String) {vs : JArr}
    (hnp : noPlusObj tr = true) (hvs : tr.get "value" = some (.arr vs)) :
    noPlusObj (CRP.valueStep tr key).1 = true := by
  unfold CRP.valueStep
  simp only [hvs]
  by_cases hcl : cleanList vs = vs
  · rw [if_pos hcl]; exact hnp
  · rw [if_neg hcl]
    have hxs : noPlusArr vs = true := by
      simpa [noPlusVal] using noPlusObj_get tr hnp hvs
    exact noPlusObj_set tr "value" _ hnp
      (by simpa [noPlusVal] using noPlusArr_cleanList vs hxs)

/-- `ensure_trait_arrays` preserves the no-plus property when the entry
already has a list `value` and non-string custom fields (so the
tokenizer never runs). -/
theorem ensure_noPlus (traits : JObj) (key : String) {e : JObj}
    (hnp : noPlusObj traits = true)
    (hget : traits.get key = some (.obj e))
    (hval : ∃ vs, e.get "value" = some (.arr vs))
    (hc : ∀ s, e.get "custom" ≠ some (.str s))
    (hct : ∀ s, e.get "customTotal" ≠ some (.str s)) :
    noPlusObj (CRP.ensure_trait_arrays traits key).1 = true := by
  have hE : noPlusObj e = true := by
    simpa [noPlusVal] using noPlusObj_get traits hnp hget
  obtain ⟨vs, hvs⟩ := hval
  have h1 : noPlusObj (CRP.valueStep e key).1 = true := valueStep_noPlus e key hE hvs
  have hv1 : (CRP.valueStep e key).1.get "custom" = e.get "custom" :=
    valueStep_get_ne e key "custom" (by decide)
  have hv2 : (CRP.valueStep e key).1.get "customTotal" = e.get "customTotal" :=
    valueStep_get_ne e key "customTotal" (by decide)
  have h2 : noPlusObj (CRP.customStep (CRP.valueStep e key).1 key "custom").1 = true :=
    customStep_noPlus _ key "custom" h1 (fun s => hv1 ▸ hc s)
  have hc2 : (CRP.customStep (CRP.valueStep e key).1 key "custom").1.get "customTotal" =
      e.get "customTotal" := by
    rw [customStep_get_ne _ key "custom" "customTotal" (by decide), hv2]
  have h3 : noPlusObj (CRP.customStep (CRP.customStep (CRP.valueStep e key).1 key
      "custom").1 key "customTotal").1 = true :=
    customStep_noPlus _ key "customTotal" h2 (fun s => hc2 ▸ hct s)
  unfold CRP.ensure_trait_arrays
  simp only [hget]
  exact noPlusObj_set traits key _ hnp (by simpa [noPlusVal] using h3)

theorem langStep_noPlus (doc : JObj) (hnp : noPlusObj doc = true) :
    noPlusObj (CRP.langStep doc).1 = true := by
  unfold CRP.langStep
  match h : doc.getPath ["system", "traits", "languages", "value"] with
  | some (.arr xs) =>
    simp only [h]
    by_cases hn : countNulls xs ≠ 0
    · simp only [if_pos hn]
      obtain ⟨sys, hs, h2⟩ := getPath_cons_decomp h
      obtain ⟨tr, ht, h3⟩ := getPath_cons_decomp h2
      obtain ⟨lang, hl, h4⟩ := getPath_cons_decomp h3
      rw [ensureDictPath_resolved hs ht hl]
      have hxs : noPlusArr xs = true := by
        simpa [noPlusVal] using noPlusObj_getPath _ doc hnp h
      exact noPlusObj_setPath _ doc _ hnp
        (by simpa [noPlusVal] using noPlusArr_dropNulls xs hxs)
    · simp only [if_neg hn]; exact hnp
  | some .null => simp only [h]; exact hnp
  | some (.bool _) => simp only [h]; exact hnp
  | some (.num _) => simp only [h]; exact hnp
  | some (.str _) => simp only [h]; exact hnp
  | some (.obj _) => simp only [h]; exact hnp
  | none => simp only [h]; exact hnp

theorem langStep_langNF (doc : JObj) :
    langNF ((CRP.langStep doc).1.getPath ["system", "traits", "languages", "value"]) =
      true := by
  unfold CRP.langStep
  match h : doc.getPath ["system", "traits", "languages", "value"] with
  | some (.arr xs) =>
    simp only [h]
    by_cases hn : countNulls xs ≠ 0
    · simp only [if_pos hn]
      obtain ⟨sys, hs, h2⟩ := getPath_cons_decomp h
      obtain ⟨tr, ht, h3⟩ := getPath_cons_decomp h2
      obtain ⟨lang, hl, h4⟩ := getPath_cons_decomp h3
      rw [ensureDictPath_resolved hs ht hl]
      have hread := getPath_setPath_append "system" ["traits", "languages", "value"] doc
        (JVal.arr (dropNulls xs)) [] h
      simp only [List.append_nil] at hread
      rw [hread]
      simp [JVal.getPath, langNF, countNulls_dropNulls]
    · simp only [if_neg hn]
      rw [h]
      simp only [langNF, decide_eq_true_eq]
      omega
  | some .null => simp only [h]; rfl
  | some (.bool _) => simp only [h]; rfl
  | some (.num _) => simp only [h]; rfl
  | some (.str _) => simp only [h]; rfl
  | some (.obj _) => simp only [h]; rfl
  | none => simp only [h]; rfl

theorem langStep_traits_obj {doc : JObj} {u : JObj}
    (hu : doc.getPath ["system", "traits"] = some (.obj u)) :
    ∃ u', (CRP.langStep doc).1.getPath ["system", "traits"] = some (.obj u') := by
  unfold CRP.langStep
  match h : doc.getPath ["system", "traits", "languages", "value"] with
  | some (.arr xs) =>
    simp only [h]
    by_cases hn : countNulls xs ≠ 0
    · simp only [if_pos hn]
      obtain ⟨sys, hs, h2⟩ := getPath_cons_decomp h
      obtain ⟨tr, ht, h3⟩ := getPath_cons_decomp h2
      obtain ⟨lang, hl, h4⟩ := getPath_cons_decomp h3
      rw [ensureDictPath_resolved hs ht hl]
      rw [setPath_cons hs, setPath_cons ht, setPath_cons hl, setPath_single]
      refine ⟨tr.set "languages" (.obj (lang.set "value" (.arr (dropNulls xs)))), ?_⟩
      rw [getPath_cons_build (get_set_eq doc "system" _), getPath_single, get_set_eq]
    · simp only [if_neg hn]; exact ⟨u, hu⟩
  | some .null => simp only [h]; exact ⟨u, hu⟩
  | some (.bool _) => simp only [h]; exact ⟨u, hu⟩
  | some (.num _) => simp only [h]; exact ⟨u, hu⟩
  | some (.str _) => simp only [h]; exact ⟨u, hu⟩
  | some (.obj _) => simp only [h]; exact ⟨u, hu⟩
  | none => simp only [h]; exact ⟨u, hu⟩

theorem customNF_of (x : Option JVal) (hns : ∀ s, x ≠ some (.str s))
    (hna : ∀ xs, x = some (.arr xs) → allGood xs = true) : customNF x = true := by
  match x with
  | some (.str s) => exact absurd rfl (hns s)
  | some (.arr xs) => simpa [customNF] using hna xs rfl
  | some .null | some (.bool _) | some (.num _) | some (.obj _) | none => rfl

theorem customStep_id (tr : JObj) (key field : String)
    (h : customNF (tr.get field) = true) :
    CRP.customStep tr key field = (tr, false, []) := by
  unfold CRP.customStep
  split
  · next s hget => rw [hget] at h; simp [customNF] at h
  · next xs hget =>
    rw [hget] at h
    simp only [customNF] at h
    dsimp only
    rw [if_pos (cleanList_eq_self xs h)]
  · rfl

theorem valueStep_id (tr : JObj) (key : String) {vs : JArr}
    (hvs : tr.get "value" = some (.arr vs)) (hgood : allGood vs = true) :
    CRP.valueStep tr key = (tr, false, []) := by
  unfold CRP.valueStep
  simp only [hvs]
  rw [if_pos (cleanList_eq_self vs hgood)]

theorem ensure_id (traits : JObj) (key : String)
    (h : traitEntryNF traits key = true) :
    CRP.ensure_trait_arrays traits key = (traits, false, []) := by
  unfold traitEntryNF at h
  match hget : traits.get key with
  | some (.obj e) =>
    rw [hget] at h
    simp only [Bool.and_eq_true] at h
    obtain ⟨hv, hc, hct⟩ := h
    have hvs : ∃ vs, e.get "value" = some (.arr vs) ∧ allGood vs = true := by
      match hx : e.get "value" with
      | some (.arr vs) => rw [hx] at hv; exact ⟨vs, rfl, hv⟩
      | some .null | some (.bool _) | some (.num _) | some (.str _) | some (.obj _) =>
        rw [hx] at hv; simp at hv
      | none => rw [hx] at hv; simp at hv
    obtain ⟨vs, hvsx, hgood⟩ := hvs
    unfold CRP.ensure_trait_arrays
    simp only [hget, valueStep_id e key hvsx hgood, customStep_id e key "custom" hc,
      customStep_id e key "customTotal" hct]
    rw [set_get_self traits hget]
    simp
  | some .null | some (.bool _) | some (.num _) | some (.str _) | some (.arr _) =>
    rw [hget] at h; simp at h
  | none => rw [hget] at h; simp at h

theorem langStep_id (doc : JObj)
    (h : langNF (doc.getPath ["system", "traits", "languages", "value"]) = true) :
    CRP.langStep doc = (doc, false, []) := by
  unfold CRP.langStep
  match hg : doc.getPath ["system", "traits", "languages", "value"] with
  | some (.arr xs) =>
    rw [hg] at h
    simp only [langNF, decide_eq_true_eq] at h
    simp only [hg, h]
    simp
  | some .null => simp only [hg]
  | some (.bool _) => simp only [hg]
  | some (.num _) => simp only [hg]
  | some (.str _) => simp only [hg]
  | some (.obj _) => simp only [hg]
  | none => simp only [hg]

/-- A document in normal form is a fixed point of the first normalizer,
with a false flag and an empty log. -/
theorem nf_fixed (d : JObj) (h : nfCRP d = true) :
    CRP.repair_actor_doc d = (d, false, []) := by
  unfold nfCRP at h
  simp only [Bool.and_eq_true] at h
  obtain ⟨hnp, hsh⟩ := h
  unfold CRP.repair_actor_doc
  match ht : d.getPath ["system", "traits"] with
  | some (.obj t) =>
    rw [ht] at hsh
    simp only [Bool.and_eq_true] at hsh
    obtain ⟨⟨⟨h1, h2⟩, h3⟩, hlang⟩ := hsh
    have hlang2 : langNF (d.getPath ["system", "traits", "languages", "value"]) = true := by
      rw [show (["system", "traits", "languages", "value"] : List String) =
        ["system", "traits"] ++ ["languages", "value"] from rfl]
      show langNF (JVal.getPath (.obj d) (["system", "traits"] ++ ["languages", "value"])) = true
      rw [getPath_append ["system", "traits"] (.obj d) ["languages", "value"]]
      rw [show JVal.getPath (.obj d) ["system", "traits"] =
        d.getPath ["system", "traits"] from rfl]
      rw [ht]
      exact hlang
    simp only [ht, ensure_id t "eres" h1]
    simp only [ensure_id t "dr" h2, ensure_id t "dv" h3]
    rw [setPath_self ["system", "traits"] d (.obj t) ht]
    rw [langStep_id d hlang2]
    simp only [convertObj_self d hnp]
    simp
  | some .null => simp only [ht, convertObj_self d hnp]; simp
  | some (.bool _) => simp only [ht, convertObj_self d hnp]; simp
  | some (.num _) => simp only [ht, convertObj_self d hnp]; simp
  | some (.str _) => simp only [ht, convertObj_self d hnp]; simp
  | some (.arr _) => simp only [ht, convertObj_self d hnp]; simp
  | none => simp only [ht, convertObj_self d hnp]; simp

/-- The traits-dict branch of `repair_actor_doc`, written out. -/
theorem repair_obj_branch (d t0 : JObj)
    (h : d.getPath ["system", "traits"] = some (.obj t0)) :
    CRP.repair_actor_doc d =
      (let e1 := CRP.ensure_trait_arrays t0 "eres"
       let e2 := CRP.ensure_trait_arrays e1.1 "dr"
       let e3 := CRP.ensure_trait_arrays e2.1 "dv"
       let doc1 := d.setPath ["system", "traits"] (.obj e3.1)
       let s4 := CRP.langStep doc1
       let s5 := CRP.convertObj s4.1
       (s5.1,
        (e1.2.1 || e2.2.1 || e3.2.1 || s4.2.1) || s5.2,
        (e1.2.2 ++ e2.2.2 ++ e3.2.2 ++ s4.2.2) ++
          (if s5.2 then ["global: converted +N strings"] else []))) := by
  unfold CRP.repair_actor_doc
  simp only [h]

/-- The other branch of `repair_actor_doc`, written out. -/
theorem repair_nonobj_branch (d : JObj)
    (h : ∀ u : JObj, d.getPath ["system", "traits"] ≠ some (.obj u)) :
    CRP.repair_actor_doc d = ((CRP.convertObj d).1, (CRP.convertObj d).2,
      if (CRP.convertObj d).2 then ["global: converted +N strings"] else []) := by
  unfold CRP.repair_actor_doc
  match hg : d.getPath ["system", "traits"] with
  | some (.obj u) => exact absurd hg (h u)
  | some .null => simp only [hg]
  | some (.bool _) => simp only [hg]
  | some (.num _) => simp only [hg]
  | some (.str _) => simp only [hg]
  | some (.arr _) => simp only [hg]
  | none => simp only [hg]

theorem getPath_traits_ext (o : JObj) {t1 : JObj}
    (h : o.getPath ["system", "traits"] = some (.obj t1)) (q : List String) :
    o.getPath ("system" :: "traits" :: q) = JVal.getPath (.obj t1) q := by
  obtain ⟨sys, hs, htr⟩ := getPath_cons_decomp h
  rw [getPath_cons_build hs, getPath_cons_build (getPath_one htr)]
  rfl

theorem getPath_traits_key (o : JObj) {t1 : JObj}
    (h : o.getPath ["system", "traits"] = some (.obj t1)) (key : String) :
    o.getPath ["system", "traits", key] = t1.get key := by
  rw [getPath_traits_ext o h [key]]
  exact getPath_single t1 key

theorem convVal_eq_obj {x : JVal} {u' : JObj} (h : convVal x = .obj u') :
    ∃ u, x = .obj u := by
  match x with
  | .obj u => exact ⟨u, rfl⟩
  | .str s0 =>
    by_cases hp : isPlusNum s0 = true <;> simp [convVal, hp] at h
  | .null | .bool _ | .num _ => simp [convVal, CRP.convert_plus_number_strings] at h
  | .arr xs => simp [convVal_arr] at h

/-- The repaired document keeps a dict at `system.traits` when the
input had one. -/
theorem repair_traits_obj {d t0 : JObj}
    (h : d.getPath ["system", "traits"] = some (.obj t0)) :
    ∃ t1, (CRP.repair_actor_doc d).1.getPath ["system", "traits"] = some (.obj t1) := by
  rw [repair_obj_branch d t0 h]
  have hd1 : (d.setPath ["system", "traits"]
      (.obj (CRP.ensure_trait_arrays (CRP.ensure_trait_arrays
        (CRP.ensure_trait_arrays t0 "eres").1 "dr").1 "dv").1)).getPath
      ["system", "traits"] = some (.obj (CRP.ensure_trait_arrays (CRP.ensure_trait_arrays
        (CRP.ensure_trait_arrays t0 "eres").1 "dr").1 "dv").1) := by
    have hx := getPath_setPath_append "system" ["traits"] d
      (.obj (CRP.ensure_trait_arrays (CRP.ensure_trait_arrays
        (CRP.ensure_trait_arrays t0 "eres").1 "dr").1 "dv").1) [] h
    simp only [List.append_nil] at hx
    rw [hx]
    simp [JVal.getPath]
  obtain ⟨u', hu'⟩ := langStep_traits_obj hd1
  refine ⟨(CRP.convertObj u').1, ?_⟩
  show JObj.getPath (CRP.convertObj _).1 _ = _
  rw [getPath_convertObj_doc, hu', Option.map_some', convVal_obj]

/-- A no-plus document without a traits dict is in normal form after
repair (the repair is in fact the identity on it). -/
theorem nf_of_nonobj (d1 : JObj) (hnp : noPlusObj d1 = true)
    (h : ∀ u : JObj, d1.getPath ["system", "traits"] ≠ some (.obj u)) :
    nfCRP (CRP.repair_actor_doc d1).1 = true := by
  rw [repair_nonobj_branch d1 h]
  have hconv := convertObj_self d1 hnp
  show nfCRP (CRP.convertObj d1).1 = true
  rw [hconv]
  unfold nfCRP
  simp only [hnp, Bool.true_and]

/-- A traits dict whose entry at `k` is a dict with a clean `value`
list and clean custom fields is in entry normal form. -/
theorem traitEntryNF_of (t : JObj) (k : String) {e : JObj}
    (hget : t.get k = some (.obj e)) {vs : JArr}
    (hvs : e.get "value" = some (.arr vs)) (hgood : allGood vs = true)
    (hc : customNF (e.get "custom") = true)
    (hct : customNF (e.get "customTotal") = true) :
    traitEntryNF t k = true := by
  unfold traitEntryNF
  rw [hget]
  simp [hvs, hgood, hc, hct]

/-- A no-plus document whose traits dict already has the dict/list
skeleton at the three configured keys (entry dict, `value` list,
non-string custom fields) lands in normal form after one more repair
run: the ensure steps only re-clean lists, and the numeric pass is
vacuous. -/
theorem nf_of_obj (d1 t1 : JObj) (hnp : noPlusObj d1 = true)
    (h : d1.getPath ["system", "traits"] = some (.obj t1))
    (hshape : ∀ key, key = "eres" ∨ key = "dr" ∨ key = "dv" →
      ∃ e : JObj, t1.get key = some (.obj e) ∧
        (∃ vs, e.get "value" = some (.arr vs)) ∧
        (∀ s, e.get "custom" ≠ some (.str s)) ∧
        (∀ s, e.get "customTotal" ≠ some (.str s))) :
    nfCRP (CRP.repair_actor_doc d1).1 = true := by
  obtain ⟨e1, he1, hv1, hc1, hct1⟩ := hshape "eres" (Or.inl rfl)
  obtain ⟨e2, he2, hv2, hc2, hct2⟩ := hshape "dr" (Or.inr (Or.inl rfl))
  obtain ⟨e3, he3, hv3, hc3, hct3⟩ := hshape "dv" (Or.inr (Or.inr rfl))
  have hnpt1 : noPlusObj t1 = true := by
    simpa [noPlusVal] using noPlusObj_getPath _ d1 hnp h
  have hE1 : noPlusObj (CRP.ensure_trait_arrays t1 "eres").1 = true :=
    ensure_noPlus t1 "eres" hnpt1 he1 hv1 hc1 hct1
  have he2x : (CRP.ensure_trait_arrays t1 "eres").1.get "dr" = some (.obj e2) := by
    rw [ensure_get_ne t1 "eres" "dr" (by decide)]; exact he2
  have hE2 : noPlusObj (CRP.ensure_trait_arrays
      (CRP.ensure_trait_arrays t1 "eres").1 "dr").1 = true :=
    ensure_noPlus _ "dr" hE1 he2x hv2 hc2 hct2
  have he3x : (CRP.ensure_trait_arrays
      (CRP.ensure_trait_arrays t1 "eres").1 "dr").1.get "dv" = some (.obj e3) := by
    rw [ensure_get_ne _ "dr" "dv" (by decide), ensure_get_ne t1 "eres" "dv" (by decide)]
    exact he3
  have hE3 : noPlusObj (CRP.ensure_trait_arrays (CRP.ensure_trait_arrays
      (CRP.ensure_trait_arrays t1 "eres").1 "dr").1 "dv").1 = true :=
    ensure_noPlus _ "dv" hE2 he3x hv3 hc3 hct3
  have hdoc1 : noPlusObj (d1.setPath ["system", "traits"]
      (.obj (CRP.ensure_trait_arrays (CRP.ensure_trait_arrays
        (CRP.ensure_trait_arrays t1 "eres").1 "dr").1 "dv").1)) = true :=
    noPlusObj_setPath _ d1 _ hnp (by simpa [noPlusVal] using hE3)
  have hd1x : (d1.setPath ["system", "traits"]
      (.obj (CRP.ensure_trait_arrays (CRP.ensure_trait_arrays
        (CRP.ensure_trait_arrays t1 "eres").1 "dr").1 "dv").1)).getPath
      ["system", "traits"] = some (.obj (CRP.ensure_trait_arrays
        (CRP.ensure_trait_arrays (CRP.ensure_trait_arrays t1 "eres").1
          "dr").1 "dv").1) := by
    have hx := getPath_setPath_append "system" ["traits"] d1
      (.obj (CRP.ensure_trait_arrays (CRP.ensure_trait_arrays
        (CRP.ensure_trait_arrays t1 "eres").1 "dr").1 "dv").1) [] h
    simp only [List.append_nil] at hx
    rw [hx]
    simp [JVal.getPath]
  obtain ⟨u1, hu1⟩ := langStep_traits_obj hd1x
  have hs4 : noPlusObj (CRP.langStep (d1.setPath ["system", "traits"]
      (.obj (CRP.ensure_trait_arrays (CRP.ensure_trait_arrays
        (CRP.ensure_trait_arrays t1 "eres").1 "dr").1 "dv").1))).1 = true :=
    langStep_noPlus _ hdoc1
  have hconv := convertObj_self _ hs4
  have hkey : ∀ key : String, key ≠ "languages" →
      u1.get key = (CRP.ensure_trait_arrays (CRP.ensure_trait_arrays
        (CRP.ensure_trait_arrays t1 "eres").1 "dr").1 "dv").1.get key := by
    intro key hkl
    rw [← getPath_traits_key _ hu1 key, langStep_getPath_trait _ hkl []]
    exact getPath_traits_key _ hd1x key
  rw [repair_obj_branch d1 t1 h]
  show nfCRP (CRP.convertObj (CRP.langStep (d1.setPath ["system", "traits"]
      (.obj (CRP.ensure_trait_arrays (CRP.ensure_trait_arrays
        (CRP.ensure_trait_arrays t1 "eres").1 "dr").1 "dv").1))).1).1 = true
  rw [hconv]
  show nfCRP (CRP.langStep (d1.setPath ["system", "traits"]
      (.obj (CRP.ensure_trait_arrays (CRP.ensure_trait_arrays
        (CRP.ensure_trait_arrays t1 "eres").1 "dr").1 "dv").1))).1 = true
  unfold nfCRP
  rw [hu1]
  simp only [hs4, Bool.true_and, Bool.and_eq_true]
  refine ⟨⟨⟨?_, ?_⟩, ?_⟩, ?_⟩
  · obtain ⟨ek, hekget, ⟨vs, hvs, hgood⟩, hcust⟩ := ensure3_entry t1 "eres" (Or.inl rfl)
    exact traitEntryNF_of u1 "eres" (by rw [hkey "eres" (by decide)]; exact hekget) hvs hgood
      (customNF_of _ (hcust "custom" (Or.inl rfl)).1 (hcust "custom" (Or.inl rfl)).2)
      (customNF_of _ (hcust "customTotal" (Or.inr rfl)).1 (hcust "customTotal" (Or.inr rfl)).2)
  · obtain ⟨ek, hekget, ⟨vs, hvs, hgood⟩, hcust⟩ :=
      ensure3_entry t1 "dr" (Or.inr (Or.inl rfl))
    exact traitEntryNF_of u1 "dr" (by rw [hkey "dr" (by decide)]; exact hekget) hvs hgood
      (customNF_of _ (hcust "custom" (Or.inl rfl)).1 (hcust "custom" (Or.inl rfl)).2)
      (customNF_of _ (hcust "customTotal" (Or.inr rfl)).1 (hcust "customTotal" (Or.inr rfl)).2)
  · obtain ⟨ek, hekget, ⟨vs, hvs, hgood⟩, hcust⟩ :=
      ensure3_entry t1 "dv" (Or.inr (Or.inr rfl))
    exact traitEntryNF_of u1 "dv" (by rw [hkey "dv" (by decide)]; exact hekget) hvs hgood
      (customNF_of _ (hcust "custom" (Or.inl rfl)).1 (hcust "custom" (Or.inl rfl)).2)
      (customNF_of _ (hcust "customTotal" (Or.inr rfl)).1 (hcust "customTotal" (Or.inr rfl)).2)
  · have hl := langStep_langNF (d1.setPath ["system", "traits"]
      (.obj (CRP.ensure_trait_arrays (CRP.ensure_trait_arrays
        (CRP.ensure_trait_arrays t1 "eres").1 "dr").1 "dv").1))
    rw [← getPath_traits_ext _ hu1 ["languages", "value"]]
    exact hl

/-- The numeric pass cannot create a traits dict where none was. -/
theorem traits_nonobj_convert (d : JObj)
    (h : ∀ u : JObj, d.getPath ["system", "traits"] ≠ some (.obj u)) :
    ∀ u : JObj, (CRP.convertObj d).1.getPath ["system", "traits"] ≠ some (.obj u) := by
  intro u hu
  rw [getPath_convertObj_doc] at hu
  match hg : d.getPath ["system", "traits"] with
  | some x =>
    rw [hg, Option.map_some'] at hu
    injection hu with hu1
    obtain ⟨u0, rfl⟩ := convVal_eq_obj hu1
    exact h u0 hg
  | none => rw [hg] at hu; exact Option.noConfusion hu

/-- Two runs on a document without a traits dict land in normal form. -/
theorem nf_establish_nonobj (d : JObj)
    (h : ∀ u : JObj, d.getPath ["system", "traits"] ≠ some (.obj u)) :
    nfCRP (CRP.repair_actor_doc (CRP.repair_actor_doc d).1).1 = true := by
  rw [repair_nonobj_branch d h]
  exact nf_of_nonobj (CRP.convertObj d).1 (noPlusObj_convertObj d)
    (traits_nonobj_convert d h)

/-- Two runs of the first normalizer reach its fixed-point set. -/
theorem nf_establish (d : JObj) :
    nfCRP (CRP.repair_actor_doc (CRP.repair_actor_doc d).1).1 = true := by
  match ht : d.getPath ["system", "traits"] with
  | some (.obj t0) =>
    obtain ⟨t1, ht1⟩ := repair_traits_obj ht
    refine nf_of_obj _ t1 (noPlus_repair_actor d) ht1 ?_
    intro key hk
    obtain ⟨e, he, ⟨vs, hvs, _⟩, hcust⟩ := repair_entry_shape d t0 ht key hk
    rw [getPath_traits_key _ ht1 key] at he
    exact ⟨e, he, ⟨vs, hvs⟩, (hcust "custom" (Or.inl rfl)).1,
      (hcust "customTotal" (Or.inr rfl)).1⟩
  | some .null => exact nf_establish_nonobj d (fun u hu => by rw [ht] at hu; simp at hu)
  | some (.bool _) => exact nf_establish_nonobj d (fun u hu => by rw [ht] at hu; simp at hu)
  | some (.num _) => exact nf_establish_nonobj d (fun u hu => by rw [ht] at hu; simp at hu)
  | some (.str _) => exact nf_establish_nonobj d (fun u hu => by rw [ht] at hu; simp at hu)
  | some (.arr _) => exact nf_establish_nonobj d (fun u hu => by rw [ht] at hu; simp at hu)
  | none => exact nf_establish_nonobj d (fun u hu => by rw [ht] at hu; simp at hu)

/-! ### Second normalizer: stabilization machinery -/

/-- The two scripts share the languages null-purge verbatim. -/
theorem pkg_langStep_eq (d : JObj) : PKG.langStep d = CRP.langStep d := rfl

/-- On a no-plus document the second script's numeric pass is the
identity with an empty log. -/
theorem pkg_convertObj_self (o : JObj) (hnp : noPlusObj o = true) :
    PKG.convertObj o = (o, false, []) := by
  have h1 : (PKG.convertObj o).1 = o := by
    rw [pkg_convObj_fst, convertObj_self o hnp]
  have h2 : (PKG.convertObj o).2.1 = false := by
    rw [pkg_convObj_flag, convertObj_self o hnp]
  have h3 : (PKG.convertObj o).2.2 = [] := (pkg_convObj_msgs o).2 h2
  calc PKG.convertObj o = ((PKG.convertObj o).1, (PKG.convertObj o).2.1,
      (PKG.convertObj o).2.2) := rfl
    _ = (o, false, []) := by rw [h1, h2, h3]

/-- A clean custom field is in particular not a string. -/
theorem customNF_nonstr {x : Option JVal} (h : customNF x = true) :
    ∀ s, x ≠ some (.str s) := by
  intro s he
  rw [he] at h
  simp [customNF] at h

/-- The second script's custom-field step does not touch other fields. -/
theorem pkg_customStep_get_ne (tr : JObj) (k f g : String) (hg : g ≠ f) :
    (PKG.customStep tr k f).1.get g = tr.get g := by
  unfold PKG.customStep
  split
  · exact get_set_ne tr _ (Ne.symm hg)
  · next xs h =>
    dsimp only
    by_cases hcl : cleanList xs = xs
    · rw [if_pos hcl]
    · rw [if_neg hcl]
      exact get_set_ne tr _ (Ne.symm hg)
  · rfl

/-- After the second script's custom-field step, the field is clean:
never a string, and a clean list whenever it is a list. -/
theorem pkg_customStep_customNF (tr : JObj) (k f : String) :
    customNF ((PKG.customStep tr k f).1.get f) = true := by
  unfold PKG.customStep
  split
  · next s hget =>
    rw [get_set_eq]
    show allGood (JArr.ofList ((str_to_list s).map JVal.str)) = true
    exact allGood_strToListArr s
  · next xs h =>
    dsimp only
    by_cases hcl : cleanList xs = xs
    · rw [if_pos hcl, h]
      show allGood xs = true
      exact allGood_of_cleanList_eq xs hcl
    · rw [if_neg hcl, get_set_eq]
      show allGood (cleanList xs) = true
      exact allGood_cleanList xs
  · next hns hna =>
    match hx : tr.get f with
    | some (.str s) => exact absurd hx (hns s)
    | some (.arr xs) => exact absurd hx (hna xs)
    | some .null => rfl
    | some (.bool b) => rfl
    | some (.num n) => rfl
    | some (.obj o2) => rfl
    | none => rfl

/-- The custom-field step preserves plus-freedom when the field was not
a string (the tokenizing branch cannot fire). -/
theorem pkg_customStep_noPlus (tr : JObj) (k f : String)
    (hnp : noPlusObj tr = true) (hns : ∀ s, tr.get f ≠ some (.str s)) :
    noPlusObj (PKG.customStep tr k f).1 = true := by
  unfold PKG.customStep
  split
  · next s hget => exact absurd hget (hns s)
  · next xs h =>
    dsimp only
    by_cases hcl : cleanList xs = xs
    · rw [if_pos hcl]; exact hnp
    · rw [if_neg hcl]
      have hxs : noPlusArr xs = true := by
        simpa [noPlusVal] using noPlusObj_get tr hnp h
      exact noPlusObj_set tr f _ hnp
        (by simpa [noPlusVal] using noPlusArr_cleanList xs hxs)
  · exact hnp

/-- A clean custom field is left alone by the custom-field step. -/
theorem pkg_customStep_id (tr : JObj) (k f : String)
    (h : customNF (tr.get f) = true) :
    PKG.customStep tr k f = (tr, false, []) := by
  unfold PKG.customStep
  split
  · next s hget => rw [hget] at h; simp [customNF] at h
  · next xs hget =>
    rw [hget] at h
    simp only [customNF] at h
    dsimp only
    rw [if_pos (cleanList_eq_self xs h)]
  · rfl

/-- The per-key custom step does not touch other trait keys. -/
theorem pkg_customKey_get_ne (traits : JObj) (k q : String) (hq : q ≠ k) :
    (PKG.customKey traits k).1.get q = traits.get q := by
  unfold PKG.customKey
  split
  · exact get_set_ne traits _ (Ne.symm hq)
  · rfl

/-- The per-key custom step on a dict entry: same `value`, clean custom
fields. -/
theorem pkg_customKey_entry (traits : JObj) (k : String) {tr : JObj}
    (hk : traits.get k = some (.obj tr)) :
    ∃ e, (PKG.customKey traits k).1.get k = some (.obj e) ∧
      e.get "value" = tr.get "value" ∧
      customNF (e.get "custom") = true ∧ customNF (e.get "customTotal") = true := by
  unfold PKG.customKey
  rw [hk]
  refine ⟨_, get_set_eq traits k _, ?_, ?_, ?_⟩
  · rw [pkg_customStep_get_ne _ k "customTotal" "value" (by decide),
      pkg_customStep_get_ne _ k "custom" "value" (by decide)]
  · rw [pkg_customStep_get_ne _ k "customTotal" "custom" (by decide)]
    exact pkg_customStep_customNF tr k "custom"
  · exact pkg_customStep_customNF _ k "customTotal"

/-- The per-key custom step skips non-dict entries. -/
theorem pkg_customKey_nonobj (traits : JObj) (k : String)
    (h : ∀ tr : JObj, traits.get k ≠ some (.obj tr)) :
    PKG.customKey traits k = (traits, false, []) := by
  unfold PKG.customKey
  match hx : traits.get k with
  | some (.obj tr) => exact absurd hx (h tr)
  | some .null => rfl
  | some (.bool _) => rfl
  | some (.num _) => rfl
  | some (.str _) => rfl
  | some (.arr _) => rfl
  | none => rfl

/-- What the per-key custom step leaves at its own key. -/
theorem pkg_customKey_get_self (traits : JObj) (k : String) :
    ((PKG.customKey traits k).1.get k = traits.get k ∧
      ∀ tr : JObj, traits.get k ≠ some (.obj tr)) ∨
    ∃ tr e, traits.get k = some (.obj tr) ∧
      (PKG.customKey traits k).1.get k = some (.obj e) ∧
      e.get "value" = tr.get "value" ∧
      customNF (e.get "custom") = true ∧ customNF (e.get "customTotal") = true := by
  match hx : traits.get k with
  | some (.obj tr) =>
    obtain ⟨e, he, hv, hc, hct⟩ := pkg_customKey_entry traits k hx
    exact Or.inr ⟨tr, e, rfl, he, hv, hc, hct⟩
  | some .null =>
    refine Or.inl ⟨?_, fun tr h' => by simp at h'⟩
    rw [pkg_customKey_nonobj traits k (fun tr h' => by rw [hx] at h'; simp at h')]
    exact hx
  | some (.bool _) =>
    refine Or.inl ⟨?_, fun tr h' => by simp at h'⟩
    rw [pkg_customKey_nonobj traits k (fun tr h' => by rw [hx] at h'; simp at h')]
    exact hx
  | some (.num _) =>
    refine Or.inl ⟨?_, fun tr h' => by simp at h'⟩
    rw [pkg_customKey_nonobj traits k (fun tr h' => by rw [hx] at h'; simp at h')]
    exact hx
  | some (.str _) =>
    refine Or.inl ⟨?_, fun tr h' => by simp at h'⟩
    rw [pkg_customKey_nonobj traits k (fun tr h' => by rw [hx] at h'; simp at h')]
    exact hx
  | some (.arr _) =>
    refine Or.inl ⟨?_, fun tr h' => by simp at h'⟩
    rw [pkg_customKey_nonobj traits k (fun tr h' => by rw [hx] at h'; simp at h')]
    exact hx
  | none =>
    refine Or.inl ⟨?_, fun tr h' => by simp at h'⟩
    rw [pkg_customKey_nonobj traits k (fun tr h' => by rw [hx] at h'; simp at h')]
    exact hx

/-- The per-key custom step establishes clean custom fields at its own
key. -/
theorem pkg_customKey_NF_self (traits : JObj) (k : String) :
    customKeyNF (PKG.customKey traits k).1 k = true := by
  rcases pkg_customKey_get_self traits k with ⟨heq, hne⟩ | ⟨tr, e, hx, he, hv, hc, hct⟩
  · unfold customKeyNF
    rw [heq]
    match hx : traits.get k with
    | some (.obj tr) => exact absurd hx (hne tr)
    | some .null => rfl
    | some (.bool _) => rfl
    | some (.num _) => rfl
    | some (.str _) => rfl
    | some (.arr _) => rfl
    | none => rfl
  · unfold customKeyNF
    rw [he]
    simp [hc, hct]

/-- The per-key custom step preserves clean custom fields anywhere. -/
theorem pkg_customKey_pres_NF (traits : JObj) (k q : String)
    (h : customKeyNF traits q = true) :
    customKeyNF (PKG.customKey traits k).1 q = true := by
  by_cases hqk : q = k
  · subst hqk; exact pkg_customKey_NF_self traits q
  · unfold customKeyNF at h ⊢
    rw [pkg_customKey_get_ne traits k q hqk]
    exact h

/-- The per-key custom step keeps non-string custom fields non-string. -/
theorem pkg_customKey_pres_nonstr (traits : JObj) (k q : String)
    (hns : ∀ e : JObj, traits.get q = some (.obj e) →
      (∀ s, e.get "custom" ≠ some (.str s)) ∧
      (∀ s, e.get "customTotal" ≠ some (.str s))) :
    ∀ e : JObj, (PKG.customKey traits k).1.get q = some (.obj e) →
      (∀ s, e.get "custom" ≠ some (.str s)) ∧
      (∀ s, e.get "customTotal" ≠ some (.str s)) := by
  intro e he
  by_cases hqk : q = k
  · subst hqk
    rcases pkg_customKey_get_self traits q with ⟨heq, _⟩ | ⟨tr, e2, hx, he2, hv, hc, hct⟩
    · rw [heq] at he
      exact hns e he
    · rw [he2] at he
      injection he with h1
      injection h1 with h2
      subst h2
      exact ⟨customNF_nonstr hc, customNF_nonstr hct⟩
  · rw [pkg_customKey_get_ne traits k q hqk] at he
    exact hns e he

/-- The per-key custom step either leaves a key alone or keeps a dict
entry with the same `value`. -/
theorem pkg_customKey_rel (traits : JObj) (k q : String) :
    (PKG.customKey traits k).1.get q = traits.get q ∨
    ∃ tr e, traits.get q = some (.obj tr) ∧
      (PKG.customKey traits k).1.get q = some (.obj e) ∧
      e.get "value" = tr.get "value" := by
  by_cases hqk : q = k
  · subst hqk
    rcases pkg_customKey_get_self traits q with ⟨heq, _⟩ | ⟨tr, e, hx, he, hv, _, _⟩
    · exact Or.inl heq
    · exact Or.inr ⟨tr, e, hx, he, hv⟩
  · exact Or.inl (pkg_customKey_get_ne traits k q hqk)

/-- The per-key custom step preserves plus-freedom when the entry's
custom fields are not strings. -/
theorem pkg_customKey_noPlus (traits : JObj) (k : String)
    (hnp : noPlusObj traits = true)
    (hns : ∀ e : JObj, traits.get k = some (.obj e) →
      (∀ s, e.get "custom" ≠ some (.str s)) ∧
      (∀ s, e.get "customTotal" ≠ some (.str s))) :
    noPlusObj (PKG.customKey traits k).1 = true := by
  unfold PKG.customKey
  match hx : traits.get k with
  | some (.obj tr) =>
    obtain ⟨hc, hct⟩ := hns tr hx
    have htr : noPlusObj tr = true := by
      simpa [noPlusVal] using noPlusObj_get traits hnp hx
    have h1 : noPlusObj (PKG.customStep tr k "custom").1 = true :=
      pkg_customStep_noPlus tr k "custom" htr hc
    have hct1 : ∀ s, (PKG.customStep tr k "custom").1.get "customTotal" ≠
        some (.str s) := by
      intro s
      rw [pkg_customStep_get_ne tr k "custom" "customTotal" (by decide)]
      exact hct s
    have h2 : noPlusObj (PKG.customStep (PKG.customStep tr k "custom").1 k
        "customTotal").1 = true :=
      pkg_customStep_noPlus _ k "customTotal" h1 hct1
    exact noPlusObj_set traits k _ hnp (by simpa [noPlusVal] using h2)
  | some .null => exact hnp
  | some (.bool _) => exact hnp
  | some (.num _) => exact hnp
  | some (.str _) => exact hnp
  | some (.arr _) => exact hnp
  | none => exact hnp

/-- The per-key custom step is the identity on keys already clean. -/
theorem pkg_customKey_id (traits : JObj) (k : String)
    (h : customKeyNF traits k = true) :
    PKG.customKey traits k = (traits, false, []) := by
  unfold customKeyNF at h
  unfold PKG.customKey
  match hx : traits.get k with
  | some (.obj tr) =>
    rw [hx] at h
    simp only [Bool.and_eq_true] at h
    simp only [pkg_customStep_id tr k "custom" h.1,
      pkg_customStep_id tr k "customTotal" h.2]
    simp [set_get_self traits hx]
  | some .null => rfl
  | some (.bool _) => rfl
  | some (.num _) => rfl
  | some (.str _) => rfl
  | some (.arr _) => rfl
  | none => rfl

/-- The custom-field fold does not touch keys outside its list. -/
theorem pkg_customFold_get_notin : ∀ (ks : List String) (traits : JObj) (q : String),
    q ∉ ks → (PKG.customFold traits ks).1.get q = traits.get q
  | [], _, _, _ => rfl
  | k :: ks, traits, q, hq => by
    have hqk : q ≠ k := fun h => hq (h ▸ List.mem_cons_self k ks)
    have hqks : q ∉ ks := fun h => hq (List.mem_cons_of_mem k h)
    show (PKG.customFold (PKG.customKey traits k).1 ks).1.get q = traits.get q
    rw [pkg_customFold_get_notin ks _ q hqks, pkg_customKey_get_ne traits k q hqk]

/-- The custom-field fold preserves plus-freedom when the listed
entries have non-string custom fields. -/
theorem pkg_customFold_noPlus : ∀ (ks : List String) (traits : JObj),
    noPlusObj traits = true →
    (∀ k ∈ ks, ∀ e : JObj, traits.get k = some (.obj e) →
      (∀ s, e.get "custom" ≠ some (.str s)) ∧
      (∀ s, e.get "customTotal" ≠ some (.str s))) →
    noPlusObj (PKG.customFold traits ks).1 = true
  | [], _, hnp, _ => hnp
  | k :: ks, traits, hnp, hns => by
    show noPlusObj (PKG.customFold (PKG.customKey traits k).1 ks).1 = true
    exact pkg_customFold_noPlus ks _
      (pkg_customKey_noPlus traits k hnp (hns k (List.mem_cons_self k ks)))
      (fun k1 hk1 => pkg_customKey_pres_nonstr traits k k1
        (hns k1 (List.mem_cons_of_mem k hk1)))

/-- After the custom-field fold every listed key has clean custom
fields. -/
theorem pkg_customFold_NF : ∀ (ks : List String) (traits : JObj) (k : String),
    k ∈ ks → customKeyNF (PKG.customFold traits ks).1 k = true
  | [], _, k, hk => absurd hk (List.not_mem_nil k)
  | k0 :: ks, traits, k, hk => by
    show customKeyNF (PKG.customFold (PKG.customKey traits k0).1 ks).1 k = true
    by_cases hmem : k ∈ ks
    · exact pkg_customFold_NF ks _ k hmem
    · have hk0 : k = k0 := by
        rcases List.mem_cons.mp hk with h | h
        · exact h
        · exact absurd h hmem
      subst hk0
      unfold customKeyNF
      rw [pkg_customFold_get_notin ks _ k hmem]
      have h2 := pkg_customKey_NF_self traits k
      unfold customKeyNF at h2
      exact h2

/-- The custom-field fold either leaves a key alone or keeps a dict
entry there with the same `value`. -/
theorem pkg_customFold_rel : ∀ (ks : List String) (traits : JObj) (q : String),
    (PKG.customFold traits ks).1.get q = traits.get q ∨
    ∃ tr e, traits.get q = some (.obj tr) ∧
      (PKG.customFold traits ks).1.get q = some (.obj e) ∧
      e.get "value" = tr.get "value"
  | [], _, _ => Or.inl rfl
  | k :: ks, traits, q => by
    have hstep : (PKG.customFold traits (k :: ks)).1 =
        (PKG.customFold (PKG.customKey traits k).1 ks).1 := rfl
    rw [hstep]
    rcases pkg_customFold_rel ks (PKG.customKey traits k).1 q with h2 | ⟨tr2, e2, hx2, he2, hv2⟩ <;>
      rcases pkg_customKey_rel traits k q with h1 | ⟨tr1, e1, hx1, he1, hv1⟩
    · exact Or.inl (h2.trans h1)
    · exact Or.inr ⟨tr1, e1, hx1, h2.trans he1, hv1⟩
    · rw [h1] at hx2
      exact Or.inr ⟨tr2, e2, hx2, he2, hv2⟩
    · rw [he1] at hx2
      injection hx2 with hA
      injection hA with hB
      subst hB
      exact Or.inr ⟨tr1, e2, hx1, he2, hv2.trans hv1⟩

/-- The custom-field fold is the identity on already-clean keys. -/
theorem pkg_customFold_id : ∀ (ks : List String) (traits : JObj),
    (∀ k ∈ ks, customKeyNF traits k = true) →
    PKG.customFold traits ks = (traits, false, [])
  | [], _, _ => rfl
  | k :: ks, traits, h => by
    unfold PKG.customFold
    simp only [pkg_customKey_id traits k (h k (List.mem_cons_self k ks)),
      pkg_customFold_id ks traits (fun k1 hk1 => h k1 (List.mem_cons_of_mem k hk1))]
    rfl

/-- The value-split step does not touch other trait keys. -/
theorem pkg_splitKey_get_ne (traits : JObj) (k q : String) (hq : q ≠ k) :
    (PKG.splitKey traits k).1.get q = traits.get q := by
  unfold PKG.splitKey
  match hx : traits.get k with
  | some (.obj tr) =>
    dsimp only
    match hv : tr.get "value" with
    | some (.str v) =>
      dsimp only
      by_cases hs : PKG.hasSep v = true
      · rw [if_pos hs]
        exact get_set_ne traits _ (Ne.symm hq)
      · rw [if_neg hs]
    | some .null => rfl
    | some (.bool _) => rfl
    | some (.num _) => rfl
    | some (.arr _) => rfl
    | some (.obj _) => rfl
    | none => rfl
  | some .null => rfl
  | some (.bool _) => rfl
  | some (.num _) => rfl
  | some (.str _) => rfl
  | some (.arr _) => rfl
  | none => rfl

/-- After the value-split step its own key is split-free. -/
theorem pkg_splitKey_splitNF_self (traits : JObj) (k : String) :
    splitNF (PKG.splitKey traits k).1 k = true := by
  unfold PKG.splitKey
  match hx : traits.get k with
  | some (.obj tr) =>
    dsimp only
    match hv : tr.get "value" with
    | some (.str v) =>
      dsimp only
      by_cases hs : PKG.hasSep v = true
      · rw [if_pos hs]
        show splitNF (traits.set k (.obj (tr.set "value"
          (.arr (JArr.ofList ((str_to_list v).map JVal.str)))))) k = true
        simp [splitNF, get_set_eq]
      · rw [if_neg hs]
        show splitNF traits k = true
        rw [Bool.not_eq_true] at hs
        simp [splitNF, hx, hv, hs]
    | some .null => show splitNF traits k = true; simp [splitNF, hx, hv]
    | some (.bool _) => show splitNF traits k = true; simp [splitNF, hx, hv]
    | some (.num _) => show splitNF traits k = true; simp [splitNF, hx, hv]
    | some (.arr _) => show splitNF traits k = true; simp [splitNF, hx, hv]
    | some (.obj _) => show splitNF traits k = true; simp [splitNF, hx, hv]
    | none => show splitNF traits k = true; simp [splitNF, hx, hv]
  | some .null => show splitNF traits k = true; simp [splitNF, hx]
  | some (.bool _) => show splitNF traits k = true; simp [splitNF, hx]
  | some (.num _) => show splitNF traits k = true; simp [splitNF, hx]
  | some (.str _) => show splitNF traits k = true; simp [splitNF, hx]
  | some (.arr _) => show splitNF traits k = true; simp [splitNF, hx]
  | none => show splitNF traits k = true; simp [splitNF, hx]

/-- The value-split step preserves split-freedom at any key. -/
theorem pkg_splitKey_pres_splitNF (traits : JObj) (k q : String)
    (h : splitNF traits q = true) : splitNF (PKG.splitKey traits k).1 q = true := by
  by_cases hqk : q = k
  · subst hqk; exact pkg_splitKey_splitNF_self traits q
  · unfold splitNF at h ⊢
    rw [pkg_splitKey_get_ne traits k q hqk]
    exact h

/-- The value-split step preserves clean custom fields. -/
theorem pkg_splitKey_pres_customKeyNF (traits : JObj) (k q : String)
    (h : customKeyNF traits q = true) :
    customKeyNF (PKG.splitKey traits k).1 q = true := by
  by_cases hqk : q = k
  · subst hqk
    unfold PKG.splitKey
    match hx : traits.get q with
    | some (.obj tr) =>
      dsimp only
      match hv : tr.get "value" with
      | some (.str v) =>
        dsimp only
        by_cases hs : PKG.hasSep v = true
        · rw [if_pos hs]
          show customKeyNF (traits.set q (.obj (tr.set "value"
            (.arr (JArr.ofList ((str_to_list v).map JVal.str)))))) q = true
          unfold customKeyNF at h ⊢
          rw [get_set_eq]
          show (customNF ((tr.set "value" (.arr (JArr.ofList ((str_to_list v).map
            JVal.str)))).get "custom") &&
            customNF ((tr.set "value" (.arr (JArr.ofList ((str_to_list v).map
            JVal.str)))).get "customTotal")) = true
          rw [get_set_ne tr _ (by decide), get_set_ne tr _ (by decide)]
          simp only [hx] at h
          exact h
        · rw [if_neg hs]; exact h
      | some .null => exact h
      | some (.bool _) => exact h
      | some (.num _) => exact h
      | some (.arr _) => exact h
      | some (.obj _) => exact h
      | none => exact h
    | some .null => exact h
    | some (.bool _) => exact h
    | some (.num _) => exact h
    | some (.str _) => exact h
    | some (.arr _) => exact h
    | none => exact h
  · unfold customKeyNF at h ⊢
    rw [pkg_splitKey_get_ne traits k q hqk]
    exact h

/-- Split-free `value` strings are left alone by the value-split step. -/
theorem pkg_splitKey_id (traits : JObj) (k : String) (h : splitNF traits k = true) :
    PKG.splitKey traits k = (traits, false, []) := by
  unfold splitNF at h
  unfold PKG.splitKey
  match hx : traits.get k with
  | some (.obj tr) =>
    dsimp only
    match hv : tr.get "value" with
    | some (.str v) =>
      simp only [hx, hv, Bool.not_eq_true'] at h
      dsimp only
      rw [if_neg (by simp [h])]
    | some .null => rfl
    | some (.bool _) => rfl
    | some (.num _) => rfl
    | some (.arr _) => rfl
    | some (.obj _) => rfl
    | none => rfl
  | some .null => rfl
  | some (.bool _) => rfl
  | some (.num _) => rfl
  | some (.str _) => rfl
  | some (.arr _) => rfl
  | none => rfl

/-- The value-split fold does not touch keys outside its list. -/
theorem pkg_splitFold_get_notin : ∀ (ks : List String) (traits : JObj) (q : String),
    q ∉ ks → (PKG.splitFold traits ks).1.get q = traits.get q
  | [], _, _, _ => rfl
  | k :: ks, traits, q, hq => by
    have hqk : q ≠ k := fun h => hq (h ▸ List.mem_cons_self k ks)
    have hqks : q ∉ ks := fun h => hq (List.mem_cons_of_mem k h)
    show (PKG.splitFold (PKG.splitKey traits k).1 ks).1.get q = traits.get q
    rw [pkg_splitFold_get_notin ks _ q hqks, pkg_splitKey_get_ne traits k q hqk]

/-- After the value-split fold every listed key is split-free. -/
theorem pkg_splitFold_splitNF : ∀ (ks : List String) (traits : JObj) (k : String),
    k ∈ ks → splitNF (PKG.splitFold traits ks).1 k = true
  | [], _, k, hk => absurd hk (List.not_mem_nil k)
  | k0 :: ks, traits, k, hk => by
    show splitNF (PKG.splitFold (PKG.splitKey traits k0).1 ks).1 k = true
    by_cases hmem : k ∈ ks
    · exact pkg_splitFold_splitNF ks _ k hmem
    · have hk0 : k = k0 := by
        rcases List.mem_cons.mp hk with h | h
        · exact h
        · exact absurd h hmem
      subst hk0
      unfold splitNF
      rw [pkg_splitFold_get_notin ks _ k hmem]
      have h2 := pkg_splitKey_splitNF_self traits k
      unfold splitNF at h2
      exact h2

/-- The value-split fold preserves clean custom fields. -/
theorem pkg_splitFold_pres_customKeyNF : ∀ (ks : List String) (traits : JObj)
    (q : String), customKeyNF traits q = true →
    customKeyNF (PKG.splitFold traits ks).1 q = true
  | [], _, _, h => h
  | k :: ks, traits, q, h => by
    show customKeyNF (PKG.splitFold (PKG.splitKey traits k).1 ks).1 q = true
    exact pkg_splitFold_pres_customKeyNF ks _ q (pkg_splitKey_pres_customKeyNF traits k q h)

/-- The value-split fold is the identity on split-free keys. -/
theorem pkg_splitFold_id : ∀ (ks : List String) (traits : JObj),
    (∀ k ∈ ks, splitNF traits k = true) →
    PKG.splitFold traits ks = (traits, false, [])
  | [], _, _ => rfl
  | k :: ks, traits, h => by
    unfold PKG.splitFold
    simp only [pkg_splitKey_id traits k (h k (List.mem_cons_self k ks)),
      pkg_splitFold_id ks traits (fun k1 hk1 => h k1 (List.mem_cons_of_mem k hk1))]
    rfl

/-- The languages null-purge keeps the other trait keys and, at
`languages`, at most replaces the entry's `value` by a list. -/
theorem langStep_traits_rel {doc : JObj} {t1 : JObj}
    (hobj : doc.getPath ["system", "traits"] = some (.obj t1)) :
    ∃ u1, (CRP.langStep doc).1.getPath ["system", "traits"] = some (.obj u1) ∧
      (∀ q, q ≠ "languages" → u1.get q = t1.get q) ∧
      (u1.get "languages" = t1.get "languages" ∨
        ∃ lang xs, t1.get "languages" = some (.obj lang) ∧
          u1.get "languages" = some (.obj (lang.set "value" (.arr xs)))) := by
  unfold CRP.langStep
  match h : doc.getPath ["system", "traits", "languages", "value"] with
  | some (.arr xs) =>
    simp only [h]
    by_cases hn : countNulls xs ≠ 0
    · simp only [if_pos hn]
      obtain ⟨sys, hs, h2⟩ := getPath_cons_decomp h
      obtain ⟨tr, ht, h3⟩ := getPath_cons_decomp h2
      obtain ⟨lang, hl, h4⟩ := getPath_cons_decomp h3
      have htt : tr = t1 := by
        have hx : doc.getPath ["system", "traits"] = some (.obj tr) := by
          rw [getPath_cons_build hs, getPath_single]
          exact ht
        rw [hx] at hobj
        injection hobj with h5
        injection h5
      subst htt
      rw [ensureDictPath_resolved hs ht hl]
      rw [setPath_cons hs, setPath_cons ht, setPath_cons hl, setPath_single]
      refine ⟨tr.set "languages" (.obj (lang.set "value" (.arr (dropNulls xs)))),
        ?_, ?_, ?_⟩
      · rw [getPath_cons_build (get_set_eq doc "system" _), getPath_single, get_set_eq]
      · intro q hq
        exact get_set_ne tr _ (Ne.symm hq)
      · exact Or.inr ⟨lang, dropNulls xs, hl, get_set_eq tr _ _⟩
    · simp only [if_neg hn]
      exact ⟨t1, hobj, fun q hq => rfl, Or.inl rfl⟩
  | some .null => simp only [h]; exact ⟨t1, hobj, fun q hq => rfl, Or.inl rfl⟩
  | some (.bool _) => simp only [h]; exact ⟨t1, hobj, fun q hq => rfl, Or.inl rfl⟩
  | some (.num _) => simp only [h]; exact ⟨t1, hobj, fun q hq => rfl, Or.inl rfl⟩
  | some (.str _) => simp only [h]; exact ⟨t1, hobj, fun q hq => rfl, Or.inl rfl⟩
  | some (.obj _) => simp only [h]; exact ⟨t1, hobj, fun q hq => rfl, Or.inl rfl⟩
  | none => simp only [h]; exact ⟨t1, hobj, fun q hq => rfl, Or.inl rfl⟩

/-- Reading `languages.value` only depends on the languages entry, and
only on its `value` when the entry is a dict. -/
theorem getPath_lv_rel {t t' : JObj}
    (hrel : t'.get "languages" = t.get "languages" ∨
      ∃ e e', t.get "languages" = some (.obj e) ∧
        t'.get "languages" = some (.obj e') ∧ e'.get "value" = e.get "value") :
    JVal.getPath (.obj t') ["languages", "value"] =
      JVal.getPath (.obj t) ["languages", "value"] := by
  rcases hrel with heq | ⟨e, e', he, he', hv⟩
  · simp only [JVal.getPath]
    rw [heq]
  · simp only [JVal.getPath]
    rw [he, he']
    show JVal.getPath (.obj e') ["value"] = JVal.getPath (.obj e) ["value"]
    simp only [JVal.getPath]
    rw [hv]

/-- Non-string custom fields survive the numeric pass. -/
theorem customs_nonstr_convert {u : JObj} (k : String) {e : JObj}
    (he : (CRP.convertObj u).1.get k = some (.obj e))
    (hNF : customKeyNF u k = true) :
    (∀ s, e.get "custom" ≠ some (.str s)) ∧
      (∀ s, e.get "customTotal" ≠ some (.str s)) := by
  rw [get_convertObj] at he
  match hx : u.get k with
  | some x =>
    rw [hx, Option.map_some'] at he
    injection he with h1
    obtain ⟨e0, rfl⟩ := convVal_eq_obj h1
    rw [convVal_obj] at h1
    injection h1 with h2
    unfold customKeyNF at hNF
    rw [hx] at hNF
    have hNF2 : (customNF (e0.get "custom") && customNF (e0.get "customTotal")) =
        true := hNF
    simp only [Bool.and_eq_true] at hNF2
    constructor
    · intro s hsx
      rw [← h2, get_convertObj] at hsx
      match hy : e0.get "custom" with
      | some y =>
        rw [hy, Option.map_some'] at hsx
        injection hsx with hs1
        exact customNF_nonstr hNF2.1 s (by rw [hy, convVal_eq_str hs1])
      | none => rw [hy] at hsx; exact Option.noConfusion hsx
    · intro s hsx
      rw [← h2, get_convertObj] at hsx
      match hy : e0.get "customTotal" with
      | some y =>
        rw [hy, Option.map_some'] at hsx
        injection hsx with hs1
        exact customNF_nonstr hNF2.2 s (by rw [hy, convVal_eq_str hs1])
      | none => rw [hy] at hsx; exact Option.noConfusion hsx
  | none => rw [hx] at he; exact Option.noConfusion he

/-- Split-freedom survives the numeric pass. -/
theorem splitNF_convert {u : JObj} (k : String) (hNF : splitNF u k = true) :
    splitNF (CRP.convertObj u).1 k = true := by
  unfold splitNF at hNF ⊢
  rw [get_convertObj]
  match hx : u.get k with
  | some (.obj e0) =>
    rw [Option.map_some', convVal_obj]
    have hNF2 : (match e0.get "value" with
        | some (.str s) => !PKG.hasSep s
        | _ => true) = true := by rw [hx] at hNF; exact hNF
    show (match (CRP.convertObj e0).1.get "value" with
      | some (.str s) => !PKG.hasSep s
      | _ => true) = true
    rw [get_convertObj]
    match hy : e0.get "value" with
    | some y =>
      rw [Option.map_some']
      rw [hy] at hNF2
      match hy2 : y with
      | .str s =>
        have h3 : (!PKG.hasSep s) = true := hNF2
        by_cases hp : isPlusNum s = true
        · rw [show convVal (.str s) = .num (plusNumVal s) from by simp [convVal, hp]]
        · rw [show convVal (.str s) = .str s from by simp [convVal, hp]]
          exact h3
      | .null => rfl
      | .bool b => rfl
      | .num n => rfl
      | .arr xs => rw [convVal_arr]
      | .obj o2 => rw [convVal_obj]
    | none => rfl
  | some .null => rfl
  | some (.bool _) => rfl
  | some (.num _) => rfl
  | some (.str s0) =>
    rw [Option.map_some']
    by_cases hp : isPlusNum s0 = true
    · rw [show convVal (.str s0) = .num (plusNumVal s0) from by simp [convVal, hp]]
    · rw [show convVal (.str s0) = .str s0 from by simp [convVal, hp]]
  | some (.arr _) =>
    rw [Option.map_some', convVal_arr]
  | none => rfl

/-- Documents in `nfPKG` are fixed by the second normalizer. -/
theorem nfPKG_fixed (d : JObj) (h : nfPKG d = true) :
    PKG.repair_doc d = (d, false, []) := by
  unfold nfPKG at h
  simp only [Bool.and_eq_true] at h
  obtain ⟨hnp, hsh⟩ := h
  unfold PKG.repair_doc
  match ht : d.getPath ["system", "traits"] with
  | some (.obj t) =>
    rw [ht] at hsh
    have hsh2 : ((langNF ((JVal.obj t).getPath ["languages", "value"]) &&
        (PKG.TRAIT_KEYS.all fun k => customKeyNF t k)) &&
        (["di", "dv", "ci"].all fun k => splitNF t k)) = true := hsh
    simp only [Bool.and_eq_true] at hsh2
    obtain ⟨⟨hlang, hcust⟩, hsplit⟩ := hsh2
    have hlang2 : langNF (d.getPath ["system", "traits", "languages", "value"]) =
        true := by
      rw [getPath_traits_ext d ht ["languages", "value"]]
      exact hlang
    have hs1 : PKG.langStep d = (d, false, []) := by
      rw [pkg_langStep_eq]; exact langStep_id d hlang2
    have hcust2 : ∀ k ∈ PKG.TRAIT_KEYS, customKeyNF t k = true :=
      fun k hk => List.all_eq_true.mp hcust k hk
    have hsplit2 : ∀ k ∈ (["di", "dv", "ci"] : List String), splitNF t k = true :=
      fun k hk => List.all_eq_true.mp hsplit k hk
    simp only [hs1, ht, pkg_customFold_id PKG.TRAIT_KEYS t hcust2,
      pkg_splitFold_id ["di", "dv", "ci"] t hsplit2,
      setPath_self ["system", "traits"] d (.obj t) ht,
      pkg_convertObj_self d hnp]
    simp
  | some .null => simp [pkg_convertObj_self d hnp]
  | some (.bool _) => simp [pkg_convertObj_self d hnp]
  | some (.num _) => simp [pkg_convertObj_self d hnp]
  | some (.str _) => simp [pkg_convertObj_self d hnp]
  | some (.arr _) => simp [pkg_convertObj_self d hnp]
  | none => simp [pkg_convertObj_self d hnp]

/-- The non-traits branch of `repair_doc`, written out. -/
theorem pkg_repair_nonobj (d : JObj)
    (h : ∀ u : JObj, d.getPath ["system", "traits"] ≠ some (.obj u)) :
    PKG.repair_doc d = ((PKG.convertObj d).1, (PKG.convertObj d).2.1,
      (PKG.convertObj d).2.2) := by
  unfold PKG.repair_doc
  match hg : d.getPath ["system", "traits"] with
  | some (.obj u) => exact absurd hg (h u)
  | some .null => rfl
  | some (.bool _) => rfl
  | some (.num _) => rfl
  | some (.str _) => rfl
  | some (.arr _) => rfl
  | none => rfl

/-- The second script's numeric pass cannot create a traits dict. -/
theorem pkg_traits_nonobj_convert (d : JObj)
    (h : ∀ u : JObj, d.getPath ["system", "traits"] ≠ some (.obj u)) :
    ∀ u : JObj, (PKG.convertObj d).1.getPath ["system", "traits"] ≠
      some (.obj u) := by
  rw [pkg_convObj_fst]
  exact traits_nonobj_convert d h

/-- A no-plus document without a traits dict is in `nfPKG` after one
more run of the second normalizer. -/
theorem nfPKG_nonobj (d1 : JObj) (hnp : noPlusObj d1 = true)
    (h : ∀ u : JObj, d1.getPath ["system", "traits"] ≠ some (.obj u)) :
    nfPKG (PKG.repair_doc d1).1 = true := by
  rw [pkg_repair_nonobj d1 h]
  show nfPKG (PKG.convertObj d1).1 = true
  rw [pkg_convertObj_self d1 hnp]
  show nfPKG d1 = true
  unfold nfPKG
  simp only [hnp, Bool.true_and]

/-- Run-1 postconditions of the second normalizer on the traits branch:
the output traits dict has non-string custom fields at every configured
key and split-free values at `di`/`dv`/`ci`. -/
theorem pkg_repair_shape (d t0 : JObj)
    (h : d.getPath ["system", "traits"] = some (.obj t0)) :
    ∃ t1, (PKG.repair_doc d).1.getPath ["system", "traits"] = some (.obj t1) ∧
      (∀ k ∈ PKG.TRAIT_KEYS, ∀ e : JObj, t1.get k = some (.obj e) →
        (∀ s, e.get "custom" ≠ some (.str s)) ∧
        (∀ s, e.get "customTotal" ≠ some (.str s))) ∧
      (∀ k ∈ (["di", "dv", "ci"] : List String), splitNF t1 k = true) := by
  obtain ⟨u1, hu1, hq, hlrel⟩ := langStep_traits_rel h
  have hd2 : ((CRP.langStep d).1.setPath ["system", "traits"]
      (.obj (PKG.splitFold (PKG.customFold u1 PKG.TRAIT_KEYS).1
        ["di", "dv", "ci"]).1)).getPath ["system", "traits"] =
      some (.obj (PKG.splitFold (PKG.customFold u1 PKG.TRAIT_KEYS).1
        ["di", "dv", "ci"]).1) := by
    have hx2 := getPath_setPath_append "system" ["traits"] (CRP.langStep d).1
      (.obj (PKG.splitFold (PKG.customFold u1 PKG.TRAIT_KEYS).1
        ["di", "dv", "ci"]).1) [] hu1
    simp only [List.append_nil] at hx2
    rw [hx2]
    simp [JVal.getPath]
  refine ⟨(CRP.convertObj (PKG.splitFold (PKG.customFold u1 PKG.TRAIT_KEYS).1
    ["di", "dv", "ci"]).1).1, ?_, ?_, ?_⟩
  · unfold PKG.repair_doc
    simp only [h, pkg_langStep_eq, hu1]
    rw [pkg_convObj_fst, getPath_convertObj_doc, hd2, Option.map_some', convVal_obj]
  · intro k hk e he
    have hNF : customKeyNF (PKG.splitFold (PKG.customFold u1 PKG.TRAIT_KEYS).1
        ["di", "dv", "ci"]).1 k = true :=
      pkg_splitFold_pres_customKeyNF ["di", "dv", "ci"] _ k
        (pkg_customFold_NF PKG.TRAIT_KEYS u1 k hk)
    exact customs_nonstr_convert k he hNF
  · intro k hk
    exact splitNF_convert k (pkg_splitFold_splitNF ["di", "dv", "ci"] _ k hk)

/-- A no-plus document whose traits entries already have non-string
custom fields and split-free `di`/`dv`/`ci` values lands in `nfPKG`
after one more run of the second normalizer. -/
theorem nfPKG_of_shaped (d1 t1 : JObj) (hnp : noPlusObj d1 = true)
    (h : d1.getPath ["system", "traits"] = some (.obj t1))
    (hns : ∀ k ∈ PKG.TRAIT_KEYS, ∀ e : JObj, t1.get k = some (.obj e) →
      (∀ s, e.get "custom" ≠ some (.str s)) ∧
      (∀ s, e.get "customTotal" ≠ some (.str s)))
    (hsp : ∀ k ∈ (["di", "dv", "ci"] : List String), splitNF t1 k = true) :
    nfPKG (PKG.repair_doc d1).1 = true := by
  obtain ⟨u1, hu1, hq, hlrel⟩ := langStep_traits_rel h
  have hs1np : noPlusObj (CRP.langStep d1).1 = true := langStep_noPlus d1 hnp
  have hu1np : noPlusObj u1 = true := by
    simpa [noPlusVal] using noPlusObj_getPath _ _ hs1np hu1
  have hnsu : ∀ k ∈ PKG.TRAIT_KEYS, ∀ e : JObj, u1.get k = some (.obj e) →
      (∀ s, e.get "custom" ≠ some (.str s)) ∧
      (∀ s, e.get "customTotal" ≠ some (.str s)) := by
    intro k hk e he
    by_cases hkl : k = "languages"
    · subst hkl
      rcases hlrel with heq | ⟨lang, xs, hl, hset⟩
      · rw [heq] at he
        exact hns _ hk e he
      · rw [hset] at he
        injection he with h1
        injection h1 with h2
        subst h2
        obtain ⟨hc, hct⟩ := hns _ hk lang hl
        refine ⟨fun s => ?_, fun s => ?_⟩
        · rw [get_set_ne lang _ (by decide)]
          exact hc s
        · rw [get_set_ne lang _ (by decide)]
          exact hct s
    · rw [hq k hkl] at he
      exact hns k hk e he
  have hspu : ∀ k ∈ (["di", "dv", "ci"] : List String), splitNF u1 k = true := by
    intro k hk
    have hkl : k ≠ "languages" := by
      simp only [List.mem_cons, List.not_mem_nil, or_false] at hk
      rcases hk with rfl | rfl | rfl <;> decide
    unfold splitNF
    rw [hq k hkl]
    have h2 := hsp k hk
    unfold splitNF at h2
    exact h2
  have hs2np : noPlusObj (PKG.customFold u1 PKG.TRAIT_KEYS).1 = true :=
    pkg_customFold_noPlus PKG.TRAIT_KEYS u1 hu1np hnsu
  have hs2sp : ∀ k ∈ (["di", "dv", "ci"] : List String),
      splitNF (PKG.customFold u1 PKG.TRAIT_KEYS).1 k = true := by
    intro k hk
    rcases pkg_customFold_rel PKG.TRAIT_KEYS u1 k with heq | ⟨tr, e, hx, he, hv⟩
    · unfold splitNF
      rw [heq]
      have h2 := hspu k hk
      unfold splitNF at h2
      exact h2
    · unfold splitNF
      rw [he]
      show (match e.get "value" with
        | some (.str s) => !PKG.hasSep s
        | _ => true) = true
      rw [hv]
      have h2 := hspu k hk
      unfold splitNF at h2
      rw [hx] at h2
      exact h2
  have hs3 : PKG.splitFold (PKG.customFold u1 PKG.TRAIT_KEYS).1 ["di", "dv", "ci"] =
      ((PKG.customFold u1 PKG.TRAIT_KEYS).1, false, []) :=
    pkg_splitFold_id _ _ hs2sp
  have hdoc2np : noPlusObj ((CRP.langStep d1).1.setPath ["system", "traits"]
      (.obj (PKG.customFold u1 PKG.TRAIT_KEYS).1)) = true :=
    noPlusObj_setPath _ _ _ hs1np (by simpa [noPlusVal] using hs2np)
  have hd2 : ((CRP.langStep d1).1.setPath ["system", "traits"]
      (.obj (PKG.customFold u1 PKG.TRAIT_KEYS).1)).getPath ["system", "traits"] =
      some (.obj (PKG.customFold u1 PKG.TRAIT_KEYS).1) := by
    have hx2 := getPath_setPath_append "system" ["traits"] (CRP.langStep d1).1
      (.obj (PKG.customFold u1 PKG.TRAIT_KEYS).1) [] hu1
    simp only [List.append_nil] at hx2
    rw [hx2]
    simp [JVal.getPath]
  have hconv : PKG.convertObj ((CRP.langStep d1).1.setPath ["system", "traits"]
      (.obj (PKG.customFold u1 PKG.TRAIT_KEYS).1)) =
      ((CRP.langStep d1).1.setPath ["system", "traits"]
        (.obj (PKG.customFold u1 PKG.TRAIT_KEYS).1), false, []) :=
    pkg_convertObj_self _ hdoc2np
  have hlang : langNF (JVal.getPath (.obj (PKG.customFold u1 PKG.TRAIT_KEYS).1)
      ["languages", "value"]) = true := by
    have hrel2 : (PKG.customFold u1 PKG.TRAIT_KEYS).1.get "languages" =
        u1.get "languages" ∨
        ∃ e e2, u1.get "languages" = some (.obj e) ∧
          (PKG.customFold u1 PKG.TRAIT_KEYS).1.get "languages" = some (.obj e2) ∧
          e2.get "value" = e.get "value" := by
      rcases pkg_customFold_rel PKG.TRAIT_KEYS u1 "languages" with heq | ⟨tr, e, hx, he, hv⟩
      · exact Or.inl heq
      · exact Or.inr ⟨tr, e, hx, he, hv⟩
    rw [getPath_lv_rel hrel2]
    have hl2 := langStep_langNF d1
    rw [getPath_traits_ext _ hu1 ["languages", "value"]] at hl2
    exact hl2
  unfold PKG.repair_doc
  simp only [h, pkg_langStep_eq, hu1, hs3, hconv]
  show nfPKG ((CRP.langStep d1).1.setPath ["system", "traits"]
    (.obj (PKG.customFold u1 PKG.TRAIT_KEYS).1)) = true
  unfold nfPKG
  rw [hd2]
  simp only [hdoc2np, Bool.true_and, Bool.and_eq_true]
  refine ⟨⟨?_, ?_⟩, ?_⟩
  · exact hlang
  · exact List.all_eq_true.mpr (fun k hk => pkg_customFold_NF PKG.TRAIT_KEYS u1 k hk)
  · exact List.all_eq_true.mpr (fun k hk => hs2sp k hk)

/-- Two runs of the second normalizer on a document without a traits
dict land in `nfPKG`. -/
theorem nfPKG_establish_nonobj (d : JObj)
    (h : ∀ u : JObj, d.getPath ["system", "traits"] ≠ some (.obj u)) :
    nfPKG (PKG.repair_doc (PKG.repair_doc d).1).1 = true := by
  rw [pkg_repair_nonobj d h]
  exact nfPKG_nonobj (PKG.convertObj d).1
    (by rw [pkg_convObj_fst]; exact noPlusObj_convertObj d)
    (pkg_traits_nonobj_convert d h)

/-- Two runs of the second normalizer reach its fixed-point set. -/
theorem nfPKG_establish (d : JObj) :
    nfPKG (PKG.repair_doc (PKG.repair_doc d).1).1 = true := by
  match ht : d.getPath ["system", "traits"] with
  | some (.obj t0) =>
    obtain ⟨t1, ht1, hns, hsp⟩ := pkg_repair_shape d t0 ht
    exact nfPKG_of_shaped _ t1 (noPlus_repair_doc d) ht1 hns hsp
  | some .null => exact nfPKG_establish_nonobj d (fun u hu => by rw [ht] at hu; simp at hu)
  | some (.bool _) => exact nfPKG_establish_nonobj d (fun u hu => by rw [ht] at hu; simp at hu)
  | some (.num _) => exact nfPKG_establish_nonobj d (fun u hu => by rw [ht] at hu; simp at hu)
  | some (.str _) => exact nfPKG_establish_nonobj d (fun u hu => by rw [ht] at hu; simp at hu)
  | some (.arr _) => exact nfPKG_establish_nonobj d (fun u hu => by rw [ht] at hu; simp at hu)
  | none => exact nfPKG_establish_nonobj d (fun u hu => by rw [ht] at hu; simp at hu)

/-- C1 (amended): the Shape Normalizer stabilizes after two runs rather
than one: for every document, the output of running `repair_actor_doc`
(respectively `repair_doc`) twice is a true fixed point — a third run
returns it unchanged with `changed = False` and an empty change log.
(One run does not suffice: the numeric pass can leave integers inside
trait `value`/custom lists which the next run's list-cleaning removes,
see the counterexample.) -/
theorem C1_amended (d e : JObj) :
    CRP.repair_actor_doc (CRP.repair_actor_doc (CRP.repair_actor_doc d).1).1 =
      ((CRP.repair_actor_doc (CRP.repair_actor_doc d).1).1, false, []) ∧
    PKG.repair_doc (PKG.repair_doc (PKG.repair_doc e).1).1 =
      ((PKG.repair_doc (PKG.repair_doc e).1).1, false, []) :=
  ⟨nf_fixed _ (nf_establish d), nfPKG_fixed _ (nfPKG_establish e)⟩

/-! ### Identifier deduplicator: string-stability toolkit -/

/-- A string without whitespace characters is whitespace-stable. -/
theorem stable_of_no_space {s : String} (h : ∀ c ∈ s.data, pyIsSpace c = false) :
    stableStr s = true := by
  unfold stableStr
  rw [decide_eq_true_eq]
  show pyStrip s = s
  unfold pyStrip
  rw [pyStripList_no_space s.data h]

/-- Decimal renderings are whitespace-stable and non-empty. -/
theorem natStr_stable (n : Nat) : stableStr (natStr n) = true ∧ natStr n ≠ "" := by
  constructor
  · refine stable_of_no_space ?_
    intro c hc
    rw [natStr_eq] at hc
    exact isDigit_not_space (natDigits_isDigit n c hc)
  · intro h
    have h2 := congrArg String.data h
    rw [natStr_eq] at h2
    exact natDigits_ne_nil n h2

/-- A stable string is fixed by both one-sided trims. -/
theorem stable_drop {s : String} (hst : stableStr s = true) :
    List.dropWhile pyIsSpace s.data = s.data ∧
      List.rdropWhile pyIsSpace s.data = s.data := by
  unfold stableStr at hst
  rw [decide_eq_true_eq] at hst
  have hd : pyStripList s.data = s.data := congrArg String.data hst
  rw [pyStripList_eq] at hd
  have h1 : List.dropWhile pyIsSpace s.data <:+ s.data := List.dropWhile_suffix _
  have h2 : (List.rdropWhile pyIsSpace (List.dropWhile pyIsSpace s.data)).length ≤
      (List.dropWhile pyIsSpace s.data).length :=
    (List.rdropWhile_prefix _ _).length_le
  have h3 : (List.dropWhile pyIsSpace s.data).length ≤ s.data.length :=
    List.Sublist.length_le (List.dropWhile_sublist _)
  have hlen : (List.dropWhile pyIsSpace s.data).length = s.data.length := by
    have h4 := congrArg List.length hd
    omega
  have hdw : List.dropWhile pyIsSpace s.data = s.data :=
    List.IsSuffix.eq_of_length h1 hlen
  refine ⟨hdw, ?_⟩
  rw [hdw] at hd
  exact hd

/-- A stable non-empty string starts with a non-whitespace character. -/
theorem stable_head {s : String} (hst : stableStr s = true) (hne : s ≠ "") :
    ∃ c t, s.data = c :: t ∧ pyIsSpace c = false := by
  obtain ⟨hdw, _⟩ := stable_drop hst
  match hd : s.data with
  | [] => exact absurd (String.ext hd) hne
  | c :: t =>
    refine ⟨c, t, rfl, ?_⟩
    rw [hd, List.dropWhile_cons] at hdw
    by_cases hc : pyIsSpace c = true
    · rw [if_pos hc] at hdw
      have hl := congrArg List.length hdw
      have h2 : (List.dropWhile pyIsSpace t).length ≤ t.length :=
        List.Sublist.length_le (List.dropWhile_sublist _)
      simp at hl
      omega
    · simpa using hc

/-- A stable non-empty string ends with a non-whitespace character. -/
theorem stable_last {s : String} (hst : stableStr s = true) (hne : s ≠ "") :
    ∃ hnn : s.data ≠ [], pyIsSpace (s.data.getLast hnn) = false := by
  obtain ⟨_, hrd⟩ := stable_drop hst
  have hnn : s.data ≠ [] := fun h => hne (String.ext h)
  refine ⟨hnn, ?_⟩
  have h2 := List.rdropWhile_eq_self_iff.mp hrd hnn
  simpa using h2

/-- Concatenation of stable non-empty strings is stable and non-empty. -/
theorem stable_append {a b : String} (ha : stableStr a = true) (hna : a ≠ "")
    (hb : stableStr b = true) (hnb : b ≠ "") :
    stableStr (a ++ b) = true ∧ a ++ b ≠ "" := by
  obtain ⟨c, t, hcd, hc⟩ := stable_head ha hna
  have hbn : b.data ≠ [] := fun h => hnb (String.ext h)
  obtain ⟨hbn2, hlast⟩ := stable_last hb hnb
  have hdata : (a ++ b).data = a.data ++ b.data := String.data_append a b
  constructor
  · unfold stableStr
    rw [decide_eq_true_eq]
    show pyStrip (a ++ b) = a ++ b
    unfold pyStrip
    refine String.ext ?_
    show pyStripList (a ++ b).data = (a ++ b).data
    rw [hdata, pyStripList_eq]
    have h1 : List.dropWhile pyIsSpace (a.data ++ b.data) = a.data ++ b.data := by
      rw [hcd]
      show List.dropWhile pyIsSpace (c :: (t ++ b.data)) = c :: (t ++ b.data)
      rw [List.dropWhile_cons, if_neg (by simp [hc])]
    rw [h1]
    rw [List.rdropWhile_eq_self_iff]
    intro hl
    have hgl : (a.data ++ b.data).getLast hl = b.data.getLast hbn2 :=
      List.getLast_append' _ _ hbn2
    rw [hgl, hlast]
    simp
  · intro h
    have h2 : a.data ++ b.data = [] := by
      rw [← hdata]
      exact congrArg String.data h
    exact hnb (String.ext (List.append_eq_nil.mp h2).2)

/-- `dropWhile` keeps at least the tail after a failing character. -/
theorem dropWhile_length_ge (p : Char → Bool) (a : Char) (ha : p a = false) :
    ∀ (x y : List Char), y.length + 1 ≤ (List.dropWhile p (x ++ a :: y)).length
  | [], y => by
    rw [List.nil_append, List.dropWhile_cons, if_neg (by simp [ha])]
    simp
  | c :: x, y => by
    rw [List.cons_append, List.dropWhile_cons]
    by_cases hc : p c = true
    · rw [if_pos hc]
      exact dropWhile_length_ge p a ha x y
    · rw [if_neg hc]
      simp only [List.length_cons, List.length_append]
      omega

/-- `rdropWhile` keeps at least the prefix before a failing character. -/
theorem rdropWhile_length_ge (p : Char → Bool) (a : Char) (ha : p a = false)
    (x y : List Char) : x.length + 1 ≤ (List.rdropWhile p (x ++ a :: y)).length := by
  show x.length + 1 ≤ ((List.dropWhile p (x ++ a :: y).reverse).reverse).length
  rw [List.length_reverse]
  have hrev : (x ++ a :: y).reverse = y.reverse ++ a :: x.reverse := by
    rw [List.reverse_append, List.reverse_cons, List.append_assoc]
    simp
  rw [hrev]
  have h2 := dropWhile_length_ge p a ha y.reverse x.reverse
  rw [List.length_reverse] at h2
  exact h2

/-- Stripping a renamed tag `base ++ "_" ++ rest` keeps the whole of
`base` plus the underscore: the result is longer than `base`, hence
distinct from it, and non-empty. -/
theorem pyStrip_tag_append (tag rest : String) (hst : stableStr tag = true)
    (hne : tag ≠ "") :
    tag.length + 1 ≤ (pyStrip (tag ++ "_" ++ rest)).length ∧
      pyStrip (tag ++ "_" ++ rest) ≠ tag ∧ pyStrip (tag ++ "_" ++ rest) ≠ "" := by
  obtain ⟨c, t, hcd, hc⟩ := stable_head hst hne
  have hdata : (tag ++ "_" ++ rest).data = tag.data ++ '_' :: rest.data := by
    rw [String.data_append, String.data_append]
    simp
  have hlen : tag.length + 1 ≤ (pyStripList (tag ++ "_" ++ rest).data).length := by
    rw [hdata, pyStripList_eq]
    have h1 : List.dropWhile pyIsSpace (tag.data ++ '_' :: rest.data) =
        tag.data ++ '_' :: rest.data := by
      rw [hcd]
      show List.dropWhile pyIsSpace (c :: (t ++ '_' :: rest.data)) =
        c :: (t ++ '_' :: rest.data)
      rw [List.dropWhile_cons, if_neg (by simp [hc])]
    rw [h1]
    have h2 := rdropWhile_length_ge pyIsSpace '_' (by decide) tag.data rest.data
    have hlq : tag.length = tag.data.length := rfl
    omega
  have hl2 : (pyStrip (tag ++ "_" ++ rest)).length =
      (pyStripList (tag ++ "_" ++ rest).data).length := rfl
  refine ⟨by omega, ?_, ?_⟩
  · intro h
    have h3 := congrArg String.length h
    omega
  · intro h
    have h3 := congrArg String.length h
    simp at h3
    omega

/-! ### `unique_tag` never returns a claimed identifier -/

/-- Every fallback of the counter loop has the candidate shape. -/
theorem uniqueTagLoop_shape (cand : String) (seen : List String) :
    ∀ (fuel i : Nat), ∃ j,
      EID.uniqueTagLoop cand seen fuel i = cand ++ "_" ++ natStr j
  | 0, i => ⟨i, rfl⟩
  | fuel + 1, i => by
    unfold EID.uniqueTagLoop
    by_cases hc : (cand ++ "_" ++ natStr i) ∈ seen
    · rw [if_pos hc]
      exact uniqueTagLoop_shape cand seen fuel (i + 1)
    · rw [if_neg hc]
      exact ⟨i, rfl⟩

/-- If the loop's answer is claimed, every probed candidate was. -/
theorem uniqueTagLoop_mem_all (cand : String) (seen : List String) :
    ∀ (fuel i : Nat), EID.uniqueTagLoop cand seen fuel i ∈ seen →
      ∀ j, i ≤ j → j ≤ i + fuel → (cand ++ "_" ++ natStr j) ∈ seen
  | 0, i, hres, j, h1, h2 => by
    have hj : j = i := by omega
    subst hj
    simpa [EID.uniqueTagLoop] using hres
  | fuel + 1, i, hres, j, h1, h2 => by
    unfold EID.uniqueTagLoop at hres
    by_cases hc : (cand ++ "_" ++ natStr i) ∈ seen
    · rw [if_pos hc] at hres
      by_cases hji : j = i
      · subst hji; exact hc
      · exact uniqueTagLoop_mem_all cand seen fuel (i + 1) hres j (by omega) (by omega)
    · rw [if_neg hc] at hres
      exact absurd hres hc

/-- Pigeonhole: with `|seen| + 1` fuel the loop escapes `seen`. -/
theorem uniqueTagLoop_not_mem (cand : String) (seen : List String) (i : Nat) :
    EID.uniqueTagLoop cand seen (seen.length + 1) i ∉ seen := by
  intro hres
  have hall := uniqueTagLoop_mem_all cand seen (seen.length + 1) i hres
  have hinj : ∀ a b : Nat,
      cand ++ "_" ++ natStr (i + a) = cand ++ "_" ++ natStr (i + b) → a = b := by
    intro a b hab
    have hd := congrArg String.data hab
    simp only [String.data_append] at hd
    have h2 : (natStr (i + a)).data = (natStr (i + b)).data :=
      List.append_cancel_left hd
    have h3 := natStr_injective (String.ext h2)
    omega
  have hnd : ((List.range (seen.length + 2)).map
      (fun a => cand ++ "_" ++ natStr (i + a))).Nodup :=
    (List.nodup_range _).map (fun a b hab => hinj a b hab)
  have hsub : ((List.range (seen.length + 2)).map
      (fun a => cand ++ "_" ++ natStr (i + a))) ⊆ seen := by
    intro x hx
    rw [List.mem_map] at hx
    obtain ⟨a, ha, rfl⟩ := hx
    rw [List.mem_range] at ha
    exact hall (i + a) (by omega) (by omega)
  have hle := (List.Nodup.subperm hnd hsub).length_le
  rw [List.length_map, List.length_range] at hle
  omega

/-- `unique_tag` never returns a claimed identifier. -/
theorem unique_tag_not_mem (base suffix : String) (seen : List String) :
    EID.unique_tag base suffix seen ∉ seen := by
  unfold EID.unique_tag
  dsimp only
  by_cases hc : (base ++ suffix) ∈ seen
  · rw [if_pos hc]
    exact uniqueTagLoop_not_mem (base ++ suffix) seen 2
  · rw [if_neg hc]
    exact hc

/-- Replacement item tags have the shape `base ++ "_" ++ rest`. -/
theorem unique_tag_split (base idv : String) (seen : List String) :
    ∃ rest, EID.unique_tag base ("_" ++ idv) seen = base ++ "_" ++ rest := by
  unfold EID.unique_tag
  dsimp only
  by_cases hc : (base ++ ("_" ++ idv)) ∈ seen
  · rw [if_pos hc]
    obtain ⟨j, hj⟩ := uniqueTagLoop_shape (base ++ ("_" ++ idv)) seen (seen.length + 1) 2
    refine ⟨idv ++ "_" ++ natStr j, ?_⟩
    rw [hj]
    simp [String.append_assoc]
  · rw [if_neg hc]
    exact ⟨idv, by simp [String.append_assoc]⟩

/-- Stable inputs give a stable non-empty replacement tag. -/
theorem unique_tag_stable (base suffix : String) (seen : List String)
    (hb : stableStr base = true) (hnb : base ≠ "")
    (hs : stableStr suffix = true) (hns : suffix ≠ "") :
    stableStr (EID.unique_tag base suffix seen) = true ∧
      EID.unique_tag base suffix seen ≠ "" := by
  unfold EID.unique_tag
  dsimp only
  by_cases hc : (base ++ suffix) ∈ seen
  · rw [if_pos hc]
    obtain ⟨j, hj⟩ := uniqueTagLoop_shape (base ++ suffix) seen (seen.length + 1) 2
    rw [hj]
    obtain ⟨hc1, hc2⟩ := stable_append hb hnb hs hns
    have hu := stable_append (a := "_") (b := natStr j) (by decide) (by decide)
      (natStr_stable j).1 (natStr_stable j).2
    have h3 := stable_append hc1 hc2 hu.1 hu.2
    rw [show (base ++ suffix) ++ "_" ++ natStr j =
      (base ++ suffix) ++ ("_" ++ natStr j) from by simp [String.append_assoc]]
    exact h3
  · rw [if_neg hc]
    exact stable_append hb hnb hs hns

/-- A stable string equals its strip. -/
theorem stable_eq {s : String} (h : stableStr s = true) : pyStrip s = s := by
  unfold stableStr at h
  rwa [decide_eq_true_eq] at h

/-- Item tags read by `get_item_tag` are stripped, hence stable and
non-empty. -/
theorem get_item_tag_stable {it : JObj} {t : String}
    (h : EID.get_item_tag it = some t) : stableStr t = true ∧ t ≠ "" := by
  unfold EID.get_item_tag at h
  match hs : it.get "system" with
  | some (.obj sysd) =>
    simp only [hs] at h
    match ht : sysd.get "tag" with
    | some (.str t0) =>
      simp only [ht] at h
      by_cases hst : pyStrip t0 ≠ ""
      · rw [if_pos hst] at h
        injection h with h1
        subst h1
        refine ⟨?_, hst⟩
        unfold stableStr
        rw [decide_eq_true_eq]
        exact pyStrip_idem t0
      · rw [if_neg hst] at h
        exact Option.noConfusion h
    | some .null => rw [ht] at h; exact Option.noConfusion h
    | some (.bool _) => rw [ht] at h; exact Option.noConfusion h
    | some (.num _) => rw [ht] at h; exact Option.noConfusion h
    | some (.arr _) => rw [ht] at h; exact Option.noConfusion h
    | some (.obj _) => rw [ht] at h; exact Option.noConfusion h
    | none => rw [ht] at h; exact Option.noConfusion h
  | some .null => rw [hs] at h; exact Option.noConfusion h
  | some (.bool _) => rw [hs] at h; exact Option.noConfusion h
  | some (.num _) => rw [hs] at h; exact Option.noConfusion h
  | some (.str _) => rw [hs] at h; exact Option.noConfusion h
  | some (.arr _) => rw [hs] at h; exact Option.noConfusion h
  | none => rw [hs] at h; exact Option.noConfusion h

/-- Action tags read by `get_action_tag` are stripped, hence stable and
non-empty. -/
theorem get_action_tag_stable {act : JObj} {t : String}
    (h : EID.get_action_tag act = some t) : stableStr t = true ∧ t ≠ "" := by
  unfold EID.get_action_tag at h
  match ht : act.get "tag" with
  | some (.str t0) =>
    simp only [ht] at h
    by_cases hst : pyStrip t0 ≠ ""
    · rw [if_pos hst] at h
      injection h with h1
      subst h1
      refine ⟨?_, hst⟩
      unfold stableStr
      rw [decide_eq_true_eq]
      exact pyStrip_idem t0
    · rw [if_neg hst] at h
      exact Option.noConfusion h
  | some .null => rw [ht] at h; exact Option.noConfusion h
  | some (.bool _) => rw [ht] at h; exact Option.noConfusion h
  | some (.num _) => rw [ht] at h; exact Option.noConfusion h
  | some (.arr _) => rw [ht] at h; exact Option.noConfusion h
  | some (.obj _) => rw [ht] at h; exact Option.noConfusion h
  | none => rw [ht] at h; exact Option.noConfusion h

/-- Reading back a written item tag gives its strip. -/
theorem get_set_item_tag (it : JObj) (newTag : String)
    (hne : pyStrip newTag ≠ "") :
    EID.get_item_tag (EID.set_item_tag it newTag) = some (pyStrip newTag) := by
  unfold EID.set_item_tag
  match hs : it.get "system" with
  | some (.obj sysd) =>
    dsimp only
    unfold EID.get_item_tag
    rw [get_set_eq]
    dsimp only
    rw [get_set_ne _ _ (by decide), get_set_eq]
    dsimp only
    rw [if_pos hne]
  | some .null =>
    dsimp only
    unfold EID.get_item_tag
    rw [get_set_eq]
    dsimp only
    rw [get_set_ne _ _ (by decide), get_set_eq]
    dsimp only
    rw [if_pos hne]
  | some (.bool _) =>
    dsimp only
    unfold EID.get_item_tag
    rw [get_set_eq]
    dsimp only
    rw [get_set_ne _ _ (by decide), get_set_eq]
    dsimp only
    rw [if_pos hne]
  | some (.num _) =>
    dsimp only
    unfold EID.get_item_tag
    rw [get_set_eq]
    dsimp only
    rw [get_set_ne _ _ (by decide), get_set_eq]
    dsimp only
    rw [if_pos hne]
  | some (.str _) =>
    dsimp only
    unfold EID.get_item_tag
    rw [get_set_eq]
    dsimp only
    rw [get_set_ne _ _ (by decide), get_set_eq]
    dsimp only
    rw [if_pos hne]
  | some (.arr _) =>
    dsimp only
    unfold EID.get_item_tag
    rw [get_set_eq]
    dsimp only
    rw [get_set_ne _ _ (by decide), get_set_eq]
    dsimp only
    rw [if_pos hne]
  | none =>
    dsimp only
    unfold EID.get_item_tag
    rw [get_set_eq]
    dsimp only
    rw [get_set_ne _ _ (by decide), get_set_eq]
    dsimp only
    rw [if_pos hne]

/-- Reading back a written action tag gives its strip. -/
theorem get_set_action_tag (act : JObj) (newT : String)
    (hne : pyStrip newT ≠ "") :
    EID.get_action_tag (act.set "tag" (.str newT)) = some (pyStrip newT) := by
  unfold EID.get_action_tag
  rw [get_set_eq]
  dsimp only
  rw [if_pos hne]

/-- Rewriting the actions list does not change the item's tag. -/
theorem get_item_tag_set_actions (it : JObj) {sysd : JObj}
    (hs : it.get "system" = some (.obj sysd)) (X : JVal) :
    EID.get_item_tag (it.set "system" (.obj (sysd.set "actions" X))) =
      EID.get_item_tag it := by
  unfold EID.get_item_tag
  rw [get_set_eq, hs]
  dsimp only
  rw [get_set_ne _ _ (by decide)]

/-- The `_id` fallback is stable and non-empty under the stability
hypothesis. -/
theorem idOr_stable (o : JObj) (fb : String) (hok : tagFieldOK o "_id" = true)
    (hfb : stableStr fb = true) (hfbne : fb ≠ "") :
    stableStr (EID.idOr o fb) = true ∧ EID.idOr o fb ≠ "" := by
  unfold EID.idOr
  match hid : o.get "_id" with
  | some (.str s) =>
    dsimp only
    by_cases hs : s ≠ ""
    · rw [if_pos hs]
      unfold tagFieldOK at hok
      rw [hid] at hok
      exact ⟨hok, hs⟩
    · rw [if_neg hs]
      exact ⟨hfb, hfbne⟩
  | some .null => exact ⟨hfb, hfbne⟩
  | some (.bool _) => exact ⟨hfb, hfbne⟩
  | some (.num _) => exact ⟨hfb, hfbne⟩
  | some (.arr _) => exact ⟨hfb, hfbne⟩
  | some (.obj _) => exact ⟨hfb, hfbne⟩
  | none => exact ⟨hfb, hfbne⟩

/-- Renaming an item's tag to a stable string keeps the item
whitespace-stable. -/
theorem itemOK_set_item_tag {it : JObj} (newTag : String)
    (hok : itemOK (.obj it) = true) (hst : stableStr newTag = true) :
    itemOK (.obj (EID.set_item_tag it newTag)) = true := by
  unfold itemOK at hok ⊢
  simp only [Bool.and_eq_true] at hok
  unfold EID.set_item_tag
  match hs : it.get "system" with
  | some (.obj sysd) =>
    dsimp only
    rw [get_set_eq]
    simp only [Bool.and_eq_true]
    refine ⟨⟨?_, ?_⟩, ?_⟩
    · unfold tagFieldOK
      rw [get_set_ne _ _ (by decide), get_set_eq]
      exact hst
    · rw [get_set_ne _ _ (by decide), get_set_ne _ _ (by decide)]
      have h1 := hok.1
      rw [hs] at h1
      have h2 : (tagFieldOK sysd "tag" &&
          (match sysd.get "actions" with
           | some (.arr acts) => allArr actionOK acts
           | _ => true)) = true := h1
      simp only [Bool.and_eq_true] at h2
      exact h2.2
    · unfold tagFieldOK
      rw [get_set_ne _ _ (by decide)]
      exact hok.2
  | some .null =>
    dsimp only
    rw [get_set_eq]
    simp only [Bool.and_eq_true]
    refine ⟨⟨?_, ?_⟩, ?_⟩
    · unfold tagFieldOK
      rw [get_set_ne _ _ (by decide), get_set_eq]
      exact hst
    · rw [get_set_ne _ _ (by decide), get_set_ne _ _ (by decide)]
      rfl
    · unfold tagFieldOK
      rw [get_set_ne _ _ (by decide)]
      exact hok.2
  | some (.bool _) =>
    dsimp only
    rw [get_set_eq]
    simp only [Bool.and_eq_true]
    refine ⟨⟨?_, ?_⟩, ?_⟩
    · unfold tagFieldOK
      rw [get_set_ne _ _ (by decide), get_set_eq]
      exact hst
    · rw [get_set_ne _ _ (by decide), get_set_ne _ _ (by decide)]
      rfl
    · unfold tagFieldOK
      rw [get_set_ne _ _ (by decide)]
      exact hok.2
  | some (.num _) =>
    dsimp only
    rw [get_set_eq]
    simp only [Bool.and_eq_true]
    refine ⟨⟨?_, ?_⟩, ?_⟩
    · unfold tagFieldOK
      rw [get_set_ne _ _ (by decide), get_set_eq]
      exact hst
    · rw [get_set_ne _ _ (by decide), get_set_ne _ _ (by decide)]
      rfl
    · unfold tagFieldOK
      rw [get_set_ne _ _ (by decide)]
      exact hok.2
  | some (.str _) =>
    dsimp only
    rw [get_set_eq]
    simp only [Bool.and_eq_true]
    refine ⟨⟨?_, ?_⟩, ?_⟩
    · unfold tagFieldOK
      rw [get_set_ne _ _ (by decide), get_set_eq]
      exact hst
    · rw [get_set_ne _ _ (by decide), get_set_ne _ _ (by decide)]
      rfl
    · unfold tagFieldOK
      rw [get_set_ne _ _ (by decide)]
      exact hok.2
  | some (.arr _) =>
    dsimp only
    rw [get_set_eq]
    simp only [Bool.and_eq_true]
    refine ⟨⟨?_, ?_⟩, ?_⟩
    · unfold tagFieldOK
      rw [get_set_ne _ _ (by decide), get_set_eq]
      exact hst
    · rw [get_set_ne _ _ (by decide), get_set_ne _ _ (by decide)]
      rfl
    · unfold tagFieldOK
      rw [get_set_ne _ _ (by decide)]
      exact hok.2
  | none =>
    dsimp only
    rw [get_set_eq]
    simp only [Bool.and_eq_true]
    refine ⟨⟨?_, ?_⟩, ?_⟩
    · unfold tagFieldOK
      rw [get_set_ne _ _ (by decide), get_set_eq]
      exact hst
    · rw [get_set_ne _ _ (by decide), get_set_ne _ _ (by decide)]
      rfl
    · unfold tagFieldOK
      rw [get_set_ne _ _ (by decide)]
      exact hok.2

/-- Renaming an action's tag to a stable string keeps it
whitespace-stable. -/
theorem actionOK_set_tag {act : JObj} (newT : String)
    (hok : actionOK (.obj act) = true) (hst : stableStr newT = true) :
    actionOK (.obj (act.set "tag" (.str newT))) = true := by
  unfold actionOK at hok ⊢
  simp only [Bool.and_eq_true] at hok ⊢
  constructor
  · unfold tagFieldOK
    rw [get_set_eq]
    exact hst
  · unfold tagFieldOK
    rw [get_set_ne _ _ (by decide)]
    exact hok.2

/-- Unpack the whitespace-stability facts of one item. -/
theorem itemOK_parts {it : JObj} (h : itemOK (.obj it) = true) :
    tagFieldOK it "_id" = true ∧
      ∀ sysd, it.get "system" = some (.obj sysd) →
        tagFieldOK sysd "tag" = true ∧
          ∀ acts, sysd.get "actions" = some (.arr acts) →
            allArr actionOK acts = true := by
  unfold itemOK at h
  simp only [Bool.and_eq_true] at h
  refine ⟨h.2, ?_⟩
  intro sysd hs
  have h1 := h.1
  rw [hs] at h1
  have h2 : (tagFieldOK sysd "tag" && (match sysd.get "actions" with
      | some (.arr acts) => allArr actionOK acts
      | _ => true)) = true := h1
  simp only [Bool.and_eq_true] at h2
  refine ⟨h2.1, ?_⟩
  intro acts ha
  have h3 := h2.2
  rw [ha] at h3
  exact h3

/-- Rebuild an item with a new clean actions list. -/
theorem itemOK_build {it sysd : JObj} (hs : it.get "system" = some (.obj sysd))
    (htag : tagFieldOK sysd "tag" = true) (hid : tagFieldOK it "_id" = true)
    (acts2 : JArr) (hacts : allArr actionOK acts2 = true) :
    itemOK (.obj (it.set "system" (.obj (sysd.set "actions" (.arr acts2))))) = true := by
  unfold itemOK
  dsimp only
  rw [get_set_eq]
  show ((tagFieldOK (sysd.set "actions" (.arr acts2)) "tag" &&
    (match (sysd.set "actions" (.arr acts2)).get "actions" with
     | some (.arr acts) => allArr actionOK acts
     | _ => true)) &&
    tagFieldOK (it.set "system" (.obj (sysd.set "actions" (.arr acts2)))) "_id") = true
  simp only [Bool.and_eq_true]
  refine ⟨⟨?_, ?_⟩, ?_⟩
  · unfold tagFieldOK
    rw [get_set_ne _ _ (by decide)]
    exact htag
  · rw [get_set_eq]
    exact hacts
  · unfold tagFieldOK
    rw [get_set_ne _ _ (by decide)]
    exact hid

/-- Pass 1: the collected tags extend `seen` and `tags` in lockstep,
are exactly the final tags of the output items, are mutually distinct
and fresh for the incoming `seen`; item stability is preserved. -/
theorem pass1_out : ∀ (items : JArr) (seen tags : List String),
    allArr itemOK items = true →
    ∃ L, (EID.pass1 items seen tags).seen = seen ++ L ∧
      (EID.pass1 items seen tags).tags = tags ++ L ∧
      EID.itemTagsOf (EID.pass1 items seen tags).items = L ∧
      L.Nodup ∧ (∀ x ∈ L, x ∉ seen) ∧
      allArr itemOK (EID.pass1 items seen tags).items = true
  | .nil, seen, tags, _ => by
    refine ⟨[], ?_, ?_, ?_, ?_, ?_, ?_⟩ <;>
      simp [EID.pass1, EID.itemTagsOf, allArr]
  | .cons (.obj it) tl, seen, tags, hok => by
    simp only [allArr, Bool.and_eq_true] at hok
    obtain ⟨hokv, hoktl⟩ := hok
    unfold EID.pass1
    dsimp only
    match htag : EID.get_item_tag it with
    | none =>
      dsimp only
      obtain ⟨L, h1, h2, h3, h4, h5, h6⟩ := pass1_out tl seen tags hoktl
      refine ⟨L, h1, h2, ?_, h4, h5, ?_⟩
      · show EID.itemTagsOf (.cons (.obj it) (EID.pass1 tl seen tags).items) = L
        unfold EID.itemTagsOf
        rw [htag]
        exact h3
      · show allArr itemOK (.cons (.obj it) (EID.pass1 tl seen tags).items) = true
        simp only [allArr, Bool.and_eq_true]
        exact ⟨hokv, h6⟩
    | some tag =>
      dsimp only
      by_cases hmem : tag ∈ seen
      · rw [if_pos hmem]
        obtain ⟨hstag, hntag⟩ := get_item_tag_stable htag
        have hid := idOr_stable it "noid" (itemOK_parts hokv).1 (by decide) (by decide)
        have hsuf := stable_append (a := "_") (b := EID.idOr it "noid")
          (by decide) (by decide) hid.1 hid.2
        have hnew := unique_tag_stable tag ("_" ++ EID.idOr it "noid") seen
          hstag hntag hsuf.1 hsuf.2
        have hnmem := unique_tag_not_mem tag ("_" ++ EID.idOr it "noid") seen
        obtain ⟨L, h1, h2, h3, h4, h5, h6⟩ := pass1_out tl
          (seen ++ [EID.unique_tag tag ("_" ++ EID.idOr it "noid") seen])
          (tags ++ [EID.unique_tag tag ("_" ++ EID.idOr it "noid") seen]) hoktl
        refine ⟨EID.unique_tag tag ("_" ++ EID.idOr it "noid") seen :: L,
          ?_, ?_, ?_, ?_, ?_, ?_⟩
        · show (EID.pass1 tl _ _).seen = _
          rw [h1]; simp
        · show (EID.pass1 tl _ _).tags = _
          rw [h2]; simp
        · show EID.itemTagsOf (.cons (.obj (EID.set_item_tag it
            (EID.unique_tag tag ("_" ++ EID.idOr it "noid") seen)))
            (EID.pass1 tl _ _).items) = _
          unfold EID.itemTagsOf
          have hget := get_set_item_tag it
            (EID.unique_tag tag ("_" ++ EID.idOr it "noid") seen)
            (by rw [stable_eq hnew.1]; exact hnew.2)
          rw [hget, stable_eq hnew.1, h3]
        · refine List.nodup_cons.mpr ⟨?_, h4⟩
          intro hmem2
          exact h5 _ hmem2 (List.mem_append_right _ (List.mem_singleton.mpr rfl))
        · intro x hx
          rcases List.mem_cons.mp hx with rfl | hx2
          · exact hnmem
          · intro hxs
            exact h5 x hx2 (List.mem_append_left _ hxs)
        · show allArr itemOK (.cons (.obj (EID.set_item_tag it
            (EID.unique_tag tag ("_" ++ EID.idOr it "noid") seen)))
            (EID.pass1 tl _ _).items) = true
          simp only [allArr, Bool.and_eq_true]
          exact ⟨itemOK_set_item_tag _ hokv hnew.1, h6⟩
      · rw [if_neg hmem]
        obtain ⟨L, h1, h2, h3, h4, h5, h6⟩ := pass1_out tl (seen ++ [tag])
          (tags ++ [tag]) hoktl
        refine ⟨tag :: L, ?_, ?_, ?_, ?_, ?_, ?_⟩
        · show (EID.pass1 tl _ _).seen = _
          rw [h1]; simp
        · show (EID.pass1 tl _ _).tags = _
          rw [h2]; simp
        · show EID.itemTagsOf (.cons (.obj it) (EID.pass1 tl _ _).items) = _
          unfold EID.itemTagsOf
          rw [htag, h3]
        · refine List.nodup_cons.mpr ⟨?_, h4⟩
          intro hmem2
          exact h5 _ hmem2 (List.mem_append_right _ (List.mem_singleton.mpr rfl))
        · intro x hx
          rcases List.mem_cons.mp hx with rfl | hx2
          · exact hmem
          · intro hxs
            exact h5 x hx2 (List.mem_append_left _ hxs)
        · show allArr itemOK (.cons (.obj it) (EID.pass1 tl _ _).items) = true
          simp only [allArr, Bool.and_eq_true]
          exact ⟨hokv, h6⟩
  | .cons .null tl, seen, tags, hok => by
    simp only [allArr, Bool.and_eq_true] at hok
    unfold EID.pass1
    dsimp only
    obtain ⟨L, h1, h2, h3, h4, h5, h6⟩ := pass1_out tl seen tags hok.2
    refine ⟨L, h1, h2, h3, h4, h5, ?_⟩
    show allArr itemOK (.cons .null (EID.pass1 tl seen tags).items) = true
    simp only [allArr, Bool.and_eq_true]
    exact ⟨hok.1, h6⟩
  | .cons (.bool b) tl, seen, tags, hok => by
    simp only [allArr, Bool.and_eq_true] at hok
    unfold EID.pass1
    dsimp only
    obtain ⟨L, h1, h2, h3, h4, h5, h6⟩ := pass1_out tl seen tags hok.2
    refine ⟨L, h1, h2, h3, h4, h5, ?_⟩
    show allArr itemOK (.cons (.bool b) (EID.pass1 tl seen tags).items) = true
    simp only [allArr, Bool.and_eq_true]
    exact ⟨hok.1, h6⟩
  | .cons (.num n) tl, seen, tags, hok => by
    simp only [allArr, Bool.and_eq_true] at hok
    unfold EID.pass1
    dsimp only
    obtain ⟨L, h1, h2, h3, h4, h5, h6⟩ := pass1_out tl seen tags hok.2
    refine ⟨L, h1, h2, h3, h4, h5, ?_⟩
    show allArr itemOK (.cons (.num n) (EID.pass1 tl seen tags).items) = true
    simp only [allArr, Bool.and_eq_true]
    exact ⟨hok.1, h6⟩
  | .cons (.str s) tl, seen, tags, hok => by
    simp only [allArr, Bool.and_eq_true] at hok
    unfold EID.pass1
    dsimp only
    obtain ⟨L, h1, h2, h3, h4, h5, h6⟩ := pass1_out tl seen tags hok.2
    refine ⟨L, h1, h2, h3, h4, h5, ?_⟩
    show allArr itemOK (.cons (.str s) (EID.pass1 tl seen tags).items) = true
    simp only [allArr, Bool.and_eq_true]
    exact ⟨hok.1, h6⟩
  | .cons (.arr xs) tl, seen, tags, hok => by
    simp only [allArr, Bool.and_eq_true] at hok
    unfold EID.pass1
    dsimp only
    obtain ⟨L, h1, h2, h3, h4, h5, h6⟩ := pass1_out tl seen tags hok.2
    refine ⟨L, h1, h2, h3, h4, h5, ?_⟩
    show allArr itemOK (.cons (.arr xs) (EID.pass1 tl seen tags).items) = true
    simp only [allArr, Bool.and_eq_true]
    exact ⟨hok.1, h6⟩

/-- The action loop: claimed tags extend `seen`, are the final action
tags, are distinct and fresh; action stability is preserved. -/
theorem actLoop_out : ∀ (itName : String) (acts : JArr) (seen : List String),
    allArr actionOK acts = true →
    ∃ L, (EID.actLoop itName acts seen).seen = seen ++ L ∧
      EID.actionTagsOfActs (EID.actLoop itName acts seen).acts = L ∧
      L.Nodup ∧ (∀ x ∈ L, x ∉ seen) ∧
      allArr actionOK (EID.actLoop itName acts seen).acts = true
  | _, .nil, seen, _ => by
    refine ⟨[], ?_, ?_, ?_, ?_, ?_⟩ <;>
      simp [EID.actLoop, EID.actionTagsOfActs, allArr]
  | itName, .cons (.obj act) tl, seen, hok => by
    simp only [allArr, Bool.and_eq_true] at hok
    obtain ⟨hokv, hoktl⟩ := hok
    unfold EID.actLoop
    dsimp only
    match htag : EID.get_action_tag act with
    | none =>
      dsimp only
      obtain ⟨L, h1, h2, h3, h4, h5⟩ := actLoop_out itName tl seen hoktl
      refine ⟨L, h1, ?_, h3, h4, ?_⟩
      · show EID.actionTagsOfActs (.cons (.obj act)
          (EID.actLoop itName tl seen).acts) = L
        unfold EID.actionTagsOfActs
        rw [htag]
        exact h2
      · show allArr actionOK (.cons (.obj act)
          (EID.actLoop itName tl seen).acts) = true
        simp only [allArr, Bool.and_eq_true]
        exact ⟨hokv, h5⟩
    | some t =>
      dsimp only
      by_cases hmem : t ∈ seen
      · rw [if_pos hmem]
        obtain ⟨hst, hnt⟩ := get_action_tag_stable htag
        have hokv2 := hokv
        unfold actionOK at hokv2
        simp only [Bool.and_eq_true] at hokv2
        have hid := idOr_stable act "noactid" hokv2.2 (by decide) (by decide)
        have hsuf := stable_append (a := "_act_") (b := EID.idOr act "noactid")
          (by decide) (by decide) hid.1 hid.2
        have hnew := unique_tag_stable t ("_act_" ++ EID.idOr act "noactid") seen
          hst hnt hsuf.1 hsuf.2
        have hnmem := unique_tag_not_mem t ("_act_" ++ EID.idOr act "noactid") seen
        obtain ⟨L, h1, h2, h3, h4, h5⟩ := actLoop_out itName tl
          (seen ++ [EID.unique_tag t ("_act_" ++ EID.idOr act "noactid") seen]) hoktl
        refine ⟨EID.unique_tag t ("_act_" ++ EID.idOr act "noactid") seen :: L,
          ?_, ?_, ?_, ?_, ?_⟩
        · show (EID.actLoop itName tl _).seen = _
          rw [h1]; simp
        · show EID.actionTagsOfActs (.cons (.obj (act.set "tag" (.str
            (EID.unique_tag t ("_act_" ++ EID.idOr act "noactid") seen))))
            (EID.actLoop itName tl _).acts) = _
          unfold EID.actionTagsOfActs
          have hget := get_set_action_tag act
            (EID.unique_tag t ("_act_" ++ EID.idOr act "noactid") seen)
            (by rw [stable_eq hnew.1]; exact hnew.2)
          rw [hget, stable_eq hnew.1, h2]
        · refine List.nodup_cons.mpr ⟨?_, h3⟩
          intro hmem2
          exact h4 _ hmem2 (List.mem_append_right _ (List.mem_singleton.mpr rfl))
        · intro x hx
          rcases List.mem_cons.mp hx with rfl | hx2
          · exact hnmem
          · intro hxs
            exact h4 x hx2 (List.mem_append_left _ hxs)
        · show allArr actionOK (.cons (.obj (act.set "tag" (.str
            (EID.unique_tag t ("_act_" ++ EID.idOr act "noactid") seen))))
            (EID.actLoop itName tl _).acts) = true
          simp only [allArr, Bool.and_eq_true]
          exact ⟨actionOK_set_tag _ hokv hnew.1, h5⟩
      · rw [if_neg hmem]
        obtain ⟨L, h1, h2, h3, h4, h5⟩ := actLoop_out itName tl (seen ++ [t]) hoktl
        refine ⟨t :: L, ?_, ?_, ?_, ?_, ?_⟩
        · show (EID.actLoop itName tl _).seen = _
          rw [h1]; simp
        · show EID.actionTagsOfActs (.cons (.obj act)
            (EID.actLoop itName tl _).acts) = _
          unfold EID.actionTagsOfActs
          rw [htag, h2]
        · refine List.nodup_cons.mpr ⟨?_, h3⟩
          intro hmem2
          exact h4 _ hmem2 (List.mem_append_right _ (List.mem_singleton.mpr rfl))
        · intro x hx
          rcases List.mem_cons.mp hx with rfl | hx2
          · exact hmem
          · intro hxs
            exact h4 x hx2 (List.mem_append_left _ hxs)
        · show allArr actionOK (.cons (.obj act)
            (EID.actLoop itName tl _).acts) = true
          simp only [allArr, Bool.and_eq_true]
          exact ⟨hokv, h5⟩
  | itName, .cons .null tl, seen, hok => by
    simp only [allArr, Bool.and_eq_true] at hok
    unfold EID.actLoop
    dsimp only
    obtain ⟨L, h1, h2, h3, h4, h5⟩ := actLoop_out itName tl seen hok.2
    refine ⟨L, h1, h2, h3, h4, ?_⟩
    show allArr actionOK (.cons .null (EID.actLoop itName tl seen).acts) = true
    simp only [allArr, Bool.and_eq_true]
    exact ⟨hok.1, h5⟩
  | itName, .cons (.bool b) tl, seen, hok => by
    simp only [allArr, Bool.and_eq_true] at hok
    unfold EID.actLoop
    dsimp only
    obtain ⟨L, h1, h2, h3, h4, h5⟩ := actLoop_out itName tl seen hok.2
    refine ⟨L, h1, h2, h3, h4, ?_⟩
    show allArr actionOK (.cons (.bool b) (EID.actLoop itName tl seen).acts) = true
    simp only [allArr, Bool.and_eq_true]
    exact ⟨hok.1, h5⟩
  | itName, .cons (.num n) tl, seen, hok => by
    simp only [allArr, Bool.and_eq_true] at hok
    unfold EID.actLoop
    dsimp only
    obtain ⟨L, h1, h2, h3, h4, h5⟩ := actLoop_out itName tl seen hok.2
    refine ⟨L, h1, h2, h3, h4, ?_⟩
    show allArr actionOK (.cons (.num n) (EID.actLoop itName tl seen).acts) = true
    simp only [allArr, Bool.and_eq_true]
    exact ⟨hok.1, h5⟩
  | itName, .cons (.str s) tl, seen, hok => by
    simp only [allArr, Bool.and_eq_true] at hok
    unfold EID.actLoop
    dsimp only
    obtain ⟨L, h1, h2, h3, h4, h5⟩ := actLoop_out itName tl seen hok.2
    refine ⟨L, h1, h2, h3, h4, ?_⟩
    show allArr actionOK (.cons (.str s) (EID.actLoop itName tl seen).acts) = true
    simp only [allArr, Bool.and_eq_true]
    exact ⟨hok.1, h5⟩
  | itName, .cons (.arr xs) tl, seen, hok => by
    simp only [allArr, Bool.and_eq_true] at hok
    unfold EID.actLoop
    dsimp only
    obtain ⟨L, h1, h2, h3, h4, h5⟩ := actLoop_out itName tl seen hok.2
    refine ⟨L, h1, h2, h3, h4, ?_⟩
    show allArr actionOK (.cons (.arr xs) (EID.actLoop itName tl seen).acts) = true
    simp only [allArr, Bool.and_eq_true]
    exact ⟨hok.1, h5⟩

/-- Pass 2 on one item: claimed action tags extend `seen`; the item's
own tag and stability are untouched. -/
theorem pass2Item_out (it : JObj) (seen : List String)
    (hok : itemOK (.obj it) = true) :
    ∃ L, (EID.pass2Item it seen).seen = seen ++ L ∧
      EID.actionTagsOfItem (EID.pass2Item it seen).item = L ∧
      L.Nodup ∧ (∀ x ∈ L, x ∉ seen) ∧
      EID.get_item_tag (EID.pass2Item it seen).item = EID.get_item_tag it ∧
      itemOK (.obj (EID.pass2Item it seen).item) = true := by
  obtain ⟨hid, hsys⟩ := itemOK_parts hok
  unfold EID.pass2Item
  dsimp only
  match hs : it.get "system" with
  | some (.obj sysd) =>
    dsimp only
    obtain ⟨htagOK, hactsOK⟩ := hsys sysd hs
    match ha : sysd.get "actions" with
    | some (.arr acts) =>
      dsimp only
      obtain ⟨L, h1, h2, h3, h4, h5⟩ :=
        actLoop_out (EID.pyShow (it.get "name")) acts seen (hactsOK acts ha)
      refine ⟨L, h1, ?_, h3, h4, ?_, ?_⟩
      · show EID.actionTagsOfItem (it.set "system" (.obj (sysd.set "actions"
          (.arr (EID.actLoop (EID.pyShow (it.get "name")) acts seen).acts)))) = L
        unfold EID.actionTagsOfItem
        rw [get_set_eq]
        dsimp only
        rw [get_set_eq]
        exact h2
      · exact get_item_tag_set_actions it hs _
      · exact itemOK_build hs htagOK hid _ h5
    | some .null =>
      refine ⟨[], by simp, ?_, by simp, by simp, rfl, hok⟩
      show EID.actionTagsOfItem it = []
      unfold EID.actionTagsOfItem
      rw [hs]
      dsimp only
      rw [ha]
    | some (.bool _) =>
      refine ⟨[], by simp, ?_, by simp, by simp, rfl, hok⟩
      show EID.actionTagsOfItem it = []
      unfold EID.actionTagsOfItem
      rw [hs]
      dsimp only
      rw [ha]
    | some (.num _) =>
      refine ⟨[], by simp, ?_, by simp, by simp, rfl, hok⟩
      show EID.actionTagsOfItem it = []
      unfold EID.actionTagsOfItem
      rw [hs]
      dsimp only
      rw [ha]
    | some (.str _) =>
      refine ⟨[], by simp, ?_, by simp, by simp, rfl, hok⟩
      show EID.actionTagsOfItem it = []
      unfold EID.actionTagsOfItem
      rw [hs]
      dsimp only
      rw [ha]
    | some (.obj _) =>
      refine ⟨[], by simp, ?_, by simp, by simp, rfl, hok⟩
      show EID.actionTagsOfItem it = []
      unfold EID.actionTagsOfItem
      rw [hs]
      dsimp only
      rw [ha]
    | none =>
      refine ⟨[], by simp, ?_, by simp, by simp, rfl, hok⟩
      show EID.actionTagsOfItem it = []
      unfold EID.actionTagsOfItem
      rw [hs]
      dsimp only
      rw [ha]
  | some .null =>
    refine ⟨[], by simp, ?_, by simp, by simp, rfl, hok⟩
    show EID.actionTagsOfItem it = []
    unfold EID.actionTagsOfItem
    rw [hs]
  | some (.bool _) =>
    refine ⟨[], by simp, ?_, by simp, by simp, rfl, hok⟩
    show EID.actionTagsOfItem it = []
    unfold EID.actionTagsOfItem
    rw [hs]
  | some (.num _) =>
    refine ⟨[], by simp, ?_, by simp, by simp, rfl, hok⟩
    show EID.actionTagsOfItem it = []
    unfold EID.actionTagsOfItem
    rw [hs]
  | some (.str _) =>
    refine ⟨[], by simp, ?_, by simp, by simp, rfl, hok⟩
    show EID.actionTagsOfItem it = []
    unfold EID.actionTagsOfItem
    rw [hs]
  | some (.arr _) =>
    refine ⟨[], by simp, ?_, by simp, by simp, rfl, hok⟩
    show EID.actionTagsOfItem it = []
    unfold EID.actionTagsOfItem
    rw [hs]
  | none =>
    refine ⟨[], by simp, ?_, by simp, by simp, rfl, hok⟩
    show EID.actionTagsOfItem it = []
    unfold EID.actionTagsOfItem
    rw [hs]

/-- Pass 2 over all items: claimed action tags extend `seen`, are
distinct, fresh, and the items' own tags are untouched. -/
theorem pass2_out : ∀ (items : JArr) (seen : List String),
    allArr itemOK items = true →
    ∃ L, (EID.pass2 items seen).seen = seen ++ L ∧
      EID.actionTagsOf (EID.pass2 items seen).items = L ∧
      EID.itemTagsOf (EID.pass2 items seen).items = EID.itemTagsOf items ∧
      L.Nodup ∧ (∀ x ∈ L, x ∉ seen)
  | .nil, seen, _ => by
    refine ⟨[], ?_, ?_, ?_, ?_, ?_⟩ <;>
      simp [EID.pass2, EID.actionTagsOf, EID.itemTagsOf, allArr]
  | .cons (.obj it) tl, seen, hok => by
    simp only [allArr, Bool.and_eq_true] at hok
    obtain ⟨hokv, hoktl⟩ := hok
    unfold EID.pass2
    dsimp only
    obtain ⟨L1, g1, g2, g3, g4, g5, g6⟩ := pass2Item_out it seen hokv
    obtain ⟨L2, h1, h2, h3, h4, h5⟩ := pass2_out tl (EID.pass2Item it seen).seen hoktl
    refine ⟨L1 ++ L2, ?_, ?_, ?_, ?_, ?_⟩
    · show (EID.pass2 tl (EID.pass2Item it seen).seen).seen = seen ++ (L1 ++ L2)
      rw [h1, g1, List.append_assoc]
    · show EID.actionTagsOf (.cons (.obj (EID.pass2Item it seen).item)
        (EID.pass2 tl (EID.pass2Item it seen).seen).items) = L1 ++ L2
      unfold EID.actionTagsOf
      rw [g2, h2]
    · show EID.itemTagsOf (.cons (.obj (EID.pass2Item it seen).item)
        (EID.pass2 tl (EID.pass2Item it seen).seen).items) =
        EID.itemTagsOf (.cons (.obj it) tl)
      unfold EID.itemTagsOf
      rw [g5, h3]
    · refine List.Nodup.append g3 h4 ?_
      intro a ha1 ha2
      exact h5 a ha2 (by rw [g1]; exact List.mem_append_right _ ha1)
    · intro x hx
      rcases List.mem_append.mp hx with hx1 | hx2
      · exact g4 x hx1
      · intro hxs
        exact h5 x hx2 (by rw [g1]; exact List.mem_append_left _ hxs)
  | .cons .null tl, seen, hok => by
    simp only [allArr, Bool.and_eq_true] at hok
    unfold EID.pass2
    dsimp only
    obtain ⟨L, h1, h2, h3, h4, h5⟩ := pass2_out tl seen hok.2
    exact ⟨L, h1, h2, h3, h4, h5⟩
  | .cons (.bool b) tl, seen, hok => by
    simp only [allArr, Bool.and_eq_true] at hok
    unfold EID.pass2
    dsimp only
    obtain ⟨L, h1, h2, h3, h4, h5⟩ := pass2_out tl seen hok.2
    exact ⟨L, h1, h2, h3, h4, h5⟩
  | .cons (.num n) tl, seen, hok => by
    simp only [allArr, Bool.and_eq_true] at hok
    unfold EID.pass2
    dsimp only
    obtain ⟨L, h1, h2, h3, h4, h5⟩ := pass2_out tl seen hok.2
    exact ⟨L, h1, h2, h3, h4, h5⟩
  | .cons (.str s) tl, seen, hok => by
    simp only [allArr, Bool.and_eq_true] at hok
    unfold EID.pass2
    dsimp only
    obtain ⟨L, h1, h2, h3, h4, h5⟩ := pass2_out tl seen hok.2
    exact ⟨L, h1, h2, h3, h4, h5⟩
  | .cons (.arr xs) tl, seen, hok => by
    simp only [allArr, Bool.and_eq_true] at hok
    unfold EID.pass2
    dsimp only
    obtain ⟨L, h1, h2, h3, h4, h5⟩ := pass2_out tl seen hok.2
    exact ⟨L, h1, h2, h3, h4, h5⟩

/-- Unfolding lemma for `JObj.get` on a cons cell. -/
theorem get_cons (k' : String) (v : JVal) (t : JObj) (q : String) :
    (JObj.cons k' v t).get q = if k' = q then some v else t.get q := rfl

/-- Kept keys of a filtered dict read as before. -/
theorem get_filterKeys_pos : ∀ (o : JObj) (p : String → Bool) (k : String),
    p k = true → (o.filterKeys p).get k = o.get k
  | .nil, _, _, _ => rfl
  | .cons k' v t, p, k, hk => by
    unfold JObj.filterKeys
    by_cases hpk : p k' = true
    · rw [if_pos hpk, get_cons, get_cons]
      by_cases he : k' = k
      · rw [if_pos he, if_pos he]
      · rw [if_neg he, if_neg he]
        exact get_filterKeys_pos t p k hk
    · rw [if_neg hpk, get_cons]
      by_cases he : k' = k
      · subst he
        exact absurd hk hpk
      · rw [if_neg he]
        exact get_filterKeys_pos t p k hk

/-- Dropped keys of a filtered dict are gone. -/
theorem get_filterKeys_neg : ∀ (o : JObj) (p : String → Bool) (k : String),
    p k = false → (o.filterKeys p).get k = none
  | .nil, _, _, _ => rfl
  | .cons k' v t, p, k, hk => by
    unfold JObj.filterKeys
    by_cases hpk : p k' = true
    · rw [if_pos hpk, get_cons]
      by_cases he : k' = k
      · subst he
        rw [hpk] at hk
        exact Bool.noConfusion hk
      · rw [if_neg he]
        exact get_filterKeys_neg t p k hk
    · rw [if_neg hpk]
      exact get_filterKeys_neg t p k hk

/-- Keys surviving a filter satisfy it and come from the original. -/
theorem mem_keys_filterKeys : ∀ (o : JObj) (p : String → Bool) (k : String),
    k ∈ (o.filterKeys p).keys → p k = true ∧ k ∈ o.keys
  | .nil, _, k, hk => absurd hk (List.not_mem_nil k)
  | .cons k' v t, p, k, hk => by
    unfold JObj.filterKeys at hk
    by_cases hpk : p k' = true
    · rw [if_pos hpk] at hk
      rcases List.mem_cons.mp hk with rfl | hk2
      · exact ⟨hpk, List.mem_cons_self _ _⟩
      · obtain ⟨h1, h2⟩ := mem_keys_filterKeys t p k hk2
        exact ⟨h1, List.mem_cons_of_mem _ h2⟩
    · rw [if_neg hpk] at hk
      obtain ⟨h1, h2⟩ := mem_keys_filterKeys t p k hk
      exact ⟨h1, List.mem_cons_of_mem _ h2⟩

/-- Filtering with an always-satisfied predicate is the identity. -/
theorem filterKeys_of_all : ∀ (o : JObj) (p : String → Bool),
    (∀ k ∈ o.keys, p k = true) → o.filterKeys p = o
  | .nil, _, _ => rfl
  | .cons k' v t, p, h => by
    unfold JObj.filterKeys
    rw [if_pos (h k' (List.mem_cons_self k' _))]
    rw [filterKeys_of_all t p (fun k hk => h k (List.mem_cons_of_mem _ hk))]

/-- Decompose a successful `get_resources_dict`. -/
theorem get_resources_sys {actor : JObj} {res : JObj}
    (h : EID.get_resources_dict actor = some res) :
    ∃ sysd, actor.get "system" = some (.obj sysd) ∧
      sysd.get "resources" = some (.obj res) := by
  unfold EID.get_resources_dict at h
  match hs : actor.get "system" with
  | some (.obj sysd) =>
    simp only [hs] at h
    match hr : sysd.get "resources" with
    | some (.obj r0) =>
      rw [hr] at h
      injection h with h1
      subst h1
      exact ⟨sysd, rfl, hr⟩
    | some .null => rw [hr] at h; exact Option.noConfusion h
    | some (.bool _) => rw [hr] at h; exact Option.noConfusion h
    | some (.num _) => rw [hr] at h; exact Option.noConfusion h
    | some (.str _) => rw [hr] at h; exact Option.noConfusion h
    | some (.arr _) => rw [hr] at h; exact Option.noConfusion h
    | none => rw [hr] at h; exact Option.noConfusion h
  | some .null => rw [hs] at h; exact Option.noConfusion h
  | some (.bool _) => rw [hs] at h; exact Option.noConfusion h
  | some (.num _) => rw [hs] at h; exact Option.noConfusion h
  | some (.str _) => rw [hs] at h; exact Option.noConfusion h
  | some (.arr _) => rw [hs] at h; exact Option.noConfusion h
  | none => rw [hs] at h; exact Option.noConfusion h

/-- Writing the resource map leaves other top-level keys alone. -/
theorem setPath_resources_get_ne {o : JObj} {sysd : JObj}
    (hs : o.get "system" = some (.obj sysd)) (v : JVal) (q : String)
    (hq : q ≠ "system") :
    (o.setPath ["system", "resources"] v).get q = o.get q := by
  rw [setPath_cons hs "resources" [] v]
  exact get_set_ne o _ (Ne.symm hq)

/-- Reading back a written resource map. -/
theorem get_resources_setPath {o : JObj} {sysd : JObj}
    (hs : o.get "system" = some (.obj sysd)) (newres : JObj) :
    EID.get_resources_dict (o.setPath ["system", "resources"] (.obj newres)) =
      some newres := by
  rw [setPath_cons hs "resources" [] _, setPath_single]
  unfold EID.get_resources_dict
  rw [get_set_eq]
  dsimp only
  rw [get_set_eq]

/-- The items of the repaired actor are the pass-2 items. -/
theorem fix_items_eq (actor : JObj) {items : JArr}
    (h : actor.get "items" = some (.arr items)) :
    (EID.fix_actor_identifiers_and_resources actor).1.get "items" =
      some (.arr (EID.pass2 (EID.pass1 items [] []).items
        (EID.pass1 items [] []).seen).items) := by
  unfold EID.fix_actor_identifiers_and_resources
  simp only [h]
  match hres : EID.get_resources_dict (actor.set "items"
      (.arr (EID.pass2 (EID.pass1 items [] []).items
        (EID.pass1 items [] []).seen).items)) with
  | some res =>
    dsimp only
    by_cases hdel : res.keys.filter
        (fun k => decide (k ∈ (EID.pass1 items [] []).tags)) ≠ []
    · rw [if_pos hdel]
      obtain ⟨sysd, hs, hr⟩ := get_resources_sys hres
      rw [setPath_resources_get_ne hs _ "items" (by decide)]
      exact get_set_eq actor "items" _
    · rw [if_neg hdel]
      exact get_set_eq actor "items" _
  | none =>
    dsimp only
    exact get_set_eq actor "items" _

/-- The resource map of the repaired actor: the input map with the
pass-1 tags filtered out. -/
theorem fix_resources_eq (actor : JObj) {items : JArr}
    (h : actor.get "items" = some (.arr items)) {res : JObj}
    (hres : EID.get_resources_dict actor = some res) :
    EID.get_resources_dict (EID.fix_actor_identifiers_and_resources actor).1 =
      some (res.filterKeys
        (fun k => decide (k ∉ (EID.pass1 items [] []).tags))) := by
  have hres2 : EID.get_resources_dict (actor.set "items"
      (.arr (EID.pass2 (EID.pass1 items [] []).items
        (EID.pass1 items [] []).seen).items)) = some res := by
    unfold EID.get_resources_dict at hres ⊢
    rw [get_set_ne actor _ (by decide)]
    exact hres
  unfold EID.fix_actor_identifiers_and_resources
  simp only [h]
  simp only [hres2]
  by_cases hdel : res.keys.filter
      (fun k => decide (k ∈ (EID.pass1 items [] []).tags)) ≠ []
  · rw [if_pos hdel]
    obtain ⟨sysd, hs, hr⟩ := get_resources_sys hres2
    exact get_resources_setPath hs _
  · rw [if_neg hdel]
    rw [hres2]
    have hdel2 := not_not.mp hdel
    have hall : ∀ k ∈ res.keys,
        (decide (k ∉ (EID.pass1 items [] []).tags)) = true := by
      intro k hk
      have h3 := List.filter_eq_nil.mp hdel2 k hk
      simpa using h3
    rw [filterKeys_of_all res _ hall]

/-- If the input has no resource map, neither has the output. -/
theorem fix_resources_none (actor : JObj) {items : JArr}
    (h : actor.get "items" = some (.arr items))
    (hres : EID.get_resources_dict actor = none) :
    EID.get_resources_dict
      (EID.fix_actor_identifiers_and_resources actor).1 = none := by
  have hres2 : EID.get_resources_dict (actor.set "items"
      (.arr (EID.pass2 (EID.pass1 items [] []).items
        (EID.pass1 items [] []).seen).items)) = none := by
    unfold EID.get_resources_dict at hres ⊢
    rw [get_set_ne actor _ (by decide)]
    exact hres
  unfold EID.fix_actor_identifiers_and_resources
  simp only [h]
  simp only [hres2]

/-- Non-actor-shaped documents pass through untouched. -/
theorem fix_nonactor (actor : JObj)
    (h : ∀ xs : JArr, actor.get "items" ≠ some (.arr xs)) :
    EID.fix_actor_identifiers_and_resources actor = (actor, false, []) := by
  unfold EID.fix_actor_identifiers_and_resources
  match hit : actor.get "items" with
  | some (.arr xs) => exact absurd hit (h xs)
  | some .null => rfl
  | some (.bool _) => rfl
  | some (.num _) => rfl
  | some (.str _) => rfl
  | some (.obj _) => rfl
  | none => rfl

/-- Documents without an item list have empty tag lists. -/
theorem tagList_nonarr (actor : JObj)
    (h : ∀ xs : JArr, actor.get "items" ≠ some (.arr xs)) :
    EID.itemTagList actor = [] ∧ EID.actionTagList actor = [] := by
  unfold EID.itemTagList EID.actionTagList
  match hit : actor.get "items" with
  | some (.arr xs) => exact absurd hit (h xs)
  | some .null => exact ⟨rfl, rfl⟩
  | some (.bool _) => exact ⟨rfl, rfl⟩
  | some (.num _) => exact ⟨rfl, rfl⟩
  | some (.str _) => exact ⟨rfl, rfl⟩
  | some (.obj _) => exact ⟨rfl, rfl⟩
  | none => exact ⟨rfl, rfl⟩

/-- Pass 1 is the identity when every stored tag is fresh and the tags
are mutually distinct; it then just appends the tag list to `seen` and
`tags`. -/
theorem pass1_id : ∀ (items : JArr) (seen tags : List String),
    (∀ t ∈ EID.itemTagsOf items, t ∉ seen) → (EID.itemTagsOf items).Nodup →
    EID.pass1 items seen tags =
      ⟨items, seen ++ EID.itemTagsOf items, tags ++ EID.itemTagsOf items,
        false, []⟩
  | .nil, seen, tags, _, _ => by
    unfold EID.pass1
    simp [EID.itemTagsOf]
  | .cons (.obj it) tl, seen, tags, hfresh, hnd => by
    unfold EID.pass1
    dsimp only
    match htag : EID.get_item_tag it with
    | none =>
      dsimp only
      have htl : EID.itemTagsOf (.cons (.obj it) tl) = EID.itemTagsOf tl := by
        simp only [EID.itemTagsOf, htag]
      rw [htl] at hfresh hnd
      rw [pass1_id tl seen tags hfresh hnd]
      rw [htl]
    | some tag =>
      dsimp only
      have htl : EID.itemTagsOf (.cons (.obj it) tl) =
          tag :: EID.itemTagsOf tl := by
        simp only [EID.itemTagsOf, htag]
      rw [htl] at hfresh hnd
      have hmem : tag ∉ seen := hfresh tag (List.mem_cons_self _ _)
      rw [if_neg hmem]
      have hfresh2 : ∀ t ∈ EID.itemTagsOf tl, t ∉ seen ++ [tag] := by
        intro t ht hmem2
        rcases List.mem_append.mp hmem2 with h2 | h2
        · exact hfresh t (List.mem_cons_of_mem _ ht) h2
        · rw [List.mem_singleton] at h2
          subst h2
          exact (List.nodup_cons.mp hnd).1 ht
      rw [pass1_id tl (seen ++ [tag]) (tags ++ [tag]) hfresh2
        (List.nodup_cons.mp hnd).2]
      rw [htl]
      simp
  | .cons .null tl, seen, tags, hfresh, hnd => by
    unfold EID.pass1
    dsimp only
    rw [pass1_id tl seen tags hfresh hnd]
    rfl
  | .cons (.bool _) tl, seen, tags, hfresh, hnd => by
    unfold EID.pass1
    dsimp only
    rw [pass1_id tl seen tags hfresh hnd]
    rfl
  | .cons (.num _) tl, seen, tags, hfresh, hnd => by
    unfold EID.pass1
    dsimp only
    rw [pass1_id tl seen tags hfresh hnd]
    rfl
  | .cons (.str _) tl, seen, tags, hfresh, hnd => by
    unfold EID.pass1
    dsimp only
    rw [pass1_id tl seen tags hfresh hnd]
    rfl
  | .cons (.arr _) tl, seen, tags, hfresh, hnd => by
    unfold EID.pass1
    dsimp only
    rw [pass1_id tl seen tags hfresh hnd]
    rfl

/-- The action loop is the identity when every stored action tag is
fresh and the tags are mutually distinct. -/
theorem actLoop_id : ∀ (itName : String) (acts : JArr) (seen : List String),
    (∀ t ∈ EID.actionTagsOfActs acts, t ∉ seen) →
    (EID.actionTagsOfActs acts).Nodup →
    EID.actLoop itName acts seen =
      ⟨acts, seen ++ EID.actionTagsOfActs acts, false, []⟩
  | _, .nil, seen, _, _ => by
    unfold EID.actLoop
    simp [EID.actionTagsOfActs]
  | itName, .cons (.obj a) tl, seen, hfresh, hnd => by
    unfold EID.actLoop
    dsimp only
    match htag : EID.get_action_tag a with
    | none =>
      dsimp only
      have htl : EID.actionTagsOfActs (.cons (.obj a) tl) =
          EID.actionTagsOfActs tl := by
        simp only [EID.actionTagsOfActs, htag]
      rw [htl] at hfresh hnd
      rw [actLoop_id itName tl seen hfresh hnd]
      rw [htl]
    | some t =>
      dsimp only
      have htl : EID.actionTagsOfActs (.cons (.obj a) tl) =
          t :: EID.actionTagsOfActs tl := by
        simp only [EID.actionTagsOfActs, htag]
      rw [htl] at hfresh hnd
      have hmem : t ∉ seen := hfresh t (List.mem_cons_self _ _)
      rw [if_neg hmem]
      have hfresh2 : ∀ s ∈ EID.actionTagsOfActs tl, s ∉ seen ++ [t] := by
        intro s hsm hmem2
        rcases List.mem_append.mp hmem2 with h2 | h2
        · exact hfresh s (List.mem_cons_of_mem _ hsm) h2
        · rw [List.mem_singleton] at h2
          subst h2
          exact (List.nodup_cons.mp hnd).1 hsm
      rw [actLoop_id itName tl (seen ++ [t]) hfresh2
        (List.nodup_cons.mp hnd).2]
      rw [htl]
      simp
  | itName, .cons .null tl, seen, hfresh, hnd => by
    unfold EID.actLoop
    dsimp only
    rw [actLoop_id itName tl seen hfresh hnd]
    rfl
  | itName, .cons (.bool _) tl, seen, hfresh, hnd => by
    unfold EID.actLoop
    dsimp only
    rw [actLoop_id itName tl seen hfresh hnd]
    rfl
  | itName, .cons (.num _) tl, seen, hfresh, hnd => by
    unfold EID.actLoop
    dsimp only
    rw [actLoop_id itName tl seen hfresh hnd]
    rfl
  | itName, .cons (.str _) tl, seen, hfresh, hnd => by
    unfold EID.actLoop
    dsimp only
    rw [actLoop_id itName tl seen hfresh hnd]
    rfl
  | itName, .cons (.arr _) tl, seen, hfresh, hnd => by
    unfold EID.actLoop
    dsimp only
    rw [actLoop_id itName tl seen hfresh hnd]
    rfl

/-- Pass 2 on one item is the identity under fresh, distinct action
tags. -/
theorem pass2Item_id (it : JObj) (seen : List String)
    (hfresh : ∀ t ∈ EID.actionTagsOfItem it, t ∉ seen)
    (hnd : (EID.actionTagsOfItem it).Nodup) :
    EID.pass2Item it seen = ⟨it, seen ++ EID.actionTagsOfItem it, false, []⟩ := by
  unfold EID.pass2Item
  dsimp only
  match hs : it.get "system" with
  | some (.obj sysd) =>
    dsimp only
    match ha : sysd.get "actions" with
    | some (.arr acts) =>
      dsimp only
      have hti : EID.actionTagsOfItem it = EID.actionTagsOfActs acts := by
        simp only [EID.actionTagsOfItem, hs, ha]
      rw [hti] at hfresh hnd
      rw [actLoop_id (EID.pyShow (it.get "name")) acts seen hfresh hnd]
      dsimp only
      rw [set_get_self sysd ha, set_get_self it hs, hti]
    | some .null =>
      have hti : EID.actionTagsOfItem it = [] := by
        simp only [EID.actionTagsOfItem, hs, ha]
      rw [hti]
      simp
    | some (.bool _) =>
      have hti : EID.actionTagsOfItem it = [] := by
        simp only [EID.actionTagsOfItem, hs, ha]
      rw [hti]
      simp
    | some (.num _) =>
      have hti : EID.actionTagsOfItem it = [] := by
        simp only [EID.actionTagsOfItem, hs, ha]
      rw [hti]
      simp
    | some (.str _) =>
      have hti : EID.actionTagsOfItem it = [] := by
        simp only [EID.actionTagsOfItem, hs, ha]
      rw [hti]
      simp
    | some (.obj _) =>
      have hti : EID.actionTagsOfItem it = [] := by
        simp only [EID.actionTagsOfItem, hs, ha]
      rw [hti]
      simp
    | none =>
      have hti : EID.actionTagsOfItem it = [] := by
        simp only [EID.actionTagsOfItem, hs, ha]
      rw [hti]
      simp
  | some .null =>
    have hti : EID.actionTagsOfItem it = [] := by
      simp only [EID.actionTagsOfItem, hs]
    rw [hti]
    simp
  | some (.bool _) =>
    have hti : EID.actionTagsOfItem it = [] := by
      simp only [EID.actionTagsOfItem, hs]
    rw [hti]
    simp
  | some (.num _) =>
    have hti : EID.actionTagsOfItem it = [] := by
      simp only [EID.actionTagsOfItem, hs]
    rw [hti]
    simp
  | some (.str _) =>
    have hti : EID.actionTagsOfItem it = [] := by
      simp only [EID.actionTagsOfItem, hs]
    rw [hti]
    simp
  | some (.arr _) =>
    have hti : EID.actionTagsOfItem it = [] := by
      simp only [EID.actionTagsOfItem, hs]
    rw [hti]
    simp
  | none =>
    have hti : EID.actionTagsOfItem it = [] := by
      simp only [EID.actionTagsOfItem, hs]
    rw [hti]
    simp

/-- Pass 2 is the identity when every action tag is fresh and all
action tags are mutually distinct. -/
theorem pass2_id : ∀ (items : JArr) (seen : List String),
    (∀ t ∈ EID.actionTagsOf items, t ∉ seen) →
    (EID.actionTagsOf items).Nodup →
    EID.pass2 items seen = ⟨items, seen ++ EID.actionTagsOf items, false, []⟩
  | .nil, seen, _, _ => by
    unfold EID.pass2
    simp [EID.actionTagsOf]
  | .cons (.obj it) tl, seen, hfresh, hnd => by
    unfold EID.pass2
    dsimp only
    have hsplit : EID.actionTagsOf (.cons (.obj it) tl) =
        EID.actionTagsOfItem it ++ EID.actionTagsOf tl := rfl
    rw [hsplit] at hfresh hnd
    rw [List.nodup_append] at hnd
    obtain ⟨hnd1, hnd2, hdisj⟩ := hnd
    have hfr1 : ∀ t ∈ EID.actionTagsOfItem it, t ∉ seen :=
      fun t ht => hfresh t (List.mem_append_left _ ht)
    rw [pass2Item_id it seen hfr1 hnd1]
    dsimp only
    have hfr2 : ∀ t ∈ EID.actionTagsOf tl,
        t ∉ seen ++ EID.actionTagsOfItem it := by
      intro t ht hmem
      rcases List.mem_append.mp hmem with h2 | h2
      · exact hfresh t (List.mem_append_right _ ht) h2
      · exact hdisj h2 ht
    rw [pass2_id tl (seen ++ EID.actionTagsOfItem it) hfr2 hnd2]
    rw [hsplit]
    simp [List.append_assoc]
  | .cons .null tl, seen, hfresh, hnd => by
    unfold EID.pass2
    dsimp only
    rw [pass2_id tl seen hfresh hnd]
    rfl
  | .cons (.bool _) tl, seen, hfresh, hnd => by
    unfold EID.pass2
    dsimp only
    rw [pass2_id tl seen hfresh hnd]
    rfl
  | .cons (.num _) tl, seen, hfresh, hnd => by
    unfold EID.pass2
    dsimp only
    rw [pass2_id tl seen hfresh hnd]
    rfl
  | .cons (.str _) tl, seen, hfresh, hnd => by
    unfold EID.pass2
    dsimp only
    rw [pass2_id tl seen hfresh hnd]
    rfl
  | .cons (.arr _) tl, seen, hfresh, hnd => by
    unfold EID.pass2
    dsimp only
    rw [pass2_id tl seen hfresh hnd]
    rfl

/-- A document whose items already carry fresh distinct tags, fresh
distinct action tags disjoint from the item tags, and whose resource
keys avoid the item tags, is a fixed point of the deduplicator. -/
theorem fix_id_of (d1 : JObj) {P2I : JArr} {L1 L2 : List String}
    (hfix : d1.get "items" = some (.arr P2I))
    (hitl : EID.itemTagsOf P2I = L1) (hnd1 : L1.Nodup)
    (hatl : EID.actionTagsOf P2I = L2) (hnd2 : L2.Nodup)
    (hdisj : ∀ x ∈ L2, x ∉ L1)
    (hresOK : ∀ res1 : JObj, EID.get_resources_dict d1 = some res1 →
      ∀ k ∈ res1.keys, k ∉ L1) :
    EID.fix_actor_identifiers_and_resources d1 = (d1, false, []) := by
  unfold EID.fix_actor_identifiers_and_resources
  simp only [hfix]
  have hp1 : EID.pass1 P2I [] [] = ⟨P2I, [] ++ L1, [] ++ L1, false, []⟩ := by
    have h2 := pass1_id P2I [] [] (by simp) (by rw [hitl]; exact hnd1)
    rw [hitl] at h2
    exact h2
  rw [hp1]
  dsimp only
  have hp2 : EID.pass2 P2I ([] ++ L1) = ⟨P2I, ([] ++ L1) ++ L2, false, []⟩ := by
    have hfr : ∀ t ∈ EID.actionTagsOf P2I, t ∉ [] ++ L1 := by
      intro t ht
      rw [hatl] at ht
      simpa using hdisj t ht
    have h2 := pass2_id P2I ([] ++ L1) hfr (by rw [hatl]; exact hnd2)
    rw [hatl] at h2
    exact h2
  rw [hp2]
  dsimp only
  rw [set_get_self d1 hfix]
  match hres : EID.get_resources_dict d1 with
  | some res1 =>
    dsimp only
    have hdel : res1.keys.filter
        (fun k => decide (k ∈ ([] ++ L1 : List String))) = [] := by
      refine List.filter_eq_nil.mpr ?_
      intro k hk
      simp only [decide_eq_true_eq]
      simpa using hresOK res1 hres k hk
    rw [if_neg (by rw [hdel]; exact fun h2 => h2 rfl)]
    rfl
  | none =>
    dsimp only
    rfl

/-- C6's main case: the facts `fix_id_of` wants, read off the pass
invariants of the first run. -/
theorem fix_fixed_point (actor : JObj) {items : JArr}
    (hit : actor.get "items" = some (.arr items))
    (hws : allArr itemOK items = true) :
    EID.fix_actor_identifiers_and_resources
        (EID.fix_actor_identifiers_and_resources actor).1 =
      ((EID.fix_actor_identifiers_and_resources actor).1, false, []) := by
  obtain ⟨L1, p1, p2, p3, p4, p5, p6⟩ := pass1_out items [] [] hws
  obtain ⟨L2, q1, q2, q3, q4, q5⟩ := pass2_out (EID.pass1 items [] []).items
    (EID.pass1 items [] []).seen p6
  have hitl2 : EID.itemTagsOf (EID.pass2 (EID.pass1 items [] []).items
      (EID.pass1 items [] []).seen).items = L1 := by
    rw [q3, p3]
  refine fix_id_of _ (fix_items_eq actor hit) hitl2 p4 q2 q4 ?_ ?_
  · intro x hx
    have h2 := q5 x hx
    rw [p1] at h2
    simpa using h2
  · intro res1 hres1 k hk
    match hres : EID.get_resources_dict actor with
    | some res =>
      have h2 := fix_resources_eq actor hit hres
      rw [hres1] at h2
      injection h2 with h3
      subst h3
      obtain ⟨hpk, _⟩ := mem_keys_filterKeys res _ k hk
      rw [p2] at hpk
      simpa using hpk
    | none =>
      have h2 := fix_resources_none actor hit hres
      rw [hres1] at h2
      exact Option.noConfusion h2

/-- `Nat.digitChar` of a small number is never a newline. -/
theorem digitChar_ne_nl {n : Nat} (h : n < 16) : Nat.digitChar n ≠ '\n' := by
  interval_cases n <;> decide

/-- The decimal renderer emits no newline. -/
theorem natStrGo_no_nl : ∀ (fuel n : Nat) (acc : List Char),
    '\n' ∉ acc → '\n' ∉ natStrGo fuel n acc
  | 0, _, acc, h => h
  | fuel + 1, n, acc, h => by
    unfold natStrGo
    by_cases h1 : n < 10
    · rw [if_pos h1]
      intro hm
      rcases List.mem_cons.mp hm with h2 | h2
      · exact digitChar_ne_nl (by omega) h2.symm
      · exact h h2
    · rw [if_neg h1]
      refine natStrGo_no_nl fuel (n / 10) _ ?_
      intro hm
      rcases List.mem_cons.mp hm with h2 | h2
      · exact digitChar_ne_nl (by omega) h2.symm
      · exact h h2

/-- `str(n)` of a natural number holds no newline. -/
theorem natStr_no_nl (n : Nat) : '\n' ∉ (natStr n).data :=
  natStrGo_no_nl (n + 1) n [] (by simp)

/-- `str(n)` of an integer holds no newline. -/
theorem intStr_no_nl (n : Int) : '\n' ∉ (intStr n).data := by
  unfold intStr
  by_cases h : n < 0
  · rw [if_pos h]
    rw [String.data_append]
    intro hm
    rcases List.mem_append.mp hm with h2 | h2
    · exact absurd h2 (by decide)
    · exact natStr_no_nl _ h2
  · rw [if_neg h]
    exact natStr_no_nl _

/-- The JSON character escaper emits no newline (a literal newline is
escaped as backslash-n). -/
theorem escChar_no_nl (c : Char) : '\n' ∉ escChar c := by
  unfold escChar
  by_cases h1 : c = '"'
  · rw [if_pos h1]; decide
  · rw [if_neg h1]
    by_cases h2 : c = '\\'
    · rw [if_pos h2]; decide
    · rw [if_neg h2]
      by_cases h3 : c = '\n'
      · rw [if_pos h3]; decide
      · rw [if_neg h3]
        by_cases h4 : c = '\r'
        · rw [if_pos h4]; decide
        · rw [if_neg h4]
          by_cases h5 : c = '\t'
          · rw [if_pos h5]; decide
          · rw [if_neg h5]
            by_cases h6 : c = '\x08'
            · rw [if_pos h6]; decide
            · rw [if_neg h6]
              by_cases h7 : c = '\x0c'
              · rw [if_pos h7]; decide
              · rw [if_neg h7]
                by_cases h8 : c.toNat < 32
                · rw [if_pos h8]
                  intro hm
                  simp only [List.mem_cons] at hm
                  rcases hm with h9 | h9 | h9 | h9 | h9 | h9 | h9
                  · exact absurd h9 (by decide)
                  · exact absurd h9 (by decide)
                  · exact absurd h9 (by decide)
                  · exact absurd h9 (by decide)
                  · exact digitChar_ne_nl (by omega) h9.symm
                  · exact digitChar_ne_nl (by omega) h9.symm
                  · exact absurd h9 (List.not_mem_nil _)
                · rw [if_neg h8]
                  intro hm
                  rcases List.mem_cons.mp hm with h9 | h9
                  · exact h3 h9.symm
                  · exact absurd h9 (List.not_mem_nil _)

/-- A serialized JSON string literal holds no newline. -/
theorem escString_no_nl (s : String) : '\n' ∉ (escString s).data := by
  intro hm
  have hm2 : '\n' ∈ '"' :: ((s.data.map escChar).join ++ ['"']) := hm
  rcases List.mem_cons.mp hm2 with h1 | h1
  · exact absurd h1 (by decide)
  · rcases List.mem_append.mp h1 with h2 | h2
    · rcases List.mem_join.mp h2 with ⟨a, ha, hc⟩
      rcases List.mem_map.mp ha with ⟨c, _, hc2⟩
      exact escChar_no_nl c (hc2 ▸ hc)
    · exact absurd h2 (by decide)

mutual

/-- `json.dumps` output holds no newline: every written document line is
a single physical line. -/
theorem serialize_no_nl : ∀ v : JVal, '\n' ∉ (serialize v).data
  | .null => by decide
  | .bool true => by decide
  | .bool false => by decide
  | .num n => intStr_no_nl n
  | .str s => escString_no_nl s
  | .arr xs => by
    intro hm
    have hm2 : '\n' ∈ ("[" ++ serializeArr xs ++ "]").data := hm
    rw [String.data_append, String.data_append] at hm2
    rcases List.mem_append.mp hm2 with h1 | h1
    · rcases List.mem_append.mp h1 with h2 | h2
      · exact absurd h2 (by decide)
      · exact serializeArr_no_nl xs h2
    · exact absurd h1 (by decide)
  | .obj kvs => by
    intro hm
    have hm2 : '\n' ∈ ("\x7b" ++ serializeObj kvs ++ "\x7d").data := hm
    rw [String.data_append, String.data_append] at hm2
    rcases List.mem_append.mp hm2 with h1 | h1
    · rcases List.mem_append.mp h1 with h2 | h2
      · exact absurd h2 (by decide)
      · exact serializeObj_no_nl kvs h2
    · exact absurd h1 (by decide)

/-- Serialized array bodies hold no newline. -/
theorem serializeArr_no_nl : ∀ xs : JArr, '\n' ∉ (serializeArr xs).data
  | .nil => by decide
  | .cons v .nil => serialize_no_nl v
  | .cons v (.cons w t) => by
    intro hm
    have hm2 : '\n' ∈ (serialize v ++ ", " ++ serializeArr (.cons w t)).data := hm
    rw [String.data_append, String.data_append] at hm2
    rcases List.mem_append.mp hm2 with h1 | h1
    · rcases List.mem_append.mp h1 with h2 | h2
      · exact serialize_no_nl v h2
      · exact absurd h2 (by decide)
    · exact serializeArr_no_nl (.cons w t) h1

/-- Serialized object bodies hold no newline. -/
theorem serializeObj_no_nl : ∀ kvs : JObj, '\n' ∉ (serializeObj kvs).data
  | .nil => by decide
  | .cons k v .nil => by
    intro hm
    have hm2 : '\n' ∈ (escString k ++ ": " ++ serialize v).data := hm
    rw [String.data_append, String.data_append] at hm2
    rcases List.mem_append.mp hm2 with h1 | h1
    · rcases List.mem_append.mp h1 with h2 | h2
      · exact escString_no_nl k h2
      · exact absurd h2 (by decide)
    · exact serialize_no_nl v h1
  | .cons k v (.cons k2 w t) => by
    intro hm
    have hm2 : '\n' ∈ (escString k ++ ": " ++ serialize v ++ ", " ++
        serializeObj (.cons k2 w t)).data := hm
    rw [String.data_append, String.data_append, String.data_append,
      String.data_append] at hm2
    rcases List.mem_append.mp hm2 with h1 | h1
    · rcases List.mem_append.mp h1 with h2 | h2
      · rcases List.mem_append.mp h2 with h3 | h3
        · rcases List.mem_append.mp h3 with h4 | h4
          · exact escString_no_nl k h4
          · exact absurd h4 (by decide)
        · exact serialize_no_nl v h3
      · exact absurd h2 (by decide)
    · exact serializeObj_no_nl (.cons k2 w t) h1

end

/-! ### Flag accuracy (C10): per-step flag/identity/log lemmas -/

/-- Two objects differing along some path differ. -/
theorem ne_of_getPath_ne {a b : JObj} (P : List String)
    (h : a.getPath P ≠ b.getPath P) : a ≠ b := fun he => h (he ▸ rfl)

/-- Unfolding lemma for `JArr.length` on a cons cell. -/
theorem jlength_cons (v : JVal) (t : JArr) :
    (JArr.cons v t).length = t.length + 1 := rfl

/-- Dropping nulls never lengthens a list. -/
theorem dropNulls_length_le : ∀ xs : JArr, (dropNulls xs).length ≤ xs.length
  | .nil => Nat.le_refl _
  | .cons .null t => by
    rw [show dropNulls (.cons .null t) = dropNulls t from rfl, jlength_cons]
    have := dropNulls_length_le t
    omega
  | .cons (.bool b) t => by
    rw [show dropNulls (.cons (.bool b) t) = .cons (.bool b) (dropNulls t) from rfl,
      jlength_cons, jlength_cons]
    have := dropNulls_length_le t
    omega
  | .cons (.num n) t => by
    rw [show dropNulls (.cons (.num n) t) = .cons (.num n) (dropNulls t) from rfl,
      jlength_cons, jlength_cons]
    have := dropNulls_length_le t
    omega
  | .cons (.str s) t => by
    rw [show dropNulls (.cons (.str s) t) = .cons (.str s) (dropNulls t) from rfl,
      jlength_cons, jlength_cons]
    have := dropNulls_length_le t
    omega
  | .cons (.arr a) t => by
    rw [show dropNulls (.cons (.arr a) t) = .cons (.arr a) (dropNulls t) from rfl,
      jlength_cons, jlength_cons]
    have := dropNulls_length_le t
    omega
  | .cons (.obj o) t => by
    rw [show dropNulls (.cons (.obj o) t) = .cons (.obj o) (dropNulls t) from rfl,
      jlength_cons, jlength_cons]
    have := dropNulls_length_le t
    omega

/-- Dropping at least one null strictly shortens a list. -/
theorem dropNulls_length_lt : ∀ xs : JArr, countNulls xs ≠ 0 →
    (dropNulls xs).length < xs.length
  | .nil, h => absurd rfl h
  | .cons .null t, _ => by
    rw [show dropNulls (.cons .null t) = dropNulls t from rfl, jlength_cons]
    have := dropNulls_length_le t
    omega
  | .cons (.bool b) t, h => by
    rw [show dropNulls (.cons (.bool b) t) = .cons (.bool b) (dropNulls t) from rfl,
      jlength_cons, jlength_cons]
    have := dropNulls_length_lt t (show countNulls t ≠ 0 from h)
    omega
  | .cons (.num n) t, h => by
    rw [show dropNulls (.cons (.num n) t) = .cons (.num n) (dropNulls t) from rfl,
      jlength_cons, jlength_cons]
    have := dropNulls_length_lt t (show countNulls t ≠ 0 from h)
    omega
  | .cons (.str s) t, h => by
    rw [show dropNulls (.cons (.str s) t) = .cons (.str s) (dropNulls t) from rfl,
      jlength_cons, jlength_cons]
    have := dropNulls_length_lt t (show countNulls t ≠ 0 from h)
    omega
  | .cons (.arr a) t, h => by
    rw [show dropNulls (.cons (.arr a) t) = .cons (.arr a) (dropNulls t) from rfl,
      jlength_cons, jlength_cons]
    have := dropNulls_length_lt t (show countNulls t ≠ 0 from h)
    omega
  | .cons (.obj o) t, h => by
    rw [show dropNulls (.cons (.obj o) t) = .cons (.obj o) (dropNulls t) from rfl,
      jlength_cons, jlength_cons]
    have := dropNulls_length_lt t (show countNulls t ≠ 0 from h)
    omega

/-- An unflagged value repair is the identity, and its log is empty
exactly when unflagged. -/
theorem valueStep_ff (tr : JObj) (key : String) :
    ((CRP.valueStep tr key).2.1 = false → (CRP.valueStep tr key).1 = tr) ∧
      ((CRP.valueStep tr key).2.2 = [] ↔ (CRP.valueStep tr key).2.1 = false) := by
  unfold CRP.valueStep
  split
  · simp
  · simp
  · simp
  · next xs h =>
    dsimp only
    by_cases hcl : cleanList xs = xs
    · rw [if_pos hcl]; simp
    · rw [if_neg hcl]; simp
  · simp

/-- An unflagged custom-field repair is the identity, and its log is
empty exactly when unflagged. -/
theorem customStep_ff (tr : JObj) (key field : String) :
    ((CRP.customStep tr key field).2.1 = false →
      (CRP.customStep tr key field).1 = tr) ∧
      ((CRP.customStep tr key field).2.2 = [] ↔
        (CRP.customStep tr key field).2.1 = false) := by
  unfold CRP.customStep
  split
  · simp
  · next xs h =>
    dsimp only
    by_cases hcl : cleanList xs = xs
    · rw [if_pos hcl]; simp
    · rw [if_neg hcl]; simp
  · simp

/-- An unflagged `ensure_trait_arrays` is the identity, and its log is
empty exactly when unflagged. -/
theorem ensure_ff (traits : JObj) (key : String) :
    ((CRP.ensure_trait_arrays traits key).2.1 = false →
      (CRP.ensure_trait_arrays traits key).1 = traits) ∧
      ((CRP.ensure_trait_arrays traits key).2.2 = [] ↔
        (CRP.ensure_trait_arrays traits key).2.1 = false) := by
  unfold CRP.ensure_trait_arrays
  match hx : traits.get key with
  | some (.obj tr) =>
    dsimp only
    simp only [hx]
    constructor
    · intro h
      simp only [Bool.false_or, Bool.or_eq_false_iff] at h
      obtain ⟨⟨hsv, hsc⟩, hsct⟩ := h
      have h1 := (valueStep_ff tr key).1 hsv
      rw [h1] at hsc hsct ⊢
      have h2 := (customStep_ff tr key "custom").1 hsc
      rw [h2] at hsct ⊢
      have h3 := (customStep_ff tr key "customTotal").1 hsct
      rw [h3]
      exact set_get_self traits hx
    · constructor
      · intro h
        simp only [List.nil_append, List.append_eq_nil] at h
        obtain ⟨⟨h1, h2⟩, h3⟩ := h
        simp only [Bool.false_or, Bool.or_eq_false_iff]
        exact ⟨⟨(valueStep_ff tr key).2.mp h1, (customStep_ff _ key "custom").2.mp h2⟩,
          (customStep_ff _ key "customTotal").2.mp h3⟩
      · intro h
        simp only [Bool.false_or, Bool.or_eq_false_iff] at h
        obtain ⟨⟨h1, h2⟩, h3⟩ := h
        simp only [List.nil_append, List.append_eq_nil]
        exact ⟨⟨(valueStep_ff tr key).2.mpr h1, (customStep_ff _ key "custom").2.mpr h2⟩,
          (customStep_ff _ key "customTotal").2.mpr h3⟩
  | some .null =>
    dsimp only
    refine ⟨fun h => by simp at h, by simp⟩
  | some (.bool _) =>
    dsimp only
    refine ⟨fun h => by simp at h, by simp⟩
  | some (.num _) =>
    dsimp only
    refine ⟨fun h => by simp at h, by simp⟩
  | some (.str _) =>
    dsimp only
    refine ⟨fun h => by simp at h, by simp⟩
  | some (.arr _) =>
    dsimp only
    refine ⟨fun h => by simp at h, by simp⟩
  | none =>
    dsimp only
    refine ⟨fun h => by simp at h, by simp⟩

/-- An unflagged languages step is the identity, and its log is empty
exactly when unflagged. -/
theorem langStep_ff (doc : JObj) :
    ((CRP.langStep doc).2.1 = false → (CRP.langStep doc).1 = doc) ∧
      ((CRP.langStep doc).2.2 = [] ↔ (CRP.langStep doc).2.1 = false) := by
  unfold CRP.langStep
  match h : doc.getPath ["system", "traits", "languages", "value"] with
  | some (.arr xs) =>
    dsimp only
    by_cases hn : countNulls xs ≠ 0
    · rw [if_pos hn]; simp
    · rw [if_neg hn]; simp
  | some .null => simp
  | some (.bool _) => simp
  | some (.num _) => simp
  | some (.str _) => simp
  | some (.obj _) => simp
  | none => simp

/-- The plus-number pass flags exactly when it changes the document. -/
theorem convertObj_iff (o : JObj) :
    (CRP.convertObj o).2 = true ↔ (CRP.convertObj o).1 ≠ o := by
  constructor
  · exact convertObj_ne_of_flag o
  · intro hne
    by_contra h
    have h2 : (CRP.convertObj o).2 = false := by simpa using h
    have h3 := convertObj_self o (noPlusObj_of_flag_false o h2)
    rw [h3] at hne
    exact hne rfl

/-- A flagged value repair means the stored `value` was not a list, or
was an unclean list. -/
theorem valueStep_flag_cases (tr : JObj) (key : String)
    (hf : (CRP.valueStep tr key).2.1 = true) :
    (∀ xs, tr.get "value" ≠ some (.arr xs)) ∨
      (∃ xs, tr.get "value" = some (.arr xs) ∧ cleanList xs ≠ xs) := by
  match hx : tr.get "value" with
  | some (.arr xs) =>
    refine Or.inr ⟨xs, rfl, fun hcl => ?_⟩
    unfold CRP.valueStep at hf
    simp only [hx] at hf
    rw [if_pos hcl] at hf
    simp at hf
  | none => exact Or.inl (fun xs h => by simp at h)
  | some .null => exact Or.inl (fun xs h => by simp at h)
  | some (.bool _) => exact Or.inl (fun xs h => by simp at h)
  | some (.num _) => exact Or.inl (fun xs h => by simp at h)
  | some (.str _) => exact Or.inl (fun xs h => by simp at h)
  | some (.obj _) => exact Or.inl (fun xs h => by simp at h)

/-- On a stored list, the value repair leaves exactly the cleaned
list. -/
theorem valueStep_value_arr (tr : JObj) (key : String) {xs : JArr}
    (h : tr.get "value" = some (.arr xs)) :
    (CRP.valueStep tr key).1.get "value" = some (.arr (cleanList xs)) := by
  unfold CRP.valueStep
  simp only [h]
  by_cases hcl : cleanList xs = xs
  · rw [if_pos hcl, h, hcl]
  · rw [if_neg hcl, get_set_eq]

/-- A flagged custom-field repair means the field was a string or an
unclean list. -/
theorem customStep_flag_cases (tr : JObj) (key field : String)
    (hf : (CRP.customStep tr key field).2.1 = true) :
    (∃ s, tr.get field = some (.str s)) ∨
      (∃ xs, tr.get field = some (.arr xs) ∧ cleanList xs ≠ xs) := by
  match hx : tr.get field with
  | some (.str s) => exact Or.inl ⟨s, rfl⟩
  | some (.arr xs) =>
    refine Or.inr ⟨xs, rfl, fun hcl => ?_⟩
    unfold CRP.customStep at hf
    simp only [hx] at hf
    rw [if_pos hcl] at hf
    simp at hf
  | none =>
    unfold CRP.customStep at hf
    simp only [hx] at hf
    simp at hf
  | some .null =>
    unfold CRP.customStep at hf
    simp only [hx] at hf
    simp at hf
  | some (.bool _) =>
    unfold CRP.customStep at hf
    simp only [hx] at hf
    simp at hf
  | some (.num _) =>
    unfold CRP.customStep at hf
    simp only [hx] at hf
    simp at hf
  | some (.obj _) =>
    unfold CRP.customStep at hf
    simp only [hx] at hf
    simp at hf

/-- On a stored string, the custom-field repair writes the token
list. -/
theorem customStep_field_str (tr : JObj) (key field : String) {s : String}
    (h : tr.get field = some (.str s)) :
    (CRP.customStep tr key field).1.get field = some (.arr (strToListArr s)) := by
  unfold CRP.customStep
  simp only [h]
  rw [get_set_eq]

/-- On a stored list, the custom-field repair leaves exactly the
cleaned list. -/
theorem customStep_field_arr (tr : JObj) (key field : String) {xs : JArr}
    (h : tr.get field = some (.arr xs)) :
    (CRP.customStep tr key field).1.get field = some (.arr (cleanList xs)) := by
  unfold CRP.customStep
  simp only [h]
  by_cases hcl : cleanList xs = xs
  · rw [if_pos hcl, h, hcl]
  · rw [if_neg hcl, get_set_eq]

/-- Reading a trait entry field of the input document. -/
theorem getPath_traits_field (o : JObj) {t1 tr : JObj}
    (h : o.getPath ["system", "traits"] = some (.obj t1))
    {key : String} (hk : t1.get key = some (.obj tr)) (f : String) :
    o.getPath ["system", "traits", key, f] = tr.get f := by
  rw [getPath_traits_ext o h [key, f]]
  show t1.getPath [key, f] = tr.get f
  rw [getPath_cons_build hk]
  exact getPath_single tr f

/-- What the repaired document holds along `system.traits.<key>.<rest>`
for a non-languages key: the convert image of the ensure-pass output. -/
theorem repair_obj_out (d t0 : JObj)
    (h : d.getPath ["system", "traits"] = some (.obj t0)) (key : String)
    (hk : key ≠ "languages") (rest : List String) :
    JObj.getPath (CRP.repair_actor_doc d).1 ("system" :: "traits" :: key :: rest) =
      (JVal.getPath (.obj (CRP.ensure_trait_arrays (CRP.ensure_trait_arrays
        (CRP.ensure_trait_arrays t0 "eres").1 "dr").1 "dv").1) (key :: rest)).map
        convVal := by
  unfold CRP.repair_actor_doc
  simp only [h]
  rw [getPath_convertObj_doc]
  rw [langStep_getPath_trait _ hk rest]
  rw [show ("system" :: "traits" :: key :: rest) =
    "system" :: (["traits"] ++ (key :: rest)) from rfl]
  rw [getPath_setPath_append "system" ["traits"] d _ (key :: rest) h]

/-- A flagged languages step rewrites `languages.value` to the
null-purged list. -/
theorem langStep_lv (doc : JObj) {xs : JArr}
    (h : doc.getPath ["system", "traits", "languages", "value"] = some (.arr xs))
    (hn : countNulls xs ≠ 0) :
    (CRP.langStep doc).1.getPath ["system", "traits", "languages", "value"] =
      some (.arr (dropNulls xs)) := by
  unfold CRP.langStep
  simp only [h]
  rw [if_pos hn]
  obtain ⟨sys, hs, h2⟩ := getPath_cons_decomp h
  obtain ⟨tr, ht, h3⟩ := getPath_cons_decomp h2
  obtain ⟨lang, hl, h4⟩ := getPath_cons_decomp h3
  rw [ensureDictPath_resolved hs ht hl]
  rw [setPath_cons hs, setPath_cons ht, setPath_cons hl, setPath_single]
  rw [getPath_cons_build (get_set_eq doc "system" _)]
  rw [getPath_cons_build (get_set_eq sys "traits" _)]
  rw [getPath_cons_build (get_set_eq tr "languages" _)]
  rw [getPath_single, get_set_eq]

/-- The possible reasons for a flagged `ensure_trait_arrays`, each paired
with what the pass leaves behind: a created entry over a non-dict, a
repaired non-list or unclean `value`, or a repaired string or unclean
custom field. -/
theorem ensure_flag_diff (t0 : JObj) (key : String)
    (hf : (CRP.ensure_trait_arrays t0 key).2.1 = true) :
    ∃ e : JObj, (CRP.ensure_trait_arrays t0 key).1.get key = some (.obj e) ∧
      ((∀ u : JObj, t0.get key ≠ some (.obj u)) ∨
        ∃ tr : JObj, t0.get key = some (.obj tr) ∧
          (((∀ xs, tr.get "value" ≠ some (.arr xs)) ∧
              ∃ vs, e.get "value" = some (.arr vs)) ∨
            (∃ xs, tr.get "value" = some (.arr xs) ∧ cleanList xs ≠ xs ∧
              e.get "value" = some (.arr (cleanList xs))) ∨
            ∃ f, (f = "custom" ∨ f = "customTotal") ∧
              (((∃ s, tr.get f = some (.str s)) ∧
                  ∃ ys, e.get f = some (.arr ys)) ∨
                ∃ xs, tr.get f = some (.arr xs) ∧ cleanList xs ≠ xs ∧
                  e.get f = some (.arr (cleanList xs))))) := by
  unfold CRP.ensure_trait_arrays at hf ⊢
  match hx : t0.get key with
  | some (.obj tr) =>
    simp only [hx] at hf ⊢
    refine ⟨_, get_set_eq t0 key _, Or.inr ⟨tr, rfl, ?_⟩⟩
    simp only [Bool.false_or, Bool.or_eq_true] at hf
    rcases hf with (hsv | hsc) | hsct
    · rcases valueStep_flag_cases tr key hsv with hcase | ⟨xs, hxs, hcl⟩
      · refine Or.inl ⟨hcase, ?_⟩
        rw [customStep_get_ne _ key "customTotal" "value" (by decide),
          customStep_get_ne _ key "custom" "value" (by decide)]
        obtain ⟨vs, hvs, _⟩ := valueStep_value tr key
        exact ⟨vs, hvs⟩
      · refine Or.inr (Or.inl ⟨xs, hxs, hcl, ?_⟩)
        rw [customStep_get_ne _ key "customTotal" "value" (by decide),
          customStep_get_ne _ key "custom" "value" (by decide)]
        exact valueStep_value_arr tr key hxs
    · have hval : (CRP.valueStep tr key).1.get "custom" = tr.get "custom" :=
        valueStep_get_ne tr key "custom" (by decide)
      rcases customStep_flag_cases _ key "custom" hsc with ⟨s, hstr⟩ | ⟨xs, hxs, hcl⟩
      · refine Or.inr (Or.inr ⟨"custom", Or.inl rfl,
          Or.inl ⟨⟨s, by rw [← hval]; exact hstr⟩, ?_⟩⟩)
        rw [customStep_get_ne _ key "customTotal" "custom" (by decide)]
        rw [customStep_field_str _ key "custom" hstr]
        exact ⟨strToListArr s, rfl⟩
      · refine Or.inr (Or.inr ⟨"custom", Or.inl rfl,
          Or.inr ⟨xs, by rw [← hval]; exact hxs, hcl, ?_⟩⟩)
        rw [customStep_get_ne _ key "customTotal" "custom" (by decide)]
        exact customStep_field_arr _ key "custom" hxs
    · have hval : (CRP.customStep (CRP.valueStep tr key).1 key "custom").1.get
          "customTotal" = tr.get "customTotal" := by
        rw [customStep_get_ne _ key "custom" "customTotal" (by decide)]
        exact valueStep_get_ne tr key "customTotal" (by decide)
      rcases customStep_flag_cases _ key "customTotal" hsct with ⟨s, hstr⟩ | ⟨xs, hxs, hcl⟩
      · refine Or.inr (Or.inr ⟨"customTotal", Or.inr rfl,
          Or.inl ⟨⟨s, by rw [← hval]; exact hstr⟩, ?_⟩⟩)
        rw [customStep_field_str _ key "customTotal" hstr]
        exact ⟨strToListArr s, rfl⟩
      · refine Or.inr (Or.inr ⟨"customTotal", Or.inr rfl,
          Or.inr ⟨xs, by rw [← hval]; exact hxs, hcl, ?_⟩⟩)
        exact customStep_field_arr _ key "customTotal" hxs
  | some .null =>
    simp only [hx] at hf ⊢
    exact ⟨_, get_set_eq _ key _, Or.inl (fun u h => by simp at h)⟩
  | some (.bool _) =>
    simp only [hx] at hf ⊢
    exact ⟨_, get_set_eq _ key _, Or.inl (fun u h => by simp at h)⟩
  | some (.num _) =>
    simp only [hx] at hf ⊢
    exact ⟨_, get_set_eq _ key _, Or.inl (fun u h => by simp at h)⟩
  | some (.str _) =>
    simp only [hx] at hf ⊢
    exact ⟨_, get_set_eq _ key _, Or.inl (fun u h => by simp at h)⟩
  | some (.arr _) =>
    simp only [hx] at hf ⊢
    exact ⟨_, get_set_eq _ key _, Or.inl (fun u h => by simp at h)⟩
  | none =>
    simp only [hx] at hf ⊢
    exact ⟨_, get_set_eq _ key _, Or.inl (fun u h => by simp at h)⟩

/-- One-key path into an object value. -/
theorem getPath_obj_one (E : JObj) (a : String) :
    JVal.getPath (.obj E) [a] = E.get a := by
  show E.getPath [a] = E.get a
  exact getPath_single E a

/-- Two-key path into an object value through a dict entry. -/
theorem getPath_obj_two {E e : JObj} {a : String}
    (h : E.get a = some (.obj e)) (b : String) :
    JVal.getPath (.obj E) [a, b] = e.get b := by
  show E.getPath [a, b] = e.get b
  rw [getPath_cons_build h]
  exact getPath_single e b

/-- A flagged languages step means a null-carrying list was stored. -/
theorem langStep_flag_cases (doc : JObj)
    (hf : (CRP.langStep doc).2.1 = true) :
    ∃ xs, doc.getPath ["system", "traits", "languages", "value"] =
        some (.arr xs) ∧ countNulls xs ≠ 0 := by
  unfold CRP.langStep at hf
  match hx : doc.getPath ["system", "traits", "languages", "value"] with
  | some (.arr xs) =>
    simp only [hx] at hf
    by_cases hn : countNulls xs ≠ 0
    · exact ⟨xs, rfl, hn⟩
    · rw [if_neg hn] at hf
      simp at hf
  | some .null => simp only [hx] at hf; simp at hf
  | some (.bool _) => simp only [hx] at hf; simp at hf
  | some (.num _) => simp only [hx] at hf; simp at hf
  | some (.str _) => simp only [hx] at hf; simp at hf
  | some (.obj _) => simp only [hx] at hf; simp at hf
  | none => simp only [hx] at hf; simp at hf

/-- Any of the flag reasons of `ensure_flag_diff`, installed as the
traits write-back, separates the repaired document from its input. -/
theorem crp_diff_at (d t0 : JObj)
    (h : d.getPath ["system", "traits"] = some (.obj t0))
    (E3 : JObj) (key : String) (hk : key ≠ "languages") (e : JObj)
    (hE3 : E3.get key = some (.obj e))
    (hreason : (∀ u : JObj, t0.get key ≠ some (.obj u)) ∨
      ∃ tr : JObj, t0.get key = some (.obj tr) ∧
        (((∀ xs, tr.get "value" ≠ some (.arr xs)) ∧
            ∃ vs, e.get "value" = some (.arr vs)) ∨
          (∃ xs, tr.get "value" = some (.arr xs) ∧ cleanList xs ≠ xs ∧
            e.get "value" = some (.arr (cleanList xs))) ∨
          ∃ f, (f = "custom" ∨ f = "customTotal") ∧
            (((∃ s, tr.get f = some (.str s)) ∧
                ∃ ys, e.get f = some (.arr ys)) ∨
              ∃ xs, tr.get f = some (.arr xs) ∧ cleanList xs ≠ xs ∧
                e.get f = some (.arr (cleanList xs))))) :
    (CRP.convertObj (CRP.langStep (d.setPath ["system", "traits"]
      (.obj E3))).1).1 ≠ d := by
  have hout : ∀ rest, JObj.getPath (CRP.convertObj (CRP.langStep
      (d.setPath ["system", "traits"] (.obj E3))).1).1
        ("system" :: "traits" :: key :: rest) =
      (JVal.getPath (.obj E3) (key :: rest)).map convVal := by
    intro rest
    rw [getPath_convertObj_doc, langStep_getPath_trait _ hk rest]
    rw [show ("system" :: "traits" :: key :: rest) =
      "system" :: (["traits"] ++ (key :: rest)) from rfl]
    rw [getPath_setPath_append "system" ["traits"] d _ (key :: rest) h]
  rcases hreason with hR1 | ⟨tr, htr, hcase⟩
  · refine ne_of_getPath_ne ["system", "traits", key] ?_
    rw [show (["system", "traits", key] : List String) =
      "system" :: "traits" :: key :: [] from rfl, hout []]
    rw [getPath_traits_key d h key]
    rw [getPath_obj_one E3 key, hE3, Option.map_some', convVal_obj]
    intro heq
    exact hR1 _ heq.symm
  · rcases hcase with ⟨hnon, vs, hvs⟩ | ⟨xs, hxs, hcl, hval⟩ | ⟨f, hf, hsub⟩
    · refine ne_of_getPath_ne ["system", "traits", key, "value"] ?_
      rw [show (["system", "traits", key, "value"] : List String) =
        "system" :: "traits" :: key :: ["value"] from rfl, hout ["value"]]
      rw [getPath_obj_two hE3 "value", hvs, Option.map_some', convVal_arr]
      rw [getPath_traits_field d h htr "value"]
      intro heq
      exact hnon _ heq.symm
    · refine ne_of_getPath_ne ["system", "traits", key, "value"] ?_
      rw [show (["system", "traits", key, "value"] : List String) =
        "system" :: "traits" :: key :: ["value"] from rfl, hout ["value"]]
      rw [getPath_obj_two hE3 "value", hval, Option.map_some', convVal_arr]
      rw [getPath_traits_field d h htr "value", hxs]
      intro heq
      injection heq with heq1
      injection heq1 with heq2
      have hlen := congrArg JArr.length heq2
      rw [convertArr_length] at hlen
      exact absurd hlen (Nat.ne_of_lt (cleanList_length_lt xs hcl))
    · rcases hsub with ⟨⟨s, hstr⟩, ys, hys⟩ | ⟨xs, hxs, hcl, hval⟩
      · refine ne_of_getPath_ne ["system", "traits", key, f] ?_
        rw [show (["system", "traits", key, f] : List String) =
          "system" :: "traits" :: key :: [f] from rfl, hout [f]]
        rw [getPath_obj_two hE3 f, hys, Option.map_some', convVal_arr]
        rw [getPath_traits_field d h htr f, hstr]
        simp
      · refine ne_of_getPath_ne ["system", "traits", key, f] ?_
        rw [show (["system", "traits", key, f] : List String) =
          "system" :: "traits" :: key :: [f] from rfl, hout [f]]
        rw [getPath_obj_two hE3 f, hval, Option.map_some', convVal_arr]
        rw [getPath_traits_field d h htr f, hxs]
        intro heq
        injection heq with heq1
        injection heq1 with heq2
        have hlen := congrArg JArr.length heq2
        rw [convertArr_length] at hlen
        exact absurd hlen (Nat.ne_of_lt (cleanList_length_lt xs hcl))

/-- The first normalizer is the identity when unflagged. -/
theorem crp_ff (d : JObj) (hflag : (CRP.repair_actor_doc d).2.1 = false) :
    (CRP.repair_actor_doc d).1 = d := by
  match h : d.getPath ["system", "traits"] with
  | some (.obj t0) =>
    rw [repair_obj_branch d t0 h] at hflag ⊢
    dsimp only at hflag ⊢
    simp only [Bool.or_eq_false_iff] at hflag
    obtain ⟨⟨⟨⟨ha, hb⟩, hc⟩, hd⟩, h5⟩ := hflag
    have he1 := (ensure_ff t0 "eres").1 ha
    rw [he1] at hb hc hd h5 ⊢
    have he2 := (ensure_ff t0 "dr").1 hb
    rw [he2] at hc hd h5 ⊢
    have he3 := (ensure_ff t0 "dv").1 hc
    rw [he3] at hd h5 ⊢
    rw [setPath_self _ d _ h] at hd h5 ⊢
    have hl := (langStep_ff d).1 hd
    rw [hl] at h5 ⊢
    rw [convertObj_self d (noPlusObj_of_flag_false d h5)]
  | some .null =>
    have hall : ∀ u : JObj, d.getPath ["system", "traits"] ≠ some (.obj u) :=
      fun u hu => by rw [h] at hu; simp at hu
    rw [repair_nonobj_branch d hall] at hflag ⊢
    dsimp only at hflag ⊢
    rw [convertObj_self d (noPlusObj_of_flag_false d hflag)]
  | some (.bool _) =>
    have hall : ∀ u : JObj, d.getPath ["system", "traits"] ≠ some (.obj u) :=
      fun u hu => by rw [h] at hu; simp at hu
    rw [repair_nonobj_branch d hall] at hflag ⊢
    dsimp only at hflag ⊢
    rw [convertObj_self d (noPlusObj_of_flag_false d hflag)]
  | some (.num _) =>
    have hall : ∀ u : JObj, d.getPath ["system", "traits"] ≠ some (.obj u) :=
      fun u hu => by rw [h] at hu; simp at hu
    rw [repair_nonobj_branch d hall] at hflag ⊢
    dsimp only at hflag ⊢
    rw [convertObj_self d (noPlusObj_of_flag_false d hflag)]
  | some (.str _) =>
    have hall : ∀ u : JObj, d.getPath ["system", "traits"] ≠ some (.obj u) :=
      fun u hu => by rw [h] at hu; simp at hu
    rw [repair_nonobj_branch d hall] at hflag ⊢
    dsimp only at hflag ⊢
    rw [convertObj_self d (noPlusObj_of_flag_false d hflag)]
  | some (.arr _) =>
    have hall : ∀ u : JObj, d.getPath ["system", "traits"] ≠ some (.obj u) :=
      fun u hu => by rw [h] at hu; simp at hu
    rw [repair_nonobj_branch d hall] at hflag ⊢
    dsimp only at hflag ⊢
    rw [convertObj_self d (noPlusObj_of_flag_false d hflag)]
  | none =>
    have hall : ∀ u : JObj, d.getPath ["system", "traits"] ≠ some (.obj u) :=
      fun u hu => by rw [h] at hu; simp at hu
    rw [repair_nonobj_branch d hall] at hflag ⊢
    dsimp only at hflag ⊢
    rw [convertObj_self d (noPlusObj_of_flag_false d hflag)]

/-- A flagged first normalizer changed its document. -/
theorem crp_ne_of_flag (d : JObj)
    (hflag : (CRP.repair_actor_doc d).2.1 = true) :
    (CRP.repair_actor_doc d).1 ≠ d := by
  match h : d.getPath ["system", "traits"] with
  | some (.obj t0) =>
    rw [repair_obj_branch d t0 h] at hflag ⊢
    dsimp only at hflag ⊢
    by_cases h1 : (CRP.ensure_trait_arrays t0 "eres").2.1 = true
    · obtain ⟨e, hEe, hreason⟩ := ensure_flag_diff t0 "eres" h1
      refine crp_diff_at d t0 h _ "eres" (by decide) e ?_ hreason
      rw [ensure_get_ne _ "dv" "eres" (by decide),
        ensure_get_ne _ "dr" "eres" (by decide)]
      exact hEe
    · have h1f : (CRP.ensure_trait_arrays t0 "eres").2.1 = false := by simpa using h1
      have he1 := (ensure_ff t0 "eres").1 h1f
      rw [he1] at hflag ⊢
      by_cases h2 : (CRP.ensure_trait_arrays t0 "dr").2.1 = true
      · obtain ⟨e, hEe, hreason⟩ := ensure_flag_diff t0 "dr" h2
        refine crp_diff_at d t0 h _ "dr" (by decide) e ?_ hreason
        rw [ensure_get_ne _ "dv" "dr" (by decide)]
        exact hEe
      · have h2f : (CRP.ensure_trait_arrays t0 "dr").2.1 = false := by simpa using h2
        have he2 := (ensure_ff t0 "dr").1 h2f
        rw [he2] at hflag ⊢
        by_cases h3 : (CRP.ensure_trait_arrays t0 "dv").2.1 = true
        · obtain ⟨e, hEe, hreason⟩ := ensure_flag_diff t0 "dv" h3
          exact crp_diff_at d t0 h _ "dv" (by decide) e hEe hreason
        · have h3f : (CRP.ensure_trait_arrays t0 "dv").2.1 = false := by simpa using h3
          have he3 := (ensure_ff t0 "dv").1 h3f
          rw [he3] at hflag ⊢
          rw [setPath_self _ d _ h] at hflag ⊢
          by_cases h4 : (CRP.langStep d).2.1 = true
          · obtain ⟨xs, hxv, hn⟩ := langStep_flag_cases d h4
            refine ne_of_getPath_ne ["system", "traits", "languages", "value"] ?_
            rw [getPath_convertObj_doc, langStep_lv d hxv hn, Option.map_some',
              convVal_arr, hxv]
            intro heq
            injection heq with heq1
            injection heq1 with heq2
            have hlen := congrArg JArr.length heq2
            rw [convertArr_length] at hlen
            exact absurd hlen (Nat.ne_of_lt (dropNulls_length_lt xs hn))
          · have h4f : (CRP.langStep d).2.1 = false := by simpa using h4
            have hl := (langStep_ff d).1 h4f
            rw [hl] at hflag ⊢
            simp only [h1f, h2f, h3f, h4f, Bool.or_self, Bool.false_or] at hflag
            exact convertObj_ne_of_flag d hflag
  | some .null =>
    have hall : ∀ u : JObj, d.getPath ["system", "traits"] ≠ some (.obj u) :=
      fun u hu => by rw [h] at hu; simp at hu
    rw [repair_nonobj_branch d hall] at hflag ⊢
    dsimp only at hflag ⊢
    exact convertObj_ne_of_flag d hflag
  | some (.bool _) =>
    have hall : ∀ u : JObj, d.getPath ["system", "traits"] ≠ some (.obj u) :=
      fun u hu => by rw [h] at hu; simp at hu
    rw [repair_nonobj_branch d hall] at hflag ⊢
    dsimp only at hflag ⊢
    exact convertObj_ne_of_flag d hflag
  | some (.num _) =>
    have hall : ∀ u : JObj, d.getPath ["system", "traits"] ≠ some (.obj u) :=
      fun u hu => by rw [h] at hu; simp at hu
    rw [repair_nonobj_branch d hall] at hflag ⊢
    dsimp only at hflag ⊢
    exact convertObj_ne_of_flag d hflag
  | some (.str _) =>
    have hall : ∀ u : JObj, d.getPath ["system", "traits"] ≠ some (.obj u) :=
      fun u hu => by rw [h] at hu; simp at hu
    rw [repair_nonobj_branch d hall] at hflag ⊢
    dsimp only at hflag ⊢
    exact convertObj_ne_of_flag d hflag
  | some (.arr _) =>
    have hall : ∀ u : JObj, d.getPath ["system", "traits"] ≠ some (.obj u) :=
      fun u hu => by rw [h] at hu; simp at hu
    rw [repair_nonobj_branch d hall] at hflag ⊢
    dsimp only at hflag ⊢
    exact convertObj_ne_of_flag d hflag
  | none =>
    have hall : ∀ u : JObj, d.getPath ["system", "traits"] ≠ some (.obj u) :=
      fun u hu => by rw [h] at hu; simp at hu
    rw [repair_nonobj_branch d hall] at hflag ⊢
    dsimp only at hflag ⊢
    exact convertObj_ne_of_flag d hflag

/-- The first normalizer logs a change line exactly when it flags. -/
theorem crp_msgs (d : JObj) :
    (CRP.repair_actor_doc d).2.2 = [] ↔ (CRP.repair_actor_doc d).2.1 = false := by
  match h : d.getPath ["system", "traits"] with
  | some (.obj t0) =>
    rw [repair_obj_branch d t0 h]
    dsimp only
    constructor
    · intro hm
      simp only [List.append_eq_nil] at hm
      obtain ⟨⟨⟨⟨m1, m2⟩, m3⟩, m4⟩, m5⟩ := hm
      have f1 := (ensure_ff t0 "eres").2.mp m1
      have f2 := (ensure_ff _ "dr").2.mp m2
      have f3 := (ensure_ff _ "dv").2.mp m3
      have f4 := (langStep_ff _).2.mp m4
      split at m5
      · simp at m5
      · next hb =>
        have f5 : (CRP.convertObj (CRP.langStep (d.setPath ["system", "traits"]
            (.obj (CRP.ensure_trait_arrays (CRP.ensure_trait_arrays
              (CRP.ensure_trait_arrays t0 "eres").1 "dr").1 "dv").1))).1).2 =
            false := by simpa using hb
        simp [f1, f2, f3, f4, f5]
    · intro hflag
      simp only [Bool.or_eq_false_iff] at hflag
      obtain ⟨⟨⟨⟨ha, hb⟩, hc⟩, hd⟩, h5⟩ := hflag
      rw [(ensure_ff t0 "eres").2.mpr ha, (ensure_ff _ "dr").2.mpr hb,
        (ensure_ff _ "dv").2.mpr hc, (langStep_ff _).2.mpr hd, h5]
      simp
  | some .null =>
    have hall : ∀ u : JObj, d.getPath ["system", "traits"] ≠ some (.obj u) :=
      fun u hu => by rw [h] at hu; simp at hu
    rw [repair_nonobj_branch d hall]
    dsimp only
    by_cases hb : (CRP.convertObj d).2 = true
    · simp [hb]
    · have hb2 : (CRP.convertObj d).2 = false := by simpa using hb
      simp [hb2]
  | some (.bool _) =>
    have hall : ∀ u : JObj, d.getPath ["system", "traits"] ≠ some (.obj u) :=
      fun u hu => by rw [h] at hu; simp at hu
    rw [repair_nonobj_branch d hall]
    dsimp only
    by_cases hb : (CRP.convertObj d).2 = true
    · simp [hb]
    · have hb2 : (CRP.convertObj d).2 = false := by simpa using hb
      simp [hb2]
  | some (.num _) =>
    have hall : ∀ u : JObj, d.getPath ["system", "traits"] ≠ some (.obj u) :=
      fun u hu => by rw [h] at hu; simp at hu
    rw [repair_nonobj_branch d hall]
    dsimp only
    by_cases hb : (CRP.convertObj d).2 = true
    · simp [hb]
    · have hb2 : (CRP.convertObj d).2 = false := by simpa using hb
      simp [hb2]
  | some (.str _) =>
    have hall : ∀ u : JObj, d.getPath ["system", "traits"] ≠ some (.obj u) :=
      fun u hu => by rw [h] at hu; simp at hu
    rw [repair_nonobj_branch d hall]
    dsimp only
    by_cases hb : (CRP.convertObj d).2 = true
    · simp [hb]
    · have hb2 : (CRP.convertObj d).2 = false := by simpa using hb
      simp [hb2]
  | some (.arr _) =>
    have hall : ∀ u : JObj, d.getPath ["system", "traits"] ≠ some (.obj u) :=
      fun u hu => by rw [h] at hu; simp at hu
    rw [repair_nonobj_branch d hall]
    dsimp only
    by_cases hb : (CRP.convertObj d).2 = true
    · simp [hb]
    · have hb2 : (CRP.convertObj d).2 = false := by simpa using hb
      simp [hb2]
  | none =>
    have hall : ∀ u : JObj, d.getPath ["system", "traits"] ≠ some (.obj u) :=
      fun u hu => by rw [h] at hu; simp at hu
    rw [repair_nonobj_branch d hall]
    dsimp only
    by_cases hb : (CRP.convertObj d).2 = true
    · simp [hb]
    · have hb2 : (CRP.convertObj d).2 = false := by simpa using hb
      simp [hb2]

/-- The traits branch of the second normalizer, written out. -/
theorem pkg_obj_branch (d t0 : JObj)
    (h : d.getPath ["system", "traits"] = some (.obj t0)) :
    PKG.repair_doc d =
      (let s1 := PKG.langStep d
       let traits1 : JObj :=
         match s1.1.getPath ["system", "traits"] with
         | some (.obj o) => o
         | _ => .nil
       let s2 := PKG.customFold traits1 PKG.TRAIT_KEYS
       let s3 := PKG.splitFold s2.1 ["di", "dv", "ci"]
       let doc2 := s1.1.setPath ["system", "traits"] (.obj s3.1)
       let s4 := PKG.convertObj doc2
       (s4.1, s1.2.1 || s2.2.1 || s3.2.1 || s4.2.1,
        s1.2.2 ++ s2.2.2 ++ s3.2.2 ++ s4.2.2)) := by
  unfold PKG.repair_doc
  simp only [h]

/-- An unflagged custom-field step of the second script is the identity,
with an empty log exactly when unflagged. -/
theorem pkg_customStep_ff (tr : JObj) (k f : String) :
    ((PKG.customStep tr k f).2.1 = false → (PKG.customStep tr k f).1 = tr) ∧
      ((PKG.customStep tr k f).2.2 = [] ↔ (PKG.customStep tr k f).2.1 = false) := by
  unfold PKG.customStep
  split
  · simp
  · next xs h =>
    dsimp only
    by_cases hcl : cleanList xs = xs
    · rw [if_pos hcl]; simp
    · rw [if_neg hcl]; simp
  · simp

/-- An unflagged per-key custom step is the identity, with an empty log
exactly when unflagged. -/
theorem pkg_customKey_ff (traits : JObj) (k : String) :
    ((PKG.customKey traits k).2.1 = false → (PKG.customKey traits k).1 = traits) ∧
      ((PKG.customKey traits k).2.2 = [] ↔ (PKG.customKey traits k).2.1 = false) := by
  unfold PKG.customKey
  match hx : traits.get k with
  | some (.obj tr) =>
    dsimp only
    constructor
    · intro h
      simp only [Bool.or_eq_false_iff] at h
      obtain ⟨h1, h2⟩ := h
      have hc1 := (pkg_customStep_ff tr k "custom").1 h1
      rw [hc1] at h2 ⊢
      have hc2 := (pkg_customStep_ff tr k "customTotal").1 h2
      rw [hc2]
      exact set_get_self traits hx
    · constructor
      · intro hm
        simp only [List.append_eq_nil] at hm
        obtain ⟨m1, m2⟩ := hm
        simp only [Bool.or_eq_false_iff]
        exact ⟨(pkg_customStep_ff tr k "custom").2.mp m1,
          (pkg_customStep_ff _ k "customTotal").2.mp m2⟩
      · intro hm
        simp only [Bool.or_eq_false_iff] at hm
        obtain ⟨m1, m2⟩ := hm
        simp only [List.append_eq_nil]
        exact ⟨(pkg_customStep_ff tr k "custom").2.mpr m1,
          (pkg_customStep_ff _ k "customTotal").2.mpr m2⟩
  | some .null => exact ⟨fun _ => rfl, by simp⟩
  | some (.bool _) => exact ⟨fun _ => rfl, by simp⟩
  | some (.num _) => exact ⟨fun _ => rfl, by simp⟩
  | some (.str _) => exact ⟨fun _ => rfl, by simp⟩
  | some (.arr _) => exact ⟨fun _ => rfl, by simp⟩
  | none => exact ⟨fun _ => rfl, by simp⟩

/-- An unflagged custom-field fold is the identity, with an empty log
exactly when unflagged. -/
theorem pkg_customFold_ff : ∀ (ks : List String) (traits : JObj),
    ((PKG.customFold traits ks).2.1 = false →
      (PKG.customFold traits ks).1 = traits) ∧
      ((PKG.customFold traits ks).2.2 = [] ↔ (PKG.customFold traits ks).2.1 = false)
  | [], traits => by
    unfold PKG.customFold
    exact ⟨fun _ => rfl, by simp⟩
  | k :: ks, traits => by
    unfold PKG.customFold
    dsimp only
    constructor
    · intro h
      simp only [Bool.or_eq_false_iff] at h
      obtain ⟨h1, h2⟩ := h
      have hk := (pkg_customKey_ff traits k).1 h1
      rw [hk] at h2 ⊢
      exact (pkg_customFold_ff ks traits).1 h2
    · constructor
      · intro hm
        simp only [List.append_eq_nil] at hm
        obtain ⟨m1, m2⟩ := hm
        simp only [Bool.or_eq_false_iff]
        exact ⟨(pkg_customKey_ff traits k).2.mp m1,
          (pkg_customFold_ff ks _).2.mp m2⟩
      · intro hm
        simp only [Bool.or_eq_false_iff] at hm
        obtain ⟨m1, m2⟩ := hm
        simp only [List.append_eq_nil]
        exact ⟨(pkg_customKey_ff traits k).2.mpr m1,
          (pkg_customFold_ff ks _).2.mpr m2⟩

/-- An unflagged value split is the identity, with an empty log exactly
when unflagged. -/
theorem pkg_splitKey_ff (traits : JObj) (k : String) :
    ((PKG.splitKey traits k).2.1 = false → (PKG.splitKey traits k).1 = traits) ∧
      ((PKG.splitKey traits k).2.2 = [] ↔ (PKG.splitKey traits k).2.1 = false) := by
  unfold PKG.splitKey
  match hx : traits.get k with
  | some (.obj tr) =>
    dsimp only
    match hv : tr.get "value" with
    | some (.str v) =>
      dsimp only
      split
      · exact ⟨fun h => by simp at h, by simp⟩
      · exact ⟨fun _ => rfl, by simp⟩
    | some .null => exact ⟨fun _ => rfl, by simp⟩
    | some (.bool _) => exact ⟨fun _ => rfl, by simp⟩
    | some (.num _) => exact ⟨fun _ => rfl, by simp⟩
    | some (.arr _) => exact ⟨fun _ => rfl, by simp⟩
    | some (.obj _) => exact ⟨fun _ => rfl, by simp⟩
    | none => exact ⟨fun _ => rfl, by simp⟩
  | some .null => exact ⟨fun _ => rfl, by simp⟩
  | some (.bool _) => exact ⟨fun _ => rfl, by simp⟩
  | some (.num _) => exact ⟨fun _ => rfl, by simp⟩
  | some (.str _) => exact ⟨fun _ => rfl, by simp⟩
  | some (.arr _) => exact ⟨fun _ => rfl, by simp⟩
  | none => exact ⟨fun _ => rfl, by simp⟩

/-- An unflagged value-split fold is the identity, with an empty log
exactly when unflagged. -/
theorem pkg_splitFold_ff : ∀ (ks : List String) (traits : JObj),
    ((PKG.splitFold traits ks).2.1 = false →
      (PKG.splitFold traits ks).1 = traits) ∧
      ((PKG.splitFold traits ks).2.2 = [] ↔ (PKG.splitFold traits ks).2.1 = false)
  | [], traits => by
    unfold PKG.splitFold
    exact ⟨fun _ => rfl, by simp⟩
  | k :: ks, traits => by
    unfold PKG.splitFold
    dsimp only
    constructor
    · intro h
      simp only [Bool.or_eq_false_iff] at h
      obtain ⟨h1, h2⟩ := h
      have hk := (pkg_splitKey_ff traits k).1 h1
      rw [hk] at h2 ⊢
      exact (pkg_splitFold_ff ks traits).1 h2
    · constructor
      · intro hm
        simp only [List.append_eq_nil] at hm
        obtain ⟨m1, m2⟩ := hm
        simp only [Bool.or_eq_false_iff]
        exact ⟨(pkg_splitKey_ff traits k).2.mp m1,
          (pkg_splitFold_ff ks _).2.mp m2⟩
      · intro hm
        simp only [Bool.or_eq_false_iff] at hm
        obtain ⟨m1, m2⟩ := hm
        simp only [List.append_eq_nil]
        exact ⟨(pkg_splitKey_ff traits k).2.mpr m1,
          (pkg_splitFold_ff ks _).2.mpr m2⟩

/-- The per-key custom step's own-key output depends only on the entry
it reads. -/
theorem pkg_customKey_get_congr {X Y : JObj} (k : String)
    (h : X.get k = Y.get k) :
    (PKG.customKey X k).1.get k = (PKG.customKey Y k).1.get k := by
  unfold PKG.customKey
  match hx : X.get k with
  | some (.obj tr) =>
    rw [hx] at h
    rw [← h]
    dsimp only
    rw [get_set_eq, get_set_eq]
  | some .null =>
    rw [hx] at h
    rw [← h]
    dsimp only
    rw [hx, h]
  | some (.bool _) =>
    rw [hx] at h
    rw [← h]
    dsimp only
    rw [hx, h]
  | some (.num _) =>
    rw [hx] at h
    rw [← h]
    dsimp only
    rw [hx, h]
  | some (.str _) =>
    rw [hx] at h
    rw [← h]
    dsimp only
    rw [hx, h]
  | some (.arr _) =>
    rw [hx] at h
    rw [← h]
    dsimp only
    rw [hx, h]
  | none =>
    rw [hx] at h
    rw [← h]
    dsimp only
    rw [hx, h]

/-- The value split's own-key output depends only on the entry it
reads. -/
theorem pkg_splitKey_get_congr {X Y : JObj} (k : String)
    (h : X.get k = Y.get k) :
    (PKG.splitKey X k).1.get k = (PKG.splitKey Y k).1.get k := by
  unfold PKG.splitKey
  match hx : X.get k with
  | some (.obj tr) =>
    rw [hx] at h
    rw [← h]
    dsimp only
    match hv : tr.get "value" with
    | some (.str v) =>
      dsimp only
      split
      · rw [get_set_eq, get_set_eq]
      · rw [hx, h]
    | some .null => rw [hx, h]
    | some (.bool _) => rw [hx, h]
    | some (.num _) => rw [hx, h]
    | some (.arr _) => rw [hx, h]
    | some (.obj _) => rw [hx, h]
    | none => rw [hx, h]
  | some .null =>
    rw [hx] at h
    rw [← h]
    dsimp only
    rw [hx, h]
  | some (.bool _) =>
    rw [hx] at h
    rw [← h]
    dsimp only
    rw [hx, h]
  | some (.num _) =>
    rw [hx] at h
    rw [← h]
    dsimp only
    rw [hx, h]
  | some (.str _) =>
    rw [hx] at h
    rw [← h]
    dsimp only
    rw [hx, h]
  | some (.arr _) =>
    rw [hx] at h
    rw [← h]
    dsimp only
    rw [hx, h]
  | none =>
    rw [hx] at h
    rw [← h]
    dsimp only
    rw [hx, h]

/-- The fold's output at a listed key is that key's single-step
output. -/
theorem pkg_customFold_entry : ∀ (ks : List String) (X : JObj) (k : String),
    ks.Nodup → k ∈ ks →
    (PKG.customFold X ks).1.get k = (PKG.customKey X k).1.get k
  | [], _, k, _, hmem => absurd hmem (List.not_mem_nil k)
  | k' :: ks', X, k, hnd, hmem => by
    show (PKG.customFold (PKG.customKey X k').1 ks').1.get k = _
    by_cases he : k = k'
    · subst he
      rw [pkg_customFold_get_notin ks' _ k (List.nodup_cons.mp hnd).1]
    · rcases List.mem_cons.mp hmem with h1 | h1
      · exact absurd h1 he
      · rw [pkg_customFold_entry ks' (PKG.customKey X k').1 k
          (List.nodup_cons.mp hnd).2 h1]
        exact pkg_customKey_get_congr k (pkg_customKey_get_ne X k' k he)

/-- The split fold's output at a listed key is that key's single-step
output. -/
theorem pkg_splitFold_entry : ∀ (ks : List String) (X : JObj) (k : String),
    ks.Nodup → k ∈ ks →
    (PKG.splitFold X ks).1.get k = (PKG.splitKey X k).1.get k
  | [], _, k, _, hmem => absurd hmem (List.not_mem_nil k)
  | k' :: ks', X, k, hnd, hmem => by
    show (PKG.splitFold (PKG.splitKey X k').1 ks').1.get k = _
    by_cases he : k = k'
    · subst he
      rw [pkg_splitFold_get_notin ks' _ k (List.nodup_cons.mp hnd).1]
    · rcases List.mem_cons.mp hmem with h1 | h1
      · exact absurd h1 he
      · rw [pkg_splitFold_entry ks' (PKG.splitKey X k').1 k
          (List.nodup_cons.mp hnd).2 h1]
        exact pkg_splitKey_get_congr k (pkg_splitKey_get_ne X k' k he)

/-- A flagged fold names a key whose single step over the input traits
flags. -/
theorem pkg_customFold_flag_cases : ∀ (ks : List String) (traits : JObj),
    (PKG.customFold traits ks).2.1 = true →
    ∃ k, k ∈ ks ∧ (PKG.customKey traits k).2.1 = true
  | [], traits, hf => by simp [PKG.customFold] at hf
  | k :: ks, traits, hf => by
    by_cases h1 : (PKG.customKey traits k).2.1 = true
    · exact ⟨k, List.mem_cons_self _ _, h1⟩
    · have h1f : (PKG.customKey traits k).2.1 = false := by simpa using h1
      have hid := (pkg_customKey_ff traits k).1 h1f
      unfold PKG.customFold at hf
      dsimp only at hf
      rw [hid, h1f] at hf
      simp only [Bool.false_or] at hf
      obtain ⟨k2, hk2, hf2⟩ := pkg_customFold_flag_cases ks traits hf
      exact ⟨k2, List.mem_cons_of_mem _ hk2, hf2⟩

/-- A flagged split fold names a key whose single step over the input
traits flags. -/
theorem pkg_splitFold_flag_cases : ∀ (ks : List String) (traits : JObj),
    (PKG.splitFold traits ks).2.1 = true →
    ∃ k, k ∈ ks ∧ (PKG.splitKey traits k).2.1 = true
  | [], traits, hf => by simp [PKG.splitFold] at hf
  | k :: ks, traits, hf => by
    by_cases h1 : (PKG.splitKey traits k).2.1 = true
    · exact ⟨k, List.mem_cons_self _ _, h1⟩
    · have h1f : (PKG.splitKey traits k).2.1 = false := by simpa using h1
      have hid := (pkg_splitKey_ff traits k).1 h1f
      unfold PKG.splitFold at hf
      dsimp only at hf
      rw [hid, h1f] at hf
      simp only [Bool.false_or] at hf
      obtain ⟨k2, hk2, hf2⟩ := pkg_splitFold_flag_cases ks traits hf
      exact ⟨k2, List.mem_cons_of_mem _ hk2, hf2⟩

/-- The reasons a custom-field step of the second script can flag. -/
theorem pkg_customStep_flag_cases (tr : JObj) (k f : String)
    (hf : (PKG.customStep tr k f).2.1 = true) :
    (∃ s, tr.get f = some (.str s)) ∨
      (∃ xs, tr.get f = some (.arr xs) ∧ cleanList xs ≠ xs) := by
  match hx : tr.get f with
  | some (.str s) => exact Or.inl ⟨s, rfl⟩
  | some (.arr xs) =>
    refine Or.inr ⟨xs, rfl, fun hcl => ?_⟩
    unfold PKG.customStep at hf
    simp only [hx] at hf
    rw [if_pos hcl] at hf
    simp at hf
  | none =>
    unfold PKG.customStep at hf
    simp only [hx] at hf
    simp at hf
  | some .null =>
    unfold PKG.customStep at hf
    simp only [hx] at hf
    simp at hf
  | some (.bool _) =>
    unfold PKG.customStep at hf
    simp only [hx] at hf
    simp at hf
  | some (.num _) =>
    unfold PKG.customStep at hf
    simp only [hx] at hf
    simp at hf
  | some (.obj _) =>
    unfold PKG.customStep at hf
    simp only [hx] at hf
    simp at hf

/-- On a stored string, the second script's custom-field step writes
the token list. -/
theorem pkg_customStep_field_str (tr : JObj) (k f : String) {s : String}
    (h : tr.get f = some (.str s)) :
    (PKG.customStep tr k f).1.get f =
      some (.arr (JArr.ofList ((str_to_list s).map JVal.str))) := by
  unfold PKG.customStep
  simp only [h]
  rw [get_set_eq]

/-- On a stored list, the second script's custom-field step leaves the
cleaned list. -/
theorem pkg_customStep_field_arr (tr : JObj) (k f : String) {xs : JArr}
    (h : tr.get f = some (.arr xs)) :
    (PKG.customStep tr k f).1.get f = some (.arr (cleanList xs)) := by
  unfold PKG.customStep
  simp only [h]
  by_cases hcl : cleanList xs = xs
  · rw [if_pos hcl, h, hcl]
  · rw [if_neg hcl, get_set_eq]

/-- The reasons a per-key custom step can flag, in terms of the stored
entry. -/
theorem pkg_customKey_flag_cases (traits : JObj) (k : String)
    (hf : (PKG.customKey traits k).2.1 = true) :
    ∃ tr, traits.get k = some (.obj tr) ∧
      ∃ f, (f = "custom" ∨ f = "customTotal") ∧
        ((∃ s, tr.get f = some (.str s)) ∨
          (∃ xs, tr.get f = some (.arr xs) ∧ cleanList xs ≠ xs)) := by
  unfold PKG.customKey at hf
  match hx : traits.get k with
  | some (.obj tr) =>
    simp only [hx] at hf
    refine ⟨tr, rfl, ?_⟩
    simp only [Bool.or_eq_true] at hf
    rcases hf with h1 | h2
    · exact ⟨"custom", Or.inl rfl, pkg_customStep_flag_cases tr k "custom" h1⟩
    · have hval : (PKG.customStep tr k "custom").1.get "customTotal" =
          tr.get "customTotal" :=
        pkg_customStep_get_ne tr k "custom" "customTotal" (by decide)
      refine ⟨"customTotal", Or.inr rfl, ?_⟩
      rcases pkg_customStep_flag_cases _ k "customTotal" h2 with ⟨s, hs⟩ | ⟨xs, hxs, hcl⟩
      · exact Or.inl ⟨s, by rw [← hval]; exact hs⟩
      · exact Or.inr ⟨xs, by rw [← hval]; exact hxs, hcl⟩
  | some .null => simp only [hx] at hf; simp at hf
  | some (.bool _) => simp only [hx] at hf; simp at hf
  | some (.num _) => simp only [hx] at hf; simp at hf
  | some (.str _) => simp only [hx] at hf; simp at hf
  | some (.arr _) => simp only [hx] at hf; simp at hf
  | none => simp only [hx] at hf; simp at hf

/-- The entry a per-key custom step leaves when a custom field was a
string: the field became a list. -/
theorem pkg_customKey_out_str (traits : JObj) (k : String) {tr : JObj}
    (hx : traits.get k = some (.obj tr)) {f : String}
    (hf : f = "custom" ∨ f = "customTotal") {s : String}
    (hs : tr.get f = some (.str s)) :
    ∃ e, (PKG.customKey traits k).1.get k = some (.obj e) ∧
      ∃ ys, e.get f = some (.arr ys) := by
  unfold PKG.customKey
  rw [hx]
  refine ⟨_, get_set_eq traits k _, ?_⟩
  rcases hf with rfl | rfl
  · rw [pkg_customStep_get_ne _ k "customTotal" "custom" (by decide)]
    rw [pkg_customStep_field_str tr k "custom" hs]
    exact ⟨_, rfl⟩
  · have hs2 : (PKG.customStep tr k "custom").1.get "customTotal" =
        some (.str s) := by
      rw [pkg_customStep_get_ne tr k "custom" "customTotal" (by decide)]
      exact hs
    rw [pkg_customStep_field_str _ k "customTotal" hs2]
    exact ⟨_, rfl⟩

/-- The entry a per-key custom step leaves when a custom field was a
list: the cleaned list. -/
theorem pkg_customKey_out_arr (traits : JObj) (k : String) {tr : JObj}
    (hx : traits.get k = some (.obj tr)) {f : String}
    (hf : f = "custom" ∨ f = "customTotal") {xs : JArr}
    (ha : tr.get f = some (.arr xs)) :
    ∃ e, (PKG.customKey traits k).1.get k = some (.obj e) ∧
      e.get f = some (.arr (cleanList xs)) := by
  unfold PKG.customKey
  rw [hx]
  refine ⟨_, get_set_eq traits k _, ?_⟩
  rcases hf with rfl | rfl
  · rw [pkg_customStep_get_ne _ k "customTotal" "custom" (by decide)]
    exact pkg_customStep_field_arr tr k "custom" ha
  · have ha2 : (PKG.customStep tr k "custom").1.get "customTotal" =
        some (.arr xs) := by
      rw [pkg_customStep_get_ne tr k "custom" "customTotal" (by decide)]
      exact ha
    exact pkg_customStep_field_arr _ k "customTotal" ha2

/-- The reason a value split can flag: a separator-carrying string
value. -/
theorem pkg_splitKey_flag_cases (traits : JObj) (k : String)
    (hf : (PKG.splitKey traits k).2.1 = true) :
    ∃ tr v, traits.get k = some (.obj tr) ∧ tr.get "value" = some (.str v) ∧
      PKG.hasSep v = true := by
  unfold PKG.splitKey at hf
  match hx : traits.get k with
  | some (.obj tr) =>
    simp only [hx] at hf
    match hv : tr.get "value" with
    | some (.str v) =>
      simp only [hv] at hf
      by_cases hsep : PKG.hasSep v = true
      · exact ⟨tr, v, rfl, hv, hsep⟩
      · rw [if_neg hsep] at hf
        simp at hf
    | some .null => simp only [hv] at hf; simp at hf
    | some (.bool _) => simp only [hv] at hf; simp at hf
    | some (.num _) => simp only [hv] at hf; simp at hf
    | some (.arr _) => simp only [hv] at hf; simp at hf
    | some (.obj _) => simp only [hv] at hf; simp at hf
    | none => simp only [hv] at hf; simp at hf
  | some .null => simp only [hx] at hf; simp at hf
  | some (.bool _) => simp only [hx] at hf; simp at hf
  | some (.num _) => simp only [hx] at hf; simp at hf
  | some (.str _) => simp only [hx] at hf; simp at hf
  | some (.arr _) => simp only [hx] at hf; simp at hf
  | none => simp only [hx] at hf; simp at hf

/-- The entry a flagged value split leaves: its value became a list,
its custom fields are untouched. -/
theorem pkg_splitKey_out (traits : JObj) (k : String) {tr : JObj} {v : String}
    (hx : traits.get k = some (.obj tr)) (hv : tr.get "value" = some (.str v))
    (hsep : PKG.hasSep v = true) :
    ∃ e, (PKG.splitKey traits k).1.get k = some (.obj e) ∧
      (∃ ys, e.get "value" = some (.arr ys)) ∧
      e.get "custom" = tr.get "custom" ∧
      e.get "customTotal" = tr.get "customTotal" := by
  unfold PKG.splitKey
  simp only [hx]
  simp only [hv]
  rw [if_pos hsep]
  refine ⟨_, get_set_eq traits k _, ⟨_, get_set_eq tr "value" _⟩, ?_, ?_⟩
  · exact get_set_ne tr _ (by decide)
  · exact get_set_ne tr _ (by decide)

/-- The value split leaves other fields of the entry at its own key
alone. -/
theorem pkg_splitKey_custom_rel (traits : JObj) (k q : String) :
    (PKG.splitKey traits k).1.get q = traits.get q ∨
      ∃ tr e, traits.get q = some (.obj tr) ∧
        (PKG.splitKey traits k).1.get q = some (.obj e) ∧
        e.get "custom" = tr.get "custom" ∧
        e.get "customTotal" = tr.get "customTotal" := by
  by_cases hq : q = k
  · subst hq
    by_cases hflag : (PKG.splitKey traits q).2.1 = true
    · obtain ⟨tr, v, hx, hv, hsep⟩ := pkg_splitKey_flag_cases traits q hflag
      obtain ⟨e, he, _, hc, hct⟩ := pkg_splitKey_out traits q hx hv hsep
      exact Or.inr ⟨tr, e, hx, he, hc, hct⟩
    · have hff : (PKG.splitKey traits q).2.1 = false := by simpa using hflag
      rw [(pkg_splitKey_ff traits q).1 hff]
      exact Or.inl rfl
  · exact Or.inl (pkg_splitKey_get_ne traits k q hq)

/-- The value-split fold leaves custom fields of every entry alone. -/
theorem pkg_splitFold_custom_rel : ∀ (ks : List String) (traits : JObj)
    (q : String),
    (PKG.splitFold traits ks).1.get q = traits.get q ∨
      ∃ tr e, traits.get q = some (.obj tr) ∧
        (PKG.splitFold traits ks).1.get q = some (.obj e) ∧
        e.get "custom" = tr.get "custom" ∧
        e.get "customTotal" = tr.get "customTotal"
  | [], _, _ => Or.inl rfl
  | k :: ks, traits, q => by
    have hstep : (PKG.splitFold traits (k :: ks)).1 =
        (PKG.splitFold (PKG.splitKey traits k).1 ks).1 := rfl
    rw [hstep]
    rcases pkg_splitFold_custom_rel ks (PKG.splitKey traits k).1 q with
      h2 | ⟨tr2, e2, hx2, he2, hc2, hct2⟩ <;>
      rcases pkg_splitKey_custom_rel traits k q with
        h1 | ⟨tr1, e1, hx1, he1, hc1, hct1⟩
    · exact Or.inl (h2.trans h1)
    · exact Or.inr ⟨tr1, e1, hx1, h2.trans he1, hc1, hct1⟩
    · rw [h1] at hx2
      exact Or.inr ⟨tr2, e2, hx2, he2, hc2, hct2⟩
    · rw [he1] at hx2
      injection hx2 with hA
      injection hA with hB
      subst hB
      exact Or.inr ⟨tr1, e2, hx1, he2, hc2.trans hc1, hct2.trans hct1⟩

/-- Reading below `system.traits` after the second script's write-back
and numeric pass. -/
theorem pkg_conv_setPath_out (doc : JObj) {u : JObj}
    (htr : doc.getPath ["system", "traits"] = some (.obj u)) (S : JObj)
    (rest : List String) :
    JObj.getPath (PKG.convertObj (doc.setPath ["system", "traits"]
        (.obj S))).1 ("system" :: "traits" :: rest) =
      (JVal.getPath (.obj S) rest).map convVal := by
  rw [pkg_convObj_fst, getPath_convertObj_doc]
  rw [show ("system" :: "traits" :: rest) = "system" :: (["traits"] ++ rest)
    from rfl]
  rw [getPath_setPath_append "system" ["traits"] doc _ rest htr]

/-- The second normalizer is the identity when unflagged. -/
theorem pkg_ff (d : JObj) (hflag : (PKG.repair_doc d).2.1 = false) :
    (PKG.repair_doc d).1 = d := by
  match h : d.getPath ["system", "traits"] with
  | some (.obj t0) =>
    rw [pkg_obj_branch d t0 h] at hflag ⊢
    dsimp only at hflag ⊢
    rw [pkg_langStep_eq d] at hflag ⊢
    simp only [Bool.or_eq_false_iff] at hflag
    obtain ⟨⟨⟨h1, h2⟩, h3⟩, h4⟩ := hflag
    have hl := (langStep_ff d).1 h1
    rw [hl] at h2 h3 h4 ⊢
    simp only [h] at h2 h3 h4 ⊢
    have hc := (pkg_customFold_ff PKG.TRAIT_KEYS t0).1 h2
    rw [hc] at h3 h4 ⊢
    have hsf := (pkg_splitFold_ff ["di", "dv", "ci"] t0).1 h3
    rw [hsf] at h4 ⊢
    rw [setPath_self _ d _ h] at h4 ⊢
    have hc4 : (CRP.convertObj d).2 = false := by
      rw [← pkg_convObj_flag]
      exact h4
    rw [pkg_convObj_fst, convertObj_self d (noPlusObj_of_flag_false d hc4)]
  | some .null =>
    have hall : ∀ u : JObj, d.getPath ["system", "traits"] ≠ some (.obj u) :=
      fun u hu => by rw [h] at hu; simp at hu
    rw [pkg_repair_nonobj d hall] at hflag ⊢
    dsimp only at hflag ⊢
    have hc : (CRP.convertObj d).2 = false := by
      rw [← pkg_convObj_flag]
      exact hflag
    rw [pkg_convObj_fst, convertObj_self d (noPlusObj_of_flag_false d hc)]
  | some (.bool _) =>
    have hall : ∀ u : JObj, d.getPath ["system", "traits"] ≠ some (.obj u) :=
      fun u hu => by rw [h] at hu; simp at hu
    rw [pkg_repair_nonobj d hall] at hflag ⊢
    dsimp only at hflag ⊢
    have hc : (CRP.convertObj d).2 = false := by
      rw [← pkg_convObj_flag]
      exact hflag
    rw [pkg_convObj_fst, convertObj_self d (noPlusObj_of_flag_false d hc)]
  | some (.num _) =>
    have hall : ∀ u : JObj, d.getPath ["system", "traits"] ≠ some (.obj u) :=
      fun u hu => by rw [h] at hu; simp at hu
    rw [pkg_repair_nonobj d hall] at hflag ⊢
    dsimp only at hflag ⊢
    have hc : (CRP.convertObj d).2 = false := by
      rw [← pkg_convObj_flag]
      exact hflag
    rw [pkg_convObj_fst, convertObj_self d (noPlusObj_of_flag_false d hc)]
  | some (.str _) =>
    have hall : ∀ u : JObj, d.getPath ["system", "traits"] ≠ some (.obj u) :=
      fun u hu => by rw [h] at hu; simp at hu
    rw [pkg_repair_nonobj d hall] at hflag ⊢
    dsimp only at hflag ⊢
    have hc : (CRP.convertObj d).2 = false := by
      rw [← pkg_convObj_flag]
      exact hflag
    rw [pkg_convObj_fst, convertObj_self d (noPlusObj_of_flag_false d hc)]
  | some (.arr _) =>
    have hall : ∀ u : JObj, d.getPath ["system", "traits"] ≠ some (.obj u) :=
      fun u hu => by rw [h] at hu; simp at hu
    rw [pkg_repair_nonobj d hall] at hflag ⊢
    dsimp only at hflag ⊢
    have hc : (CRP.convertObj d).2 = false := by
      rw [← pkg_convObj_flag]
      exact hflag
    rw [pkg_convObj_fst, convertObj_self d (noPlusObj_of_flag_false d hc)]
  | none =>
    have hall : ∀ u : JObj, d.getPath ["system", "traits"] ≠ some (.obj u) :=
      fun u hu => by rw [h] at hu; simp at hu
    rw [pkg_repair_nonobj d hall] at hflag ⊢
    dsimp only at hflag ⊢
    have hc : (CRP.convertObj d).2 = false := by
      rw [← pkg_convObj_flag]
      exact hflag
    rw [pkg_convObj_fst, convertObj_self d (noPlusObj_of_flag_false d hc)]

/-- The second normalizer logs a change line exactly when it flags. -/
theorem pkg_msgs (d : JObj) :
    (PKG.repair_doc d).2.2 = [] ↔ (PKG.repair_doc d).2.1 = false := by
  match h : d.getPath ["system", "traits"] with
  | some (.obj t0) =>
    rw [pkg_obj_branch d t0 h]
    dsimp only
    rw [pkg_langStep_eq d]
    constructor
    · intro hm
      simp only [List.append_eq_nil] at hm
      obtain ⟨⟨⟨m1, m2⟩, m3⟩, m4⟩ := hm
      have f1 := (langStep_ff d).2.mp m1
      have f2 := (pkg_customFold_ff _ _).2.mp m2
      have f3 := (pkg_splitFold_ff _ _).2.mp m3
      have f4 := (pkg_convObj_msgs _).mp m4
      simp [f1, f2, f3, f4]
    · intro hf
      simp only [Bool.or_eq_false_iff] at hf
      obtain ⟨⟨⟨h1, h2⟩, h3⟩, h4⟩ := hf
      rw [(langStep_ff d).2.mpr h1, (pkg_customFold_ff _ _).2.mpr h2,
        (pkg_splitFold_ff _ _).2.mpr h3, (pkg_convObj_msgs _).mpr h4]
      simp
  | some .null =>
    have hall : ∀ u : JObj, d.getPath ["system", "traits"] ≠ some (.obj u) :=
      fun u hu => by rw [h] at hu; simp at hu
    rw [pkg_repair_nonobj d hall]
    exact pkg_convObj_msgs d
  | some (.bool _) =>
    have hall : ∀ u : JObj, d.getPath ["system", "traits"] ≠ some (.obj u) :=
      fun u hu => by rw [h] at hu; simp at hu
    rw [pkg_repair_nonobj d hall]
    exact pkg_convObj_msgs d
  | some (.num _) =>
    have hall : ∀ u : JObj, d.getPath ["system", "traits"] ≠ some (.obj u) :=
      fun u hu => by rw [h] at hu; simp at hu
    rw [pkg_repair_nonobj d hall]
    exact pkg_convObj_msgs d
  | some (.str _) =>
    have hall : ∀ u : JObj, d.getPath ["system", "traits"] ≠ some (.obj u) :=
      fun u hu => by rw [h] at hu; simp at hu
    rw [pkg_repair_nonobj d hall]
    exact pkg_convObj_msgs d
  | some (.arr _) =>
    have hall : ∀ u : JObj, d.getPath ["system", "traits"] ≠ some (.obj u) :=
      fun u hu => by rw [h] at hu; simp at hu
    rw [pkg_repair_nonobj d hall]
    exact pkg_convObj_msgs d
  | none =>
    have hall : ∀ u : JObj, d.getPath ["system", "traits"] ≠ some (.obj u) :=
      fun u hu => by rw [h] at hu; simp at hu
    rw [pkg_repair_nonobj d hall]
    exact pkg_convObj_msgs d

/-- A flagged second normalizer changed its document. -/
theorem pkg_ne_of_flag (d : JObj) (hflag : (PKG.repair_doc d).2.1 = true) :
    (PKG.repair_doc d).1 ≠ d := by
  match h : d.getPath ["system", "traits"] with
  | some (.obj t0) =>
    rw [pkg_obj_branch d t0 h] at hflag ⊢
    dsimp only at hflag ⊢
    rw [pkg_langStep_eq d] at hflag ⊢
    by_cases h1 : (CRP.langStep d).2.1 = true
    · obtain ⟨xs, hxv, hn⟩ := langStep_flag_cases d h1
      have hlv := langStep_lv d hxv hn
      obtain ⟨sys1, hs1, hrest1⟩ := getPath_cons_decomp hlv
      obtain ⟨u1, ht1, hrest2⟩ := getPath_cons_decomp hrest1
      obtain ⟨lang1, hl1, hrest3⟩ := getPath_cons_decomp hrest2
      have hlval : lang1.get "value" = some (.arr (dropNulls xs)) :=
        getPath_one hrest3
      have htr1 : (CRP.langStep d).1.getPath ["system", "traits"] =
          some (.obj u1) := by
        rw [getPath_cons_build hs1, getPath_single]
        exact ht1
      simp only [htr1]
      obtain ⟨eL, heL, hveL⟩ : ∃ eL,
          (PKG.customFold u1 PKG.TRAIT_KEYS).1.get "languages" =
            some (.obj eL) ∧ eL.get "value" = some (.arr (dropNulls xs)) := by
        rcases pkg_customFold_rel PKG.TRAIT_KEYS u1 "languages" with
          h2 | ⟨tr2, e2, hx2, he2, hv2⟩
        · exact ⟨lang1, by rw [h2]; exact hl1, hlval⟩
        · rw [hl1] at hx2
          injection hx2 with hA
          injection hA with hB
          subst hB
          exact ⟨e2, he2, by rw [hv2]; exact hlval⟩
      have hSF : (PKG.splitFold (PKG.customFold u1 PKG.TRAIT_KEYS).1
          ["di", "dv", "ci"]).1.get "languages" = some (.obj eL) := by
        rw [pkg_splitFold_get_notin _ _ _ (by decide)]
        exact heL
      refine ne_of_getPath_ne ["system", "traits", "languages", "value"] ?_
      rw [pkg_conv_setPath_out (CRP.langStep d).1 htr1 _ ["languages", "value"]]
      rw [getPath_obj_two hSF "value", hveL, Option.map_some', convVal_arr, hxv]
      intro heq
      injection heq with heq1
      injection heq1 with heq2
      have hlen := congrArg JArr.length heq2
      rw [convertArr_length] at hlen
      exact absurd hlen (Nat.ne_of_lt (dropNulls_length_lt xs hn))
    · have h1f : (CRP.langStep d).2.1 = false := by simpa using h1
      have hl := (langStep_ff d).1 h1f
      rw [hl] at hflag ⊢
      simp only [h] at hflag ⊢
      by_cases h2 : (PKG.customFold t0 PKG.TRAIT_KEYS).2.1 = true
      · obtain ⟨k, hkmem, hkflag⟩ := pkg_customFold_flag_cases _ t0 h2
        obtain ⟨tr, hx, f, hfor, hreason⟩ := pkg_customKey_flag_cases t0 k hkflag
        have hCF := pkg_customFold_entry PKG.TRAIT_KEYS t0 k (by decide) hkmem
        rcases hreason with ⟨s, hs⟩ | ⟨xs, hxs, hcl⟩
        · obtain ⟨e, he, ys, hys⟩ := pkg_customKey_out_str t0 k hx hfor hs
          obtain ⟨e3, he3, hfe3⟩ : ∃ e3,
              (PKG.splitFold (PKG.customFold t0 PKG.TRAIT_KEYS).1
                ["di", "dv", "ci"]).1.get k = some (.obj e3) ∧
              e3.get f = e.get f := by
            rcases pkg_splitFold_custom_rel ["di", "dv", "ci"]
                (PKG.customFold t0 PKG.TRAIT_KEYS).1 k with
              hrel | ⟨tr2, e2, hx2, he2, hc2, hct2⟩
            · exact ⟨e, by rw [hrel, hCF]; exact he, rfl⟩
            · rw [hCF, he] at hx2
              injection hx2 with hA
              injection hA with hB
              subst hB
              refine ⟨e2, he2, ?_⟩
              rcases hfor with rfl | rfl
              · exact hc2
              · exact hct2
          refine ne_of_getPath_ne ["system", "traits", k, f] ?_
          rw [pkg_conv_setPath_out d h _ [k, f]]
          rw [getPath_obj_two he3 f, hfe3, hys, Option.map_some', convVal_arr]
          rw [getPath_traits_field d h hx f, hs]
          simp
        · obtain ⟨e, he, hfe⟩ := pkg_customKey_out_arr t0 k hx hfor hxs
          obtain ⟨e3, he3, hfe3⟩ : ∃ e3,
              (PKG.splitFold (PKG.customFold t0 PKG.TRAIT_KEYS).1
                ["di", "dv", "ci"]).1.get k = some (.obj e3) ∧
              e3.get f = e.get f := by
            rcases pkg_splitFold_custom_rel ["di", "dv", "ci"]
                (PKG.customFold t0 PKG.TRAIT_KEYS).1 k with
              hrel | ⟨tr2, e2, hx2, he2, hc2, hct2⟩
            · exact ⟨e, by rw [hrel, hCF]; exact he, rfl⟩
            · rw [hCF, he] at hx2
              injection hx2 with hA
              injection hA with hB
              subst hB
              refine ⟨e2, he2, ?_⟩
              rcases hfor with rfl | rfl
              · exact hc2
              · exact hct2
          refine ne_of_getPath_ne ["system", "traits", k, f] ?_
          rw [pkg_conv_setPath_out d h _ [k, f]]
          rw [getPath_obj_two he3 f, hfe3, hfe, Option.map_some', convVal_arr]
          rw [getPath_traits_field d h hx f, hxs]
          intro heq
          injection heq with heq1
          injection heq1 with heq2
          have hlen := congrArg JArr.length heq2
          rw [convertArr_length] at hlen
          exact absurd hlen (Nat.ne_of_lt (cleanList_length_lt xs hcl))
      · have h2f : (PKG.customFold t0 PKG.TRAIT_KEYS).2.1 = false := by
          simpa using h2
        have hcf := (pkg_customFold_ff _ t0).1 h2f
        rw [hcf] at hflag ⊢
        by_cases h3 : (PKG.splitFold t0 ["di", "dv", "ci"]).2.1 = true
        · obtain ⟨k, hkmem, hkflag⟩ := pkg_splitFold_flag_cases _ t0 h3
          obtain ⟨tr, v, hx, hv, hsep⟩ := pkg_splitKey_flag_cases t0 k hkflag
          have hSF := pkg_splitFold_entry ["di", "dv", "ci"] t0 k (by decide) hkmem
          obtain ⟨e, he, ⟨ys, hys⟩, _, _⟩ := pkg_splitKey_out t0 k hx hv hsep
          have he2 : (PKG.splitFold t0 ["di", "dv", "ci"]).1.get k =
              some (.obj e) := by
            rw [hSF]
            exact he
          refine ne_of_getPath_ne ["system", "traits", k, "value"] ?_
          rw [pkg_conv_setPath_out d h _ [k, "value"]]
          rw [getPath_obj_two he2 "value", hys, Option.map_some', convVal_arr]
          rw [getPath_traits_field d h hx "value", hv]
          simp
        · have h3f : (PKG.splitFold t0 ["di", "dv", "ci"]).2.1 = false := by
            simpa using h3
          have hsf := (pkg_splitFold_ff _ t0).1 h3f
          rw [hsf] at hflag ⊢
          rw [setPath_self _ d _ h] at hflag ⊢
          simp only [h1f, h2f, h3f, Bool.false_or] at hflag
          have hc : (CRP.convertObj d).2 = true := by
            rw [← pkg_convObj_flag]
            exact hflag
          rw [pkg_convObj_fst]
          exact convertObj_ne_of_flag d hc
  | some .null =>
    have hall : ∀ u : JObj, d.getPath ["system", "traits"] ≠ some (.obj u) :=
      fun u hu => by rw [h] at hu; simp at hu
    rw [pkg_repair_nonobj d hall] at hflag ⊢
    dsimp only at hflag ⊢
    have hc : (CRP.convertObj d).2 = true := by
      rw [← pkg_convObj_flag]
      exact hflag
    rw [pkg_convObj_fst]
    exact convertObj_ne_of_flag d hc
  | some (.bool _) =>
    have hall : ∀ u : JObj, d.getPath ["system", "traits"] ≠ some (.obj u) :=
      fun u hu => by rw [h] at hu; simp at hu
    rw [pkg_repair_nonobj d hall] at hflag ⊢
    dsimp only at hflag ⊢
    have hc : (CRP.convertObj d).2 = true := by
      rw [← pkg_convObj_flag]
      exact hflag
    rw [pkg_convObj_fst]
    exact convertObj_ne_of_flag d hc
  | some (.num _) =>
    have hall : ∀ u : JObj, d.getPath ["system", "traits"] ≠ some (.obj u) :=
      fun u hu => by rw [h] at hu; simp at hu
    rw [pkg_repair_nonobj d hall] at hflag ⊢
    dsimp only at hflag ⊢
    have hc : (CRP.convertObj d).2 = true := by
      rw [← pkg_convObj_flag]
      exact hflag
    rw [pkg_convObj_fst]
    exact convertObj_ne_of_flag d hc
  | some (.str _) =>
    have hall : ∀ u : JObj, d.getPath ["system", "traits"] ≠ some (.obj u) :=
      fun u hu => by rw [h] at hu; simp at hu
    rw [pkg_repair_nonobj d hall] at hflag ⊢
    dsimp only at hflag ⊢
    have hc : (CRP.convertObj d).2 = true := by
      rw [← pkg_convObj_flag]
      exact hflag
    rw [pkg_convObj_fst]
    exact convertObj_ne_of_flag d hc
  | some (.arr _) =>
    have hall : ∀ u : JObj, d.getPath ["system", "traits"] ≠ some (.obj u) :=
      fun u hu => by rw [h] at hu; simp at hu
    rw [pkg_repair_nonobj d hall] at hflag ⊢
    dsimp only at hflag ⊢
    have hc : (CRP.convertObj d).2 = true := by
      rw [← pkg_convObj_flag]
      exact hflag
    rw [pkg_convObj_fst]
    exact convertObj_ne_of_flag d hc
  | none =>
    have hall : ∀ u : JObj, d.getPath ["system", "traits"] ≠ some (.obj u) :=
      fun u hu => by rw [h] at hu; simp at hu
    rw [pkg_repair_nonobj d hall] at hflag ⊢
    dsimp only at hflag ⊢
    have hc : (CRP.convertObj d).2 = true := by
      rw [← pkg_convObj_flag]
      exact hflag
    rw [pkg_convObj_fst]
    exact convertObj_ne_of_flag d hc

/-- A key present in a dict reads to a value. -/
theorem get_isSome_of_mem_keys : ∀ (o : JObj) (k : String),
    k ∈ o.keys → (o.get k).isSome = true
  | .nil, k, hk => absurd hk (List.not_mem_nil k)
  | .cons k' v t, k, hk => by
    rw [get_cons]
    by_cases he : k' = k
    · rw [if_pos he]
      rfl
    · rw [if_neg he]
      refine get_isSome_of_mem_keys t k ?_
      rcases List.mem_cons.mp hk with h | h
      · exact absurd h.symm he
      · exact h

/-- An unflagged pass 1 keeps the items, and its log is empty exactly
when unflagged. -/
theorem pass1_ff : ∀ (items : JArr) (seen tags : List String),
    ((EID.pass1 items seen tags).changed = false →
      (EID.pass1 items seen tags).items = items) ∧
      ((EID.pass1 items seen tags).msgs = [] ↔
        (EID.pass1 items seen tags).changed = false)
  | .nil, seen, tags => by
    unfold EID.pass1
    exact ⟨fun _ => rfl, by simp⟩
  | .cons (.obj it) tl, seen, tags => by
    unfold EID.pass1
    dsimp only
    match htag : EID.get_item_tag it with
    | none =>
      dsimp only
      refine ⟨fun h => ?_, (pass1_ff tl seen tags).2⟩
      rw [(pass1_ff tl seen tags).1 h]
    | some tag =>
      dsimp only
      by_cases hmem : tag ∈ seen
      · rw [if_pos hmem]
        exact ⟨fun h => by simp at h, by simp⟩
      · rw [if_neg hmem]
        refine ⟨fun h => ?_, (pass1_ff tl _ _).2⟩
        rw [(pass1_ff tl _ _).1 h]
  | .cons .null tl, seen, tags => by
    unfold EID.pass1
    dsimp only
    refine ⟨fun h => ?_, (pass1_ff tl seen tags).2⟩
    rw [(pass1_ff tl seen tags).1 h]
  | .cons (.bool _) tl, seen, tags => by
    unfold EID.pass1
    dsimp only
    refine ⟨fun h => ?_, (pass1_ff tl seen tags).2⟩
    rw [(pass1_ff tl seen tags).1 h]
  | .cons (.num _) tl, seen, tags => by
    unfold EID.pass1
    dsimp only
    refine ⟨fun h => ?_, (pass1_ff tl seen tags).2⟩
    rw [(pass1_ff tl seen tags).1 h]
  | .cons (.str _) tl, seen, tags => by
    unfold EID.pass1
    dsimp only
    refine ⟨fun h => ?_, (pass1_ff tl seen tags).2⟩
    rw [(pass1_ff tl seen tags).1 h]
  | .cons (.arr _) tl, seen, tags => by
    unfold EID.pass1
    dsimp only
    refine ⟨fun h => ?_, (pass1_ff tl seen tags).2⟩
    rw [(pass1_ff tl seen tags).1 h]

/-- An unflagged action loop keeps the actions, and its log is empty
exactly when unflagged. -/
theorem actLoop_ff : ∀ (itName : String) (acts : JArr) (seen : List String),
    ((EID.actLoop itName acts seen).changed = false →
      (EID.actLoop itName acts seen).acts = acts) ∧
      ((EID.actLoop itName acts seen).msgs = [] ↔
        (EID.actLoop itName acts seen).changed = false)
  | _, .nil, seen => by
    unfold EID.actLoop
    exact ⟨fun _ => rfl, by simp⟩
  | itName, .cons (.obj a) tl, seen => by
    unfold EID.actLoop
    dsimp only
    match htag : EID.get_action_tag a with
    | none =>
      dsimp only
      refine ⟨fun h => ?_, (actLoop_ff itName tl seen).2⟩
      rw [(actLoop_ff itName tl seen).1 h]
    | some t =>
      dsimp only
      by_cases hmem : t ∈ seen
      · rw [if_pos hmem]
        exact ⟨fun h => by simp at h, by simp⟩
      · rw [if_neg hmem]
        refine ⟨fun h => ?_, (actLoop_ff itName tl _).2⟩
        rw [(actLoop_ff itName tl _).1 h]
  | itName, .cons .null tl, seen => by
    unfold EID.actLoop
    dsimp only
    refine ⟨fun h => ?_, (actLoop_ff itName tl seen).2⟩
    rw [(actLoop_ff itName tl seen).1 h]
  | itName, .cons (.bool _) tl, seen => by
    unfold EID.actLoop
    dsimp only
    refine ⟨fun h => ?_, (actLoop_ff itName tl seen).2⟩
    rw [(actLoop_ff itName tl seen).1 h]
  | itName, .cons (.num _) tl, seen => by
    unfold EID.actLoop
    dsimp only
    refine ⟨fun h => ?_, (actLoop_ff itName tl seen).2⟩
    rw [(actLoop_ff itName tl seen).1 h]
  | itName, .cons (.str _) tl, seen => by
    unfold EID.actLoop
    dsimp only
    refine ⟨fun h => ?_, (actLoop_ff itName tl seen).2⟩
    rw [(actLoop_ff itName tl seen).1 h]
  | itName, .cons (.arr _) tl, seen => by
    unfold EID.actLoop
    dsimp only
    refine ⟨fun h => ?_, (actLoop_ff itName tl seen).2⟩
    rw [(actLoop_ff itName tl seen).1 h]

/-- An unflagged pass 2 on one item keeps it, and its log is empty
exactly when unflagged. -/
theorem pass2Item_ff (it : JObj) (seen : List String) :
    ((EID.pass2Item it seen).changed = false →
      (EID.pass2Item it seen).item = it) ∧
      ((EID.pass2Item it seen).msgs = [] ↔
        (EID.pass2Item it seen).changed = false) := by
  unfold EID.pass2Item
  dsimp only
  match hs : it.get "system" with
  | some (.obj sysd) =>
    dsimp only
    match ha : sysd.get "actions" with
    | some (.arr acts) =>
      dsimp only
      refine ⟨fun h => ?_, (actLoop_ff _ acts seen).2⟩
      rw [(actLoop_ff _ acts seen).1 h]
      rw [set_get_self sysd ha, set_get_self it hs]
    | some .null => exact ⟨fun _ => rfl, by simp⟩
    | some (.bool _) => exact ⟨fun _ => rfl, by simp⟩
    | some (.num _) => exact ⟨fun _ => rfl, by simp⟩
    | some (.str _) => exact ⟨fun _ => rfl, by simp⟩
    | some (.obj _) => exact ⟨fun _ => rfl, by simp⟩
    | none => exact ⟨fun _ => rfl, by simp⟩
  | some .null => exact ⟨fun _ => rfl, by simp⟩
  | some (.bool _) => exact ⟨fun _ => rfl, by simp⟩
  | some (.num _) => exact ⟨fun _ => rfl, by simp⟩
  | some (.str _) => exact ⟨fun _ => rfl, by simp⟩
  | some (.arr _) => exact ⟨fun _ => rfl, by simp⟩
  | none => exact ⟨fun _ => rfl, by simp⟩

/-- An unflagged pass 2 keeps the items, and its log is empty exactly
when unflagged. -/
theorem pass2_ff : ∀ (items : JArr) (seen : List String),
    ((EID.pass2 items seen).changed = false →
      (EID.pass2 items seen).items = items) ∧
      ((EID.pass2 items seen).msgs = [] ↔ (EID.pass2 items seen).changed = false)
  | .nil, seen => by
    unfold EID.pass2
    exact ⟨fun _ => rfl, by simp⟩
  | .cons (.obj it) tl, seen => by
    unfold EID.pass2
    dsimp only
    constructor
    · intro h
      simp only [Bool.or_eq_false_iff] at h
      obtain ⟨h1, h2⟩ := h
      rw [(pass2Item_ff it seen).1 h1, (pass2_ff tl _).1 h2]
    · constructor
      · intro hm
        simp only [List.append_eq_nil] at hm
        obtain ⟨m1, m2⟩ := hm
        simp only [Bool.or_eq_false_iff]
        exact ⟨(pass2Item_ff it seen).2.mp m1, (pass2_ff tl _).2.mp m2⟩
      · intro hf
        simp only [Bool.or_eq_false_iff] at hf
        obtain ⟨h1, h2⟩ := hf
        simp only [List.append_eq_nil]
        exact ⟨(pass2Item_ff it seen).2.mpr h1, (pass2_ff tl _).2.mpr h2⟩
  | .cons .null tl, seen => by
    unfold EID.pass2
    dsimp only
    refine ⟨fun h => ?_, (pass2_ff tl seen).2⟩
    rw [(pass2_ff tl seen).1 h]
  | .cons (.bool _) tl, seen => by
    unfold EID.pass2
    dsimp only
    refine ⟨fun h => ?_, (pass2_ff tl seen).2⟩
    rw [(pass2_ff tl seen).1 h]
  | .cons (.num _) tl, seen => by
    unfold EID.pass2
    dsimp only
    refine ⟨fun h => ?_, (pass2_ff tl seen).2⟩
    rw [(pass2_ff tl seen).1 h]
  | .cons (.str _) tl, seen => by
    unfold EID.pass2
    dsimp only
    refine ⟨fun h => ?_, (pass2_ff tl seen).2⟩
    rw [(pass2_ff tl seen).1 h]
  | .cons (.arr _) tl, seen => by
    unfold EID.pass2
    dsimp only
    refine ⟨fun h => ?_, (pass2_ff tl seen).2⟩
    rw [(pass2_ff tl seen).1 h]

/-- Rewriting an item's actions list gives its action-tag list. -/
theorem actionTagsOfItem_set (it : JObj) {sysd : JObj}
    (hs : it.get "system" = some (.obj sysd)) (X : JArr) :
    EID.actionTagsOfItem (it.set "system"
        (.obj (sysd.set "actions" (.arr X)))) =
      EID.actionTagsOfActs X := by
  unfold EID.actionTagsOfItem
  rw [get_set_eq]
  dsimp only
  rw [get_set_eq]

/-- Pass 2 on one item keeps the item's own tag. -/
theorem pass2Item_tag (it : JObj) (seen : List String) :
    EID.get_item_tag (EID.pass2Item it seen).item = EID.get_item_tag it := by
  unfold EID.pass2Item
  dsimp only
  match hs : it.get "system" with
  | some (.obj sysd) =>
    dsimp only
    match ha : sysd.get "actions" with
    | some (.arr acts) =>
      dsimp only
      exact get_item_tag_set_actions it hs _
    | some .null => rfl
    | some (.bool _) => rfl
    | some (.num _) => rfl
    | some (.str _) => rfl
    | some (.obj _) => rfl
    | none => rfl
  | some .null => rfl
  | some (.bool _) => rfl
  | some (.num _) => rfl
  | some (.str _) => rfl
  | some (.arr _) => rfl
  | none => rfl

/-- Pass 2 keeps the item-tag list, with no hypothesis on the input. -/
theorem pass2_itemTags : ∀ (items : JArr) (seen : List String),
    EID.itemTagsOf (EID.pass2 items seen).items = EID.itemTagsOf items
  | .nil, seen => by
    unfold EID.pass2
    rfl
  | .cons (.obj it) tl, seen => by
    unfold EID.pass2
    dsimp only
    simp only [EID.itemTagsOf]
    rw [pass2Item_tag it seen]
    match hti : EID.get_item_tag it with
    | some t =>
      rw [pass2_itemTags tl _]
    | none =>
      exact pass2_itemTags tl _
  | .cons .null tl, seen => by
    unfold EID.pass2
    dsimp only
    exact pass2_itemTags tl seen
  | .cons (.bool _) tl, seen => by
    unfold EID.pass2
    dsimp only
    exact pass2_itemTags tl seen
  | .cons (.num _) tl, seen => by
    unfold EID.pass2
    dsimp only
    exact pass2_itemTags tl seen
  | .cons (.str _) tl, seen => by
    unfold EID.pass2
    dsimp only
    exact pass2_itemTags tl seen
  | .cons (.arr _) tl, seen => by
    unfold EID.pass2
    dsimp only
    exact pass2_itemTags tl seen

/-- A flagged pass 1 changed the item-tag list: the first rename's
stripped replacement is strictly longer than the tag it replaces. -/
theorem pass1_changed_tags : ∀ (items : JArr) (seen tags : List String),
    (EID.pass1 items seen tags).changed = true →
    EID.itemTagsOf (EID.pass1 items seen tags).items ≠ EID.itemTagsOf items
  | .nil, seen, tags, hc => by simp [EID.pass1] at hc
  | .cons (.obj it) tl, seen, tags, hc => by
    unfold EID.pass1 at hc ⊢
    dsimp only at hc ⊢
    match htag : EID.get_item_tag it with
    | none =>
      simp only [htag] at hc ⊢
      simp only [EID.itemTagsOf, htag]
      exact pass1_changed_tags tl seen tags hc
    | some tag =>
      simp only [htag] at hc ⊢
      by_cases hmem : tag ∈ seen
      · rw [if_pos hmem] at hc ⊢
        obtain ⟨hstable, hne⟩ := get_item_tag_stable htag
        obtain ⟨rest, hsplit⟩ := unique_tag_split tag (EID.idOr it "noid") seen
        obtain ⟨hlen, hneq, hnemp⟩ := pyStrip_tag_append tag rest hstable hne
        have hg2 := get_set_item_tag it
          (EID.unique_tag tag ("_" ++ EID.idOr it "noid") seen)
          (by rw [hsplit]; exact hnemp)
        simp only [EID.itemTagsOf, hg2, htag]
        intro heq
        injection heq with hhead htail
        rw [hsplit] at hhead
        exact hneq hhead
      · rw [if_neg hmem] at hc ⊢
        simp only [EID.itemTagsOf, htag]
        intro heq
        injection heq with hhead htail
        exact pass1_changed_tags tl _ _ hc htail
  | .cons .null tl, seen, tags, hc => by
    unfold EID.pass1 at hc ⊢
    dsimp only at hc ⊢
    exact pass1_changed_tags tl seen tags hc
  | .cons (.bool _) tl, seen, tags, hc => by
    unfold EID.pass1 at hc ⊢
    dsimp only at hc ⊢
    exact pass1_changed_tags tl seen tags hc
  | .cons (.num _) tl, seen, tags, hc => by
    unfold EID.pass1 at hc ⊢
    dsimp only at hc ⊢
    exact pass1_changed_tags tl seen tags hc
  | .cons (.str _) tl, seen, tags, hc => by
    unfold EID.pass1 at hc ⊢
    dsimp only at hc ⊢
    exact pass1_changed_tags tl seen tags hc
  | .cons (.arr _) tl, seen, tags, hc => by
    unfold EID.pass1 at hc ⊢
    dsimp only at hc ⊢
    exact pass1_changed_tags tl seen tags hc

/-- The action loop keeps the number of action tags. -/
theorem actLoop_tags_len : ∀ (itName : String) (acts : JArr) (seen : List String),
    (EID.actionTagsOfActs (EID.actLoop itName acts seen).acts).length =
      (EID.actionTagsOfActs acts).length
  | _, .nil, _ => rfl
  | itName, .cons (.obj a) tl, seen => by
    unfold EID.actLoop
    dsimp only
    match htag : EID.get_action_tag a with
    | none =>
      simp only [EID.actionTagsOfActs, htag]
      exact actLoop_tags_len itName tl seen
    | some t =>
      dsimp only
      by_cases hmem : t ∈ seen
      · rw [if_pos hmem]
        obtain ⟨hstable, hne⟩ := get_action_tag_stable htag
        have h0 : ("_act_" : String) ++ EID.idOr a "noactid" =
            "_" ++ ("act_" ++ EID.idOr a "noactid") := by
          rw [show ("_act_" : String) = "_" ++ "act_" from by decide,
            String.append_assoc]
        obtain ⟨rest, hsplit⟩ := unique_tag_split t
          ("act_" ++ EID.idOr a "noactid") seen
        rw [← h0] at hsplit
        obtain ⟨hlen, hneq, hnemp⟩ := pyStrip_tag_append t rest hstable hne
        have hg2 := get_set_action_tag a
          (EID.unique_tag t ("_act_" ++ EID.idOr a "noactid") seen)
          (by rw [hsplit]; exact hnemp)
        simp only [EID.actionTagsOfActs, hg2, htag]
        simp only [List.length_cons]
        rw [actLoop_tags_len itName tl _]
      · rw [if_neg hmem]
        simp only [EID.actionTagsOfActs, htag]
        simp only [List.length_cons]
        rw [actLoop_tags_len itName tl _]
  | itName, .cons .null tl, seen => by
    unfold EID.actLoop
    dsimp only
    exact actLoop_tags_len itName tl seen
  | itName, .cons (.bool _) tl, seen => by
    unfold EID.actLoop
    dsimp only
    exact actLoop_tags_len itName tl seen
  | itName, .cons (.num _) tl, seen => by
    unfold EID.actLoop
    dsimp only
    exact actLoop_tags_len itName tl seen
  | itName, .cons (.str _) tl, seen => by
    unfold EID.actLoop
    dsimp only
    exact actLoop_tags_len itName tl seen
  | itName, .cons (.arr _) tl, seen => by
    unfold EID.actLoop
    dsimp only
    exact actLoop_tags_len itName tl seen

/-- A flagged action loop changed the action-tag list. -/
theorem actLoop_changed_tags : ∀ (itName : String) (acts : JArr)
    (seen : List String),
    (EID.actLoop itName acts seen).changed = true →
    EID.actionTagsOfActs (EID.actLoop itName acts seen).acts ≠
      EID.actionTagsOfActs acts
  | _, .nil, seen, hc => by simp [EID.actLoop] at hc
  | itName, .cons (.obj a) tl, seen, hc => by
    unfold EID.actLoop at hc ⊢
    dsimp only at hc ⊢
    match htag : EID.get_action_tag a with
    | none =>
      simp only [htag] at hc ⊢
      simp only [EID.actionTagsOfActs, htag]
      exact actLoop_changed_tags itName tl seen hc
    | some t =>
      simp only [htag] at hc ⊢
      by_cases hmem : t ∈ seen
      · rw [if_pos hmem] at hc ⊢
        obtain ⟨hstable, hne⟩ := get_action_tag_stable htag
        have h0 : ("_act_" : String) ++ EID.idOr a "noactid" =
            "_" ++ ("act_" ++ EID.idOr a "noactid") := by
          rw [show ("_act_" : String) = "_" ++ "act_" from by decide,
            String.append_assoc]
        obtain ⟨rest, hsplit⟩ := unique_tag_split t
          ("act_" ++ EID.idOr a "noactid") seen
        rw [← h0] at hsplit
        obtain ⟨hlen, hneq, hnemp⟩ := pyStrip_tag_append t rest hstable hne
        have hg2 := get_set_action_tag a
          (EID.unique_tag t ("_act_" ++ EID.idOr a "noactid") seen)
          (by rw [hsplit]; exact hnemp)
        simp only [EID.actionTagsOfActs, hg2, htag]
        intro heq
        injection heq with hhead htail
        rw [hsplit] at hhead
        exact hneq hhead
      · rw [if_neg hmem] at hc ⊢
        simp only [EID.actionTagsOfActs, htag]
        intro heq
        injection heq with hhead htail
        exact actLoop_changed_tags itName tl _ hc htail
  | itName, .cons .null tl, seen, hc => by
    unfold EID.actLoop at hc ⊢
    dsimp only at hc ⊢
    exact actLoop_changed_tags itName tl seen hc
  | itName, .cons (.bool _) tl, seen, hc => by
    unfold EID.actLoop at hc ⊢
    dsimp only at hc ⊢
    exact actLoop_changed_tags itName tl seen hc
  | itName, .cons (.num _) tl, seen, hc => by
    unfold EID.actLoop at hc ⊢
    dsimp only at hc ⊢
    exact actLoop_changed_tags itName tl seen hc
  | itName, .cons (.str _) tl, seen, hc => by
    unfold EID.actLoop at hc ⊢
    dsimp only at hc ⊢
    exact actLoop_changed_tags itName tl seen hc
  | itName, .cons (.arr _) tl, seen, hc => by
    unfold EID.actLoop at hc ⊢
    dsimp only at hc ⊢
    exact actLoop_changed_tags itName tl seen hc

/-- Pass 2 on one item keeps the number of its action tags. -/
theorem pass2Item_tags_len (it : JObj) (seen : List String) :
    (EID.actionTagsOfItem (EID.pass2Item it seen).item).length =
      (EID.actionTagsOfItem it).length := by
  unfold EID.pass2Item
  dsimp only
  match hs : it.get "system" with
  | some (.obj sysd) =>
    dsimp only
    match ha : sysd.get "actions" with
    | some (.arr acts) =>
      dsimp only
      rw [actionTagsOfItem_set it hs]
      have hti : EID.actionTagsOfItem it = EID.actionTagsOfActs acts := by
        simp only [EID.actionTagsOfItem, hs, ha]
      rw [hti]
      exact actLoop_tags_len _ acts seen
    | some .null => rfl
    | some (.bool _) => rfl
    | some (.num _) => rfl
    | some (.str _) => rfl
    | some (.obj _) => rfl
    | none => rfl
  | some .null => rfl
  | some (.bool _) => rfl
  | some (.num _) => rfl
  | some (.str _) => rfl
  | some (.arr _) => rfl
  | none => rfl

/-- A flagged pass 2 on one item changed its action-tag list. -/
theorem pass2Item_changed_tags (it : JObj) (seen : List String)
    (hc : (EID.pass2Item it seen).changed = true) :
    EID.actionTagsOfItem (EID.pass2Item it seen).item ≠
      EID.actionTagsOfItem it := by
  unfold EID.pass2Item at hc ⊢
  dsimp only at hc ⊢
  match hs : it.get "system" with
  | some (.obj sysd) =>
    simp only [hs] at hc ⊢
    match ha : sysd.get "actions" with
    | some (.arr acts) =>
      simp only [ha] at hc ⊢
      rw [actionTagsOfItem_set it hs]
      have hti : EID.actionTagsOfItem it = EID.actionTagsOfActs acts := by
        simp only [EID.actionTagsOfItem, hs, ha]
      rw [hti]
      exact actLoop_changed_tags _ acts seen hc
    | some .null => simp only [ha] at hc; simp at hc
    | some (.bool _) => simp only [ha] at hc; simp at hc
    | some (.num _) => simp only [ha] at hc; simp at hc
    | some (.str _) => simp only [ha] at hc; simp at hc
    | some (.obj _) => simp only [ha] at hc; simp at hc
    | none => simp only [ha] at hc; simp at hc
  | some .null => simp only [hs] at hc; simp at hc
  | some (.bool _) => simp only [hs] at hc; simp at hc
  | some (.num _) => simp only [hs] at hc; simp at hc
  | some (.str _) => simp only [hs] at hc; simp at hc
  | some (.arr _) => simp only [hs] at hc; simp at hc
  | none => simp only [hs] at hc; simp at hc

/-- A flagged pass 2 changed the combined action-tag list. -/
theorem pass2_changed_tags : ∀ (items : JArr) (seen : List String),
    (EID.pass2 items seen).changed = true →
    EID.actionTagsOf (EID.pass2 items seen).items ≠ EID.actionTagsOf items
  | .nil, seen, hc => by simp [EID.pass2] at hc
  | .cons (.obj it) tl, seen, hc => by
    unfold EID.pass2 at hc ⊢
    dsimp only at hc ⊢
    have hsplitL : EID.actionTagsOf (.cons (.obj (EID.pass2Item it seen).item)
        (EID.pass2 tl (EID.pass2Item it seen).seen).items) =
        EID.actionTagsOfItem (EID.pass2Item it seen).item ++
          EID.actionTagsOf (EID.pass2 tl (EID.pass2Item it seen).seen).items := rfl
    have hsplitR : EID.actionTagsOf (.cons (.obj it) tl) =
        EID.actionTagsOfItem it ++ EID.actionTagsOf tl := rfl
    rw [hsplitL, hsplitR]
    by_cases h1 : (EID.pass2Item it seen).changed = true
    · have hdiff := pass2Item_changed_tags it seen h1
      have hlen := pass2Item_tags_len it seen
      intro heq
      exact hdiff (List.append_inj heq hlen).1
    · have h1f : (EID.pass2Item it seen).changed = false := by simpa using h1
      have hitem := (pass2Item_ff it seen).1 h1f
      rw [hitem]
      have h2 : (EID.pass2 tl (EID.pass2Item it seen).seen).changed = true := by
        rw [h1f] at hc
        simpa using hc
      have hdiff := pass2_changed_tags tl _ h2
      intro heq
      exact hdiff (List.append_cancel_left heq)
  | .cons .null tl, seen, hc => by
    unfold EID.pass2 at hc ⊢
    dsimp only at hc ⊢
    exact pass2_changed_tags tl seen hc
  | .cons (.bool _) tl, seen, hc => by
    unfold EID.pass2 at hc ⊢
    dsimp only at hc ⊢
    exact pass2_changed_tags tl seen hc
  | .cons (.num _) tl, seen, hc => by
    unfold EID.pass2 at hc ⊢
    dsimp only at hc ⊢
    exact pass2_changed_tags tl seen hc
  | .cons (.str _) tl, seen, hc => by
    unfold EID.pass2 at hc ⊢
    dsimp only at hc ⊢
    exact pass2_changed_tags tl seen hc
  | .cons (.arr _) tl, seen, hc => by
    unfold EID.pass2 at hc ⊢
    dsimp only at hc ⊢
    exact pass2_changed_tags tl seen hc

/-- Unflagged deduplicator runs return the input document unchanged. -/
theorem eid_ff (d : JObj)
    (hflag : (EID.fix_actor_identifiers_and_resources d).2.1 = false) :
    (EID.fix_actor_identifiers_and_resources d).1 = d := by
  match hit : d.get "items" with
  | some (.arr items) =>
    unfold EID.fix_actor_identifiers_and_resources at hflag ⊢
    simp only [hit] at hflag ⊢
    simp only [Bool.or_eq_false_iff] at hflag
    obtain ⟨⟨h1, h2⟩, h3⟩ := hflag
    have hi1 := (pass1_ff items [] []).1 h1
    have hi2 := (pass2_ff (EID.pass1 items [] []).items
      (EID.pass1 items [] []).seen).1 h2
    have hact : d.set "items" (.arr (EID.pass2 (EID.pass1 items [] []).items
        (EID.pass1 items [] []).seen).items) = d := by
      rw [hi2, hi1]
      exact set_get_self d hit
    rw [hact] at h3 ⊢
    match hres : EID.get_resources_dict d with
    | some res =>
      simp only [hres] at h3 ⊢
      by_cases hdel : res.keys.filter
          (fun k => decide (k ∈ (EID.pass1 items [] []).tags)) ≠ []
      · rw [if_pos hdel] at h3
        simp at h3
      · rw [if_neg hdel]
    | none =>
      simp only [hres]
  | some .null =>
    have hna : ∀ xs : JArr, d.get "items" ≠ some (.arr xs) := by
      intro xs hx
      rw [hit] at hx
      simp at hx
    rw [fix_nonactor d hna]
  | some (.bool _) =>
    have hna : ∀ xs : JArr, d.get "items" ≠ some (.arr xs) := by
      intro xs hx
      rw [hit] at hx
      simp at hx
    rw [fix_nonactor d hna]
  | some (.num _) =>
    have hna : ∀ xs : JArr, d.get "items" ≠ some (.arr xs) := by
      intro xs hx
      rw [hit] at hx
      simp at hx
    rw [fix_nonactor d hna]
  | some (.str _) =>
    have hna : ∀ xs : JArr, d.get "items" ≠ some (.arr xs) := by
      intro xs hx
      rw [hit] at hx
      simp at hx
    rw [fix_nonactor d hna]
  | some (.obj _) =>
    have hna : ∀ xs : JArr, d.get "items" ≠ some (.arr xs) := by
      intro xs hx
      rw [hit] at hx
      simp at hx
    rw [fix_nonactor d hna]
  | none =>
    have hna : ∀ xs : JArr, d.get "items" ≠ some (.arr xs) := by
      intro xs hx
      rw [hit] at hx
      simp at hx
    rw [fix_nonactor d hna]

/-- The deduplicator's log is empty exactly when the flag is false. -/
theorem eid_msgs (d : JObj) :
    (EID.fix_actor_identifiers_and_resources d).2.2 = [] ↔
      (EID.fix_actor_identifiers_and_resources d).2.1 = false := by
  match hit : d.get "items" with
  | some (.arr items) =>
    unfold EID.fix_actor_identifiers_and_resources
    simp only [hit]
    match hres : EID.get_resources_dict (d.set "items"
        (.arr (EID.pass2 (EID.pass1 items [] []).items
          (EID.pass1 items [] []).seen).items)) with
    | some res =>
      dsimp only
      by_cases hdel : res.keys.filter
          (fun k => decide (k ∈ (EID.pass1 items [] []).tags)) ≠ []
      · rw [if_pos hdel]
        dsimp only
        constructor
        · intro hm
          simp only [List.append_eq_nil] at hm
          exact absurd (List.map_eq_nil.mp hm.2) hdel
        · intro hff
          simp only [Bool.or_eq_false_iff] at hff
          exact absurd hff.2 (by simp)
      · rw [if_neg hdel]
        dsimp only
        constructor
        · intro hm
          simp only [List.append_nil, List.append_eq_nil] at hm
          rw [(pass1_ff items [] []).2.mp hm.1,
            (pass2_ff (EID.pass1 items [] []).items
              (EID.pass1 items [] []).seen).2.mp hm.2]
          rfl
        · intro hff
          simp only [Bool.or_false, Bool.or_eq_false_iff] at hff
          rw [(pass1_ff items [] []).2.mpr hff.1,
            (pass2_ff (EID.pass1 items [] []).items
              (EID.pass1 items [] []).seen).2.mpr hff.2]
          rfl
    | none =>
      dsimp only
      constructor
      · intro hm
        simp only [List.append_nil, List.append_eq_nil] at hm
        rw [(pass1_ff items [] []).2.mp hm.1,
          (pass2_ff (EID.pass1 items [] []).items
            (EID.pass1 items [] []).seen).2.mp hm.2]
        rfl
      · intro hff
        simp only [Bool.or_false, Bool.or_eq_false_iff] at hff
        rw [(pass1_ff items [] []).2.mpr hff.1,
          (pass2_ff (EID.pass1 items [] []).items
            (EID.pass1 items [] []).seen).2.mpr hff.2]
        rfl
  | some .null =>
    have hna : ∀ xs : JArr, d.get "items" ≠ some (.arr xs) := by
      intro xs hx
      rw [hit] at hx
      simp at hx
    rw [fix_nonactor d hna]
    simp
  | some (.bool _) =>
    have hna : ∀ xs : JArr, d.get "items" ≠ some (.arr xs) := by
      intro xs hx
      rw [hit] at hx
      simp at hx
    rw [fix_nonactor d hna]
    simp
  | some (.num _) =>
    have hna : ∀ xs : JArr, d.get "items" ≠ some (.arr xs) := by
      intro xs hx
      rw [hit] at hx
      simp at hx
    rw [fix_nonactor d hna]
    simp
  | some (.str _) =>
    have hna : ∀ xs : JArr, d.get "items" ≠ some (.arr xs) := by
      intro xs hx
      rw [hit] at hx
      simp at hx
    rw [fix_nonactor d hna]
    simp
  | some (.obj _) =>
    have hna : ∀ xs : JArr, d.get "items" ≠ some (.arr xs) := by
      intro xs hx
      rw [hit] at hx
      simp at hx
    rw [fix_nonactor d hna]
    simp
  | none =>
    have hna : ∀ xs : JArr, d.get "items" ≠ some (.arr xs) := by
      intro xs hx
      rw [hit] at hx
      simp at hx
    rw [fix_nonactor d hna]
    simp

/-- A flagged deduplicator run changed the document: either a tag list
moved or a resource key was removed. -/
theorem eid_ne_of_flag (d : JObj)
    (hflag : (EID.fix_actor_identifiers_and_resources d).2.1 = true) :
    (EID.fix_actor_identifiers_and_resources d).1 ≠ d := by
  match hit : d.get "items" with
  | some (.arr items) =>
    unfold EID.fix_actor_identifiers_and_resources at hflag
    simp only [hit] at hflag
    by_cases h1 : (EID.pass1 items [] []).changed = true
    · have hne := pass1_changed_tags items [] [] h1
      have hfi := fix_items_eq d hit
      intro heq
      rw [heq, hit] at hfi
      injection hfi with hv
      injection hv with harr
      exact hne (by
        rw [← pass2_itemTags (EID.pass1 items [] []).items
          (EID.pass1 items [] []).seen, ← harr])
    · have h1f : (EID.pass1 items [] []).changed = false := by simpa using h1
      have hi1 := (pass1_ff items [] []).1 h1f
      by_cases h2 : (EID.pass2 (EID.pass1 items [] []).items
          (EID.pass1 items [] []).seen).changed = true
      · have hne := pass2_changed_tags (EID.pass1 items [] []).items
          (EID.pass1 items [] []).seen h2
        have hfi := fix_items_eq d hit
        intro heq
        rw [heq, hit] at hfi
        injection hfi with hv
        injection hv with harr
        exact hne (by rw [← harr, hi1])
      · have h2f : (EID.pass2 (EID.pass1 items [] []).items
            (EID.pass1 items [] []).seen).changed = false := by simpa using h2
        have hi2 := (pass2_ff (EID.pass1 items [] []).items
          (EID.pass1 items [] []).seen).1 h2f
        simp only [h1f, h2f, Bool.false_or] at hflag
        have hact : d.set "items" (.arr (EID.pass2 (EID.pass1 items [] []).items
            (EID.pass1 items [] []).seen).items) = d := by
          rw [hi2, hi1]
          exact set_get_self d hit
        rw [hact] at hflag
        match hres : EID.get_resources_dict d with
        | some res =>
          simp only [hres] at hflag
          by_cases hdel : res.keys.filter
              (fun k => decide (k ∈ (EID.pass1 items [] []).tags)) ≠ []
          · obtain ⟨k, hk⟩ := List.exists_mem_of_ne_nil _ hdel
            have hk2 := List.mem_filter.mp hk
            have hmem : k ∈ (EID.pass1 items [] []).tags := by
              simpa using hk2.2
            intro heq
            have hrd := fix_resources_eq d hit hres
            rw [heq, hres] at hrd
            injection hrd with hrd2
            have hnone : res.get k = none := by
              rw [hrd2]
              apply get_filterKeys_neg
              simp [hmem]
            have hsome := get_isSome_of_mem_keys res k hk2.1
            rw [hnone] at hsome
            simp at hsome
          · rw [if_neg hdel] at hflag
            simp at hflag
        | none =>
          simp only [hres] at hflag
          simp at hflag
  | some .null =>
    have hna : ∀ xs : JArr, d.get "items" ≠ some (.arr xs) := by
      intro xs hx
      rw [hit] at hx
      simp at hx
    rw [fix_nonactor d hna] at hflag
    simp at hflag
  | some (.bool _) =>
    have hna : ∀ xs : JArr, d.get "items" ≠ some (.arr xs) := by
      intro xs hx
      rw [hit] at hx
      simp at hx
    rw [fix_nonactor d hna] at hflag
    simp at hflag
  | some (.num _) =>
    have hna : ∀ xs : JArr, d.get "items" ≠ some (.arr xs) := by
      intro xs hx
      rw [hit] at hx
      simp at hx
    rw [fix_nonactor d hna] at hflag
    simp at hflag
  | some (.str _) =>
    have hna : ∀ xs : JArr, d.get "items" ≠ some (.arr xs) := by
      intro xs hx
      rw [hit] at hx
      simp at hx
    rw [fix_nonactor d hna] at hflag
    simp at hflag
  | some (.obj _) =>
    have hna : ∀ xs : JArr, d.get "items" ≠ some (.arr xs) := by
      intro xs hx
      rw [hit] at hx
      simp at hx
    rw [fix_nonactor d hna] at hflag
    simp at hflag
  | none =>
    have hna : ∀ xs : JArr, d.get "items" ≠ some (.arr xs) := by
      intro xs hx
      rw [hit] at hx
      simp at hx
    rw [fix_nonactor d hna] at hflag
    simp at hflag

/-- C10 — accuracy of the mutated flag: for every input document, each
per-document repair function (`repair_actor_doc` of the resistance
script, `repair_doc` of the packages script, and
`fix_actor_identifiers_and_resources` of the identifier script) returns
`changed = true` exactly when the document it returns differs from the
document it was given, and its change log is empty exactly when the
flag is false — so the patched-document count and report lines cover
exactly the mutated documents. -/
theorem C10_flag_accuracy (d : JObj) :
    (((CRP.repair_actor_doc d).2.1 = true ↔ (CRP.repair_actor_doc d).1 ≠ d) ∧
      ((CRP.repair_actor_doc d).2.2 = [] ↔ (CRP.repair_actor_doc d).2.1 = false)) ∧
    (((PKG.repair_doc d).2.1 = true ↔ (PKG.repair_doc d).1 ≠ d) ∧
      ((PKG.repair_doc d).2.2 = [] ↔ (PKG.repair_doc d).2.1 = false)) ∧
    (((EID.fix_actor_identifiers_and_resources d).2.1 = true ↔
        (EID.fix_actor_identifiers_and_resources d).1 ≠ d) ∧
      ((EID.fix_actor_identifiers_and_resources d).2.2 = [] ↔
        (EID.fix_actor_identifiers_and_resources d).2.1 = false)) := by
  refine ⟨⟨⟨crp_ne_of_flag d, ?_⟩, crp_msgs d⟩,
    ⟨⟨pkg_ne_of_flag d, ?_⟩, pkg_msgs d⟩,
    ⟨⟨eid_ne_of_flag d, ?_⟩, eid_msgs d⟩⟩
  · intro hne
    by_contra hf
    rw [Bool.not_eq_true] at hf
    exact hne (crp_ff d hf)
  · intro hne
    by_contra hf
    rw [Bool.not_eq_true] at hf
    exact hne (pkg_ff d hf)
  · intro hne
    by_contra hf
    rw [Bool.not_eq_true] at hf
    exact hne (eid_ff d hf)

/-- Witness for C2 amended at a concrete targeted document. -/
theorem C2_amended_witness :
    ∃ e : JObj,
      JObj.getPath (CRP.repair_actor_doc Ex.exTrait).1 ["system", "traits", "eres"] =
          some (.obj e) ∧
        (∃ vs, e.get "value" = some (.arr vs) ∧ allGoodOrNum vs = true) ∧
        (∀ f, f = "custom" ∨ f = "customTotal" →
          (∀ s, e.get f ≠ some (.str s)) ∧
          (∀ xs, e.get f = some (.arr xs) → allGoodOrNum xs = true)) :=
  C2_amended Ex.exTrait
    (JObj.ofList [("eres", .obj (JObj.ofList [("value", .arr (.cons (.str "+2") .nil))]))])
    (by decide) "eres" (Or.inl rfl)

/-- C5 (amended): when every stored item/action tag and `_id` carries no
surrounding whitespace, the repaired document's item tags are pairwise
distinct, its action tags are pairwise distinct, and no action tag
equals an item tag. -/
theorem C5_amended (actor : JObj) (hws : wsOK actor = true) :
    (EID.itemTagList
        (EID.fix_actor_identifiers_and_resources actor).1).Nodup ∧
      (EID.actionTagList
        (EID.fix_actor_identifiers_and_resources actor).1).Nodup ∧
      ∀ t ∈ EID.actionTagList
          (EID.fix_actor_identifiers_and_resources actor).1,
        t ∉ EID.itemTagList
          (EID.fix_actor_identifiers_and_resources actor).1 := by
  match hit : actor.get "items" with
  | some (.arr items) =>
    have hypws : allArr itemOK items = true := by
      unfold wsOK at hws
      simp only [hit] at hws
      exact hws
    obtain ⟨L1, p1, p2, p3, p4, p5, p6⟩ := pass1_out items [] [] hypws
    obtain ⟨L2, q1, q2, q3, q4, q5⟩ := pass2_out (EID.pass1 items [] []).items
      (EID.pass1 items [] []).seen p6
    have hfix := fix_items_eq actor hit
    have hitl : EID.itemTagList
        (EID.fix_actor_identifiers_and_resources actor).1 = L1 := by
      unfold EID.itemTagList
      simp only [hfix]
      rw [q3, p3]
    have hatl : EID.actionTagList
        (EID.fix_actor_identifiers_and_resources actor).1 = L2 := by
      unfold EID.actionTagList
      simp only [hfix]
      exact q2
    rw [hitl, hatl]
    refine ⟨p4, q4, ?_⟩
    intro t ht hti
    have h2 := q5 t ht
    rw [p1] at h2
    simp only [List.nil_append] at h2
    exact h2 hti
  | some .null =>
    have hne : ∀ xs : JArr, actor.get "items" ≠ some (.arr xs) := by
      intro xs hx
      rw [hit] at hx
      simp at hx
    rw [fix_nonactor actor hne]
    obtain ⟨e1, e2⟩ := tagList_nonarr actor hne
    refine ⟨?_, ?_, ?_⟩ <;> simp [e1, e2]
  | some (.bool _) =>
    have hne : ∀ xs : JArr, actor.get "items" ≠ some (.arr xs) := by
      intro xs hx
      rw [hit] at hx
      simp at hx
    rw [fix_nonactor actor hne]
    obtain ⟨e1, e2⟩ := tagList_nonarr actor hne
    refine ⟨?_, ?_, ?_⟩ <;> simp [e1, e2]
  | some (.num _) =>
    have hne : ∀ xs : JArr, actor.get "items" ≠ some (.arr xs) := by
      intro xs hx
      rw [hit] at hx
      simp at hx
    rw [fix_nonactor actor hne]
    obtain ⟨e1, e2⟩ := tagList_nonarr actor hne
    refine ⟨?_, ?_, ?_⟩ <;> simp [e1, e2]
  | some (.str _) =>
    have hne : ∀ xs : JArr, actor.get "items" ≠ some (.arr xs) := by
      intro xs hx
      rw [hit] at hx
      simp at hx
    rw [fix_nonactor actor hne]
    obtain ⟨e1, e2⟩ := tagList_nonarr actor hne
    refine ⟨?_, ?_, ?_⟩ <;> simp [e1, e2]
  | some (.obj _) =>
    have hne : ∀ xs : JArr, actor.get "items" ≠ some (.arr xs) := by
      intro xs hx
      rw [hit] at hx
      simp at hx
    rw [fix_nonactor actor hne]
    obtain ⟨e1, e2⟩ := tagList_nonarr actor hne
    refine ⟨?_, ?_, ?_⟩ <;> simp [e1, e2]
  | none =>
    have hne : ∀ xs : JArr, actor.get "items" ≠ some (.arr xs) := by
      intro xs hx
      rw [hit] at hx
      simp at hx
    rw [fix_nonactor actor hne]
    obtain ⟨e1, e2⟩ := tagList_nonarr actor hne
    refine ⟨?_, ?_, ?_⟩ <;> simp [e1, e2]

/-- Witness for C5 amended: the whitespace-stable duplicate-tag actor
satisfies the hypothesis, and its repaired tag lists are deduplicated. -/
theorem C5_amended_witness :
    wsOK Ex.exDup = true ∧
      (EID.itemTagList
        (EID.fix_actor_identifiers_and_resources Ex.exDup).1).Nodup ∧
      (EID.actionTagList
        (EID.fix_actor_identifiers_and_resources Ex.exDup).1).Nodup :=
  ⟨by decide, (C5_amended Ex.exDup (by decide)).1,
    (C5_amended Ex.exDup (by decide)).2.1⟩

/-- C6 (amended): when every stored item/action tag and `_id` carries no
surrounding whitespace, the output of the Identifier Deduplicator is a
true fixed point: a second run returns it with `changed = False` and no
log lines. -/
theorem C6_amended (actor : JObj) (hws : wsOK actor = true) :
    EID.fix_actor_identifiers_and_resources
        (EID.fix_actor_identifiers_and_resources actor).1 =
      ((EID.fix_actor_identifiers_and_resources actor).1, false, []) := by
  match hit : actor.get "items" with
  | some (.arr items) =>
    have hypws : allArr itemOK items = true := by
      unfold wsOK at hws
      simp only [hit] at hws
      exact hws
    exact fix_fixed_point actor hit hypws
  | some .null =>
    have hne : ∀ xs : JArr, actor.get "items" ≠ some (.arr xs) := by
      intro xs hx
      rw [hit] at hx
      simp at hx
    rw [fix_nonactor actor hne]
    exact fix_nonactor actor hne
  | some (.bool _) =>
    have hne : ∀ xs : JArr, actor.get "items" ≠ some (.arr xs) := by
      intro xs hx
      rw [hit] at hx
      simp at hx
    rw [fix_nonactor actor hne]
    exact fix_nonactor actor hne
  | some (.num _) =>
    have hne : ∀ xs : JArr, actor.get "items" ≠ some (.arr xs) := by
      intro xs hx
      rw [hit] at hx
      simp at hx
    rw [fix_nonactor actor hne]
    exact fix_nonactor actor hne
  | some (.str _) =>
    have hne : ∀ xs : JArr, actor.get "items" ≠ some (.arr xs) := by
      intro xs hx
      rw [hit] at hx
      simp at hx
    rw [fix_nonactor actor hne]
    exact fix_nonactor actor hne
  | some (.obj _) =>
    have hne : ∀ xs : JArr, actor.get "items" ≠ some (.arr xs) := by
      intro xs hx
      rw [hit] at hx
      simp at hx
    rw [fix_nonactor actor hne]
    exact fix_nonactor actor hne
  | none =>
    have hne : ∀ xs : JArr, actor.get "items" ≠ some (.arr xs) := by
      intro xs hx
      rw [hit] at hx
      simp at hx
    rw [fix_nonactor actor hne]
    exact fix_nonactor actor hne

/-- Witness for C6 amended: the duplicate-tag actor is whitespace-stable,
the first run really renames, and the second run is the identity. -/
theorem C6_amended_witness :
    wsOK Ex.exDup = true ∧
      (EID.fix_actor_identifiers_and_resources Ex.exDup).2.1 = true ∧
      EID.fix_actor_identifiers_and_resources
          (EID.fix_actor_identifiers_and_resources Ex.exDup).1 =
        ((EID.fix_actor_identifiers_and_resources Ex.exDup).1, false, []) :=
  ⟨by decide, by decide, C6_amended Ex.exDup (by decide)⟩

/-- C7: pass 3 deletes from the resource map exactly the keys equal to
a final item tag collected in pass 1: the output resource map is the
input one with those keys filtered out, so no surviving key equals a
collected tag, matching keys are deleted (never renamed), and every
non-matching key keeps its value. -/
theorem C7_resource_disjoint (actor : JObj) {items : JArr} {res : JObj}
    (hit : actor.get "items" = some (.arr items))
    (hres : EID.get_resources_dict actor = some res) :
    EID.get_resources_dict (EID.fix_actor_identifiers_and_resources actor).1 =
        some (res.filterKeys (fun k => decide (k ∉ EID.pass1Tags actor))) ∧
      (∀ k, k ∈ EID.pass1Tags actor →
        (res.filterKeys
          (fun k2 => decide (k2 ∉ EID.pass1Tags actor))).hasKey k = false) ∧
      (∀ k, k ∉ EID.pass1Tags actor →
        (res.filterKeys
          (fun k2 => decide (k2 ∉ EID.pass1Tags actor))).get k = res.get k) := by
  have hp1 : EID.pass1Tags actor = (EID.pass1 items [] []).tags := by
    unfold EID.pass1Tags
    rw [hit]
  refine ⟨?_, ?_, ?_⟩
  · rw [hp1]
    exact fix_resources_eq actor hit hres
  · intro k hk
    unfold JObj.hasKey
    rw [get_filterKeys_neg res _ k (by simp [hk])]
    rfl
  · intro k hk
    exact get_filterKeys_pos res _ k (by simp [hk])

/-- Witness for C7 at a concrete npc: the resource key equal to the item
tag `"mA"` is deleted, the unrelated key `"keep"` survives. -/
theorem C7_witness :
    EID.get_resources_dict
        (EID.fix_actor_identifiers_and_resources Ex.exRes).1 =
        some ((JObj.ofList [("mA", .num 1), ("keep", .num 2)]).filterKeys
          (fun k => decide (k ∉ EID.pass1Tags Ex.exRes))) ∧
      (∀ k, k ∈ EID.pass1Tags Ex.exRes →
        ((JObj.ofList [("mA", .num 1), ("keep", .num 2)]).filterKeys
          (fun k2 => decide (k2 ∉ EID.pass1Tags Ex.exRes))).hasKey k = false) ∧
      (∀ k, k ∉ EID.pass1Tags Ex.exRes →
        ((JObj.ofList [("mA", .num 1), ("keep", .num 2)]).filterKeys
          (fun k2 => decide (k2 ∉ EID.pass1Tags Ex.exRes))).get k =
          (JObj.ofList [("mA", .num 1), ("keep", .num 2)]).get k) :=
  C7_resource_disjoint Ex.exRes
    (show Ex.exRes.get "items" =
        some (.arr (.cons (Ex.mkItem "mA" none) .nil)) by decide)
    (show EID.get_resources_dict Ex.exRes =
        some (JObj.ofList [("mA", .num 1), ("keep", .num 2)]) by decide)

/-- C9 (amended): in both scripts the output file has one line per
input line, in order, each determined by its input line alone; blank,
unparseable and non-mapping lines are written back byte-identical
(terminator included); every line parsing to a mapping is written as
the re-serialization of its (possibly repaired) document plus a single
newline, and serialized documents contain no interior newline. -/
theorem C9_amended (b : Bool) (lines pre post : List String) (line : String)
    (hsplit : lines = pre ++ line :: post) :
    CRP.processFile lines =
        CRP.processFile pre ++ CRP.processLine line :: CRP.processFile post ∧
      PKG.processFile b lines =
        PKG.processFile b pre ++ PKG.processLine b line :: PKG.processFile b post ∧
      (CRP.processFile lines).length = lines.length ∧
      (PKG.processFile b lines).length = lines.length ∧
      (pyStrip ⟨rstripNl line.data⟩ = "" →
        CRP.processLine line = line ∧ PKG.processLine b line = line) ∧
      (parseJson ⟨rstripNl line.data⟩ = none →
        CRP.processLine line = line ∧ PKG.processLine b line = line) ∧
      (∀ v, parseJson ⟨rstripNl line.data⟩ = some v → (∀ o, v ≠ JVal.obj o) →
        CRP.processLine line = line ∧ PKG.processLine b line = line) ∧
      (∀ o, parseJson ⟨rstripNl line.data⟩ = some (JVal.obj o) →
        pyStrip ⟨rstripNl line.data⟩ ≠ "" →
        CRP.processLine line = serialize (.obj (CRP.processDoc o)) ++ "\n" ∧
          PKG.processLine b line = serialize (.obj (PKG.processDoc b o)) ++ "\n") ∧
      (∀ v : JVal, '\n' ∉ (serialize v).data) := by
  subst hsplit
  refine ⟨?_, ?_, ?_, ?_, ?_, ?_, ?_, ?_, serialize_no_nl⟩
  · simp [CRP.processFile]
  · simp [PKG.processFile]
  · simp [CRP.processFile]
  · simp [PKG.processFile]
  · intro h
    constructor
    · simp only [CRP.processLine]
      rw [if_pos h]
    · simp only [PKG.processLine]
      rw [if_pos h]
  · intro h
    by_cases hb : pyStrip ⟨rstripNl line.data⟩ = ""
    · constructor
      · simp only [CRP.processLine]
        rw [if_pos hb]
      · simp only [PKG.processLine]
        rw [if_pos hb]
    · constructor
      · simp only [CRP.processLine]
        rw [if_neg hb]
        simp only [h]
      · simp only [PKG.processLine]
        rw [if_neg hb]
        simp only [h]
  · intro v hv hno
    by_cases hb : pyStrip ⟨rstripNl line.data⟩ = ""
    · constructor
      · simp only [CRP.processLine]
        rw [if_pos hb]
      · simp only [PKG.processLine]
        rw [if_pos hb]
    · match v, hno with
      | .null, _ =>
        constructor
        · simp only [CRP.processLine]
          rw [if_neg hb]
          simp only [hv]
        · simp only [PKG.processLine]
          rw [if_neg hb]
          simp only [hv]
      | .bool u, _ =>
        constructor
        · simp only [CRP.processLine]
          rw [if_neg hb]
          simp only [hv]
        · simp only [PKG.processLine]
          rw [if_neg hb]
          simp only [hv]
      | .num n, _ =>
        constructor
        · simp only [CRP.processLine]
          rw [if_neg hb]
          simp only [hv]
        · simp only [PKG.processLine]
          rw [if_neg hb]
          simp only [hv]
      | .str s, _ =>
        constructor
        · simp only [CRP.processLine]
          rw [if_neg hb]
          simp only [hv]
        · simp only [PKG.processLine]
          rw [if_neg hb]
          simp only [hv]
      | .arr xs, _ =>
        constructor
        · simp only [CRP.processLine]
          rw [if_neg hb]
          simp only [hv]
        · simp only [PKG.processLine]
          rw [if_neg hb]
          simp only [hv]
      | .obj o, hno => exact absurd rfl (hno o)
  · intro o ho hs
    constructor
    · simp only [CRP.processLine]
      rw [if_neg hs]
      simp only [ho]
    · simp only [PKG.processLine]
      rw [if_neg hs]
      simp only [ho]

/-- Witness for C9 amended on a one-line file holding a compact
document: the line count is preserved and the written line is the
document's re-serialization plus a newline. -/
theorem C9_amended_witness :
    (CRP.processFile [Ex.lineA]).length = [Ex.lineA].length ∧
      CRP.processLine Ex.lineA = serialize (.obj (CRP.processDoc Ex.docA)) ++ "\n" :=
  ⟨(C9_amended true [Ex.lineA] [] [] Ex.lineA rfl).2.2.1,
    ((C9_amended true [Ex.lineA] [] [] Ex.lineA rfl).2.2.2.2.2.2.2.1 Ex.docA
      (by decide) (by decide)).1⟩

end PF1


